import Mathlib

/-!
# killerdb: a copy-on-write B+tree over fixed-size pages

A shallow embedding of `src/btree` (`bnode.go`, `treeOperation.go`, `main.go`,
`btreeTest.go`, `kvStore.go`) and theorems about it.

Conventions of the embedding.

* A Go byte is a natural number below 256; a `[]byte` key or value is a `List Nat`.
* `uint16` and `uint64` arithmetic is arithmetic on `Nat` reduced modulo `2^16`
  and `2^64` at the places where the Go code can wrap.
* A Go slice is the part of its backing array that starts at the slice's first
  element, together with the slice length: `BNode.data` is that part of the backing
  array (so `data.length` is the capacity) and `BNode.len` the length.
* A Go runtime fault (index or slice bound out of range, explicit `panic`, failed
  assertion) is the result `Res.panic`.  A loop or recursion that the model cuts
  off is `Res.timeout`.
* The three page callbacks `Get`, `New`, `Del` of `BTree` are a record of functions
  over an explicit store state.
-/

namespace KillerDB

/-! ## Results of computations that can fault -/

/-- Result of running a piece of Go code: a value, a runtime fault, or no result
within the step bound of the model. -/
inductive Res (α : Type) where
  | ok (a : α)
  | panic
  | timeout
deriving DecidableEq

namespace Res

/-- Sequencing: the first fault wins. -/
def bind {α β : Type} : Res α → (α → Res β) → Res β
  | ok a, f => f a
  | panic, _ => panic
  | timeout, _ => timeout

instance : Monad Res where
  pure := Res.ok
  bind := Res.bind

/-- Go's `assert`-like checks: fault unless the condition holds. -/
def require (c : Bool) : Res Unit := if c then ok () else panic

/-- Whether the computation ended without fault. -/
def isOk {α : Type} : Res α → Bool
  | ok _ => true
  | _ => false

end Res

/-! ## Constants (`bnode.go`) -/

def BNODE_NODE : Nat := 1
def BNODE_LEAF : Nat := 2
def HEADER_SIZE : Nat := 4
def BTREE_PAGE_SIZE : Nat := 4096
def BTREE_MAX_KEY_SIZE : Nat := 1000
def BTREE_MAX_VAL_SIZE : Nat := 3000

/-- Truncation to `uint16`. -/
def u16 (n : Nat) : Nat := n % 65536

/-- Subtraction `a - b` of two `uint16` values, wrapping around. -/
def u16sub (a b : Nat) : Nat := (a + (65536 - b % 65536)) % 65536

/-- Truncation to `uint64`. -/
def u64 (n : Nat) : Nat := n % 18446744073709551616

/-! ## Bytes (`encoding/binary`, `bytes`, builtin `copy`) -/

/-- Little-endian value of a byte string. -/
def leNat : List Nat → Nat
  | [] => 0
  | b :: bs => b + 256 * leNat bs

/-- The `w` little-endian bytes of `v`. -/
def leBytes : Nat → Nat → List Nat
  | 0, _ => []
  | w + 1, v => v % 256 :: leBytes w (v / 256)

/-- Overwrite `d` from position `pos` with `bs` (the caller checks the bounds). -/
def splice (d : List Nat) (pos : Nat) (bs : List Nat) : List Nat :=
  d.take pos ++ bs ++ d.drop (pos + bs.length)

/-- The bytes `d[pos : pos + n]`. -/
def slice (d : List Nat) (pos n : Nat) : List Nat := (d.drop pos).take n

/-- Go's `bytes.Compare`: lexicographic order of byte strings, as -1, 0 or 1. -/
def bytesCompare : List Nat → List Nat → Int
  | [], [] => 0
  | [], _ :: _ => -1
  | _ :: _, [] => 1
  | a :: as, b :: bs =>
    if a < b then -1 else if b < a then 1 else bytesCompare as bs

/-- Go's `bytes.Equal`. -/
def bytesEqual (a b : List Nat) : Bool := decide (a = b)

/-! ## Nodes (`bnode.go`) -/

/-- A node is a byte slice: `data` is the backing array from the first element of
the slice to its capacity, `len` is the length of the slice (`len ≤ data.length`). -/
structure BNode where
  data : List Nat
  len : Nat
deriving DecidableEq

namespace BNode

/-- Go's `make([]byte, n)`. -/
def make (n : Nat) : BNode := ⟨List.replicate n 0, n⟩

/-- Go's `BNode{}`: the nil slice. -/
def empty : BNode := ⟨[], 0⟩

/-- The capacity of the slice. -/
def cap (node : BNode) : Nat := node.data.length

/-- Read `binary.LittleEndian.Uint16(node.data[pos:])`. -/
def u16At (node : BNode) (pos : Nat) : Res Nat :=
  if pos + 2 ≤ node.len then .ok (leNat (slice node.data pos 2)) else .panic

/-- Read `binary.LittleEndian.Uint64(node.data[pos:])`. -/
def u64At (node : BNode) (pos : Nat) : Res Nat :=
  if pos + 8 ≤ node.len then .ok (leNat (slice node.data pos 8)) else .panic

/-- Write `binary.LittleEndian.PutUint16(node.data[pos:], v)`. -/
def putU16 (node : BNode) (pos v : Nat) : Res BNode :=
  if pos + 2 ≤ node.len then .ok { node with data := splice node.data pos (leBytes 2 v) }
  else .panic

/-- Write `binary.LittleEndian.PutUint64(node.data[pos:], v)`. -/
def putU64 (node : BNode) (pos v : Nat) : Res BNode :=
  if pos + 8 ≤ node.len then .ok { node with data := splice node.data pos (leBytes 8 v) }
  else .panic

/-- Go's `copy(node.data[pos:], src)`: copies as many bytes as fit below `len`. -/
def copyAt (node : BNode) (pos : Nat) (src : List Nat) : Res BNode :=
  if pos ≤ node.len then
    .ok { node with data := splice node.data pos (src.take (node.len - pos)) }
  else .panic

/-- Go's `node.data[lo:hi]` read as bytes: needs `lo ≤ hi ≤ cap`. -/
def sub (node : BNode) (lo hi : Nat) : Res (List Nat) :=
  if lo ≤ hi ∧ hi ≤ node.cap then .ok (slice node.data lo (hi - lo)) else .panic

/-- Go's `node.data[pos:][:n]`: needs `pos ≤ len` and `n ≤ cap - pos`. -/
def subFrom (node : BNode) (pos n : Nat) : Res (List Nat) :=
  if pos ≤ node.len ∧ pos + n ≤ node.cap then .ok (slice node.data pos n) else .panic

/-- The node type: `Uint16(node.data)`. -/
def btype (node : BNode) : Res Nat := node.u16At 0

/-- The number of keys: `Uint16(node.data[2:4])`. -/
def nkeys (node : BNode) : Res Nat :=
  if 4 ≤ node.cap then .ok (leNat (slice node.data 2 2)) else .panic

/-- Write type and key count through `node.data[0:2]` and `node.data[2:4]`. -/
def setHeader (node : BNode) (btype nkeys : Nat) : Res BNode :=
  if 4 ≤ node.cap then
    .ok { node with data := splice (splice node.data 0 (leBytes 2 btype)) 2 (leBytes 2 nkeys) }
  else .panic

/-- The child pointer at `idx`, stored at `HEADER_SIZE + 8*idx`. -/
def getPtr (node : BNode) (idx : Nat) : Res Nat :=
  node.u64At (u16 (HEADER_SIZE + 8 * idx))

def setPtr (node : BNode) (idx val : Nat) : Res BNode :=
  node.putU64 (u16 (HEADER_SIZE + 8 * idx)) val

/-- Position of the offset of entry `idx`:
`HEADER_SIZE + 8*node.nkeys() + 2*(idx-1)` in `uint16` arithmetic. -/
def offsetPos (node : BNode) (idx : Nat) : Res Nat := do
  let n ← node.nkeys
  pure (u16 (HEADER_SIZE + 8 * n + 2 * u16sub idx 1))

def getOffset (node : BNode) (idx : Nat) : Res Nat :=
  if idx = 0 then .ok 0
  else do
    let p ← node.offsetPos idx
    node.u16At p

def setOffset (node : BNode) (idx offset : Nat) : Res BNode := do
  let p ← node.offsetPos idx
  node.putU16 p offset

/-- Position of entry `idx`:
`HEADER_SIZE + 8*node.nkeys() + 2*node.nkeys() + node.getOffset(idx)`. -/
def kvPos (node : BNode) (idx : Nat) : Res Nat := do
  let n ← node.nkeys
  let off ← node.getOffset idx
  pure (u16 (HEADER_SIZE + 8 * n + 2 * n + off))

def getKey (node : BNode) (idx : Nat) : Res (List Nat) := do
  let pos ← node.kvPos idx
  let klen ← node.u16At pos
  node.subFrom (u16 (pos + 4)) klen

def getVal (node : BNode) (idx : Nat) : Res (List Nat) := do
  let pos ← node.kvPos idx
  let klen ← node.u16At pos
  let vlen ← node.u16At (u16 (pos + 2))
  node.subFrom (u16 (pos + 4 + klen)) vlen

/-- The encoded size of the node. -/
def nbytes (node : BNode) : Res Nat := do
  let n ← node.nkeys
  node.kvPos n

end BNode

/-! ## Node operations (`treeOperation.go`) -/

/-- The loop of `nodeLookupLE`: `rem` iterations are left, `i` is the loop index. -/
def lookupLoop (node : BNode) (key : List Nat) : Nat → Nat → Nat → Res Nat
  | 0, _, found => .ok found
  | rem + 1, i, found => do
    let k ← node.getKey i
    let cmp := bytesCompare k key
    let found := if cmp ≤ 0 then i else found
    if cmp ≥ 0 then pure found else lookupLoop node key rem (i + 1) found

/-- Scan the keys `1 .. nkeys-1`, remember the last one that compares `≤ key`, stop
at the first one that compares `≥ key`. -/
def nodeLookupLE (node : BNode) (key : List Nat) : Res Nat := do
  let nkeys ← node.nkeys
  lookupLoop node key (nkeys - 1) 1 0

/-- First loop of `nodeAppendRange`: copy the pointers, `i` is the loop index. -/
def copyPtrs (old : BNode) (newStart oldStart : Nat) : Nat → Nat → BNode → Res BNode
  | 0, _, new => .ok new
  | rem + 1, i, new => do
    let p ← old.getPtr (u16 (oldStart + i))
    let new ← new.setPtr (u16 (newStart + i)) p
    copyPtrs old newStart oldStart rem (i + 1) new

/-- One iteration of the offset loop of `nodeAppendRange`. -/
def copyOffset (old : BNode) (newStart oldStart newBegin oldBegin i : Nat) (new : BNode) :
    Res BNode := do
  let o ← old.getOffset (u16 (oldStart + i))
  new.setOffset (u16 (newStart + i)) (u16 (newBegin + u16sub o oldBegin))

/-- Second loop of `nodeAppendRange`, for `i` up to the count. -/
def copyOffsets (old : BNode) (newStart oldStart newBegin oldBegin : Nat) :
    Nat → Nat → BNode → Res BNode
  | 0, _, new => .ok new
  | rem + 1, i, new => do
    let new ← copyOffset old newStart oldStart newBegin oldBegin i new
    copyOffsets old newStart oldStart newBegin oldBegin rem (i + 1) new

/-- Copy `len` entries of `old` from index `oldStart` to `new` from index `newStart`.
The loop `for i := uint16(1); i <= len; i++` does not end when `len = 65535`: after
the pass `i = 1 .. 65535` the index wraps to 0 and the passes repeat. -/
def nodeAppendRange (new old : BNode) (newStart oldStart len : Nat) : Res BNode :=
  if len = 0 then .ok new
  else do
    let new ← copyPtrs old newStart oldStart len 0 new
    let newBegin ← new.getOffset newStart
    let oldBegin ← old.getOffset oldStart
    let new ← copyOffsets old newStart oldStart newBegin oldBegin len 1 new
    if len = 65535 then do
      let _ ← copyOffset old newStart oldStart newBegin oldBegin 0 new
      .timeout
    else do
      let b ← old.kvPos oldStart
      let e ← old.kvPos (u16 (oldStart + len))
      let dst ← new.kvPos newStart
      let src ← old.sub b e
      new.copyAt dst src

/-- Write entry `idx`: pointer, the next offset, the two lengths, key and value. -/
def nodeAppendKV (new : BNode) (idx ptr : Nat) (key val : List Nat) : Res BNode := do
  let new ← new.setPtr idx ptr
  let kvPos ← new.kvPos idx
  let keyLen := key.length
  let valLen := val.length
  let offset ← new.getOffset idx
  let new ← new.setOffset (u16 (idx + 1)) (u16 (offset + 4 + u16 keyLen + u16 valLen))
  let new ← new.putU16 kvPos (u16 keyLen)
  let new ← new.putU16 (u16 (kvPos + 2)) (u16 valLen)
  let new ← new.copyAt (u16 (kvPos + 4)) key
  new.copyAt (u16 (kvPos + 4 + u16 keyLen)) val

def leafInsert (new old : BNode) (idx : Nat) (key val : List Nat) : Res BNode := do
  let n ← old.nkeys
  let new ← new.setHeader BNODE_LEAF (u16 (n + 1))
  let new ← nodeAppendRange new old 0 0 idx
  let new ← nodeAppendKV new idx 0 key val
  let n ← old.nkeys
  nodeAppendRange new old (u16 (idx + 1)) idx (u16sub n idx)

def leafUpdate (new old : BNode) (idx : Nat) (key val : List Nat) : Res BNode := do
  let new ← nodeAppendRange new old 0 0 idx
  let new ← nodeAppendKV new idx 0 key val
  let n ← old.nkeys
  nodeAppendRange new old (u16 (idx + 1)) (u16 (idx + 1)) (u16sub n idx)

def nodeSplit2 (left right old : BNode) : Res (BNode × BNode) := do
  let nkeys ← old.nkeys
  let splitIdx := nkeys / 2
  let t ← old.btype
  let left ← left.setHeader t splitIdx
  let left ← nodeAppendRange left old 0 0 splitIdx
  let t ← old.btype
  let right ← right.setHeader t (u16sub nkeys splitIdx)
  let right ← nodeAppendRange right old 0 splitIdx (u16sub nkeys splitIdx)
  pure (left, right)

/-- Go's `node.data = node.data[:n]`: needs `n ≤ cap`. -/
def BNode.trim (node : BNode) (n : Nat) : Res BNode :=
  if n ≤ node.cap then .ok { node with len := n } else .panic

/-- Split an oversized node into 1, 2 or 3 nodes; the unused places of the
returned array hold the nil node. -/
def nodeSplit3 (old : BNode) : Res (Nat × List BNode) := do
  let sz ← old.nbytes
  if sz ≤ BTREE_PAGE_SIZE then do
    let old ← old.trim BTREE_PAGE_SIZE
    pure (1, [old, BNode.empty, BNode.empty])
  else do
    let left := BNode.make (2 * BTREE_PAGE_SIZE)
    let right := BNode.make BTREE_PAGE_SIZE
    let (left, right) ← nodeSplit2 left right old
    let lsz ← left.nbytes
    if lsz ≤ BTREE_PAGE_SIZE then do
      let left ← left.trim BTREE_PAGE_SIZE
      pure (2, [left, right, BNode.empty])
    else do
      let leftleft := BNode.make BTREE_PAGE_SIZE
      let middle := BNode.make BTREE_PAGE_SIZE
      let (leftleft, middle) ← nodeSplit2 leftleft middle left
      pure (3, [leftleft, middle, right])

def leafDelete (new old : BNode) (idx : Nat) : Res BNode := do
  let n ← old.nkeys
  let new ← new.setHeader BNODE_LEAF (u16sub n 1)
  let new ← nodeAppendRange new old 0 0 idx
  let n ← old.nkeys
  nodeAppendRange new old idx (u16 (idx + 1)) (u16sub n (u16 (idx + 1)))

def nodeMerge (new left right : BNode) : Res BNode := do
  let t ← left.btype
  let ln ← left.nkeys
  let rn ← right.nkeys
  let new ← new.setHeader t (u16 (ln + rn))
  let ln ← left.nkeys
  let new ← nodeAppendRange new left 0 0 ln
  let ln ← left.nkeys
  let rn ← right.nkeys
  nodeAppendRange new right ln 0 rn

def nodeReplace2Kid (new old : BNode) (idx ptr : Nat) (key : List Nat) : Res BNode := do
  let n ← old.nkeys
  let new ← new.setHeader BNODE_NODE (u16sub n 1)
  let new ← nodeAppendRange new old 0 0 idx
  let new ← nodeAppendKV new idx ptr key []
  let n ← old.nkeys
  nodeAppendRange new old (u16 (idx + 1)) (u16 (idx + 2)) (u16sub n (u16 (idx + 2)))

/-! ## The tree and its page callbacks (`bnode.go`, `treeOperation.go`) -/

/-- The callbacks `Get`, `New`, `Del` of `BTree`, over an explicit store state. -/
structure Pager (σ : Type) where
  get : σ → Nat → Res BNode
  new : σ → BNode → Res (Nat × σ)
  del : σ → Nat → Res σ

/-- A recorded call of `New` (with the node passed and the id returned) or `Del`. -/
inductive Call where
  | new (node : BNode) (ptr : Nat)
  | del (ptr : Nat)
deriving DecidableEq

/-- The tree: the root page id, the state behind the callbacks, and the record of
the `New` and `Del` calls made so far (oldest first; kept for the specification). -/
structure BTree (σ : Type) where
  root : Nat
  store : σ
  calls : List Call
deriving DecidableEq

namespace BTree

variable {σ : Type}

def Get (P : Pager σ) (tree : BTree σ) (ptr : Nat) : Res BNode :=
  P.get tree.store ptr

def New (P : Pager σ) (tree : BTree σ) (node : BNode) : Res (Nat × BTree σ) := do
  let (ptr, s) ← P.new tree.store node
  pure (ptr, { tree with store := s, calls := tree.calls ++ [Call.new node ptr] })

def Del (P : Pager σ) (tree : BTree σ) (ptr : Nat) : Res (BTree σ) := do
  let s ← P.del tree.store ptr
  pure { tree with store := s, calls := tree.calls ++ [Call.del ptr] }

end BTree

section Tree

variable {σ : Type} (P : Pager σ)

/-- The loop over `kids` in `nodeReplaceKidN` and in `Insert`: register each kid and
append its entry at `idx + i`. -/
def appendKids : List BNode → Nat → Nat → BTree σ → BNode → Res (BNode × BTree σ)
  | [], _, _, tree, new => .ok (new, tree)
  | node :: kids, idx, i, tree, new => do
    let (ptr, tree) ← tree.New P node
    let key ← node.getKey 0
    let new ← nodeAppendKV new (u16 (idx + u16 i)) ptr key []
    appendKids kids idx (i + 1) tree new

def nodeReplaceKidN (tree : BTree σ) (new old : BNode) (idx : Nat) (kids : List BNode) :
    Res (BNode × BTree σ) := do
  let inc := u16 kids.length
  let n ← old.nkeys
  let new ← new.setHeader BNODE_NODE (u16sub (u16 (n + inc)) 1)
  let new ← nodeAppendRange new old 0 0 idx
  let (new, tree) ← appendKids P kids idx 0 tree new
  let n ← old.nkeys
  let new ← nodeAppendRange new old (u16 (idx + inc)) (u16 (idx + 1)) (u16sub n (u16 (idx + 1)))
  pure (new, tree)

/-- The body of `nodeInsert`; `rec` is the recursive call of `treeInsert`. -/
def nodeInsert (rec : BTree σ → BNode → List Nat → List Nat → Res (BNode × BTree σ))
    (tree : BTree σ) (new node : BNode) (idx : Nat) (key val : List Nat) :
    Res (BNode × BTree σ) := do
  let kptr ← node.getPtr idx
  let knode ← tree.Get P kptr
  let tree ← tree.Del P kptr
  let (knode, tree) ← rec tree knode key val
  let (nsplit, splited) ← nodeSplit3 knode
  nodeReplaceKidN P tree new node idx (splited.take nsplit)

/-- Insert into the subtree at `node`; the result may be larger than a page.
`fuel` bounds the depth of the recursion. -/
def treeInsert : Nat → BTree σ → BNode → List Nat → List Nat → Res (BNode × BTree σ)
  | 0, _, _, _, _ => .timeout
  | fuel + 1, tree, node, key, val => do
    let new := BNode.make (2 * BTREE_PAGE_SIZE)
    let idx ← nodeLookupLE node key
    let t ← node.btype
    if t = BNODE_LEAF then do
      let k ← new.getKey idx
      if bytesEqual key k then do
        let new ← leafUpdate new node idx key val
        pure (new, tree)
      else do
        let new ← leafInsert new node (u16 (idx + 1)) key val
        pure (new, tree)
    else if t = BNODE_NODE then
      nodeInsert P (treeInsert fuel) tree new node idx key val
    else .panic

/-- Decide whether the updated kid is merged with a sibling: -1 left, +1 right, 0 no. -/
def shouldMerge (tree : BTree σ) (node : BNode) (idx : Nat) (updated : BNode) :
    Res (Int × BNode) := do
  let usz ← updated.nbytes
  if usz > BTREE_PAGE_SIZE / 4 then pure (0, BNode.empty)
  else do
    let left : Option BNode ←
      if idx > 0 then do
        let p ← node.getPtr (u16sub idx 1)
        let sibling ← tree.Get P p
        let ssz ← sibling.nbytes
        let usz ← updated.nbytes
        let merged := u16sub (u16 (ssz + usz)) HEADER_SIZE
        if merged ≤ BTREE_PAGE_SIZE then pure (some sibling) else pure none
      else pure none
    match left with
    | some sibling => pure (-1, sibling)
    | none => do
      let n ← node.nkeys
      if u16 (idx + 1) < n then do
        let p ← node.getPtr (u16 (idx + 1))
        let sibling ← tree.Get P p
        let ssz ← sibling.nbytes
        let usz ← updated.nbytes
        let merged := u16sub (u16 (ssz + usz)) HEADER_SIZE
        if merged ≤ BTREE_PAGE_SIZE then pure (1, sibling) else pure (0, BNode.empty)
      else pure (0, BNode.empty)

/-- The body of `nodeDelete`; `rec` is the recursive call of `treeDelete`. -/
def nodeDelete (rec : BTree σ → BNode → List Nat → Res (BNode × BTree σ))
    (tree : BTree σ) (node : BNode) (idx : Nat) (key : List Nat) :
    Res (BNode × BTree σ) := do
  let kptr ← node.getPtr idx
  let knode ← tree.Get P kptr
  let (updated, tree) ← rec tree knode key
  if updated.len = 0 then pure (BNode.empty, tree)
  else do
    let tree ← tree.Del P kptr
    let new := BNode.make BTREE_PAGE_SIZE
    let (mergeDir, sibling) ← shouldMerge P tree node idx updated
    if mergeDir < 0 then do
      let merged := BNode.make BTREE_PAGE_SIZE
      let merged ← nodeMerge merged sibling updated
      let p ← node.getPtr (u16sub idx 1)
      let tree ← tree.Del P p
      let (ptr, tree) ← tree.New P merged
      let k ← merged.getKey 0
      let new ← nodeReplace2Kid new node (u16sub idx 1) ptr k
      pure (new, tree)
    else if mergeDir > 0 then do
      let merged := BNode.make BTREE_PAGE_SIZE
      let merged ← nodeMerge merged updated sibling
      let p ← node.getPtr (u16 (idx + 1))
      let tree ← tree.Del P p
      let (ptr, tree) ← tree.New P merged
      let k ← merged.getKey 0
      let new ← nodeReplace2Kid new node idx ptr k
      pure (new, tree)
    else nodeReplaceKidN P tree new node idx [updated]

/-- Delete from the subtree at `node`; the nil node means "not found". -/
def treeDelete : Nat → BTree σ → BNode → List Nat → Res (BNode × BTree σ)
  | 0, _, _, _ => .timeout
  | fuel + 1, tree, node, key => do
    let idx ← nodeLookupLE node key
    let t ← node.btype
    if t = BNODE_LEAF then do
      let k ← node.getKey idx
      if !bytesEqual key k then pure (BNode.empty, tree)
      else do
        let new := BNode.make BTREE_PAGE_SIZE
        let new ← leafDelete new node idx
        pure (new, tree)
    else if t = BNODE_NODE then
      nodeDelete P (treeDelete fuel) tree node idx key
    else .panic

namespace BTree

def Delete (fuel : Nat) (tree : BTree σ) (key : List Nat) : Res (Bool × BTree σ) :=
  if tree.root = 0 then pure (false, tree)
  else do
    let node ← tree.Get P tree.root
    let (updated, tree) ← treeDelete P fuel tree node key
    if updated.len = 0 then pure (false, tree)
    else do
      let tree ← tree.Del P tree.root
      let t ← updated.btype
      let collapse ← if t = BNODE_NODE then do
          let n ← updated.nkeys
          pure (decide (n = 1))
        else pure false
      if collapse then do
        let p ← updated.getPtr 0
        pure (true, { tree with root := p })
      else do
        let (p, tree) ← tree.New P updated
        pure (true, { tree with root := p })

def Insert (fuel : Nat) (tree : BTree σ) (key val : List Nat) : Res (BTree σ) :=
  if tree.root = 0 then do
    let root := BNode.make BTREE_PAGE_SIZE
    let root ← root.setHeader BNODE_LEAF 2
    let root ← nodeAppendKV root 0 0 [] []
    let root ← nodeAppendKV root 1 0 key val
    let (p, tree) ← tree.New P root
    pure { tree with root := p }
  else do
    let node ← tree.Get P tree.root
    let tree ← tree.Del P tree.root
    let (node, tree) ← treeInsert P fuel tree node key val
    let (nsplit, splitted) ← nodeSplit3 node
    if nsplit > 1 then do
      let root := BNode.make BTREE_PAGE_SIZE
      let root ← root.setHeader BNODE_NODE nsplit
      let (root, tree) ← appendKids P (splitted.take nsplit) 0 0 tree root
      let (p, tree) ← tree.New P root
      pure { tree with root := p }
    else do
      let (p, tree) ← tree.New P (splitted.getD 0 BNode.empty)
      pure { tree with root := p }

/-- The descent loop of `GetVal`. -/
def getLoop : Nat → BTree σ → BNode → List Nat → Res (List Nat × Bool)
  | 0, _, _, _ => .timeout
  | fuel + 1, tree, node, key => do
    let idx ← nodeLookupLE node key
    let t ← node.btype
    if t = BNODE_LEAF then do
      let n ← node.nkeys
      if idx < n then do
        let k ← node.getKey idx
        if bytesEqual key k then do
          let v ← node.getVal idx
          pure (v, true)
        else pure ([], false)
      else pure ([], false)
    else do
      let p ← node.getPtr idx
      let node ← tree.Get P p
      getLoop fuel tree node key

def GetVal (fuel : Nat) (tree : BTree σ) (key : List Nat) : Res (List Nat × Bool) :=
  if tree.root = 0 then pure ([], false)
  else do
    let node ← tree.Get P tree.root
    getLoop P fuel tree node key

end BTree

end Tree

/-! ## The in-memory page stores (`main.go`, `btreeTest.go`) -/

/-- The state of an in-memory store: the page map and the next page id. -/
structure MemStore where
  pages : List (Nat × BNode)
  counter : Nat
deriving DecidableEq

namespace MemStore

def lookup (s : MemStore) (ptr : Nat) : Option BNode :=
  (s.pages.find? (fun e => e.1 == ptr)).map (fun e => e.2)

def insert (s : MemStore) (ptr : Nat) (node : BNode) : MemStore :=
  { s with pages := (ptr, node) :: s.pages.filter (fun e => e.1 != ptr) }

def erase (s : MemStore) (ptr : Nat) : MemStore :=
  { s with pages := s.pages.filter (fun e => e.1 != ptr) }

end MemStore

/-- The store of `createEmptyBTree` in `main.go`: ids come from a counter that
starts at 1, `Get` faults on an unknown id, `Del` removes the page. -/
def memPager : Pager MemStore where
  get s ptr := match s.lookup ptr with
    | some node => .ok node
    | none => .panic
  new s node := .ok (s.counter, { (s.insert s.counter node) with counter := u64 (s.counter + 1) })
  del s ptr := .ok (s.erase ptr)

/-- The store of `newC` in `btreeTest.go`: `New` asserts `node.nbytes() <= BTREE_PAGE_SIZE`
and that the id is unused, `Del` asserts that the page exists.  The test keys a page by
the address of its buffer; the model takes the ids from a counter instead. -/
def testPager : Pager MemStore where
  get s ptr := match s.lookup ptr with
    | some node => .ok node
    | none => .panic
  new s node := do
    let sz ← node.nbytes
    let _ ← Res.require (decide (sz ≤ BTREE_PAGE_SIZE))
    let _ ← Res.require (decide (0 < node.len))
    let _ ← Res.require (decide ((s.lookup s.counter).isNone))
    pure (s.counter, { (s.insert s.counter node) with counter := u64 (s.counter + 1) })
  del s ptr := do
    let _ ← Res.require (decide ((s.lookup ptr).isSome))
    pure (s.erase ptr)

/-- The empty tree of `createEmptyBTree`: no root, no pages, counter 1. -/
def emptyTree : BTree MemStore := ⟨0, ⟨[], 1⟩, []⟩

/-! ## The key-value store over a memory-mapped file (`kvStore.go`, `persistence.go`) -/

/-- The errors that the flush of `KV` wraps: a failed `ftruncate`, `mmap`, `fsync`
or write of the master page. -/
inductive KVError where
  | fallocate
  | mmap
  | fsync
  | writeMaster
deriving DecidableEq

/-- The outcomes of the system calls of one flush, `true` for success. -/
structure Sys where
  ftruncate : Bool
  mmap : Bool
  fsyncData : Bool
  pwrite : Bool
  fsyncMaster : Bool
deriving DecidableEq

/-- The fields `mmap` and `page` of `KV`.  The chunks are the mapped bytes of the file
(a shared mapping: what is written to a chunk is written to the file). -/
structure KVStore where
  file : Nat
  total : Nat
  chunks : List (List Nat)
  flushed : Nat
  temp : List BNode
deriving DecidableEq

/-- The ASCII bytes of `DB_SIG = "BuildYourOwnDB05"`. -/
def DB_SIG : List Nat := [66, 117, 105, 108, 100, 89, 111, 117, 114, 79, 119, 110, 68, 66, 48, 53]

/-- Modelled from the spec: `assertCondition` is not among the sources; by section 7 of
the specification a violated internal invariant aborts (controlled panic / assertion). -/
def assertCondition (c : Bool) : Res Unit := Res.require c

/-- The search of `pageGet`: the index of the chunk that holds page `ptr` and the byte
offset of the page in it; `panic("bad ptr")` when no chunk holds it. -/
def pageLocate : List (List Nat) → Nat → Nat → Nat → Res (Nat × Nat)
  | [], _, _, _ => .panic
  | chunk :: rest, ci, start, ptr =>
    let e := u64 (start + chunk.length / BTREE_PAGE_SIZE)
    if ptr < e then
      let offset := u64 (BTREE_PAGE_SIZE * (ptr - start))
      if offset ≤ u64 (offset + BTREE_PAGE_SIZE) ∧ u64 (offset + BTREE_PAGE_SIZE) ≤ chunk.length
      then .ok (ci, offset) else .panic
    else pageLocate rest (ci + 1) e ptr

namespace KVStore

/-- The node view `chunk[offset : offset+BTREE_PAGE_SIZE]` of page `ptr`. -/
def pageGet (db : KVStore) (ptr : Nat) : Res BNode := do
  let (ci, offset) ← pageLocate db.chunks 0 0 ptr
  pure ⟨(db.chunks.getD ci []).drop offset, BTREE_PAGE_SIZE⟩

def pageNew (db : KVStore) (node : BNode) : Res (Nat × KVStore) := do
  let _ ← assertCondition (decide (node.len ≤ BTREE_PAGE_SIZE))
  let ptr := u64 (db.flushed + db.temp.length)
  pure (ptr, { db with temp := db.temp ++ [node] })

def pageDel (db : KVStore) (_ptr : Nat) : Res KVStore := .ok db

/-- The statement `copy(db.pageGet(ptr).data, page)` of `writePages`. -/
def pageWrite (db : KVStore) (ptr : Nat) (page : BNode) : Res KVStore := do
  let (ci, offset) ← pageLocate db.chunks 0 0 ptr
  let src := (page.data.take page.len).take BTREE_PAGE_SIZE
  pure { db with chunks := db.chunks.set ci (splice (db.chunks.getD ci []) offset src) }

end KVStore

/-- The page callbacks that `KV.Open` installs. -/
def kvPager : Pager KVStore where
  get := KVStore.pageGet
  new := KVStore.pageNew
  del := KVStore.pageDel

/-- The loop of `extendFile`: grow the page count by an eighth, at least by one page,
until it reaches `npages`. -/
def growPages : Nat → Nat → Nat → Nat
  | 0, filePages, _ => filePages
  | fuel + 1, filePages, npages =>
    if filePages < npages then
      let inc := if filePages / 8 < 1 then 1 else filePages / 8
      growPages fuel (filePages + inc) npages
    else filePages

def extendFile (sys : Sys) (db : KVStore) (npages : Nat) : Option KVError × KVStore :=
  let filePages := db.file / BTREE_PAGE_SIZE
  if filePages ≥ npages then (none, db)
  else
    let filePages := growPages npages filePages npages
    let fileSize := filePages * BTREE_PAGE_SIZE
    if sys.ftruncate then (none, { db with file := fileSize })
    else (some KVError.fallocate, db)

/-- Map a further chunk of `total` bytes at offset `total`; the bytes of the new chunk
are those of the file there, taken as zero. -/
def extendMmap (sys : Sys) (db : KVStore) (npages : Nat) : Option KVError × KVStore :=
  if db.total ≥ npages * BTREE_PAGE_SIZE then (none, db)
  else if sys.mmap then
    (none, { db with total := db.total + db.total,
                     chunks := db.chunks ++ [List.replicate db.total 0] })
  else (some KVError.mmap, db)

/-- The loop of `writePages` over the staged pages, `i` is the loop index. -/
def copyPages : List BNode → Nat → KVStore → Res KVStore
  | [], _, db => .ok db
  | page :: rest, i, db => do
    let db ← db.pageWrite (u64 (db.flushed + i)) page
    copyPages rest (i + 1) db

def writePages (sys : Sys) (db : KVStore) : Res (Option KVError × KVStore) :=
  let npages := db.flushed + db.temp.length
  match extendFile sys db npages with
  | (some err, db) => .ok (some err, db)
  | (none, db) =>
    match extendMmap sys db npages with
    | (some err, db) => .ok (some err, db)
    | (none, db) => do
      let db ← copyPages db.temp 0 db
      pure (none, db)

/-- Write signature, root and page count to the first 32 bytes of the file. -/
def masterStore (sys : Sys) (db : BTree KVStore) : Option KVError × BTree KVStore :=
  let data := DB_SIG ++ leBytes 8 db.root ++ leBytes 8 db.store.flushed
  if sys.pwrite then
    (none, { db with store := { db.store with
      chunks := db.store.chunks.set 0 (splice (db.store.chunks.getD 0 []) 0 data) } })
  else (some KVError.writeMaster, db)

def syncPages (sys : Sys) (db : BTree KVStore) : Option KVError × BTree KVStore :=
  if !sys.fsyncData then (some KVError.fsync, db)
  else
    let db := { db with store := { db.store with
      flushed := u64 (db.store.flushed + db.store.temp.length), temp := [] } }
    match masterStore sys db with
    | (some err, db) => (some err, db)
    | (none, db) =>
      if !sys.fsyncMaster then (some KVError.fsync, db) else (none, db)

def flushPages (sys : Sys) (db : BTree KVStore) : Res (Option KVError × BTree KVStore) := do
  let (err, store) ← writePages sys db.store
  let db := { db with store := store }
  match err with
  | some err => pure (some err, db)
  | none => pure (syncPages sys db)

namespace KV

/-- `KV.Set`: insert, then flush; the error returned is the one of the flush. -/
def Set (sys : Sys) (fuel : Nat) (db : BTree KVStore) (key val : List Nat) :
    Res (Option KVError × BTree KVStore) := do
  let db ← db.Insert kvPager fuel key val
  flushPages sys db

end KV

/-- The errors of `masterLoad`: "bad signature" and "bad master page". -/
inductive LoadError where
  | badSignature
  | badMaster
deriving DecidableEq

/-- Go's `binary.LittleEndian.Uint64(data[pos:])` on a byte slice. -/
def readU64 (data : List Nat) (pos : Nat) : Res Nat :=
  if pos + 8 ≤ data.length then .ok (leNat (slice data pos 8)) else .panic

/-- Read and check the master page in the first chunk; on an empty file only reserve
the page of the master page.  The file size is a non-negative `int`, so its conversion
to `uint64` changes nothing. -/
def masterLoad (db : BTree KVStore) : Res (Option LoadError × BTree KVStore) :=
  if db.store.file = 0 then
    .ok (none, { db with store := { db.store with flushed := 1 } })
  else
    match db.store.chunks with
    | [] => .panic
    | data :: _ => do
      let root ← readU64 data 16
      let used ← readU64 data 24
      if !bytesEqual DB_SIG (data.take 16) then pure (some LoadError.badSignature, db)
      else
        let bad := !(decide (1 ≤ used) && decide (used ≤ db.store.file / BTREE_PAGE_SIZE))
        let bad := bad || !(decide (root < used))
        if bad then pure (some LoadError.badMaster, db)
        else pure (none, { db with root := root, store := { db.store with flushed := used } })

/-- The mapping size `64 << 20` that `mmapInit` starts from. -/
def MMAP_INIT : Nat := 67108864

/-- The store after `KV.Open` on a new (empty) file: no root, one page reserved for the
master page, one chunk of `64 << 20` mapped bytes. -/
def freshKV : BTree KVStore :=
  ⟨0, ⟨0, MMAP_INIT, [List.replicate MMAP_INIT 0], 1, []⟩, []⟩

/-- The system calls all succeed. -/
def sysOk : Sys := ⟨true, true, true, true, true⟩

/-! ## Runs of operations -/

/-- An operation of the tree's interface. -/
inductive Op where
  | insert (key val : List Nat)
  | delete (key : List Nat)
deriving DecidableEq

/-- Run a sequence of `Insert` and `Delete` calls. -/
def runOps {σ : Type} (P : Pager σ) (fuel : Nat) : BTree σ → List Op → Res (BTree σ)
  | tree, [] => .ok tree
  | tree, Op.insert key val :: ops => do
    let tree ← tree.Insert P fuel key val
    runOps P fuel tree ops
  | tree, Op.delete key :: ops => do
    let (_, tree) ← tree.Delete P fuel key
    runOps P fuel tree ops

/-- A step of the page manager: `pageNew` of a node, or `syncPages` under the given
outcomes of the system calls. -/
inductive PageStep where
  | new (node : BNode)
  | sync (sys : Sys)
deriving DecidableEq

/-- Run the steps of the page manager; the result lists the ids that the `pageNew`
calls returned, in the order of the calls. -/
def runPages : BTree KVStore → List PageStep → Res (List Nat × BTree KVStore)
  | db, [] => .ok ([], db)
  | db, PageStep.new node :: steps => do
    let (ptr, db) ← db.New kvPager node
    let (ids, db) ← runPages db steps
    pure (ptr :: ids, db)
  | db, PageStep.sync sys :: steps => runPages (syncPages sys db).2 steps

/-- The sizes `nbytes()` of the nodes passed to `New`, in the order of the calls. -/
def newSizes (calls : List Call) : List (Res Nat) :=
  calls.filterMap fun c =>
    match c with
    | Call.new node _ => some node.nbytes
    | Call.del _ => none

/-! ## Specification vocabulary: the entries a node holds -/

/-- An entry of a node: child pointer, key and value. -/
structure Entry where
  ptr : Nat
  key : List Nat
  val : List Nat
deriving DecidableEq

/-- The bytes an entry takes in the key-value area: two lengths, key, value. -/
def Entry.size (e : Entry) : Nat := 4 + e.key.length + e.val.length

/-- The total size of the entries `es` in the key-value area. -/
def kvSize (es : List Entry) : Nat := (es.map Entry.size).sum

/-- `WeakLayout node t n es`: the bytes of `node` hold the header `(t, n)` and, in the
places of the first `es.length` of its `n` entries, the pointers and the offsets of `es`;
the key-value bytes may be cut off at the end of the buffer.  The header takes
`HEADER_SIZE = 4` bytes, the pointers `8 * n` and the offsets `2 * n`. -/
structure WeakLayout (node : BNode) (t n : Nat) (es : List Entry) : Prop where
  len_le : node.len ≤ node.data.length
  count : es.length ≤ n
  idx_fits : 4 + 10 * n ≤ node.len
  small : 4 + 10 * n + kvSize es < 65536
  type_lt : t < 65536
  ptr_lt : ∀ e ∈ es, e.ptr < 18446744073709551616
  hdr_type : slice node.data 0 2 = leBytes 2 t
  hdr_nkeys : slice node.data 2 2 = leBytes 2 n
  ptrs : ∀ i e, es[i]? = some e → slice node.data (4 + 8 * i) 8 = leBytes 8 e.ptr
  offs : ∀ i, i < es.length →
    slice node.data (4 + 8 * n + 2 * i) 2 = leBytes 2 (kvSize (es.take (i + 1)))

/-- `Layout node t n es`: the bytes of `node` hold the header `(t, n)` and, in the
places of the first `es.length` of its `n` entries, the pointers, offsets, lengths,
keys and values of `es`, all inside the length of the buffer. -/
structure Layout (node : BNode) (t n : Nat) (es : List Entry)
    extends WeakLayout node t n es : Prop where
  fits : 4 + 10 * n + kvSize es ≤ node.len
  klen : ∀ i e, es[i]? = some e →
    slice node.data (4 + 10 * n + kvSize (es.take i)) 2 = leBytes 2 e.key.length
  vlen : ∀ i e, es[i]? = some e →
    slice node.data (4 + 10 * n + kvSize (es.take i) + 2) 2 = leBytes 2 e.val.length
  key : ∀ i e, es[i]? = some e →
    slice node.data (4 + 10 * n + kvSize (es.take i) + 4) e.key.length = e.key
  val : ∀ i e, es[i]? = some e →
    slice node.data (4 + 10 * n + kvSize (es.take i) + 4 + e.key.length)
      e.val.length = e.val

/-- `Upd d d' p w`: the bytes `d'` differ from `d` at most in the `w` bytes from `p`. -/
def Upd (d d' : List Nat) (p w : Nat) : Prop :=
  d'.length = d.length ∧ ∀ q m, (q + m ≤ p ∨ p + w ≤ q) → slice d' q m = slice d q m

/-- `PageOf node t es`: `node` is a page-sized buffer that was written with the entries
`es`: header, pointers and offsets are in place, keys and values too if they fit. -/
def PageOf (node : BNode) (t : Nat) (es : List Entry) : Prop :=
  node.len = BTREE_PAGE_SIZE ∧ es ≠ [] ∧ WeakLayout node t es.length es ∧
    (4 + 10 * es.length + kvSize es ≤ BTREE_PAGE_SIZE → Layout node t es.length es)

/-- Key and value of the entry are within the size limits. -/
def Entry.Bounded (e : Entry) : Prop :=
  e.key.length ≤ BTREE_MAX_KEY_SIZE ∧ e.val.length ≤ BTREE_MAX_VAL_SIZE

/-- `Refs get p i x`: the live page `p` is an internal node whose pointer `i` is `x`. -/
def Refs (get : Nat → Option BNode) (p i x : Nat) : Prop :=
  ∃ node n, get p = some node ∧ node.btype = .ok BNODE_NODE ∧ node.nkeys = .ok n ∧ i < n ∧
    node.getPtr i = .ok x

/-- No live page points to `x`. -/
def NoRef (get : Nat → Option BNode) (x : Nat) : Prop := ∀ p i, ¬ Refs get p i x

/-- The page store is a forest: a page is pointed to from at most one place, and every
pointer of a live page leads to a live page. -/
def Forest (get : Nat → Option BNode) : Prop :=
  (∀ p q i j x, Refs get p i x → Refs get q j x → p = q ∧ i = j) ∧
  (∀ p i x, Refs get p i x → ∃ node, get x = some node)

/-- `Shape K get h node es`: `node` holds the entries `es` and is the root of a tree of
height `h` in the store: for `h = 0` a leaf whose keys satisfy `K`, else an internal node
whose pointers lead to pages that are roots of trees of height `h - 1`. -/
def Shape (K : List Nat → Prop) (get : Nat → Option BNode) : Nat → BNode → List Entry → Prop
  | 0, node, es =>
    Layout node BNODE_LEAF es.length es ∧ es ≠ [] ∧ ∀ e ∈ es, e.Bounded ∧ K e.key
  | h + 1, node, es =>
    Layout node BNODE_NODE es.length es ∧ es ≠ [] ∧
      ∀ e ∈ es, e.Bounded ∧ e.val = [] ∧ ∃ child ces, get e.ptr = some child ∧
        child.len = BTREE_PAGE_SIZE ∧ Shape K get h child ces

/-- The page `x` is the root of a tree of height `h`. -/
def Sub (K : List Nat → Prop) (get : Nat → Option BNode) (h x : Nat) : Prop :=
  ∃ node es, get x = some node ∧ node.len = BTREE_PAGE_SIZE ∧ Shape K get h node es

/-- A node that is not (or no longer) registered: its children are roots that no live
page points to, and they are distinct. -/
def Frag (K : List Nat → Prop) (get : Nat → Option BNode) (h : Nat) (node : BNode)
    (es : List Entry) : Prop :=
  Shape K get h node es ∧
    (0 < h → (∀ e ∈ es, NoRef get e.ptr) ∧ (es.map Entry.ptr).Nodup)

/-- The page map of an in-memory store as a function. -/
def MemStore.get (s : MemStore) : Nat → Option BNode := fun p => s.lookup p

/-- The node type of the root of a tree of height `h`. -/
def heightType (h : Nat) : Nat := if h = 0 then BNODE_LEAF else BNODE_NODE

/-- The key of the first entry. -/
def firstKey : List Entry → List Nat
  | [] => []
  | e :: _ => e.key

/-- The entries of a parent for kids registered under the ids `ptrs`: pointer, first
key of the kid, no value. -/
def kidEntries (ptrs : List Nat) (groups : List (List Entry)) : List Entry :=
  List.zipWith (fun f g => (⟨f, firstKey g, []⟩ : Entry)) ptrs groups

/-- What the tree algorithms keep of an in-memory store: it is a forest and the next
page id is a `uint64`. -/
def StoreOK (s : MemStore) : Prop := Forest s.get ∧ s.counter < 18446744073709551616

/-- Append the entries `es` with `nodeAppendKV`, the first at index `i`. -/
def appendEntries : List Entry → Nat → BNode → Res BNode
  | [], _, node => .ok node
  | e :: es, i, node => do
    let node ← nodeAppendKV node i e.ptr e.key e.val
    appendEntries es (i + 1) node

/-- Build a node in `buf` with the helpers: `setHeader(t, n)` with `n` the number
of entries, then `nodeAppendKV` for the entries at indices `0 .. n-1`. -/
def buildNode (buf : BNode) (t : Nat) (es : List Entry) : Res BNode := do
  let node ← buf.setHeader t es.length
  appendEntries es 0 node

/-! ## Sample nodes -/

/-- The leaf with the single entry `("", "")`, in a buffer of 18 bytes. -/
def sampleLeafA : BNode := ⟨[2, 0, 1, 0] ++ List.replicate 8 0 ++ [4, 0, 0, 0, 0, 0], 18⟩

/-- The leaf with the single entry `("b", "1")`, in a buffer of 20 bytes. -/
def sampleLeafB : BNode :=
  ⟨[2, 0, 1, 0] ++ List.replicate 8 0 ++ [6, 0, 1, 0, 1, 0, 98, 49], 20⟩

/-- The leaf with the entries `("", "")` and `("b", "1")`, in a buffer of 34 bytes. -/
def sampleLeafAB : BNode :=
  ⟨[2, 0, 2, 0] ++ List.replicate 16 0 ++ [4, 0, 10, 0, 0, 0, 0, 0, 1, 0, 1, 0, 98, 49], 34⟩

/-- The internal node with the entries `(1, "")` and `(2, "b")`, in a buffer of 33 bytes. -/
def sampleNode : BNode :=
  ⟨[1, 0, 2, 0, 1] ++ List.replicate 7 0 ++ [2] ++ List.replicate 7 0 ++
    [4, 0, 9, 0, 0, 0, 0, 0, 1, 0, 0, 0, 98], 33⟩

/-- An in-memory tree of height 1: the root `sampleNode` is page 3, its kids `sampleLeafA`
and `sampleLeafB` are the pages 1 and 2. -/
def sampleTree : BTree MemStore :=
  ⟨3, ⟨[(1, sampleLeafA), (2, sampleLeafB), (3, sampleNode)], 4⟩, []⟩

/-- The page with the leaf of the single entry `("", "")`. -/
def sampleMerged : BNode :=
  ⟨[2, 0, 1, 0] ++ List.replicate 8 0 ++ [4] ++ List.replicate 4083 0, 4096⟩

/-- The page with the internal node of the single entry `(4, "")`. -/
def sampleUpdated : BNode :=
  ⟨[1, 0, 1, 0, 4] ++ List.replicate 7 0 ++ [4] ++ List.replicate 4083 0, 4096⟩

/-! ## Specification vocabulary: the leftmost leaf -/

/-- The descent to the leftmost leaf: from an internal node follow the pointer 0.
`fuel` bounds the number of nodes visited. -/
def leftmostLoop {σ : Type} (P : Pager σ) : Nat → BTree σ → BNode → Res BNode
  | 0, _, _ => .timeout
  | fuel + 1, tree, node => do
    let t ← node.btype
    if t = BNODE_LEAF then pure node
    else do
      let p ← node.getPtr 0
      let child ← tree.Get P p
      leftmostLoop P fuel tree child

/-- The key count and the key at index 0 of the leftmost leaf of the tree. -/
def BTree.firstEntry {σ : Type} (P : Pager σ) (fuel : Nat) (tree : BTree σ) :
    Res (Nat × List Nat) := do
  let node ← tree.Get P tree.root
  let leaf ← leftmostLoop P fuel tree node
  let n ← leaf.nkeys
  let k ← leaf.getKey 0
  pure (n, k)

/-- `Lm get h node`: the descent from `node` through the pointers 0 reaches after `h`
steps a leaf that has a key at index 0, and that key is the empty key. -/
def Lm (get : Nat → Option BNode) : Nat → BNode → Prop
  | 0, node => node.btype = .ok BNODE_LEAF ∧ (∃ n, node.nkeys = .ok n ∧ 0 < n) ∧
      node.getKey 0 = .ok []
  | h + 1, node => node.btype = .ok BNODE_NODE ∧ (∃ n, node.nkeys = .ok n ∧ 0 < n) ∧
      ∃ p child, node.getPtr 0 = .ok p ∧ get p = some child ∧ Lm get h child

/-- `Rebuilt h node es`: `node` is a page that `treeDelete` built at height `h` with the
entries `es`: header, pointers and offsets are in place, keys and values too if they fit
the page; a leaf may have lost its last entry, and the bytes there read as the empty key. -/
def Rebuilt (h : Nat) (node : BNode) (es : List Entry) : Prop :=
  node.len = BTREE_PAGE_SIZE ∧ node.data.length = BTREE_PAGE_SIZE ∧
    WeakLayout node (heightType h) es.length es ∧
    (4 + 10 * es.length + kvSize es ≤ BTREE_PAGE_SIZE →
      Layout node (heightType h) es.length es) ∧
    (∀ e ∈ es, e.Bounded) ∧ 4 + 10 * es.length + kvSize es ≤ BTREE_PAGE_SIZE + 1004 ∧
    (es = [] → h = 0 ∧ node.getKey 0 = .ok [])

/-- `Keeps V V' x`: the change of the store from `V` to `V'` leaves the page `x` as it
is, no live page of `V'` points to it, and its way to the leftmost leaf is kept. -/
def Keeps (V V' : Nat → Option BNode) (x : Nat) : Prop :=
  V' x = V x ∧ NoRef V' x ∧ ∀ c h, V x = some c → Lm V h c → Lm V' h c

/-! ## Lists of bytes -/

theorem getElem?_slice (d : List Nat) (p n i : Nat) :
    (slice d p n)[i]? = if i < n then d[p + i]? else none := by
  simp [slice, List.getElem?_take, List.getElem?_drop]

theorem getElem?_splice (d : List Nat) (p : Nat) (bs : List Nat) (i : Nat) (hp : p ≤ d.length) :
    (splice d p bs)[i]? =
      if i < p then d[i]? else if i < p + bs.length then bs[i - p]? else d[i]? := by
  unfold splice
  rw [List.append_assoc, List.getElem?_append]
  have h1 : (List.take p d).length = p := by simp [hp]
  rw [h1]
  by_cases hi : i < p
  · simp [hi, List.getElem?_take]
  · simp only [hi, if_false]
    rw [List.getElem?_append]
    by_cases h2 : i - p < bs.length
    · have : i < p + bs.length := by omega
      simp [h2, this]
    · have : ¬ i < p + bs.length := by omega
      simp only [h2, this, if_false, List.getElem?_drop]
      congr 1
      omega

theorem length_splice (d : List Nat) (p : Nat) (bs : List Nat) (h : p + bs.length ≤ d.length) :
    (splice d p bs).length = d.length := by
  simp [splice]
  omega

theorem length_slice (d : List Nat) (p n : Nat) (h : p + n ≤ d.length) :
    (slice d p n).length = n := by
  simp [slice]
  omega

theorem slice_splice_disjoint (d : List Nat) (p : Nat) (bs : List Nat) (q w : Nat)
    (hp : p ≤ d.length) (h : q + w ≤ p ∨ p + bs.length ≤ q) :
    slice (splice d p bs) q w = slice d q w := by
  apply List.ext_getElem?
  intro i
  rw [getElem?_slice, getElem?_slice, getElem?_splice d p bs (q + i) hp]
  by_cases hi : i < w
  · simp only [hi, if_true]
    rcases h with h | h
    · have : q + i < p := by omega
      simp [this]
    · have h1 : ¬ q + i < p := by omega
      have h2 : ¬ q + i < p + bs.length := by omega
      simp [h1, h2]
  · simp [hi]

theorem slice_splice_inside (d : List Nat) (p : Nat) (bs : List Nat) (k w : Nat)
    (hp : p ≤ d.length) (h : k + w ≤ bs.length) :
    slice (splice d p bs) (p + k) w = slice bs k w := by
  apply List.ext_getElem?
  intro i
  rw [getElem?_slice, getElem?_slice, getElem?_splice d p bs (p + k + i) hp]
  by_cases hi : i < w
  · have h1 : ¬ p + k + i < p := by omega
    have h2 : p + k + i < p + bs.length := by omega
    have h3 : p + k + i - p = k + i := by omega
    simp [hi, h1, h2, h3]
  · simp [hi]

theorem slice_splice_same (d : List Nat) (p : Nat) (bs : List Nat)
    (hp : p ≤ d.length) : slice (splice d p bs) p bs.length = bs := by
  have := slice_splice_inside d p bs 0 bs.length hp (by omega)
  simpa [slice] using this

theorem slice_slice (d : List Nat) (b m k w : Nat) (h : k + w ≤ m) :
    slice (slice d b m) k w = slice d (b + k) w := by
  apply List.ext_getElem?
  intro i
  rw [getElem?_slice, getElem?_slice, getElem?_slice]
  by_cases hi : i < w
  · have : k + i < m := by omega
    simp [hi, this, Nat.add_assoc]
  · simp [hi]

theorem slice_append (d : List Nat) (p a b : Nat) :
    slice d p (a + b) = slice d p a ++ slice d (p + a) b := by
  simp only [slice]
  rw [List.take_add, List.drop_drop]

theorem slice_zero_length (d : List Nat) (p : Nat) : slice d p 0 = [] := by simp [slice]

theorem slice_full (d : List Nat) : slice d 0 d.length = d := by simp [slice]

theorem slice_replicate (n p w : Nat) (h : p + w ≤ n) :
    slice (List.replicate n 0) p w = List.replicate w 0 := by
  apply List.ext_getElem?
  intro i
  rw [getElem?_slice]
  simp only [List.getElem?_replicate]
  by_cases hi : i < w
  · have : p + i < n := by omega
    simp [hi, this]
  · simp [hi]

theorem length_leBytes (w v : Nat) : (leBytes w v).length = w := by
  induction w generalizing v with
  | zero => rfl
  | succ w ih => simp [leBytes, ih]

theorem leNat_leBytes (w v : Nat) : leNat (leBytes w v) = v % 256 ^ w := by
  induction w generalizing v with
  | zero => simp [leBytes, leNat, Nat.mod_one]
  | succ w ih =>
    simp only [leBytes, leNat, ih]
    rw [pow_succ, Nat.mul_comm (256 ^ w) 256, Nat.mod_mul]

theorem leNat_replicate_zero (w : Nat) : leNat (List.replicate w 0) = 0 := by
  induction w with
  | zero => rfl
  | succ w ih => simp [List.replicate_succ, leNat, ih]

/-! ## The result monad -/

@[simp] theorem Res.ok_bind {α β : Type} (a : α) (f : α → Res β) : (Res.ok a >>= f) = f a := rfl
@[simp] theorem Res.panic_bind {α β : Type} (f : α → Res β) : (Res.panic >>= f) = Res.panic := rfl
@[simp] theorem Res.timeout_bind {α β : Type} (f : α → Res β) :
    (Res.timeout >>= f) = Res.timeout := rfl
@[simp] theorem Res.pure_eq {α : Type} (a : α) : (pure a : Res α) = Res.ok a := rfl

/-! ## Sizes of entries -/

theorem kvSize_nil : kvSize [] = 0 := rfl

theorem kvSize_cons (e : Entry) (es : List Entry) : kvSize (e :: es) = e.size + kvSize es := by
  simp [kvSize]

theorem kvSize_append (xs ys : List Entry) : kvSize (xs ++ ys) = kvSize xs + kvSize ys := by
  simp [kvSize]

theorem kvSize_take_succ (es : List Entry) (i : Nat) (e : Entry) (h : es[i]? = some e) :
    kvSize (es.take (i + 1)) = kvSize (es.take i) + e.size := by
  induction es generalizing i with
  | nil => simp at h
  | cons x xs ih =>
    cases i with
    | zero =>
      simp at h
      simp [kvSize, h]
    | succ i =>
      simp at h
      simp only [List.take_succ_cons, kvSize_cons, ih i h]
      omega

theorem kvSize_take_le (es : List Entry) (i : Nat) : kvSize (es.take i) ≤ kvSize es := by
  induction es generalizing i with
  | nil => simp
  | cons x xs ih =>
    cases i with
    | zero => simp [kvSize]
    | succ i =>
      simp only [List.take_succ_cons, kvSize_cons]
      have := ih i
      omega

theorem kvSize_take_add_le (es : List Entry) (i : Nat) (e : Entry) (h : es[i]? = some e) :
    kvSize (es.take i) + e.size ≤ kvSize es := by
  rw [← kvSize_take_succ es i e h]
  exact kvSize_take_le es (i + 1)

theorem kvSize_take_mono (es : List Entry) (i j : Nat) (h : i ≤ j) :
    kvSize (es.take i) ≤ kvSize (es.take j) := by
  have := kvSize_take_le (es.take j) i
  rw [List.take_take] at this
  simpa [Nat.min_eq_left h] using this

theorem length_le_kvSize (es : List Entry) : 4 * es.length ≤ kvSize es := by
  induction es with
  | nil => simp [kvSize]
  | cons x xs ih =>
    simp only [kvSize_cons, List.length_cons, Entry.size]
    omega

/-! ## Reading a node that has a layout -/

theorem u16_of_lt {n : Nat} (h : n < 65536) : u16 n = n := Nat.mod_eq_of_lt h

theorem u16sub_of_le {a b : Nat} (hb : b ≤ a) (ha : a < 65536) : u16sub a b = a - b := by
  unfold u16sub
  have : b % 65536 = b := Nat.mod_eq_of_lt (by omega)
  rw [this]
  omega

theorem leNat_leBytes2 {v : Nat} (h : v < 65536) : leNat (leBytes 2 v) = v := by
  rw [leNat_leBytes]
  exact Nat.mod_eq_of_lt (by simpa using h)

theorem leNat_leBytes8 {v : Nat} (h : v < 18446744073709551616) : leNat (leBytes 8 v) = v := by
  rw [leNat_leBytes]
  exact Nat.mod_eq_of_lt (by simpa using h)

namespace WeakLayout

variable {node : BNode} {t n : Nat} {es : List Entry}

theorem n_lt (L : WeakLayout node t n es) : n < 6554 := by
  have := L.small
  omega

theorem nkeys_eq (L : WeakLayout node t n es) : node.nkeys = .ok n := by
  have h1 := L.idx_fits
  have h2 := L.len_le
  have h3 := L.n_lt
  unfold BNode.nkeys BNode.cap
  rw [if_pos (by omega), L.hdr_nkeys, leNat_leBytes2 (by omega)]

theorem btype_eq (L : WeakLayout node t n es) : node.btype = .ok t := by
  have h1 := L.idx_fits
  unfold BNode.btype BNode.u16At
  rw [if_pos (by omega), L.hdr_type, leNat_leBytes2 L.type_lt]

theorem getPtr_eq (L : WeakLayout node t n es) {i : Nat} {e : Entry} (h : es[i]? = some e) :
    node.getPtr i = .ok e.ptr := by
  have h1 := L.idx_fits
  have h2 := L.count
  have h3 := L.n_lt
  have hi : i < es.length := by
    rcases Nat.lt_or_ge i es.length with h | h
    · exact h
    · rw [List.getElem?_eq_none h] at *; contradiction
  unfold BNode.getPtr BNode.u64At
  simp only [HEADER_SIZE]
  rw [u16_of_lt (by omega), if_pos (by omega),
    L.ptrs i e h, leNat_leBytes8 (L.ptr_lt e (List.getElem?_mem h))]

theorem offsetPos_eq (L : WeakLayout node t n es) {i : Nat} (h1 : 1 ≤ i) (h2 : i ≤ n) :
    node.offsetPos i = .ok (4 + 8 * n + 2 * (i - 1)) := by
  have h3 := L.n_lt
  unfold BNode.offsetPos
  rw [L.nkeys_eq]
  simp only [Res.ok_bind, Res.pure_eq, HEADER_SIZE]
  rw [u16sub_of_le h1 (by omega), u16_of_lt (by omega)]

theorem getOffset_eq (L : WeakLayout node t n es) {i : Nat} (h : i ≤ es.length) :
    node.getOffset i = .ok (kvSize (es.take i)) := by
  have h1 := L.idx_fits
  have h2 := L.count
  have h3 := L.small
  unfold BNode.getOffset
  by_cases hi : i = 0
  · simp [hi, kvSize]
  · rw [if_neg hi, L.offsetPos_eq (by omega) (by omega)]
    simp only [Res.ok_bind]
    unfold BNode.u16At
    have h4 := L.offs (i - 1) (by omega)
    have h5 : i - 1 + 1 = i := by omega
    rw [h5] at h4
    have h6 := kvSize_take_le es i
    rw [if_pos (by omega), h4, leNat_leBytes2 (by omega)]

theorem kvPos_eq (L : WeakLayout node t n es) {i : Nat} (h : i ≤ es.length) :
    node.kvPos i = .ok (4 + 10 * n + kvSize (es.take i)) := by
  have h3 := L.small
  have h6 := kvSize_take_le es i
  unfold BNode.kvPos
  rw [L.nkeys_eq, L.getOffset_eq h]
  simp only [Res.ok_bind, Res.pure_eq, HEADER_SIZE]
  rw [u16_of_lt (by omega)]
  congr 1
  omega

theorem nbytes_eq (L : WeakLayout node t n es) (h : es.length = n) :
    node.nbytes = .ok (4 + 10 * n + kvSize es) := by
  unfold BNode.nbytes
  rw [L.nkeys_eq]
  simp only [Res.ok_bind]
  rw [L.kvPos_eq (by omega), ← h, List.take_length]

end WeakLayout

namespace Layout

variable {node : BNode} {t n : Nat} {es : List Entry}

theorem getKey_eq (L : Layout node t n es) {i : Nat} {e : Entry} (h : es[i]? = some e) :
    node.getKey i = .ok e.key := by
  have h1 := L.fits
  have h2 := L.len_le
  have h3 := L.small
  have hi : i < es.length := by
    rcases Nat.lt_or_ge i es.length with h | h
    · exact h
    · rw [List.getElem?_eq_none h] at *; contradiction
  have h5 := kvSize_take_add_le es i e h
  unfold BNode.getKey
  rw [L.kvPos_eq (Nat.le_of_lt hi)]
  simp only [Res.ok_bind]
  unfold BNode.u16At BNode.subFrom BNode.cap
  simp only [Entry.size] at *
  rw [if_pos (by omega), L.klen i e h, leNat_leBytes2 (by omega)]
  simp only [Res.ok_bind]
  rw [u16_of_lt (by omega), if_pos (by omega), L.key i e h]

theorem getVal_eq (L : Layout node t n es) {i : Nat} {e : Entry} (h : es[i]? = some e) :
    node.getVal i = .ok e.val := by
  have h1 := L.fits
  have h2 := L.len_le
  have h3 := L.small
  have hi : i < es.length := by
    rcases Nat.lt_or_ge i es.length with h | h
    · exact h
    · rw [List.getElem?_eq_none h] at *; contradiction
  have h5 := kvSize_take_add_le es i e h
  unfold BNode.getVal
  rw [L.kvPos_eq (Nat.le_of_lt hi)]
  simp only [Res.ok_bind]
  unfold BNode.u16At BNode.subFrom BNode.cap
  simp only [Entry.size] at *
  rw [if_pos (by omega), L.klen i e h, leNat_leBytes2 (by omega)]
  simp only [Res.ok_bind]
  rw [u16_of_lt (by omega), if_pos (by omega), L.vlen i e h, leNat_leBytes2 (by omega)]
  simp only [Res.ok_bind]
  rw [u16_of_lt (by omega), if_pos (by omega), L.val i e h]

end Layout

/-! ## Writing into a node -/

theorem Upd.of_splice (d : List Nat) (p : Nat) (bs : List Nat) (h : p + bs.length ≤ d.length) :
    Upd d (splice d p bs) p bs.length :=
  ⟨length_splice d p bs h, fun q m hd => slice_splice_disjoint d p bs q m (by omega) hd⟩

theorem Upd.refl (d : List Nat) (p w : Nat) : Upd d d p w := ⟨rfl, fun _ _ _ => rfl⟩

theorem Upd.trans {d d' d'' : List Nat} {p w p' w' a b : Nat} (h1 : Upd d d' p w)
    (h2 : Upd d' d'' p' w') (ha : a ≤ p ∧ a ≤ p') (hb : p + w ≤ a + b ∧ p' + w' ≤ a + b) :
    Upd d d'' a b :=
  ⟨h2.1.trans h1.1, fun q m hd => by
    rw [h2.2 q m (by omega), h1.2 q m (by omega)]⟩

theorem Upd.widen {d d' : List Nat} {p w a b : Nat} (h : Upd d d' p w) (ha : a ≤ p)
    (hb : p + w ≤ a + b) : Upd d d' a b :=
  ⟨h.1, fun q m hd => h.2 q m (by omega)⟩

theorem putU16_spec (node : BNode) (pos v : Nat) (h1 : pos + 2 ≤ node.len)
    (h2 : node.len ≤ node.data.length) :
    ∃ node', node.putU16 pos v = .ok node' ∧ node'.len = node.len ∧
      Upd node.data node'.data pos 2 ∧ slice node'.data pos 2 = leBytes 2 v := by
  refine ⟨_, if_pos h1, rfl, ?_, ?_⟩
  · have := Upd.of_splice node.data pos (leBytes 2 v) (by rw [length_leBytes]; omega)
    rwa [length_leBytes] at this
  · have := slice_splice_same node.data pos (leBytes 2 v) (by omega)
    rwa [length_leBytes] at this

theorem putU64_spec (node : BNode) (pos v : Nat) (h1 : pos + 8 ≤ node.len)
    (h2 : node.len ≤ node.data.length) :
    ∃ node', node.putU64 pos v = .ok node' ∧ node'.len = node.len ∧
      Upd node.data node'.data pos 8 ∧ slice node'.data pos 8 = leBytes 8 v := by
  refine ⟨_, if_pos h1, rfl, ?_, ?_⟩
  · have := Upd.of_splice node.data pos (leBytes 8 v) (by rw [length_leBytes]; omega)
    rwa [length_leBytes] at this
  · have := slice_splice_same node.data pos (leBytes 8 v) (by omega)
    rwa [length_leBytes] at this

theorem copyAt_spec (node : BNode) (pos : Nat) (src : List Nat)
    (h1 : pos + src.length ≤ node.len) (h2 : node.len ≤ node.data.length) :
    ∃ node', node.copyAt pos src = .ok node' ∧ node'.len = node.len ∧
      Upd node.data node'.data pos src.length ∧ slice node'.data pos src.length = src := by
  have ht : src.take (node.len - pos) = src := List.take_of_length_le (by omega)
  refine ⟨_, if_pos (by omega), rfl, ?_, ?_⟩
  · simp only [ht]
    exact Upd.of_splice node.data pos src (by omega)
  · simp only [ht]
    exact slice_splice_same node.data pos src (by omega)

theorem setHeader_spec (node : BNode) (t n : Nat) (h1 : 4 ≤ node.data.length) :
    ∃ node', node.setHeader t n = .ok node' ∧ node'.len = node.len ∧
      Upd node.data node'.data 0 4 ∧ slice node'.data 0 2 = leBytes 2 t ∧
      slice node'.data 2 2 = leBytes 2 n := by
  have ha := Upd.of_splice node.data 0 (leBytes 2 t) (by rw [length_leBytes]; omega)
  have hb := Upd.of_splice (splice node.data 0 (leBytes 2 t)) 2 (leBytes 2 n)
    (by rw [length_leBytes, ha.1]; omega)
  rw [length_leBytes] at ha hb
  refine ⟨_, if_pos h1, rfl, Upd.trans ha hb (by omega) (by omega), ?_, ?_⟩
  · show slice (splice (splice node.data 0 (leBytes 2 t)) 2 (leBytes 2 n)) 0 2 = _
    rw [hb.2 0 2 (by omega)]
    have := slice_splice_same node.data 0 (leBytes 2 t) (by omega)
    rwa [length_leBytes] at this
  · show slice (splice (splice node.data 0 (leBytes 2 t)) 2 (leBytes 2 n)) 2 2 = _
    have := slice_splice_same (splice node.data 0 (leBytes 2 t)) 2 (leBytes 2 n)
      (by rw [ha.1]; omega)
    rwa [length_leBytes] at this

/-! ## Layouts under writes -/

theorem getElem?_lt {es : List Entry} {i : Nat} {e : Entry} (h : es[i]? = some e) :
    i < es.length := by
  rcases Nat.lt_or_ge i es.length with h' | h'
  · exact h'
  · rw [List.getElem?_eq_none h'] at h; contradiction

/-- A write outside the places of the pointers and offsets of `es` keeps the weak
layout. -/
theorem WeakLayout.frame_weak {node node' : BNode} {t n : Nat} {es : List Entry} {p w : Nat}
    (L : WeakLayout node t n es) (hlen : node'.len = node.len)
    (U : Upd node.data node'.data p w)
    (hd : (4 + 8 * es.length ≤ p ∧ p + w ≤ 4 + 8 * n) ∨
      (4 + 8 * n + 2 * es.length ≤ p ∧ p + w ≤ 4 + 10 * n) ∨ 4 + 10 * n ≤ p) :
    WeakLayout node' t n es where
  len_le := by rw [hlen, U.1]; exact L.len_le
  count := L.count
  idx_fits := by rw [hlen]; exact L.idx_fits
  small := L.small
  type_lt := L.type_lt
  ptr_lt := L.ptr_lt
  hdr_type := by rw [U.2 _ _ (by omega), L.hdr_type]
  hdr_nkeys := by rw [U.2 _ _ (by omega), L.hdr_nkeys]
  ptrs := fun i e h => by
    have := getElem?_lt h
    have := L.count
    rw [U.2 _ _ (by omega), L.ptrs i e h]
  offs := fun i h => by
    have := L.count
    rw [U.2 _ _ (by omega), L.offs i h]

/-- A write outside the places of the entries `es` keeps the layout. -/
theorem Layout.frame {node node' : BNode} {t n : Nat} {es : List Entry} {p w : Nat}
    (L : Layout node t n es) (hlen : node'.len = node.len) (U : Upd node.data node'.data p w)
    (hd : (4 + 8 * es.length ≤ p ∧ p + w ≤ 4 + 8 * n) ∨
      (4 + 8 * n + 2 * es.length ≤ p ∧ p + w ≤ 4 + 10 * n) ∨
      4 + 10 * n + kvSize es ≤ p) :
    Layout node' t n es where
  toWeakLayout := L.toWeakLayout.frame_weak hlen U (by omega)
  fits := by rw [hlen]; exact L.fits
  klen := fun i e h => by
    have := kvSize_take_add_le es i e h
    simp only [Entry.size] at this
    rw [U.2 _ _ (by omega), L.klen i e h]
  vlen := fun i e h => by
    have := kvSize_take_add_le es i e h
    simp only [Entry.size] at this
    rw [U.2 _ _ (by omega), L.vlen i e h]
  key := fun i e h => by
    have := kvSize_take_add_le es i e h
    simp only [Entry.size] at this
    rw [U.2 _ _ (by omega), L.key i e h]
  val := fun i e h => by
    have := kvSize_take_add_le es i e h
    simp only [Entry.size] at this
    rw [U.2 _ _ (by omega), L.val i e h]

theorem take_append_ge {es xs : List Entry} {i : Nat} (h : es.length ≤ i) :
    (es ++ xs).take i = es ++ xs.take (i - es.length) := by
  rw [List.take_append_eq_append_take, List.take_of_length_le h]

/-- Extend a weak layout by entries whose pointers and offsets are in place. -/
theorem WeakLayout.append_weak {node : BNode} {t n : Nat} {es : List Entry}
    (L : WeakLayout node t n es) (xs : List Entry) (hcount : es.length + xs.length ≤ n)
    (hsmall : 4 + 10 * n + kvSize es + kvSize xs < 65536)
    (hplt : ∀ x ∈ xs, x.ptr < 18446744073709551616)
    (hptr : ∀ j x, xs[j]? = some x →
      slice node.data (4 + 8 * (es.length + j)) 8 = leBytes 8 x.ptr)
    (hoff : ∀ j, j < xs.length → slice node.data (4 + 8 * n + 2 * (es.length + j)) 2 =
      leBytes 2 (kvSize es + kvSize (xs.take (j + 1)))) :
    WeakLayout node t n (es ++ xs) where
  len_le := L.len_le
  count := by simpa using hcount
  idx_fits := L.idx_fits
  small := by rw [kvSize_append]; omega
  type_lt := L.type_lt
  ptr_lt := fun e he => by
    rcases List.mem_append.1 he with h | h
    · exact L.ptr_lt e h
    · exact hplt e h
  hdr_type := L.hdr_type
  hdr_nkeys := L.hdr_nkeys
  ptrs := fun i e h => by
    by_cases hi : i < es.length
    · rw [List.getElem?_append_left hi] at h
      exact L.ptrs i e h
    · rw [List.getElem?_append_right (by omega)] at h
      have := hptr _ _ h
      rwa [show es.length + (i - es.length) = i by omega] at this
  offs := fun i h => by
    by_cases hi : i < es.length
    · rw [List.take_append_of_le_length (by omega)]
      exact L.offs i hi
    · rw [take_append_ge (by omega), kvSize_append]
      have := hoff (i - es.length) (by simp at h; omega)
      rwa [show es.length + (i - es.length) = i by omega,
        show i - es.length + 1 = i + 1 - es.length by omega] at this

/-- Extend a layout by entries whose bytes are in place. -/
theorem Layout.append {node : BNode} {t n : Nat} {es : List Entry} (L : Layout node t n es)
    (xs : List Entry) (hcount : es.length + xs.length ≤ n)
    (hfits : 4 + 10 * n + kvSize es + kvSize xs ≤ node.len)
    (hsmall : 4 + 10 * n + kvSize es + kvSize xs < 65536)
    (hplt : ∀ x ∈ xs, x.ptr < 18446744073709551616)
    (hptr : ∀ j x, xs[j]? = some x →
      slice node.data (4 + 8 * (es.length + j)) 8 = leBytes 8 x.ptr)
    (hoff : ∀ j, j < xs.length → slice node.data (4 + 8 * n + 2 * (es.length + j)) 2 =
      leBytes 2 (kvSize es + kvSize (xs.take (j + 1))))
    (hklen : ∀ j x, xs[j]? = some x →
      slice node.data (4 + 10 * n + kvSize es + kvSize (xs.take j)) 2 = leBytes 2 x.key.length)
    (hvlen : ∀ j x, xs[j]? = some x →
      slice node.data (4 + 10 * n + kvSize es + kvSize (xs.take j) + 2) 2 =
        leBytes 2 x.val.length)
    (hkey : ∀ j x, xs[j]? = some x →
      slice node.data (4 + 10 * n + kvSize es + kvSize (xs.take j) + 4) x.key.length = x.key)
    (hval : ∀ j x, xs[j]? = some x →
      slice node.data (4 + 10 * n + kvSize es + kvSize (xs.take j) + 4 + x.key.length)
        x.val.length = x.val) :
    Layout node t n (es ++ xs) where
  toWeakLayout := L.toWeakLayout.append_weak xs hcount hsmall hplt hptr hoff
  fits := by rw [kvSize_append]; omega
  klen := fun i e h => by
    by_cases hi : i < es.length
    · rw [List.getElem?_append_left hi] at h
      rw [List.take_append_of_le_length (by omega)]
      exact L.klen i e h
    · rw [List.getElem?_append_right (by omega)] at h
      rw [take_append_ge (by omega), kvSize_append, ← Nat.add_assoc]
      exact hklen _ _ h
  vlen := fun i e h => by
    by_cases hi : i < es.length
    · rw [List.getElem?_append_left hi] at h
      rw [List.take_append_of_le_length (by omega)]
      exact L.vlen i e h
    · rw [List.getElem?_append_right (by omega)] at h
      rw [take_append_ge (by omega), kvSize_append, ← Nat.add_assoc]
      exact hvlen _ _ h
  key := fun i e h => by
    by_cases hi : i < es.length
    · rw [List.getElem?_append_left hi] at h
      rw [List.take_append_of_le_length (by omega)]
      exact L.key i e h
    · rw [List.getElem?_append_right (by omega)] at h
      rw [take_append_ge (by omega), kvSize_append, ← Nat.add_assoc]
      exact hkey _ _ h
  val := fun i e h => by
    by_cases hi : i < es.length
    · rw [List.getElem?_append_left hi] at h
      rw [List.take_append_of_le_length (by omega)]
      exact L.val i e h
    · rw [List.getElem?_append_right (by omega)] at h
      rw [take_append_ge (by omega), kvSize_append, ← Nat.add_assoc]
      exact hval _ _ h

theorem setPtr_spec (node : BNode) (idx v : Nat) (h0 : idx < 8000)
    (h1 : 4 + 8 * idx + 8 ≤ node.len) (h2 : node.len ≤ node.data.length) :
    ∃ node', node.setPtr idx v = .ok node' ∧ node'.len = node.len ∧
      Upd node.data node'.data (4 + 8 * idx) 8 ∧
      slice node'.data (4 + 8 * idx) 8 = leBytes 8 v := by
  unfold BNode.setPtr
  simp only [HEADER_SIZE]
  rw [u16_of_lt (by omega)]
  exact putU64_spec node _ v h1 h2

theorem WeakLayout.setOffset_weak {node : BNode} {t n : Nat} {es : List Entry}
    (L : WeakLayout node t n es) (idx v : Nat) (h1 : 1 ≤ idx) (h2 : idx ≤ n) :
    ∃ node', node.setOffset idx v = .ok node' ∧ node'.len = node.len ∧
      Upd node.data node'.data (4 + 8 * n + 2 * (idx - 1)) 2 ∧
      slice node'.data (4 + 8 * n + 2 * (idx - 1)) 2 = leBytes 2 v := by
  unfold BNode.setOffset
  rw [L.offsetPos_eq h1 h2]
  simp only [Res.ok_bind]
  have := L.idx_fits
  exact putU16_spec node _ v (by omega) L.len_le

theorem Layout.setOffset_spec {node : BNode} {t n : Nat} {es : List Entry}
    (L : Layout node t n es) (idx v : Nat) (h1 : 1 ≤ idx) (h2 : idx ≤ n) :
    ∃ node', node.setOffset idx v = .ok node' ∧ node'.len = node.len ∧
      Upd node.data node'.data (4 + 8 * n + 2 * (idx - 1)) 2 ∧
      slice node'.data (4 + 8 * n + 2 * (idx - 1)) 2 = leBytes 2 v :=
  L.toWeakLayout.setOffset_weak idx v h1 h2

/-- Appending one entry with `nodeAppendKV` at the index that follows the entries
already in place puts the entry in place. -/
theorem nodeAppendKV_spec {node : BNode} {t n : Nat} {es : List Entry}
    (L : Layout node t n es) (e : Entry) (hcount : es.length < n)
    (hfits : 4 + 10 * n + kvSize es + e.size ≤ node.len)
    (hsmall : 4 + 10 * n + kvSize es + e.size < 65536)
    (hp : e.ptr < 18446744073709551616) :
    ∃ node', nodeAppendKV node es.length e.ptr e.key e.val = .ok node' ∧
      node'.len = node.len ∧ node'.data.length = node.data.length ∧
      Layout node' t n (es ++ [e]) := by
  have hn := L.n_lt
  have hsz : e.size = 4 + e.key.length + e.val.length := rfl
  -- the pointer
  obtain ⟨n1, e1, l1, U1, w1⟩ := setPtr_spec node es.length e.ptr (by omega)
    (by have := L.fits; omega) L.len_le
  have L1 : Layout n1 t n es := L.frame l1 U1 (by omega)
  have hkv : n1.kvPos es.length = .ok (4 + 10 * n + kvSize es) := by
    rw [L1.kvPos_eq (Nat.le_refl _), List.take_length]
  have hoff : n1.getOffset es.length = .ok (kvSize es) := by
    rw [L1.getOffset_eq (Nat.le_refl _), List.take_length]
  -- the next offset
  obtain ⟨n2, e2, l2, U2, w2⟩ := L1.setOffset_spec (es.length + 1)
    (kvSize es + e.size) (by omega) (by omega)
  have L2 : Layout n2 t n es := L1.frame l2 U2 (by omega)
  -- the two lengths
  obtain ⟨n3, e3, l3, U3, w3⟩ := putU16_spec n2 (4 + 10 * n + kvSize es) e.key.length
    (by omega) L2.len_le
  have L3 : Layout n3 t n es := L2.frame l3 U3 (by omega)
  obtain ⟨n4, e4, l4, U4, w4⟩ := putU16_spec n3 (4 + 10 * n + kvSize es + 2) e.val.length
    (by omega) L3.len_le
  have L4 : Layout n4 t n es := L3.frame l4 U4 (by omega)
  -- key and value
  obtain ⟨n5, e5, l5, U5, w5⟩ := copyAt_spec n4 (4 + 10 * n + kvSize es + 4) e.key
    (by omega) L4.len_le
  have L5 : Layout n5 t n es := L4.frame l5 U5 (by omega)
  obtain ⟨n6, e6, l6, U6, w6⟩ := copyAt_spec n5 (4 + 10 * n + kvSize es + 4 + e.key.length)
    e.val (by omega) L5.len_le
  have L6 : Layout n6 t n es := L5.frame l6 U6 (by omega)
  refine ⟨n6, ?_, by omega, ?_, ?_⟩
  · unfold nodeAppendKV
    rw [e1]
    simp only [Res.ok_bind, hkv, hoff]
    rw [u16_of_lt (show es.length + 1 < 65536 by omega),
      u16_of_lt (show e.key.length < 65536 by omega),
      u16_of_lt (show e.val.length < 65536 by omega),
      u16_of_lt (show kvSize es + 4 + e.key.length + e.val.length < 65536 by omega),
      show kvSize es + 4 + e.key.length + e.val.length = kvSize es + e.size by omega, e2]
    simp only [Res.ok_bind]
    rw [e3]
    simp only [Res.ok_bind]
    rw [u16_of_lt (show 4 + 10 * n + kvSize es + 2 < 65536 by omega), e4]
    simp only [Res.ok_bind]
    rw [u16_of_lt (show 4 + 10 * n + kvSize es + 4 < 65536 by omega), e5]
    simp only [Res.ok_bind]
    rw [u16_of_lt (show 4 + 10 * n + kvSize es + 4 + e.key.length < 65536 by omega), e6]
  · rw [U6.1, U5.1, U4.1, U3.1, U2.1, U1.1]
  · have one : ∀ {j : Nat} {x : Entry}, [e][j]? = some x → j = 0 ∧ x = e := by
      intro j x h
      cases j with
      | zero => simp at h; exact ⟨rfl, h.symm⟩
      | succ j => simp at h
    refine L6.append [e] (by simpa using hcount) ?_ ?_ ?_ ?_ ?_ ?_ ?_ ?_ ?_
    · rw [l6, l5, l4, l3, l2, l1]; simpa [kvSize] using hfits
    · simpa [kvSize] using hsmall
    · intro x hx; simp at hx; rw [hx]; exact hp
    · intro j x h
      obtain ⟨rfl, rfl⟩ := one h
      rw [U6.2 _ _ (by omega), U5.2 _ _ (by omega), U4.2 _ _ (by omega),
        U3.2 _ _ (by omega), U2.2 _ _ (by omega)]
      exact w1
    · intro j h
      have hj : j = 0 := by simp at h; exact h
      subst hj
      rw [U6.2 _ _ (by omega), U5.2 _ _ (by omega), U4.2 _ _ (by omega),
        U3.2 _ _ (by omega)]
      simpa [kvSize] using w2
    · intro j x h
      obtain ⟨rfl, rfl⟩ := one h
      simp only [List.take_zero, kvSize_nil, Nat.add_zero]
      rw [U6.2 _ _ (by omega), U5.2 _ _ (by omega), U4.2 _ _ (by omega)]
      exact w3
    · intro j x h
      obtain ⟨rfl, rfl⟩ := one h
      simp only [List.take_zero, kvSize_nil, Nat.add_zero]
      rw [U6.2 _ _ (by omega), U5.2 _ _ (by omega)]
      exact w4
    · intro j x h
      obtain ⟨rfl, rfl⟩ := one h
      simp only [List.take_zero, kvSize_nil, Nat.add_zero]
      rw [U6.2 _ _ (by omega)]
      exact w5
    · intro j x h
      obtain ⟨rfl, rfl⟩ := one h
      simp only [List.take_zero, kvSize_nil, Nat.add_zero]
      exact w6

/-- A fresh header on any buffer that is large enough gives the layout with no entry. -/
theorem setHeader_layout (buf : BNode) (t n : Nat) (hlen : buf.len ≤ buf.data.length)
    (ht : t < 65536) (hfits : 4 + 10 * n ≤ buf.len) (hsmall : 4 + 10 * n < 65536) :
    ∃ node, buf.setHeader t n = .ok node ∧ node.len = buf.len ∧
      node.data.length = buf.data.length ∧ Layout node t n [] := by
  obtain ⟨node, e, l, U, w1, w2⟩ := setHeader_spec buf t n (by omega)
  refine ⟨node, e, l, U.1, ?_⟩
  exact {
    len_le := by rw [l, U.1]; exact hlen
    count := Nat.zero_le _
    idx_fits := by rw [l]; exact hfits
    fits := by rw [l]; simpa [kvSize] using hfits
    small := by simpa [kvSize] using hsmall
    type_lt := ht
    ptr_lt := fun e he => by simp at he
    hdr_type := w1
    hdr_nkeys := w2
    ptrs := fun i e h => by simp at h
    offs := fun i h => by simp at h
    klen := fun i e h => by simp at h
    vlen := fun i e h => by simp at h
    key := fun i e h => by simp at h
    val := fun i e h => by simp at h }

theorem appendEntries_spec (xs : List Entry) : ∀ {node : BNode} {t n : Nat} {es : List Entry},
    Layout node t n es → es.length + xs.length ≤ n →
    4 + 10 * n + kvSize es + kvSize xs ≤ node.len →
    4 + 10 * n + kvSize es + kvSize xs < 65536 →
    (∀ x ∈ xs, x.ptr < 18446744073709551616) →
    ∃ node', appendEntries xs es.length node = .ok node' ∧ node'.len = node.len ∧
      node'.data.length = node.data.length ∧ Layout node' t n (es ++ xs) := by
  induction xs with
  | nil =>
    intro node t n es L _ _ _ _
    exact ⟨node, rfl, rfl, rfl, by simpa using L⟩
  | cons x xs ih =>
    intro node t n es L hc hf hs hp
    rw [kvSize_cons] at hf hs
    simp only [List.length_cons] at hc
    obtain ⟨n1, e1, l1, c1, L1⟩ := nodeAppendKV_spec L x (by omega) (by omega) (by omega)
      (hp x (List.mem_cons_self _ _))
    obtain ⟨n2, e2, l2, c2, L2⟩ := ih L1 (by simp; omega)
      (by rw [kvSize_append, l1]; simp only [kvSize_cons, kvSize_nil]; omega)
      (by rw [kvSize_append]; simp only [kvSize_cons, kvSize_nil]; omega)
      (fun y hy => hp y (List.mem_cons_of_mem _ hy))
    refine ⟨n2, ?_, by omega, by omega, by simpa using L2⟩
    unfold appendEntries
    rw [e1]
    simp only [Res.ok_bind]
    simpa using e2

theorem make_len (n : Nat) : (BNode.make n).len = n := rfl

theorem make_length (n : Nat) : (BNode.make n).data.length = n := by simp [BNode.make]

/-- Every node built by the helpers has the layout of its entries. -/
theorem buildNode_layout (size t : Nat) (es : List Entry) (ht : t < 65536)
    (hp : ∀ e ∈ es, e.ptr < 18446744073709551616)
    (hfits : 4 + 10 * es.length + kvSize es ≤ size)
    (hsmall : 4 + 10 * es.length + kvSize es < 65536) :
    ∃ node, buildNode (BNode.make size) t es = .ok node ∧ node.len = size ∧
      node.data.length = size ∧ Layout node t es.length es := by
  obtain ⟨n0, e0, l0, c0, L0⟩ := setHeader_layout (BNode.make size) t es.length
    (by rw [make_len, make_length]) ht (by rw [make_len]; omega) (by omega)
  rw [make_len] at l0
  rw [make_length] at c0
  obtain ⟨n1, e1, l1, c1, L1⟩ := appendEntries_spec es L0 (by simp)
    (by simp only [kvSize_nil]; omega) (by simp only [kvSize_nil]; omega) hp
  refine ⟨n1, ?_, by omega, by omega, by simpa using L1⟩
  unfold buildNode
  rw [e0]
  simpa using e1

/-- **C9** Codec round trip.  For every type `t`, every list `es` of `n` entries with
`uint64` pointers and every zero-filled buffer of `size < 2^16` bytes that the encoded
size `4 + 10 n + Σ (4 + |key| + |val|)` fits, the node built by `setHeader(t, n)` and
`nodeAppendKV` for the indices `0 .. n-1` reads back as it was written: `btype() = t`,
`nkeys() = n`, and for every `i < n` the pointer, key and value of entry `i` and
`getOffset(i+1) = getOffset(i) + 4 + |key_i| + |val_i|`. -/
theorem codec_round_trip (size t : Nat) (es : List Entry) (hsize : size < 65536)
    (ht : t < 65536) (hp : ∀ e ∈ es, e.ptr < 18446744073709551616)
    (hfits : 4 + 10 * es.length + kvSize es ≤ size) :
    ∃ node, buildNode (BNode.make size) t es = .ok node ∧
      node.btype = .ok t ∧ node.nkeys = .ok es.length ∧
      ∀ i e, es[i]? = some e →
        node.getPtr i = .ok e.ptr ∧ node.getKey i = .ok e.key ∧ node.getVal i = .ok e.val ∧
        ∃ off, node.getOffset i = .ok off ∧
          node.getOffset (i + 1) = .ok (off + 4 + e.key.length + e.val.length) := by
  obtain ⟨node, e, _, _, L⟩ := buildNode_layout size t es ht hp hfits (by omega)
  refine ⟨node, e, L.btype_eq, L.nkeys_eq, fun i x h => ?_⟩
  have hi := getElem?_lt h
  refine ⟨L.getPtr_eq h, L.getKey_eq h, L.getVal_eq h, kvSize (es.take i),
    L.getOffset_eq (by omega), ?_⟩
  rw [L.getOffset_eq (by omega), kvSize_take_succ es i x h]
  simp only [Entry.size]
  congr 1
  omega

theorem codec_round_trip_witness :
    ∃ node, buildNode (BNode.make 4096) 2 [⟨0, [], []⟩, ⟨7, [107], [118, 49]⟩] = .ok node ∧
      node.btype = .ok 2 ∧ node.nkeys = .ok 2 ∧
      ∀ i e, [(⟨0, [], []⟩ : Entry), ⟨7, [107], [118, 49]⟩][i]? = some e →
        node.getPtr i = .ok e.ptr ∧ node.getKey i = .ok e.key ∧ node.getVal i = .ok e.val ∧
        ∃ off, node.getOffset i = .ok off ∧
          node.getOffset (i + 1) = .ok (off + 4 + e.key.length + e.val.length) :=
  codec_round_trip 4096 2 [⟨0, [], []⟩, ⟨7, [107], [118, 49]⟩] (by decide) (by decide)
    (by decide) (by decide)

/-! ## The order of `bytes.Compare` -/

theorem bytesCompare_cons_lt {x y : Nat} (xs ys : List Nat) (h : x < y) :
    bytesCompare (x :: xs) (y :: ys) = -1 := by
  simp [bytesCompare, h]

theorem bytesCompare_cons_gt {x y : Nat} (xs ys : List Nat) (h : y < x) :
    bytesCompare (x :: xs) (y :: ys) = 1 := by
  have : ¬ x < y := by omega
  simp [bytesCompare, h, this]

theorem bytesCompare_cons_eq (x : Nat) (xs ys : List Nat) :
    bytesCompare (x :: xs) (x :: ys) = bytesCompare xs ys := by
  simp [bytesCompare]

theorem bytesCompare_self (a : List Nat) : bytesCompare a a = 0 := by
  induction a with
  | nil => rfl
  | cons x xs ih => rw [bytesCompare_cons_eq, ih]

theorem bytesCompare_eq_zero {a b : List Nat} (h : bytesCompare a b = 0) : a = b := by
  induction a generalizing b with
  | nil =>
    cases b with
    | nil => rfl
    | cons y ys => simp [bytesCompare] at h
  | cons x xs ih =>
    cases b with
    | nil => simp [bytesCompare] at h
    | cons y ys =>
      rcases Nat.lt_trichotomy x y with hxy | hxy | hxy
      · rw [bytesCompare_cons_lt xs ys hxy] at h; omega
      · subst hxy
        rw [bytesCompare_cons_eq] at h
        rw [ih h]
      · rw [bytesCompare_cons_gt xs ys hxy] at h; omega

theorem bytesCompare_swap {a b : List Nat} (h : bytesCompare a b < 0) :
    0 < bytesCompare b a := by
  induction a generalizing b with
  | nil =>
    cases b with
    | nil => simp [bytesCompare] at h
    | cons y ys => simp [bytesCompare]
  | cons x xs ih =>
    cases b with
    | nil => simp [bytesCompare] at h
    | cons y ys =>
      rcases Nat.lt_trichotomy x y with hxy | hxy | hxy
      · rw [bytesCompare_cons_gt ys xs hxy]; omega
      · subst hxy
        rw [bytesCompare_cons_eq] at h ⊢
        exact ih h
      · rw [bytesCompare_cons_gt xs ys hxy] at h; omega

theorem bytesCompare_swap_pos {a b : List Nat} (h : 0 < bytesCompare a b) :
    bytesCompare b a < 0 := by
  induction a generalizing b with
  | nil =>
    cases b with
    | nil => simp [bytesCompare] at h
    | cons y ys => simp [bytesCompare] at h
  | cons x xs ih =>
    cases b with
    | nil => simp [bytesCompare]
    | cons y ys =>
      rcases Nat.lt_trichotomy x y with hxy | hxy | hxy
      · rw [bytesCompare_cons_lt xs ys hxy] at h; omega
      · subst hxy
        rw [bytesCompare_cons_eq] at h ⊢
        exact ih h
      · rw [bytesCompare_cons_lt ys xs hxy]; omega

theorem bytesCompare_lt_trans {a b c : List Nat} (h1 : bytesCompare a b < 0)
    (h2 : bytesCompare b c < 0) : bytesCompare a c < 0 := by
  induction a generalizing b c with
  | nil =>
    cases c with
    | nil =>
      cases b with
      | nil => simp [bytesCompare] at h1
      | cons y ys => simp [bytesCompare] at h2
    | cons z zs => simp [bytesCompare]
  | cons x xs ih =>
    cases b with
    | nil => simp [bytesCompare] at h1
    | cons y ys =>
      cases c with
      | nil => simp [bytesCompare] at h2
      | cons z zs =>
        rcases Nat.lt_trichotomy x y with hxy | hxy | hxy
        · rcases Nat.lt_trichotomy y z with hyz | hyz | hyz
          · rw [bytesCompare_cons_lt xs zs (by omega)]; omega
          · subst hyz
            rw [bytesCompare_cons_lt xs zs hxy]; omega
          · rw [bytesCompare_cons_gt ys zs hyz] at h2; omega
        · subst hxy
          rcases Nat.lt_trichotomy x z with hyz | hyz | hyz
          · rw [bytesCompare_cons_lt xs zs hyz]; omega
          · subst hyz
            rw [bytesCompare_cons_eq] at h1 h2 ⊢
            exact ih h1 h2
          · rw [bytesCompare_cons_gt ys zs hyz] at h2; omega
        · rw [bytesCompare_cons_gt xs ys hxy] at h1; omega

theorem bytesCompare_le_lt_trans {a b c : List Nat} (h1 : bytesCompare a b ≤ 0)
    (h2 : bytesCompare b c < 0) : bytesCompare a c < 0 := by
  rcases Int.lt_trichotomy (bytesCompare a b) 0 with h | h | h
  · exact bytesCompare_lt_trans h h2
  · rw [bytesCompare_eq_zero h]; exact h2
  · omega

theorem bytesCompare_lt_le_trans {a b c : List Nat} (h1 : bytesCompare a b < 0)
    (h2 : bytesCompare b c ≤ 0) : bytesCompare a c < 0 := by
  rcases Int.lt_trichotomy (bytesCompare b c) 0 with h | h | h
  · exact bytesCompare_lt_trans h1 h
  · rw [← bytesCompare_eq_zero h]; exact h1
  · omega

/-- In a strictly increasing run of keys a later key is greater. -/
theorem keys_lt_of_lt (keys : Nat → List Nat) (n : Nat)
    (hinc : ∀ i, 1 ≤ i → i + 1 < n → bytesCompare (keys i) (keys (i + 1)) < 0)
    (i j : Nat) (hi : 1 ≤ i) (hij : i < j) (hj : j < n) :
    bytesCompare (keys i) (keys j) < 0 := by
  induction j with
  | zero => omega
  | succ j ih =>
    rcases Nat.lt_or_ge i j with h | h
    · exact bytesCompare_lt_trans (ih h (by omega)) (hinc j (by omega) hj)
    · have : i = j := by omega
      subst this
      exact hinc i hi hj

/-! ## `nodeLookupLE` -/

theorem lookupLoop_spec (node : BNode) (target : List Nat) (n : Nat) (keys : Nat → List Nat)
    (hk : ∀ i, 1 ≤ i → i < n → node.getKey i = .ok (keys i))
    (hinc : ∀ i, 1 ≤ i → i + 1 < n → bytesCompare (keys i) (keys (i + 1)) < 0)
    (rem : Nat) : ∀ i, 1 ≤ i → i + rem = max n 1 →
    (∀ j, 1 ≤ j → j < i → bytesCompare (keys j) target < 0) →
    ∃ r, lookupLoop node target rem i (i - 1) = .ok r ∧ r < max n 1 ∧
      (∀ j, 1 ≤ j → j ≤ r → bytesCompare (keys j) target ≤ 0) ∧
      (∀ j, r < j → j < n → 0 < bytesCompare (keys j) target) := by
  induction rem with
  | zero =>
    intro i hi hrem hprev
    refine ⟨i - 1, rfl, by omega, fun j h1 h2 => ?_, fun j h1 h2 => ?_⟩
    · exact Int.le_of_lt (hprev j h1 (by omega))
    · omega
  | succ rem ih =>
    intro i hi hrem hprev
    have hin : i < n := by omega
    unfold lookupLoop
    rw [hk i hi hin]
    simp only [Res.ok_bind, Res.pure_eq]
    rcases Int.lt_trichotomy (bytesCompare (keys i) target) 0 with hc | hc | hc
    · -- the key is smaller: go on
      have hle : bytesCompare (keys i) target ≤ 0 := by omega
      have hge : ¬ bytesCompare (keys i) target ≥ 0 := by omega
      simp only [hle, hge, if_true, if_false]
      have := ih (i + 1) (by omega) (by omega) (fun j h1 h2 => by
        rcases Nat.lt_or_ge j i with h | h
        · exact hprev j h1 h
        · have : j = i := by omega
          rw [this]; exact hc)
      simpa using this
    · -- the key is the target: stop here
      have hle : bytesCompare (keys i) target ≤ 0 := by omega
      have hge : bytesCompare (keys i) target ≥ 0 := by omega
      simp only [hle, hge, if_true]
      refine ⟨i, rfl, by omega, fun j h1 h2 => ?_, fun j h1 h2 => ?_⟩
      · rcases Nat.lt_or_ge j i with h | h
        · exact Int.le_of_lt (hprev j h1 h)
        · have : j = i := by omega
          rw [this]; omega
      · have h3 := keys_lt_of_lt keys n hinc i j hi h1 h2
        rw [bytesCompare_eq_zero hc] at h3
        exact bytesCompare_swap h3
    · -- the key is greater: stop before it
      have hle : ¬ bytesCompare (keys i) target ≤ 0 := by omega
      have hge : bytesCompare (keys i) target ≥ 0 := by omega
      simp only [hle, hge, if_true, if_false]
      refine ⟨i - 1, rfl, by omega, fun j h1 h2 => ?_, fun j h1 h2 => ?_⟩
      · exact Int.le_of_lt (hprev j h1 (by omega))
      · rcases Nat.lt_or_ge i j with h | h
        · have h3 := keys_lt_of_lt keys n hinc i j hi h h2
          exact bytesCompare_swap (bytesCompare_lt_trans (bytesCompare_swap_pos hc) h3)
        · have : j = i := by omega
          rw [this]; exact hc

/-- **C10** LE-lookup.  For every node with `n` keys of which those at the indices
`1 .. n-1` are readable and strictly increasing in the order of `bytes.Compare`, and
every target key, `nodeLookupLE` returns the greatest index `i` in `1 .. n-1` with
`key[i] ≤ target`, and returns 0 when there is no such index. -/
theorem nodeLookupLE_greatest (node : BNode) (target : List Nat) (n : Nat)
    (keys : Nat → List Nat) (hn : node.nkeys = .ok n)
    (hk : ∀ i, 1 ≤ i → i < n → node.getKey i = .ok (keys i))
    (hinc : ∀ i, 1 ≤ i → i + 1 < n → bytesCompare (keys i) (keys (i + 1)) < 0) :
    ∃ r, nodeLookupLE node target = .ok r ∧
      ((1 ≤ r ∧ r < n ∧ bytesCompare (keys r) target ≤ 0 ∧
          ∀ i, 1 ≤ i → i < n → bytesCompare (keys i) target ≤ 0 → i ≤ r) ∨
        (r = 0 ∧ ∀ i, 1 ≤ i → i < n → ¬ bytesCompare (keys i) target ≤ 0)) := by
  obtain ⟨r, hr, hlt, hle, hgt⟩ := lookupLoop_spec node target n keys hk hinc (n - 1) 1
    (Nat.le_refl 1) (by omega) (fun j h1 h2 => by omega)
  refine ⟨r, ?_, ?_⟩
  · unfold nodeLookupLE
    rw [hn]
    simpa using hr
  · rcases Nat.eq_zero_or_pos r with h0 | hpos
    · right
      refine ⟨h0, fun i h1 h2 h3 => ?_⟩
      have := hgt i (by omega) h2
      omega
    · left
      refine ⟨hpos, by omega, hle r hpos (Nat.le_refl r), fun i h1 h2 h3 => ?_⟩
      rcases Nat.lt_or_ge r i with h | h
      · have := hgt i h h2
        omega
      · exact h

/-! ## The first insert -/

/-- The root leaf that `Insert` builds on an empty tree. -/
theorem firstLeaf_layout (key val : List Nat) (hk : key.length ≤ 1000)
    (hv : val.length ≤ 3000) :
    ∃ n0 n1 root, (BNode.make BTREE_PAGE_SIZE).setHeader BNODE_LEAF 2 = .ok n0 ∧
      nodeAppendKV n0 0 0 [] [] = .ok n1 ∧ nodeAppendKV n1 1 0 key val = .ok root ∧
      root.len = BTREE_PAGE_SIZE ∧
      Layout root BNODE_LEAF 2 [⟨0, [], []⟩, ⟨0, key, val⟩] := by
  obtain ⟨n0, e0, l0, c0, L0⟩ := setHeader_layout (BNode.make BTREE_PAGE_SIZE) BNODE_LEAF 2
    (by rw [make_len, make_length]) (by decide) (by rw [make_len]; decide) (by decide)
  rw [make_len] at l0
  simp only [BTREE_PAGE_SIZE] at l0
  obtain ⟨n1, e1, l1, c1, L1⟩ := nodeAppendKV_spec L0 ⟨0, [], []⟩ (by decide)
    (by simp [kvSize, Entry.size]; omega) (by simp [kvSize, Entry.size]) (by decide)
  obtain ⟨n2, e2, l2, c2, L2⟩ := nodeAppendKV_spec L1 ⟨0, key, val⟩ (by decide)
    (by simp [kvSize, Entry.size]; omega) (by simp [kvSize, Entry.size]; omega) (by simp)
  exact ⟨n0, n1, n2, e0, by simpa using e1, by simpa using e2,
    by simp only [BTREE_PAGE_SIZE]; omega, by simpa using L2⟩

theorem MemStore.lookup_insert (s : MemStore) (ptr c : Nat) (node : BNode) :
    ({ (s.insert ptr node) with counter := c } : MemStore).lookup ptr = some node := by
  simp [MemStore.lookup, MemStore.insert]

theorem lookupLE_second {node : BNode} {t : Nat} {e0 e1 : Entry}
    (L : Layout node t 2 [e0, e1]) : nodeLookupLE node e1.key = .ok 1 := by
  unfold nodeLookupLE
  rw [L.nkeys_eq]
  simp only [Res.ok_bind]
  show lookupLoop node e1.key 1 1 0 = _
  unfold lookupLoop
  rw [L.getKey_eq (show [e0, e1][1]? = some e1 from rfl)]
  simp [bytesCompare_self]

/-- **C8** First insert.  For every key of at most 1000 bytes and every value of at most
3000 bytes, `Insert` on a tree without root (`root = 0`, page counter not 0) over the
in-memory store makes exactly one call of `New` and none of `Del`; the node passed is a
leaf with two entries, `(empty, empty)` at index 0 and `(key, val)` at index 1, with
`nbytes() = 32 + |key| + |val| ≤ BTREE_PAGE_SIZE`; the id returned becomes the root; and
`GetVal(key)` on the new tree returns `(val, true)` for every positive fuel. -/
theorem first_insert (tree : BTree MemStore) (key val : List Nat) (fuel fuel' : Nat)
    (hroot : tree.root = 0) (hctr : tree.store.counter ≠ 0)
    (hk : key.length ≤ BTREE_MAX_KEY_SIZE) (hv : val.length ≤ BTREE_MAX_VAL_SIZE) :
    ∃ tree' leaf, tree.Insert memPager fuel key val = .ok tree' ∧
      tree'.calls = tree.calls ++ [Call.new leaf tree'.root] ∧
      tree'.Get memPager tree'.root = .ok leaf ∧
      leaf.btype = .ok BNODE_LEAF ∧ leaf.nkeys = .ok 2 ∧
      leaf.getKey 0 = .ok [] ∧ leaf.getVal 0 = .ok [] ∧
      leaf.getKey 1 = .ok key ∧ leaf.getVal 1 = .ok val ∧
      leaf.nbytes = .ok (32 + key.length + val.length) ∧
      32 + key.length + val.length ≤ BTREE_PAGE_SIZE ∧
      tree'.GetVal memPager (fuel' + 1) key = .ok (val, true) := by
  simp only [BTREE_MAX_KEY_SIZE, BTREE_MAX_VAL_SIZE] at hk hv
  obtain ⟨n0, n1, leaf, e0, e1, e2, l, L⟩ := firstLeaf_layout key val hk hv
  have hget : ({ (tree.store.insert tree.store.counter leaf) with
      counter := u64 (tree.store.counter + 1) } : MemStore).lookup tree.store.counter =
        some leaf := MemStore.lookup_insert _ _ _ _
  refine ⟨⟨tree.store.counter, { (tree.store.insert tree.store.counter leaf) with
      counter := u64 (tree.store.counter + 1) }, tree.calls ++ [Call.new leaf tree.store.counter]⟩,
    leaf, ?_, rfl, ?_, L.btype_eq, L.nkeys_eq,
    L.getKey_eq (show _[0]? = some (⟨0, [], []⟩ : Entry) from rfl),
    L.getVal_eq (show _[0]? = some (⟨0, [], []⟩ : Entry) from rfl),
    L.getKey_eq (show _[1]? = some (⟨0, key, val⟩ : Entry) from rfl),
    L.getVal_eq (show _[1]? = some (⟨0, key, val⟩ : Entry) from rfl), ?_, ?_, ?_⟩
  · unfold BTree.Insert
    rw [if_pos hroot]
    simp only [e0, e1, e2, Res.ok_bind]
    rfl
  · simp only [BTree.Get, memPager, hget]
  · rw [L.nbytes_eq rfl]
    simp [kvSize, Entry.size]
    omega
  · simp only [BTREE_PAGE_SIZE]; omega
  · unfold BTree.GetVal
    rw [if_neg hctr]
    simp only [BTree.Get, memPager, hget, Res.ok_bind]
    unfold BTree.getLoop
    rw [lookupLE_second L, L.btype_eq]
    simp only [Res.ok_bind, if_true, L.nkeys_eq]
    rw [if_pos (by decide), L.getKey_eq (show _[1]? = some (⟨0, key, val⟩ : Entry) from rfl)]
    simp only [Res.ok_bind, bytesEqual, decide_True, if_true,
      L.getVal_eq (show _[1]? = some (⟨0, key, val⟩ : Entry) from rfl), Res.pure_eq]

theorem first_insert_witness :
    ∃ tree' leaf, emptyTree.Insert memPager 0 (List.replicate 1000 97)
        (List.replicate 3000 1) = .ok tree' ∧
      tree'.calls = emptyTree.calls ++ [Call.new leaf tree'.root] ∧
      tree'.Get memPager tree'.root = .ok leaf ∧
      leaf.btype = .ok BNODE_LEAF ∧ leaf.nkeys = .ok 2 ∧
      leaf.getKey 0 = .ok [] ∧ leaf.getVal 0 = .ok [] ∧
      leaf.getKey 1 = .ok (List.replicate 1000 97) ∧
      leaf.getVal 1 = .ok (List.replicate 3000 1) ∧
      leaf.nbytes = .ok (32 + (List.replicate 1000 97).length +
        (List.replicate 3000 1).length) ∧
      32 + (List.replicate 1000 97).length + (List.replicate 3000 1).length ≤
        BTREE_PAGE_SIZE ∧
      tree'.GetVal memPager (0 + 1) (List.replicate 1000 97) =
        .ok (List.replicate 3000 1, true) :=
  first_insert emptyTree (List.replicate 1000 97) (List.replicate 3000 1) 0 0 rfl
    (by decide) (by simp only [List.length_replicate, BTREE_MAX_KEY_SIZE, le_refl])
    (by simp only [List.length_replicate, BTREE_MAX_VAL_SIZE, le_refl])

/-- A leaf with the keys `""`, `"a"`, `"c"`. -/
theorem nodeLookupLE_greatest_witness :
    ∃ r, nodeLookupLE ⟨[2, 0, 3, 0] ++ List.replicate 24 0 ++
        [4, 0, 10, 0, 16, 0, 0, 0, 0, 0, 1, 0, 1, 0, 97, 49, 1, 0, 1, 0, 99, 50], 50⟩ [98] = .ok r ∧
      ((1 ≤ r ∧ r < 3 ∧ bytesCompare ([[], [97], [99]].getD r []) [98] ≤ 0 ∧
          ∀ i, 1 ≤ i → i < 3 → bytesCompare ([[], [97], [99]].getD i []) [98] ≤ 0 → i ≤ r) ∨
        (r = 0 ∧ ∀ i, 1 ≤ i → i < 3 → ¬ bytesCompare ([[], [97], [99]].getD i []) [98] ≤ 0)) :=
  nodeLookupLE_greatest _ [98] 3 (fun i => [[], [97], [99]].getD i []) (by decide)
    (fun i h1 h2 => by interval_cases i <;> decide)
    (fun i h1 h2 => by
      have hi : i = 1 := by omega
      subst hi
      decide)

/-! ## `KV.Set` and the size limits -/

theorem putU16_ok (node : BNode) (pos v : Nat) (h : pos + 2 ≤ node.len) :
    ∃ node', node.putU16 pos v = .ok node' ∧ node'.len = node.len :=
  ⟨_, if_pos h, rfl⟩

theorem copyAt_ok (node : BNode) (pos : Nat) (src : List Nat) (h : pos ≤ node.len) :
    ∃ node', node.copyAt pos src = .ok node' ∧ node'.len = node.len :=
  ⟨_, if_pos h, rfl⟩

/-- `nodeAppendKV` does not fault as long as the two lengths and the start of the value
lie inside the buffer, whether or not key and value fit. -/
theorem nodeAppendKV_ok {node : BNode} {t n : Nat} {es : List Entry}
    (L : Layout node t n es) (ptr : Nat) (key val : List Nat) (hcount : es.length < n)
    (h4 : 4 + 10 * n + kvSize es + 4 ≤ node.len)
    (h4s : 4 + 10 * n + kvSize es + 4 < 65536)
    (hv : u16 (4 + 10 * n + kvSize es + 4 + u16 key.length) ≤ node.len) :
    ∃ node', nodeAppendKV node es.length ptr key val = .ok node' ∧ node'.len = node.len := by
  have hn := L.n_lt
  have hs := L.small
  obtain ⟨n1, e1, l1, U1, -⟩ := setPtr_spec node es.length ptr (by omega)
    (by have := L.fits; omega) L.len_le
  have L1 : Layout n1 t n es := L.frame l1 U1 (by omega)
  have hkv : n1.kvPos es.length = .ok (4 + 10 * n + kvSize es) := by
    rw [L1.kvPos_eq (Nat.le_refl _), List.take_length]
  have hoff : n1.getOffset es.length = .ok (kvSize es) := by
    rw [L1.getOffset_eq (Nat.le_refl _), List.take_length]
  obtain ⟨n2, e2, l2, -, -⟩ := L1.setOffset_spec (es.length + 1)
    (u16 (kvSize es + 4 + u16 key.length + u16 val.length)) (by omega) (by omega)
  obtain ⟨n3, e3, l3⟩ := putU16_ok n2 (4 + 10 * n + kvSize es) (u16 key.length) (by omega)
  obtain ⟨n4, e4, l4⟩ := putU16_ok n3 (4 + 10 * n + kvSize es + 2) (u16 val.length) (by omega)
  obtain ⟨n5, e5, l5⟩ := copyAt_ok n4 (4 + 10 * n + kvSize es + 4) key (by omega)
  obtain ⟨n6, e6, l6⟩ := copyAt_ok n5 (u16 (4 + 10 * n + kvSize es + 4 + u16 key.length)) val
    (by omega)
  refine ⟨n6, ?_, by omega⟩
  unfold nodeAppendKV
  rw [e1]
  simp only [Res.ok_bind, hkv, hoff]
  rw [u16_of_lt (show es.length + 1 < 65536 by omega), e2]
  simp only [Res.ok_bind]
  rw [e3]
  simp only [Res.ok_bind]
  rw [u16_of_lt (show 4 + 10 * n + kvSize es + 2 < 65536 by omega), e4]
  simp only [Res.ok_bind]
  rw [u16_of_lt (show 4 + 10 * n + kvSize es + 4 < 65536 by omega), e5]
  simp only [Res.ok_bind]
  rw [e6]

/-- On a tree without root `Insert` builds and registers a leaf for every key of at
most 4064 bytes and every value. -/
theorem insert_unchecked (db : BTree KVStore) (fuel : Nat) (key val : List Nat)
    (hroot : db.root = 0) (hkey : key.length ≤ 4064) :
    ∃ leaf, leaf.len = BTREE_PAGE_SIZE ∧
      db.Insert kvPager fuel key val =
        .ok ⟨u64 (db.store.flushed + db.store.temp.length),
          { db.store with temp := db.store.temp ++ [leaf] },
          db.calls ++ [Call.new leaf (u64 (db.store.flushed + db.store.temp.length))]⟩ := by
  obtain ⟨n0, e0, l0, c0, L0⟩ := setHeader_layout (BNode.make BTREE_PAGE_SIZE) BNODE_LEAF 2
    (by rw [make_len, make_length]) (by decide) (by rw [make_len]; decide) (by decide)
  rw [make_len] at l0
  simp only [BTREE_PAGE_SIZE] at l0
  obtain ⟨n1, e1, l1, c1, L1⟩ := nodeAppendKV_spec L0 ⟨0, [], []⟩ (by decide)
    (by simp [kvSize, Entry.size]; omega) (by simp [kvSize, Entry.size]) (by decide)
  simp only [List.length_nil, List.nil_append] at e1 L1
  obtain ⟨n2, e2, l2⟩ := nodeAppendKV_ok L1 0 key val (by decide)
    (by simp [kvSize, Entry.size]; omega) (by simp [kvSize, Entry.size])
    (by
      simp only [kvSize, Entry.size, List.map_cons, List.map_nil, List.sum_cons, List.sum_nil,
        List.length_nil]
      rw [u16_of_lt (show key.length < 65536 by omega), u16_of_lt (by omega)]
      omega)
  simp only [List.length_singleton] at e2
  refine ⟨n2, by simp only [BTREE_PAGE_SIZE]; omega, ?_⟩
  have hlen : n2.len ≤ BTREE_PAGE_SIZE := by simp only [BTREE_PAGE_SIZE]; omega
  unfold BTree.Insert
  rw [if_pos hroot]
  simp only [e0, e1, e2, Res.ok_bind, BTree.New, kvPager, KVStore.pageNew, assertCondition,
    Res.require, hlen, decide_True, if_true, Res.pure_eq]

theorem growPages_ge (fuel filePages npages : Nat) (h : npages ≤ filePages + fuel) :
    npages ≤ growPages fuel filePages npages := by
  induction fuel generalizing filePages with
  | zero => simpa [growPages] using h
  | succ fuel ih =>
    unfold growPages
    by_cases hlt : filePages < npages
    · rw [if_pos hlt]
      apply ih
      split_ifs <;> omega
    · rw [if_neg hlt]; omega

/-- A flush of one staged page whose place is inside the single mapped chunk succeeds
when the system calls succeed. -/
theorem flushPages_one (db : BTree KVStore) (leaf : BNode) (c : List Nat)
    (htemp : db.store.temp = [leaf]) (hchunks : db.store.chunks = [c])
    (htotal : db.store.total = c.length)
    (hroom : (db.store.flushed + 1) * BTREE_PAGE_SIZE ≤ c.length)
    (hc : c.length < 18446744073709551616) :
    ∃ db', flushPages sysOk db = .ok (none, db') ∧ db'.root = db.root ∧
      db'.store.flushed = db.store.flushed + 1 ∧ db'.store.temp = [] := by
  simp only [BTREE_PAGE_SIZE] at hroom
  have hfl : db.store.flushed + 1 < 18446744073709551616 := by omega
  have hloc : ∀ (s : KVStore), s.chunks = [c] → s.flushed = db.store.flushed →
      pageLocate s.chunks 0 0 (u64 (s.flushed + 0)) = .ok (0, 4096 * db.store.flushed) := by
    intro s hs hf
    rw [hs, hf]
    unfold pageLocate
    simp only [u64, BTREE_PAGE_SIZE, Nat.add_zero, Nat.zero_add, Nat.sub_zero]
    rw [Nat.mod_eq_of_lt (show db.store.flushed < 18446744073709551616 by omega),
      Nat.mod_eq_of_lt (show c.length / 4096 < 18446744073709551616 by omega),
      if_pos (by omega),
      Nat.mod_eq_of_lt (show 4096 * db.store.flushed < 18446744073709551616 by omega),
      Nat.mod_eq_of_lt (show 4096 * db.store.flushed + 4096 < 18446744073709551616 by omega),
      if_pos (by omega)]
  unfold flushPages writePages
  simp only [htemp, List.length_singleton]
  -- the file is extended when it is too short
  have hext : ∃ f, extendFile sysOk db.store (db.store.flushed + 1) =
      (none, { db.store with file := f }) := by
    unfold extendFile
    by_cases h1 : db.store.file / BTREE_PAGE_SIZE ≥ db.store.flushed + 1
    · exact ⟨db.store.file, by simp only [h1, if_true]⟩
    · exact ⟨growPages (db.store.flushed + 1) (db.store.file / BTREE_PAGE_SIZE)
        (db.store.flushed + 1) * BTREE_PAGE_SIZE, by simp only [h1, if_false, sysOk, if_true]⟩
  obtain ⟨f, hf⟩ := hext
  rw [hf]
  simp only [extendMmap, htotal, BTREE_PAGE_SIZE]
  rw [if_pos (by omega)]
  simp only [htemp, copyPages, KVStore.pageWrite]
  rw [hloc { db.store with file := f } hchunks rfl]
  simp only [Res.ok_bind, Res.pure_eq, syncPages, sysOk, masterStore, Bool.not_true,
    Bool.false_eq_true, if_false, if_true, htemp, List.length_singleton]
  refine ⟨_, rfl, rfl, ?_, rfl⟩
  simp only [u64]
  exact Nat.mod_eq_of_lt hfl

theorem set_unchecked (db : BTree KVStore) (fuel : Nat) (key val c : List Nat)
    (hroot : db.root = 0) (htemp : db.store.temp = []) (hchunks : db.store.chunks = [c])
    (htotal : db.store.total = c.length)
    (hroom : (db.store.flushed + 1) * BTREE_PAGE_SIZE ≤ c.length)
    (hc : c.length < 18446744073709551616) (hkey : key.length ≤ 4064) :
    ∃ db', KV.Set sysOk fuel db key val = .ok (none, db') ∧ db'.root = db.store.flushed ∧
      db'.store.flushed = db.store.flushed + 1 ∧ db'.store.temp = [] := by
  obtain ⟨leaf, hl, hins⟩ := insert_unchecked db fuel key val hroot hkey
  have hfl : db.store.flushed < 18446744073709551616 := by
    simp only [BTREE_PAGE_SIZE] at hroom; omega
  rw [htemp] at hins
  simp only [List.length_nil, Nat.add_zero, List.nil_append] at hins
  rw [show u64 db.store.flushed = db.store.flushed from Nat.mod_eq_of_lt hfl] at hins
  obtain ⟨db', hflush, h1, h2, h3⟩ := flushPages_one
    ⟨db.store.flushed, { db.store with temp := [leaf] },
      db.calls ++ [Call.new leaf db.store.flushed]⟩ leaf c rfl hchunks htotal hroom hc
  refine ⟨db', ?_, h1, h2, h3⟩
  unfold KV.Set
  rw [hins]
  exact hflush



/-! ## `nodeAppendRange` -/

theorem kvSize_take_add (eo : List Entry) (a b : Nat) :
    kvSize (eo.take (a + b)) = kvSize (eo.take a) + kvSize ((eo.drop a).take b) := by
  rw [List.take_add, kvSize_append]

theorem getElem?_range (eo : List Entry) (a c j : Nat) :
    ((eo.drop a).take c)[j]? = if j < c then eo[a + j]? else none := by
  rw [List.getElem?_take, List.getElem?_drop]

theorem take_range (eo : List Entry) (a c j : Nat) (h : j ≤ c) :
    ((eo.drop a).take c).take j = (eo.drop a).take j := by
  rw [List.take_take, Nat.min_eq_left h]

theorem length_range (eo : List Entry) (a c : Nat) (h : a + c ≤ eo.length) :
    ((eo.drop a).take c).length = c := by
  simp
  omega

theorem exists_getElem? (eo : List Entry) (i : Nat) (h : i < eo.length) :
    ∃ x, eo[i]? = some x := ⟨eo[i], List.getElem?_eq_getElem h⟩

/-- The pointer loop of `nodeAppendRange`. -/
theorem copyPtrs_spec {old : BNode} {t' n' : Nat} {eo : List Entry}
    (Wo : WeakLayout old t' n' eo) (ns os cnt : Nat) (hos : os + cnt ≤ eo.length)
    (hlt : ns + cnt < 8000) (rem : Nat) :
    ∀ (i : Nat) (node : BNode), i + rem = cnt → node.len ≤ node.data.length →
      4 + 8 * (ns + cnt) ≤ node.len →
      ∃ node', copyPtrs old ns os rem i node = .ok node' ∧ node'.len = node.len ∧
        Upd node.data node'.data (4 + 8 * (ns + i)) (8 * rem) ∧
        ∀ j x, i ≤ j → eo[os + j]? = some x → j < cnt →
          slice node'.data (4 + 8 * (ns + j)) 8 = leBytes 8 x.ptr := by
  have hn' := Wo.n_lt
  have hc' := Wo.count
  induction rem with
  | zero =>
    intro i node hi _ _
    exact ⟨node, rfl, rfl, Upd.refl _ _ _, fun j x h1 _ h3 => by omega⟩
  | succ rem ih =>
    intro i node hi hlen hroom
    obtain ⟨x, hx⟩ := exists_getElem? eo (os + i) (by omega)
    obtain ⟨n1, e1, l1, U1, w1⟩ := setPtr_spec node (ns + i) x.ptr (by omega) (by omega) hlen
    obtain ⟨n2, e2, l2, U2, w2⟩ := ih (i + 1) n1 (by omega) (by rw [l1, U1.1]; exact hlen)
      (by omega)
    refine ⟨n2, ?_, by omega, Upd.trans U1 U2 (by omega) (by omega), fun j y h1 h2 h3 => ?_⟩
    · unfold copyPtrs
      rw [u16_of_lt (show os + i < 65536 by omega), Wo.getPtr_eq hx]
      simp only [Res.ok_bind]
      rw [u16_of_lt (show ns + i < 65536 by omega), e1]
      exact e2
    · rcases Nat.lt_or_ge i j with h | h
      · exact w2 j y (by omega) h2 h3
      · have hj : j = i := by omega
        subst hj
        rw [hx] at h2
        cases h2
        rw [U2.2 _ _ (by omega)]
        exact w1

/-- The offset loop of `nodeAppendRange`. -/
theorem copyOffsets_spec {old : BNode} {t' n' : Nat} {eo : List Entry}
    (Wo : WeakLayout old t' n' eo) {t n : Nat} {es : List Entry} (os cnt : Nat)
    (hos : os + cnt ≤ eo.length) (hcount : es.length + cnt ≤ n)
    (hsmall : 4 + 10 * n + kvSize es + kvSize ((eo.drop os).take cnt) < 65536) (rem : Nat) :
    ∀ (i : Nat) (node : BNode), 1 ≤ i → i + rem = cnt + 1 → WeakLayout node t n es →
      ∃ node', copyOffsets old es.length os (kvSize es) (kvSize (eo.take os)) rem i node =
          .ok node' ∧ node'.len = node.len ∧
        Upd node.data node'.data (4 + 8 * n + 2 * (es.length + i - 1)) (2 * rem) ∧
        ∀ j, i ≤ j → j ≤ cnt →
          slice node'.data (4 + 8 * n + 2 * (es.length + j - 1)) 2 =
            leBytes 2 (kvSize es + kvSize ((eo.drop os).take j)) := by
  have hn' := Wo.n_lt
  have hc' := Wo.count
  have hs' := Wo.small
  induction rem with
  | zero =>
    intro i node hi _ _
    exact ⟨node, rfl, rfl, Upd.refl _ _ _, fun j h1 h2 => by omega⟩
  | succ rem ih =>
    intro i node h1 hi W
    have hn := W.n_lt
    have hsz : kvSize (eo.take (os + i)) = kvSize (eo.take os) + kvSize ((eo.drop os).take i) :=
      kvSize_take_add eo os i
    have hmono : kvSize ((eo.drop os).take i) ≤ kvSize ((eo.drop os).take cnt) :=
      kvSize_take_mono _ i cnt (by omega)
    have hle := kvSize_take_le eo (os + i)
    have hval : u16 (kvSize es + u16sub (kvSize (eo.take (os + i))) (kvSize (eo.take os))) =
        kvSize es + kvSize ((eo.drop os).take i) := by
      rw [u16sub_of_le (by omega) (by omega), u16_of_lt (by omega)]
      omega
    obtain ⟨n1, e1, l1, U1, w1⟩ := W.setOffset_weak (es.length + i)
      (kvSize es + kvSize ((eo.drop os).take i)) (by omega) (by omega)
    have W1 : WeakLayout n1 t n es := W.frame_weak l1 U1 (by omega)
    obtain ⟨n2, e2, l2, U2, w2⟩ := ih (i + 1) n1 (by omega) (by omega) W1
    refine ⟨n2, ?_, by omega, Upd.trans U1 U2 (by omega) (by omega), fun j h2 h3 => ?_⟩
    · unfold copyOffsets copyOffset
      rw [u16_of_lt (show os + i < 65536 by omega), Wo.getOffset_eq (by omega)]
      simp only [Res.ok_bind]
      rw [hval, u16_of_lt (show es.length + i < 65536 by omega), e1]
      exact e2
    · rcases Nat.lt_or_ge i j with h | h
      · exact w2 j (by omega) h3
      · have hj : j = i := by omega
        subst hj
        rw [U2.2 _ _ (by omega)]
        exact w1

theorem sub_eq (node : BNode) (lo hi : Nat) (h1 : lo ≤ hi) (h2 : hi ≤ node.data.length) :
    node.sub lo hi = .ok (slice node.data lo (hi - lo)) := by
  unfold BNode.sub BNode.cap
  rw [if_pos ⟨h1, h2⟩]

/-- Copying the entries `os .. os+cnt-1` of `old` behind the entries `es` of `new` puts
their pointers and offsets in place, and their keys and values too when they fit. -/
theorem nodeAppendRange_spec {new old : BNode} {t n t' n' : Nat} {es eo : List Entry}
    (Ln : Layout new t n es) (Lo : Layout old t' n' eo) (ho : eo.length = n')
    (os cnt : Nat) (hos : os + cnt ≤ n') (hcount : es.length + cnt ≤ n)
    (hsmall : 4 + 10 * n + kvSize es + kvSize ((eo.drop os).take cnt) < 65536) :
    ∃ new', nodeAppendRange new old es.length os cnt = .ok new' ∧ new'.len = new.len ∧
      new'.data.length = new.data.length ∧
      WeakLayout new' t n (es ++ (eo.drop os).take cnt) ∧
      (4 + 10 * n + kvSize es + kvSize ((eo.drop os).take cnt) ≤ new.len →
        Layout new' t n (es ++ (eo.drop os).take cnt)) := by
  by_cases hc0 : cnt = 0
  · subst hc0
    refine ⟨new, ?_, rfl, rfl, by simpa using Ln.toWeakLayout, fun _ => by simpa using Ln⟩
    unfold nodeAppendRange
    rw [if_pos rfl]
  have hn := Ln.n_lt
  have hn' := Lo.n_lt
  have hxl : ((eo.drop os).take cnt).length = cnt := length_range eo os cnt (by omega)
  -- the pointers
  obtain ⟨n1, e1, l1, U1, p1⟩ := copyPtrs_spec Lo.toWeakLayout es.length os cnt (by omega)
    (by omega) cnt 0 new (by omega) Ln.len_le (by have := Ln.idx_fits; omega)
  have L1 : Layout n1 t n es := Ln.frame l1 U1 (by omega)
  -- the offsets
  obtain ⟨n2, e2, l2, U2, o2⟩ := copyOffsets_spec Lo.toWeakLayout os cnt (by omega) hcount
    hsmall cnt 1 n1 (Nat.le_refl 1) (by omega) L1.toWeakLayout
  have L2 : Layout n2 t n es := L1.frame l2 U2 (by omega)
  -- the key-value bytes
  have hb : old.kvPos os = .ok (4 + 10 * n' + kvSize (eo.take os)) :=
    Lo.kvPos_eq (by omega)
  have he : old.kvPos (os + cnt) = .ok (4 + 10 * n' + kvSize (eo.take (os + cnt))) :=
    Lo.kvPos_eq (by omega)
  have hd : n2.kvPos es.length = .ok (4 + 10 * n + kvSize es) := by
    rw [L2.kvPos_eq (Nat.le_refl _), List.take_length]
  have hsz := kvSize_take_add eo os cnt
  have hle := kvSize_take_le eo (os + cnt)
  have hfo := Lo.fits
  have hlo := Lo.len_le
  have hsrc : old.sub (4 + 10 * n' + kvSize (eo.take os))
      (4 + 10 * n' + kvSize (eo.take (os + cnt))) =
      .ok (slice old.data (4 + 10 * n' + kvSize (eo.take os))
        (kvSize ((eo.drop os).take cnt))) := by
    rw [sub_eq _ _ _ (by omega) (by omega)]
    congr 2
    omega
  have hslen : (slice old.data (4 + 10 * n' + kvSize (eo.take os))
      (kvSize ((eo.drop os).take cnt))).length = kvSize ((eo.drop os).take cnt) :=
    length_slice _ _ _ (by omega)
  have hf2 := L2.fits
  have hl2 := L2.len_le
  let src := (slice old.data (4 + 10 * n' + kvSize (eo.take os))
      (kvSize ((eo.drop os).take cnt))).take (n2.len - (4 + 10 * n + kvSize es))
  have hsl : src.length ≤ n2.len - (4 + 10 * n + kvSize es) := by
    simp only [src, List.length_take]
    omega
  have U3 : Upd n2.data (splice n2.data (4 + 10 * n + kvSize es) src)
      (4 + 10 * n + kvSize es) src.length := Upd.of_splice _ _ _ (by omega)
  have L3 : Layout ⟨splice n2.data (4 + 10 * n + kvSize es) src, n2.len⟩ t n es :=
    L2.frame rfl U3 (by omega)
  have hrun : nodeAppendRange new old es.length os cnt =
      .ok ⟨splice n2.data (4 + 10 * n + kvSize es) src, n2.len⟩ := by
    unfold nodeAppendRange
    rw [if_neg hc0, e1]
    simp only [Res.ok_bind]
    rw [L1.getOffset_eq (Nat.le_refl _), List.take_length, Lo.getOffset_eq (by omega)]
    simp only [Res.ok_bind]
    rw [e2]
    simp only [Res.ok_bind]
    rw [if_neg (by omega), hb, u16_of_lt (show os + cnt < 65536 by omega), he, hd]
    simp only [Res.ok_bind, hsrc]
    unfold BNode.copyAt
    rw [if_pos (by omega)]
  -- pointers and offsets of the new entries in the result
  have hptr : ∀ j x, ((eo.drop os).take cnt)[j]? = some x →
      slice (splice n2.data (4 + 10 * n + kvSize es) src) (4 + 8 * (es.length + j)) 8 =
        leBytes 8 x.ptr := by
    intro j x hx
    rw [getElem?_range] at hx
    have hj : j < cnt := by
      by_contra hj
      rw [if_neg hj] at hx
      contradiction
    rw [if_pos hj] at hx
    rw [U3.2 _ _ (by omega), U2.2 _ _ (by omega)]
    exact p1 j x (Nat.zero_le _) hx hj
  have hoff : ∀ j, j < ((eo.drop os).take cnt).length →
      slice (splice n2.data (4 + 10 * n + kvSize es) src) (4 + 8 * n + 2 * (es.length + j)) 2 =
        leBytes 2 (kvSize es + kvSize (((eo.drop os).take cnt).take (j + 1))) := by
    intro j hj
    rw [hxl] at hj
    rw [U3.2 _ _ (by omega), take_range eo os cnt (j + 1) (by omega)]
    have := o2 (j + 1) (by omega) (by omega)
    rwa [show es.length + (j + 1) - 1 = es.length + j by omega] at this
  refine ⟨_, hrun, by simp only; omega,
    by simp only [U3.1, U2.1, U1.1],
    L3.toWeakLayout.append_weak _ (by omega) hsmall
      (fun x hx => Lo.ptr_lt x (List.mem_of_mem_drop (List.mem_of_mem_take hx))) hptr hoff,
    fun hfit => ?_⟩
  -- with room for the key-value bytes the copy is complete
  have hsrc_full : src = slice old.data (4 + 10 * n' + kvSize (eo.take os))
      (kvSize ((eo.drop os).take cnt)) := by
    simp only [src]
    exact List.take_of_length_le (by omega)
  have hkv : ∀ j x, ((eo.drop os).take cnt)[j]? = some x → ∀ d w, d + w ≤ x.size →
      slice (splice n2.data (4 + 10 * n + kvSize es) src)
        (4 + 10 * n + kvSize es + kvSize (((eo.drop os).take cnt).take j) + d) w =
      slice old.data (4 + 10 * n' + kvSize (eo.take (os + j)) + d) w := by
    intro j x hx d w hdw
    have hj := getElem?_lt hx
    rw [hxl] at hj
    have hin := kvSize_take_add_le _ j x hx
    rw [show 4 + 10 * n + kvSize es + kvSize (((eo.drop os).take cnt).take j) + d =
      4 + 10 * n + kvSize es + (kvSize (((eo.drop os).take cnt).take j) + d) by omega,
      slice_splice_inside _ _ _ _ _ (by omega) (by rw [hsrc_full, hslen]; omega), hsrc_full,
      slice_slice _ _ _ _ _ (by omega), take_range eo os cnt j (by omega),
      kvSize_take_add eo os j]
    congr 1
    omega
  have hold : ∀ j x, ((eo.drop os).take cnt)[j]? = some x → eo[os + j]? = some x := by
    intro j x hx
    rw [getElem?_range] at hx
    by_cases hj : j < cnt
    · rwa [if_pos hj] at hx
    · rw [if_neg hj] at hx; contradiction
  refine L3.append _ (by omega) (by simp only; omega) hsmall
    (fun x hx => Lo.ptr_lt x (List.mem_of_mem_drop (List.mem_of_mem_take hx))) hptr hoff
    (fun j x hx => ?_) (fun j x hx => ?_) (fun j x hx => ?_) (fun j x hx => ?_)
  · have := hkv j x hx 0 2 (by simp only [Entry.size]; omega)
    simp only [Nat.add_zero] at this
    rw [this, Lo.klen _ _ (hold j x hx)]
  · rw [hkv j x hx 2 2 (by simp only [Entry.size]; omega), Lo.vlen _ _ (hold j x hx)]
  · rw [hkv j x hx 4 x.key.length (by simp only [Entry.size]; omega),
      Lo.key _ _ (hold j x hx)]
  · rw [show 4 + 10 * n + kvSize es + kvSize (((eo.drop os).take cnt).take j) + 4 +
        x.key.length = 4 + 10 * n + kvSize es + kvSize (((eo.drop os).take cnt).take j) +
        (4 + x.key.length) by omega,
      hkv j x hx (4 + x.key.length) x.val.length (by simp only [Entry.size]; omega),
      show 4 + 10 * n' + kvSize (eo.take (os + j)) + (4 + x.key.length) =
        4 + 10 * n' + kvSize (eo.take (os + j)) + 4 + x.key.length by omega,
      Lo.val _ _ (hold j x hx)]

/-! ## Node operations on laid-out nodes -/

/-- In a zero-filled buffer every key reads as the empty key. -/
theorem make_getKey (size idx : Nat) (h : 4 + 2 * idx + 8 ≤ size) (hs : size < 65536) :
    (BNode.make size).getKey idx = .ok [] := by
  have hnk : (BNode.make size).nkeys = .ok 0 := by
    unfold BNode.nkeys BNode.cap
    rw [make_length, if_pos (by omega)]
    simp only [BNode.make]
    rw [slice_replicate _ _ _ (by omega), leNat_replicate_zero]
  have hoff : (BNode.make size).getOffset idx = .ok 0 := by
    unfold BNode.getOffset
    by_cases h0 : idx = 0
    · rw [if_pos h0]
    · rw [if_neg h0]
      unfold BNode.offsetPos
      rw [hnk]
      simp only [Res.ok_bind, Res.pure_eq, HEADER_SIZE]
      rw [u16sub_of_le (by omega) (by omega), u16_of_lt (by omega)]
      unfold BNode.u16At
      rw [make_len, if_pos (by omega)]
      simp only [BNode.make]
      rw [slice_replicate _ _ _ (by omega), leNat_replicate_zero]
  unfold BNode.getKey BNode.kvPos
  rw [hnk, hoff]
  simp only [Res.ok_bind, Res.pure_eq, HEADER_SIZE]
  unfold BNode.u16At BNode.subFrom BNode.cap
  rw [make_len, make_length]
  simp only [u16, Nat.reduceMod, Nat.reduceAdd, Nat.reduceMul]
  rw [if_pos (by omega)]
  simp only [BNode.make]
  rw [slice_replicate _ _ _ (by omega), leNat_replicate_zero]
  simp only [Res.ok_bind]
  rw [if_pos (by omega)]
  simp [slice]

theorem lookupLoop_lt {node : BNode} {t n : Nat} {es : List Entry} (L : Layout node t n es)
    (hn : es.length = n) (key : List Nat) (rem : Nat) :
    ∀ i found, i + rem = n → found < i →
      ∃ r, lookupLoop node key rem i found = .ok r ∧ r < n := by
  induction rem with
  | zero =>
    intro i found hi hf
    exact ⟨found, rfl, by omega⟩
  | succ rem ih =>
    intro i found hi hf
    obtain ⟨x, hx⟩ := exists_getElem? es i (by omega)
    unfold lookupLoop
    rw [L.getKey_eq hx]
    simp only [Res.ok_bind, Res.pure_eq]
    by_cases h1 : bytesCompare x.key key ≥ 0
    · rw [if_pos h1]
      by_cases h2 : bytesCompare x.key key ≤ 0
      · rw [if_pos h2]; exact ⟨i, rfl, by omega⟩
      · rw [if_neg h2]; exact ⟨found, rfl, by omega⟩
    · rw [if_neg h1]
      by_cases h2 : bytesCompare x.key key ≤ 0
      · rw [if_pos h2]; exact ih (i + 1) i (by omega) (by omega)
      · rw [if_neg h2]; exact ih (i + 1) found (by omega) (by omega)

/-- On a node with at least one entry `nodeLookupLE` returns an index of an entry. -/
theorem nodeLookupLE_lt {node : BNode} {t n : Nat} {es : List Entry} (L : Layout node t n es)
    (hn : es.length = n) (h1 : 1 ≤ n) (key : List Nat) :
    ∃ r, nodeLookupLE node key = .ok r ∧ r < n := by
  obtain ⟨r, hr, hlt⟩ := lookupLoop_lt L hn key (n - 1) 1 0 (by omega) (by omega)
  refine ⟨r, ?_, hlt⟩
  unfold nodeLookupLE
  rw [L.nkeys_eq]
  simpa using hr

theorem make_layout (size t n : Nat) (ht : t < 65536) (hfits : 4 + 10 * n ≤ size)
    (hs : size < 65536) :
    ∃ node, (BNode.make size).setHeader t n = .ok node ∧ node.len = size ∧
      node.data.length = size ∧ Layout node t n [] := by
  obtain ⟨n0, e0, l0, c0, L0⟩ := setHeader_layout (BNode.make size) t n
    (by rw [make_len, make_length]) ht (by rw [make_len]; exact hfits) (by omega)
  exact ⟨n0, e0, by rw [l0, make_len], by rw [c0, make_length], L0⟩

theorem kvSize_take_add_drop (es : List Entry) (i : Nat) :
    kvSize (es.take i) + kvSize (es.drop i) = kvSize es := by
  rw [← kvSize_append, List.take_append_drop]

/-- `leafInsert` puts the new entry at `idx` between the entries of the old leaf. -/
theorem leafInsert_spec {old : BNode} {t' n : Nat} {eo : List Entry}
    (Lo : Layout old t' n eo) (ho : eo.length = n) (size idx : Nat) (key val : List Nat)
    (hidx : idx ≤ n) (hs : size < 65536)
    (hfits : 4 + 10 * (n + 1) + kvSize eo + (4 + key.length + val.length) ≤ size) :
    ∃ new, leafInsert (BNode.make size) old idx key val = .ok new ∧ new.len = size ∧
      new.data.length = size ∧
      Layout new BNODE_LEAF (n + 1) (eo.take idx ++ [⟨0, key, val⟩] ++ eo.drop idx) := by
  have hn := Lo.n_lt
  have hsplit := kvSize_take_add_drop eo idx
  obtain ⟨n0, e0, l0, c0, L0⟩ := make_layout size BNODE_LEAF (n + 1) (by decide) (by omega) hs
  -- the entries before `idx`
  obtain ⟨n1, e1, l1, c1, -, L1⟩ := nodeAppendRange_spec L0 Lo ho 0 idx (by omega)
    (by simp; omega) (by simp [kvSize_nil]; omega)
  have L1 := L1 (by simp [kvSize_nil]; omega)
  simp only [List.nil_append, List.drop_zero, List.length_nil] at L1 e1
  have hl1 : (eo.take idx).length = idx := by simp; omega
  -- the new entry
  obtain ⟨n2, e2, l2, c2, L2⟩ := nodeAppendKV_spec L1 ⟨0, key, val⟩ (by omega)
    (by simp only [Entry.size]; omega) (by simp only [Entry.size]; omega) (by simp)
  rw [hl1] at e2
  -- the entries from `idx` on
  have hdrop : (eo.drop idx).take (n - idx) = eo.drop idx :=
    List.take_of_length_le (by simp; omega)
  have htk : kvSize (eo.take idx ++ [(⟨0, key, val⟩ : Entry)]) =
      kvSize (eo.take idx) + (4 + key.length + val.length) := by
    rw [kvSize_append]
    simp only [kvSize_cons, kvSize_nil, Entry.size]
    omega
  obtain ⟨n3, e3, l3, c3, -, L3⟩ := nodeAppendRange_spec L2 Lo ho idx (n - idx) (by omega)
    (by simp; omega) (by rw [hdrop, htk]; omega)
  have L3 := L3 (by rw [hdrop, htk]; omega)
  rw [hdrop] at L3
  have hl2 : (eo.take idx ++ [(⟨0, key, val⟩ : Entry)]).length = idx + 1 := by simp; omega
  rw [hl2] at e3
  refine ⟨n3, ?_, by omega, by omega, L3⟩
  unfold leafInsert
  rw [Lo.nkeys_eq]
  simp only [Res.ok_bind]
  rw [u16_of_lt (show n + 1 < 65536 by omega), e0]
  simp only [Res.ok_bind]
  rw [e1]
  simp only [Res.ok_bind]
  rw [e2]
  simp only [Res.ok_bind]
  rw [u16_of_lt (show idx + 1 < 65536 by omega), u16sub_of_le hidx (by omega), e3]

/-! ## Splitting -/

theorem Layout.trim {node : BNode} {t n : Nat} {es : List Entry} (L : Layout node t n es)
    (m : Nat) (h1 : 4 + 10 * n + kvSize es ≤ m) (h2 : m ≤ node.data.length) :
    Layout ⟨node.data, m⟩ t n es where
  len_le := h2
  count := L.count
  idx_fits := by show 4 + 10 * n ≤ m; omega
  small := L.small
  type_lt := L.type_lt
  ptr_lt := L.ptr_lt
  hdr_type := L.hdr_type
  hdr_nkeys := L.hdr_nkeys
  ptrs := L.ptrs
  offs := L.offs
  fits := h1
  klen := L.klen
  vlen := L.vlen
  key := L.key
  val := L.val

/-- `nodeSplit2` gives the first `n / 2` entries to `left` and the others to `right`. -/
theorem nodeSplit2_spec {old : BNode} {t n : Nat} {eo : List Entry}
    (Lo : Layout old t n eo) (ho : eo.length = n) (sl sr : Nat)
    (hl : 4 + 10 * (n / 2) ≤ sl) (hr : 4 + 10 * (n - n / 2) ≤ sr)
    (hsl : sl < 65536) (hsr : sr < 65536) :
    ∃ left right, nodeSplit2 (BNode.make sl) (BNode.make sr) old = .ok (left, right) ∧
      left.len = sl ∧ left.data.length = sl ∧ right.len = sr ∧ right.data.length = sr ∧
      WeakLayout left t (n / 2) (eo.take (n / 2)) ∧
      (4 + 10 * (n / 2) + kvSize (eo.take (n / 2)) ≤ sl →
        Layout left t (n / 2) (eo.take (n / 2))) ∧
      WeakLayout right t (n - n / 2) (eo.drop (n / 2)) ∧
      (4 + 10 * (n - n / 2) + kvSize (eo.drop (n / 2)) ≤ sr →
        Layout right t (n - n / 2) (eo.drop (n / 2))) := by
  have hn := Lo.n_lt
  have hsm := Lo.small
  have hsplit := kvSize_take_add_drop eo (n / 2)
  have hdrop : (eo.drop (n / 2)).take (n - n / 2) = eo.drop (n / 2) :=
    List.take_of_length_le (by simp; omega)
  obtain ⟨l0, el0, ll0, cl0, Ll0⟩ := make_layout sl t (n / 2) Lo.type_lt hl hsl
  obtain ⟨l1, el1, ll1, cl1, Wl, Ll⟩ := nodeAppendRange_spec Ll0 Lo ho 0 (n / 2) (by omega)
    (by simp) (by simp [kvSize_nil]; omega)
  obtain ⟨r0, er0, lr0, cr0, Lr0⟩ := make_layout sr t (n - n / 2) Lo.type_lt hr hsr
  obtain ⟨r1, er1, lr1, cr1, Wr, Lr⟩ := nodeAppendRange_spec Lr0 Lo ho (n / 2) (n - n / 2)
    (by omega) (by simp) (by rw [hdrop]; simp [kvSize_nil]; omega)
  simp only [List.nil_append, List.drop_zero, List.length_nil, kvSize_nil, Nat.add_zero] at *
  rw [hdrop] at Wr Lr
  refine ⟨l1, r1, ?_, by omega, by omega, by omega, by omega, Wl,
    fun h => Ll (by omega), Wr, fun h => Lr (by omega)⟩
  unfold nodeSplit2
  rw [Lo.nkeys_eq, Lo.btype_eq]
  simp only [Res.ok_bind]
  rw [el0]
  simp only [Res.ok_bind]
  rw [el1]
  simp only [Res.ok_bind]
  rw [u16sub_of_le (Nat.div_le_self n 2) (by omega), er0]
  simp only [Res.ok_bind]
  rw [er1]
  rfl

theorem kvSize_le_of_bounded (es : List Entry) (h : ∀ e ∈ es, e.Bounded) :
    kvSize es ≤ 4004 * es.length := by
  induction es with
  | nil => simp [kvSize]
  | cons x xs ih =>
    have hx := h x (List.mem_cons_self _ _)
    simp only [Entry.Bounded, BTREE_MAX_KEY_SIZE, BTREE_MAX_VAL_SIZE] at hx
    have := ih (fun e he => h e (List.mem_cons_of_mem _ he))
    simp only [kvSize_cons, List.length_cons, Entry.size]
    omega

theorem PageOf.of_trim {node : BNode} {t : Nat} {es : List Entry}
    (L : Layout node t es.length es) (hne : es ≠ [])
    (h1 : 4 + 10 * es.length + kvSize es ≤ BTREE_PAGE_SIZE)
    (h2 : BTREE_PAGE_SIZE ≤ node.data.length) :
    PageOf ⟨node.data, BTREE_PAGE_SIZE⟩ t es :=
  ⟨rfl, hne, (L.trim _ h1 h2).toWeakLayout, fun _ => L.trim _ h1 h2⟩

theorem ne_nil_of_length_pos {es : List Entry} (h : 0 < es.length) : es ≠ [] := by
  intro h0
  rw [h0] at h
  simp at h

/-- `nodeSplit3` cuts the entries of a node of at most two pages into one, two or three
groups in order and writes each group to a page-sized node. -/
theorem nodeSplit3_spec {old : BNode} {t n : Nat} {eo : List Entry}
    (Lo : Layout old t n eo) (ho : eo.length = n) (hn1 : 1 ≤ n)
    (hcap : old.data.length = 2 * BTREE_PAGE_SIZE) (hlen : old.len = 2 * BTREE_PAGE_SIZE)
    (hb : ∀ e ∈ eo, e.Bounded) :
    ∃ cnt kids groups, nodeSplit3 old = .ok (cnt, kids) ∧ groups.flatten = eo ∧
      1 ≤ groups.length ∧ groups.length ≤ 3 ∧ cnt = groups.length ∧
      List.Forall₂ (fun k g => PageOf k t g) (kids.take cnt) groups := by
  have hfit := Lo.fits
  have h4 := length_le_kvSize eo
  simp only [BTREE_PAGE_SIZE] at hcap hlen
  rw [hlen] at hfit
  rw [ho] at h4
  subst ho
  by_cases hsz : 4 + 10 * eo.length + kvSize eo ≤ BTREE_PAGE_SIZE
  · -- one page
    refine ⟨1, [⟨old.data, BTREE_PAGE_SIZE⟩, BNode.empty, BNode.empty], [eo], ?_, by simp,
      by simp, by simp, rfl, ?_⟩
    · unfold nodeSplit3
      rw [Lo.nbytes_eq rfl]
      simp only [Res.ok_bind]
      rw [if_pos hsz]
      unfold BNode.trim BNode.cap
      rw [if_pos (by simp only [BTREE_PAGE_SIZE]; omega)]
      rfl
    · simp only [List.take_succ_cons, List.take_zero]
      exact List.Forall₂.cons (PageOf.of_trim Lo (ne_nil_of_length_pos hn1) hsz
        (by simp only [BTREE_PAGE_SIZE]; omega)) List.Forall₂.nil
  · -- more than a page: there are at least two entries
    have hbd := kvSize_le_of_bounded eo hb
    simp only [BTREE_PAGE_SIZE] at hsz
    have hn2 : 2 ≤ eo.length := by omega
    have hsplit := kvSize_take_add_drop eo (eo.length / 2)
    obtain ⟨left, right, e2, ll, cl, lr, cr, Wl, Ll, Wr, Lr⟩ :=
      nodeSplit2_spec Lo rfl (2 * BTREE_PAGE_SIZE) BTREE_PAGE_SIZE
        (by simp only [BTREE_PAGE_SIZE]; omega) (by simp only [BTREE_PAGE_SIZE]; omega)
        (by decide) (by decide)
    simp only [BTREE_PAGE_SIZE] at ll cl lr cr Ll Lr
    have Ll := Ll (by omega)
    have hlt : (eo.take (eo.length / 2)).length = eo.length / 2 := by
      simp; omega
    have hld : (eo.drop (eo.length / 2)).length = eo.length - eo.length / 2 := by simp
    have hright : PageOf right t (eo.drop (eo.length / 2)) :=
      ⟨by simp only [BTREE_PAGE_SIZE]; exact lr,
        ne_nil_of_length_pos (by rw [hld]; omega),
        by rw [hld]; exact Wr, fun h => by
          rw [hld] at h ⊢
          exact Lr (by simp only [BTREE_PAGE_SIZE] at h; omega)⟩
    by_cases hlsz : 4 + 10 * (eo.length / 2) + kvSize (eo.take (eo.length / 2)) ≤
        BTREE_PAGE_SIZE
    · -- two pages
      refine ⟨2, [⟨left.data, BTREE_PAGE_SIZE⟩, right, BNode.empty],
        [eo.take (eo.length / 2), eo.drop (eo.length / 2)], ?_, by simp, by simp, by simp,
        rfl, ?_⟩
      · unfold nodeSplit3
        rw [Lo.nbytes_eq rfl]
        simp only [Res.ok_bind]
        rw [if_neg (by simp only [BTREE_PAGE_SIZE]; omega), e2]
        simp only [Res.ok_bind]
        rw [Ll.nbytes_eq hlt]
        simp only [Res.ok_bind]
        rw [if_pos hlsz]
        unfold BNode.trim BNode.cap
        rw [if_pos (by simp only [BTREE_PAGE_SIZE]; omega)]
        rfl
      · simp only [List.take_succ_cons, List.take_zero]
        refine List.Forall₂.cons ?_ (List.Forall₂.cons hright List.Forall₂.nil)
        have Ll' : Layout left t (eo.take (eo.length / 2)).length (eo.take (eo.length / 2)) := by
          rw [hlt]; exact Ll
        exact PageOf.of_trim Ll' (ne_nil_of_length_pos (by rw [hlt]; omega))
          (by rw [hlt]; exact hlsz) (by simp only [BTREE_PAGE_SIZE]; omega)
    · -- three pages
      simp only [BTREE_PAGE_SIZE] at hlsz
      have hbl := kvSize_le_of_bounded (eo.take (eo.length / 2))
        (fun e he => hb e (List.mem_of_mem_take he))
      rw [hlt] at hbl
      have hn4 : 2 ≤ eo.length / 2 := by omega
      have h4l := length_le_kvSize (eo.take (eo.length / 2))
      rw [hlt] at h4l
      obtain ⟨ll', mm, e3, lll, cll, lm, cm, Wll, Lll, Wm, Lm⟩ :=
        nodeSplit2_spec Ll hlt BTREE_PAGE_SIZE BTREE_PAGE_SIZE
          (by simp only [BTREE_PAGE_SIZE]; omega) (by simp only [BTREE_PAGE_SIZE]; omega)
          (by decide) (by decide)
      have hllt : ((eo.take (eo.length / 2)).take (eo.length / 2 / 2)).length =
          eo.length / 2 / 2 := by
        simp; omega
      have hmd : ((eo.take (eo.length / 2)).drop (eo.length / 2 / 2)).length =
          eo.length / 2 - eo.length / 2 / 2 := by
        simp; omega
      refine ⟨3, [ll', mm, right],
        [(eo.take (eo.length / 2)).take (eo.length / 2 / 2),
          (eo.take (eo.length / 2)).drop (eo.length / 2 / 2), eo.drop (eo.length / 2)],
        ?_, by
          simp only [List.flatten, List.append_nil]
          rw [← List.append_assoc, List.take_append_drop, List.take_append_drop],
        by simp, by simp, rfl, ?_⟩
      · unfold nodeSplit3
        rw [Lo.nbytes_eq rfl]
        simp only [Res.ok_bind]
        rw [if_neg (by simp only [BTREE_PAGE_SIZE]; omega), e2]
        simp only [Res.ok_bind]
        rw [Ll.nbytes_eq hlt]
        simp only [Res.ok_bind]
        rw [if_neg (by simp only [BTREE_PAGE_SIZE]; omega), e3]
        rfl
      · simp only [List.take_succ_cons, List.take_zero]
        refine List.Forall₂.cons ?_ (List.Forall₂.cons ?_
          (List.Forall₂.cons hright List.Forall₂.nil))
        · exact ⟨lll, ne_nil_of_length_pos (by rw [hllt]; omega), by rw [hllt]; exact Wll,
            fun h => by rw [hllt] at h ⊢; exact Lll h⟩
        · exact ⟨lm, ne_nil_of_length_pos (by rw [hmd]; omega), by rw [hmd]; exact Wm,
            fun h => by rw [hmd] at h ⊢; exact Lm h⟩

/-! ## The page store as a forest -/

theorem MemStore.get_insert (s : MemStore) (p c : Nat) (node : BNode) (q : Nat) :
    ({ (s.insert p node) with counter := c } : MemStore).get q =
      if q = p then some node else s.get q := by
  unfold MemStore.get MemStore.lookup MemStore.insert
  by_cases h : q = p
  · subst h
    simp
  · have h' : ¬ p = q := fun e => h e.symm
    simp only [h, if_false, List.find?_cons]
    have : ((p, node).1 == q) = false := by simpa using h'
    rw [this]
    simp only []
    congr 1
    induction s.pages with
    | nil => rfl
    | cons x xs ih =>
      by_cases hx : x.1 = p
      · have h1 : (x.1 != p) = false := by simpa using hx
        have h2 : (x.1 == q) = false := by
          rw [hx]; simpa using h'
        simp only [List.filter_cons, h1, List.find?_cons, h2]
        exact ih
      · have h1 : (x.1 != p) = true := by simpa using hx
        simp only [List.filter_cons, h1, if_true, List.find?_cons]
        cases hq : (x.1 == q)
        · exact ih
        · rfl

theorem MemStore.get_erase (s : MemStore) (p q : Nat) :
    (s.erase p).get q = if q = p then none else s.get q := by
  unfold MemStore.get MemStore.lookup MemStore.erase
  by_cases h : q = p
  · subst h
    simp only [if_true, Option.map_eq_none']
    rw [List.find?_eq_none]
    intro x hx
    simp only [List.mem_filter, bne_iff_ne, ne_eq] at hx
    simpa using hx.2
  · have h' : ¬ p = q := fun e => h e.symm
    simp only [h, if_false]
    congr 1
    induction s.pages with
    | nil => rfl
    | cons x xs ih =>
      by_cases hx : x.1 = p
      · have h1 : (x.1 != p) = false := by simpa using hx
        have h2 : (x.1 == q) = false := by
          rw [hx]; simpa using h'
        simp only [List.filter_cons, h1, List.find?_cons, h2]
        exact ih
      · have h1 : (x.1 != p) = true := by simpa using hx
        simp only [List.filter_cons, h1, if_true, List.find?_cons]
        cases hq : (x.1 == q)
        · exact ih
        · rfl

/-- What a successful `Get` of the test store says. -/
theorem testGet_ok {tree : BTree MemStore} {p : Nat} {node : BNode}
    (h : tree.Get testPager p = .ok node) : tree.store.get p = some node := by
  unfold BTree.Get testPager at h
  simp only [MemStore.get] at h ⊢
  cases hl : tree.store.lookup p with
  | none => rw [hl] at h; cases h
  | some x => rw [hl] at h; cases h; rfl

theorem testGet_eq {tree : BTree MemStore} {p : Nat} {node : BNode}
    (h : tree.store.get p = some node) : tree.Get testPager p = .ok node := by
  unfold BTree.Get testPager
  simp only [MemStore.get] at h
  simp only [h]

/-- What a successful `Del` of the test store says. -/
theorem testDel_ok {tree tree' : BTree MemStore} {p : Nat}
    (h : tree.Del testPager p = .ok tree') :
    tree'.root = tree.root ∧ tree'.store.counter = tree.store.counter ∧
      (∃ node, tree.store.get p = some node) ∧
      ∀ q, tree'.store.get q = if q = p then none else tree.store.get q := by
  unfold BTree.Del testPager at h
  simp only [Res.require] at h
  cases hl : tree.store.lookup p with
  | none => simp [hl] at h
  | some x =>
    simp only [hl, Option.isSome_some, decide_True, if_true, Res.ok_bind, Res.pure_eq] at h
    cases h
    exact ⟨rfl, rfl, ⟨x, hl⟩, fun q => MemStore.get_erase _ _ _⟩

/-- What a successful `New` of the test store says. -/
theorem testNew_ok {tree tree' : BTree MemStore} {node : BNode} {ptr : Nat}
    (h : tree.New testPager node = .ok (ptr, tree')) :
    tree'.root = tree.root ∧ ptr = tree.store.counter ∧
      tree'.store.counter < 18446744073709551616 ∧
      (∃ sz, node.nbytes = .ok sz ∧ sz ≤ BTREE_PAGE_SIZE) ∧
      tree.store.get ptr = none ∧
      ∀ q, tree'.store.get q = if q = ptr then some node else tree.store.get q := by
  unfold BTree.New testPager at h
  simp only [Res.require] at h
  cases hsz : node.nbytes with
  | panic => simp [hsz] at h
  | timeout => simp [hsz] at h
  | ok sz =>
    simp only [hsz, Res.ok_bind] at h
    by_cases h1 : sz ≤ BTREE_PAGE_SIZE
    · simp only [h1, decide_True, if_true, Res.ok_bind] at h
      by_cases h2 : 0 < node.len
      · simp only [h2, decide_True, if_true, Res.ok_bind] at h
        cases hl : tree.store.lookup tree.store.counter with
        | some x => simp [hl] at h
        | none =>
          simp only [hl, Option.isNone_none, decide_True, if_true, Res.ok_bind,
            Res.pure_eq] at h
          cases h
          exact ⟨rfl, rfl, Nat.mod_lt _ (by decide), ⟨sz, rfl, h1⟩, hl,
            fun q => MemStore.get_insert _ _ _ _ _⟩
      · simp [h2] at h
    · simp [h1] at h

/-! ### References -/

theorem Refs.of_layout {get : Nat → Option BNode} {p i : Nat} {node : BNode} {es : List Entry}
    {e : Entry} (hg : get p = some node) (L : Layout node BNODE_NODE es.length es)
    (he : es[i]? = some e) : Refs get p i e.ptr :=
  ⟨node, es.length, hg, L.btype_eq, L.nkeys_eq, getElem?_lt he, L.getPtr_eq he⟩

theorem Refs.inv_layout {get : Nat → Option BNode} {p i x : Nat} {node : BNode}
    {es : List Entry} (hg : get p = some node) (L : Layout node BNODE_NODE es.length es)
    (h : Refs get p i x) : ∃ e, es[i]? = some e ∧ e.ptr = x := by
  obtain ⟨node', n, hg', -, hn, hi, hp⟩ := h
  rw [hg] at hg'
  cases hg'
  rw [L.nkeys_eq] at hn
  cases hn
  obtain ⟨e, he⟩ := exists_getElem? es i hi
  rw [L.getPtr_eq he] at hp
  cases hp
  exact ⟨e, he, rfl⟩

theorem Refs.not_leaf {get : Nat → Option BNode} {p i x : Nat} {node : BNode} {n : Nat}
    {es : List Entry} (hg : get p = some node) (L : Layout node BNODE_LEAF n es) :
    ¬ Refs get p i x := by
  rintro ⟨node', n', hg', ht, -⟩
  rw [hg] at hg'
  cases hg'
  rw [L.btype_eq] at ht
  cases ht

/-- References after a page was added at an unused id. -/
theorem Refs.of_insert {get get' : Nat → Option BNode} {f : Nat} {v : BNode}
    (hg : ∀ q, get' q = if q = f then some v else get q) {p i x : Nat}
    (h : Refs get' p i x) : (p = f ∧ Refs (fun q => if q = f then some v else none) f i x) ∨
      (p ≠ f ∧ Refs get p i x) := by
  obtain ⟨node, n, hp, ht, hn, hi, hx⟩ := h
  rw [hg] at hp
  by_cases hpf : p = f
  · left
    rw [if_pos hpf] at hp
    exact ⟨hpf, node, n, by simpa using hp, ht, hn, hi, hx⟩
  · right
    rw [if_neg hpf] at hp
    exact ⟨hpf, node, n, hp, ht, hn, hi, hx⟩

theorem Refs.insert_old {get get' : Nat → Option BNode} {f : Nat} {v : BNode}
    (hg : ∀ q, get' q = if q = f then some v else get q) (hf : get f = none) {p i x : Nat}
    (h : Refs get p i x) : Refs get' p i x := by
  obtain ⟨node, n, hp, ht, hn, hi, hx⟩ := h
  refine ⟨node, n, ?_, ht, hn, hi, hx⟩
  rw [hg, if_neg]
  · exact hp
  · intro hpf
    rw [hpf, hf] at hp
    cases hp

/-- References after a page was removed. -/
theorem Refs.of_erase {get get' : Nat → Option BNode} {d : Nat}
    (hg : ∀ q, get' q = if q = d then none else get q) {p i x : Nat}
    (h : Refs get' p i x) : p ≠ d ∧ Refs get p i x := by
  obtain ⟨node, n, hp, ht, hn, hi, hx⟩ := h
  rw [hg] at hp
  by_cases hpd : p = d
  · rw [if_pos hpd] at hp; cases hp
  · rw [if_neg hpd] at hp
    exact ⟨hpd, node, n, hp, ht, hn, hi, hx⟩

theorem NoRef.erase_noRef {get get' : Nat → Option BNode} {d x : Nat}
    (hg : ∀ q, get' q = if q = d then none else get q) (h : NoRef get x) : NoRef get' x :=
  fun p i hr => h p i (Refs.of_erase hg hr).2

theorem Forest.noRef_of_none {get : Nat → Option BNode} (F : Forest get) {x : Nat}
    (h : get x = none) : NoRef get x := by
  intro p i hr
  obtain ⟨node, hn⟩ := F.2 p i x hr
  rw [h] at hn
  cases hn

theorem Forest.erase {get get' : Nat → Option BNode} {d : Nat} (F : Forest get)
    (hg : ∀ q, get' q = if q = d then none else get q) (hd : NoRef get d) : Forest get' := by
  refine ⟨fun p q i j x h1 h2 => F.1 p q i j x (Refs.of_erase hg h1).2 (Refs.of_erase hg h2).2,
    fun p i x h => ?_⟩
  have hr := (Refs.of_erase hg h).2
  obtain ⟨node, hn⟩ := F.2 p i x hr
  refine ⟨node, ?_⟩
  rw [hg, if_neg]
  · exact hn
  · intro hx
    rw [hx] at hr
    exact hd p i hr

theorem Forest.insert {get get' : Nat → Option BNode} {f : Nat} {v : BNode} (F : Forest get)
    (hg : ∀ q, get' q = if q = f then some v else get q) (hf : get f = none)
    (hlive : ∀ i x, Refs (fun q => if q = f then some v else none) f i x →
      (∃ node, get x = some node) ∧ NoRef get x)
    (huniq : ∀ i j x, Refs (fun q => if q = f then some v else none) f i x →
      Refs (fun q => if q = f then some v else none) f j x → i = j) : Forest get' := by
  have hkeep : ∀ x node, get x = some node → get' x = some node := by
    intro x node hx
    rw [hg, if_neg]
    · exact hx
    · intro hxf
      rw [hxf, hf] at hx
      cases hx
  refine ⟨fun p q i j x h1 h2 => ?_, fun p i x h => ?_⟩
  · rcases Refs.of_insert hg h1 with ⟨hp, r1⟩ | ⟨hp, r1⟩ <;>
      rcases Refs.of_insert hg h2 with ⟨hq, r2⟩ | ⟨hq, r2⟩
    · exact ⟨by rw [hp, hq], huniq i j x r1 r2⟩
    · exact absurd r2 ((hlive i x r1).2 q j)
    · exact absurd r1 ((hlive j x r2).2 p i)
    · exact F.1 p q i j x r1 r2
  · rcases Refs.of_insert hg h with ⟨hp, r⟩ | ⟨hp, r⟩
    · obtain ⟨node, hn⟩ := (hlive i x r).1
      exact ⟨node, hkeep x node hn⟩
    · obtain ⟨node, hn⟩ := F.2 p i x r
      exact ⟨node, hkeep x node hn⟩

/-- The references of a single laid-out internal node. -/
theorem Refs.single {f i x : Nat} {v : BNode} {es : List Entry}
    (L : Layout v BNODE_NODE es.length es)
    (h : Refs (fun q => if q = f then some v else none) f i x) :
    ∃ e, es[i]? = some e ∧ e.ptr = x :=
  Refs.inv_layout (by simp) L h

theorem Shape.layout {K : List Nat → Prop} {get : Nat → Option BNode} {h : Nat} {node : BNode}
    {es : List Entry} (S : Shape K get h node es) :
    ∃ t, (t = BNODE_LEAF ∨ t = BNODE_NODE) ∧ Layout node t es.length es ∧ es ≠ [] ∧
      (∀ e ∈ es, e.Bounded) ∧ (h = 0 → t = BNODE_LEAF) ∧ (0 < h → t = BNODE_NODE) := by
  cases h with
  | zero =>
    obtain ⟨L, hne, hk⟩ := S
    exact ⟨BNODE_LEAF, Or.inl rfl, L, hne, fun e he => (hk e he).1, fun _ => rfl,
      fun h => absurd h (by omega)⟩
  | succ h =>
    obtain ⟨L, hne, hk⟩ := S
    exact ⟨BNODE_NODE, Or.inr rfl, L, hne, fun e he => (hk e he).1,
      fun h => absurd h (by omega), fun _ => rfl⟩

theorem Shape.mono {K K' : List Nat → Prop} (hK : ∀ k, K k → K' k)
    {get : Nat → Option BNode} (h : Nat) :
    ∀ {node : BNode} {es : List Entry}, Shape K get h node es → Shape K' get h node es := by
  induction h with
  | zero =>
    intro node es S
    obtain ⟨L, hne, hk⟩ := S
    exact ⟨L, hne, fun e he => ⟨(hk e he).1, hK _ (hk e he).2⟩⟩
  | succ h ih =>
    intro node es S
    obtain ⟨L, hne, hk⟩ := S
    refine ⟨L, hne, fun e he => ?_⟩
    obtain ⟨hb, hv, child, ces, hc, hl, hs⟩ := hk e he
    exact ⟨hb, hv, child, ces, hc, hl, ih hs⟩

theorem Shape.insert_shape {K : List Nat → Prop} {get get' : Nat → Option BNode} {f : Nat}
    {v : BNode} (hg : ∀ q, get' q = if q = f then some v else get q) (hf : get f = none)
    (h : Nat) :
    ∀ {node : BNode} {es : List Entry}, Shape K get h node es → Shape K get' h node es := by
  induction h with
  | zero =>
    intro node es S
    exact S
  | succ h ih =>
    intro node es S
    obtain ⟨L, hne, hk⟩ := S
    refine ⟨L, hne, fun e he => ?_⟩
    obtain ⟨hb, hv, child, ces, hc, hl, hs⟩ := hk e he
    refine ⟨hb, hv, child, ces, ?_, hl, ih hs⟩
    rw [hg, if_neg]
    · exact hc
    · intro hx
      rw [hx, hf] at hc
      cases hc

theorem Shape.erase_shape {K : List Nat → Prop} {get get' : Nat → Option BNode} {d : Nat}
    (hg : ∀ q, get' q = if q = d then none else get q) (hd : NoRef get d) (h : Nat) :
    ∀ {node : BNode} {es : List Entry}, Shape K get h node es →
      (0 < h → ∀ e ∈ es, e.ptr ≠ d) → Shape K get' h node es := by
  induction h with
  | zero =>
    intro node es S _
    exact S
  | succ h ih =>
    intro node es S hne'
    obtain ⟨L, hne, hk⟩ := S
    refine ⟨L, hne, fun e he => ?_⟩
    obtain ⟨hb, hv, child, ces, hc, hl, hs⟩ := hk e he
    refine ⟨hb, hv, child, ces, ?_, hl, ih hs (fun hpos e' he' => ?_)⟩
    · rw [hg, if_neg (hne' (by omega) e he)]
      exact hc
    · obtain ⟨t, -, Lc, -, -, -, ht⟩ := hs.layout
      have Lc' : Layout child BNODE_NODE ces.length ces := by
        rw [← ht hpos]; exact Lc
      obtain ⟨i, hi, hie⟩ := List.getElem_of_mem he'
      have hr := Refs.of_layout hc Lc' (show ces[i]? = some e' by
        rw [List.getElem?_eq_getElem hi, hie])
      intro hx
      rw [hx] at hr
      exact hd _ _ hr

theorem Sub.mono_sub {K K' : List Nat → Prop} (hK : ∀ k, K k → K' k)
    {get : Nat → Option BNode} {h x : Nat} (S : Sub K get h x) : Sub K' get h x := by
  obtain ⟨node, es, hg, hl, hs⟩ := S
  exact ⟨node, es, hg, hl, Shape.mono hK h hs⟩

theorem Sub.insert_sub {K : List Nat → Prop} {get get' : Nat → Option BNode} {f : Nat}
    {v : BNode} (hg : ∀ q, get' q = if q = f then some v else get q) (hf : get f = none)
    {h x : Nat} (S : Sub K get h x) : Sub K get' h x := by
  obtain ⟨node, es, hx, hl, hs⟩ := S
  refine ⟨node, es, ?_, hl, Shape.insert_shape hg hf h hs⟩
  rw [hg, if_neg]
  · exact hx
  · intro hxf
    rw [hxf, hf] at hx
    cases hx

theorem Sub.erase_sub {K : List Nat → Prop} {get get' : Nat → Option BNode} {d : Nat}
    (hg : ∀ q, get' q = if q = d then none else get q) (hd : NoRef get d)
    {h x : Nat} (hx : x ≠ d) (S : Sub K get h x) : Sub K get' h x := by
  obtain ⟨node, es, hgx, hl, hs⟩ := S
  refine ⟨node, es, ?_, hl, Shape.erase_shape hg hd h hs (fun hpos e he => ?_)⟩
  · rw [hg, if_neg hx]
    exact hgx
  · obtain ⟨t, -, L, -, -, -, ht⟩ := hs.layout
    have L' : Layout node BNODE_NODE es.length es := by
      rw [← ht hpos]; exact L
    obtain ⟨i, hi, hie⟩ := List.getElem_of_mem he
    have hr := Refs.of_layout hgx L' (show es[i]? = some e by
      rw [List.getElem?_eq_getElem hi, hie])
    intro hx'
    rw [hx'] at hr
    exact hd _ _ hr

/-- A live page that is no root of references stays so when a page is added whose
pointers do not lead to it. -/
theorem NoRef.insert_noRef {get get' : Nat → Option BNode} {f x : Nat} {v : BNode}
    (hg : ∀ q, get' q = if q = f then some v else get q) (h : NoRef get x)
    (hv : ∀ i, ¬ Refs (fun q => if q = f then some v else none) f i x) : NoRef get' x := by
  intro p i hr
  rcases Refs.of_insert hg hr with ⟨_, r⟩ | ⟨_, r⟩
  · exact hv i r
  · exact h p i r

/-! ## Registering the kids of a split -/

theorem bind_ok_inv {α β : Type} {x : Res α} {f : α → Res β} {b : β}
    (h : (x >>= f) = .ok b) : ∃ a, x = .ok a ∧ f a = .ok b := by
  cases x with
  | ok a => exact ⟨a, rfl, h⟩
  | panic => cases h
  | timeout => cases h

theorem heightType_zero : heightType 0 = BNODE_LEAF := rfl

theorem heightType_pos {h : Nat} (hp : 0 < h) : heightType h = BNODE_NODE := by
  unfold heightType
  rw [if_neg (by omega)]

theorem heightType_lt (h : Nat) : heightType h < 65536 := by
  unfold heightType
  split_ifs <;> decide

theorem Shape_iff {K : List Nat → Prop} {get : Nat → Option BNode} {h : Nat} {node : BNode}
    {es : List Entry} :
    Shape K get h node es ↔
      Layout node (heightType h) es.length es ∧ es ≠ [] ∧
        ∀ e ∈ es, e.Bounded ∧ (h = 0 → K e.key) ∧
          (0 < h → e.val = [] ∧ Sub K get (h - 1) e.ptr) := by
  cases h with
  | zero =>
    constructor
    · rintro ⟨L, hne, hk⟩
      exact ⟨L, hne, fun e he => ⟨(hk e he).1, fun _ => (hk e he).2, fun h => absurd h (by omega)⟩⟩
    · rintro ⟨L, hne, hk⟩
      exact ⟨L, hne, fun e he => ⟨(hk e he).1, (hk e he).2.1 rfl⟩⟩
  | succ h =>
    constructor
    · rintro ⟨L, hne, hk⟩
      refine ⟨by rw [heightType_pos (by omega)]; exact L, hne, fun e he => ?_⟩
      obtain ⟨hb, hv, child, ces, hc, hl, hs⟩ := hk e he
      exact ⟨hb, fun h0 => absurd h0 (by omega), fun _ => ⟨hv, child, ces, hc, hl, hs⟩⟩
    · rintro ⟨L, hne, hk⟩
      refine ⟨by rw [heightType_pos (by omega)] at L; exact L, hne, fun e he => ?_⟩
      obtain ⟨hb, -, h2⟩ := hk e he
      obtain ⟨hv, child, ces, hc, hl, hs⟩ := h2 (by omega)
      exact ⟨hb, hv, child, ces, hc, hl, hs⟩

/-- The references of a single node that holds the entries `g` of a tree of height `hc`. -/
theorem kid_refs {hc f i x : Nat} {kid : BNode} {g : List Entry}
    (Lk : Layout kid (heightType hc) g.length g)
    (h : Refs (fun q => if q = f then some kid else none) f i x) :
    0 < hc ∧ ∃ e, g[i]? = some e ∧ e.ptr = x := by
  rcases Nat.eq_zero_or_pos hc with h0 | hp
  · subst h0
    exact absurd h (Refs.not_leaf (by simp) Lk)
  · rw [heightType_pos hp] at Lk
    exact ⟨hp, Refs.single Lk h⟩

theorem nodup_ptr_index {g : List Entry} (hnd : (g.map Entry.ptr).Nodup) {i j : Nat}
    {a b : Entry} (ha : g[i]? = some a) (hb : g[j]? = some b) (hab : a.ptr = b.ptr) :
    i = j := by
  have hi := getElem?_lt ha
  have hj := getElem?_lt hb
  have h1 : (g.map Entry.ptr)[i]? = some a.ptr := by simp [ha]
  have h2 : (g.map Entry.ptr)[j]? = some a.ptr := by simp [hb, hab]
  have hi' : i < (g.map Entry.ptr).length := by simpa using hi
  have hj' : j < (g.map Entry.ptr).length := by simpa using hj
  rw [List.getElem?_eq_getElem hi'] at h1
  rw [List.getElem?_eq_getElem hj'] at h2
  exact (List.Nodup.getElem_inj_iff hnd).1 (by
    rw [Option.some.inj h1, Option.some.inj h2])

/-! ## The leftmost leaf under changes of the store -/

theorem Lm_zero {get : Nat → Option BNode} {node : BNode} :
    Lm get 0 node ↔ node.btype = .ok BNODE_LEAF ∧ (∃ n, node.nkeys = .ok n ∧ 0 < n) ∧
      node.getKey 0 = .ok [] := Iff.rfl

theorem Lm_succ {get : Nat → Option BNode} {h : Nat} {node : BNode} :
    Lm get (h + 1) node ↔ node.btype = .ok BNODE_NODE ∧ (∃ n, node.nkeys = .ok n ∧ 0 < n) ∧
      ∃ p child, node.getPtr 0 = .ok p ∧ get p = some child ∧ Lm get h child := Iff.rfl

/-- The first pointer of an internal node on the way to the leftmost leaf is a
reference of the page that holds the node. -/
theorem Lm.refs {get : Nat → Option BNode} {h x p : Nat} {node : BNode}
    (hg : get x = some node) (hl : Lm get (h + 1) node) (hp : node.getPtr 0 = .ok p) :
    Refs get x 0 p := by
  obtain ⟨bt, ⟨n, hn, hpos⟩, -⟩ := Lm_succ.1 hl
  exact ⟨node, n, hg, bt, hn, hpos, hp⟩

/-- A store with more pages keeps the way to the leftmost leaf. -/
theorem Lm.mono_lm {V get : Nat → Option BNode} (hV : ∀ x c, V x = some c → get x = some c)
    (h : Nat) : ∀ {node : BNode}, Lm V h node → Lm get h node := by
  induction h with
  | zero => exact fun hl => hl
  | succ h ih =>
    intro node hl
    obtain ⟨bt, nk, p, child, hp, hc, hl'⟩ := Lm_succ.1 hl
    exact Lm_succ.2 ⟨bt, nk, p, child, hp, hV p child hc, ih hl'⟩

theorem Lm.insert_lm {V V' : Nat → Option BNode} {f : Nat} {v : BNode}
    (hg : ∀ q, V' q = if q = f then some v else V q) (hf : V f = none) (h : Nat)
    {node : BNode} (hl : Lm V h node) : Lm V' h node := by
  refine Lm.mono_lm (fun x c hx => ?_) h hl
  rw [hg]
  by_cases hxf : x = f
  · rw [hxf, hf] at hx
    cases hx
  · rw [if_neg hxf]
    exact hx

/-- Removing a page that no live page points to keeps the way to the leftmost leaf of a
node whose own first pointer is not that page. -/
theorem Lm.erase_lm {V V' : Nat → Option BNode} {d : Nat}
    (hg : ∀ q, V' q = if q = d then none else V q) (hd : NoRef V d) (h : Nat) :
    ∀ {node : BNode}, Lm V h node → (0 < h → ∀ p, node.getPtr 0 = .ok p → p ≠ d) →
      Lm V' h node := by
  induction h with
  | zero => exact fun hl _ => hl
  | succ h ih =>
    intro node hl hne
    obtain ⟨bt, nk, p, child, hp, hc, hl'⟩ := Lm_succ.1 hl
    have hpd : p ≠ d := hne (Nat.succ_pos h) p hp
    refine Lm_succ.2 ⟨bt, nk, p, child, hp, by rw [hg, if_neg hpd]; exact hc, ih hl' ?_⟩
    intro hpos q hq heq
    obtain ⟨h', rfl⟩ : ∃ h', h = h' + 1 := ⟨h - 1, by omega⟩
    exact hd p 0 (heq ▸ Lm.refs hc hl' hq)

/-- The same for a node that is a live page other than the removed one. -/
theorem Lm.erase_page {V V' : Nat → Option BNode} {d x : Nat}
    (hg : ∀ q, V' q = if q = d then none else V q) (hd : NoRef V d) {h : Nat} {node : BNode}
    (hx : V x = some node) (hl : Lm V h node) : Lm V' h node := by
  refine Lm.erase_lm hg hd h hl (fun hpos q hq heq => ?_)
  obtain ⟨h', rfl⟩ : ∃ h', h = h' + 1 := ⟨h - 1, by omega⟩
  exact hd x 0 (heq ▸ Lm.refs hx hl hq)

/-- A node with the same type, a key, and the same first pointer and first key. -/
theorem Lm.congr_lm {V : Nat → Option BNode} {h : Nat} {a b : BNode} (hl : Lm V h a)
    (ht : b.btype = a.btype) (hn : ∃ n, b.nkeys = .ok n ∧ 0 < n)
    (hp : 0 < h → b.getPtr 0 = a.getPtr 0) (hk : h = 0 → b.getKey 0 = a.getKey 0) :
    Lm V h b := by
  cases h with
  | zero =>
    obtain ⟨bt, -, k⟩ := Lm_zero.1 hl
    exact Lm_zero.2 ⟨ht.trans bt, hn, (hk rfl).trans k⟩
  | succ h =>
    obtain ⟨bt, -, p, child, hp', hc, hl'⟩ := Lm_succ.1 hl
    exact Lm_succ.2 ⟨ht.trans bt, hn, p, child, (hp (Nat.succ_pos h)).trans hp', hc, hl'⟩

/-- With enough fuel the descent arrives at the leaf that `Lm` describes. -/
theorem leftmost_of_Lm (tree : BTree MemStore) (h : Nat) :
    ∀ (node : BNode) (fuel : Nat), Lm tree.store.get h node → h < fuel →
      ∃ leaf n, leftmostLoop testPager fuel tree node = .ok leaf ∧ leaf.nkeys = .ok n ∧
        0 < n ∧ leaf.getKey 0 = .ok [] := by
  induction h with
  | zero =>
    intro node fuel hl hf
    obtain ⟨bt, ⟨n, hn, hpos⟩, hk⟩ := Lm_zero.1 hl
    obtain ⟨f, rfl⟩ : ∃ f, fuel = f + 1 := ⟨fuel - 1, by omega⟩
    refine ⟨node, n, ?_, hn, hpos, hk⟩
    unfold leftmostLoop
    rw [bt]
    simp only [Res.ok_bind, if_true, Res.pure_eq]
  | succ h ih =>
    intro node fuel hl hf
    obtain ⟨bt, -, p, child, hp, hc, hl'⟩ := Lm_succ.1 hl
    obtain ⟨f, rfl⟩ : ∃ f, fuel = f + 1 := ⟨fuel - 1, by omega⟩
    obtain ⟨leaf, n, hrun, hn, hpos, hk⟩ := ih child f hl' (by omega)
    refine ⟨leaf, n, ?_, hn, hpos, hk⟩
    unfold leftmostLoop
    rw [bt]
    simp only [Res.ok_bind]
    rw [if_neg (show ¬ BNODE_NODE = BNODE_LEAF by decide), hp]
    simp only [Res.ok_bind]
    rw [testGet_eq hc]
    simp only [Res.ok_bind]
    exact hrun

/-- In a well-shaped tree, a descent that arrives at a leaf with the empty key in front
shows `Lm` at the height of the tree. -/
theorem Lm_of_leftmost (K : List Nat → Prop) (tree : BTree MemStore) (h : Nat) :
    ∀ (node leaf : BNode) (es : List Entry) (fuel n : Nat),
      Shape K tree.store.get h node es →
      leftmostLoop testPager fuel tree node = .ok leaf → leaf.nkeys = .ok n → 0 < n →
      leaf.getKey 0 = .ok [] → Lm tree.store.get h node := by
  induction h with
  | zero =>
    intro node leaf es fuel n hs hrun hn hpos hk
    obtain ⟨L, -, -⟩ := Shape_iff.1 hs
    rw [heightType_zero] at L
    cases fuel with
    | zero => unfold leftmostLoop at hrun; cases hrun
    | succ f =>
      unfold leftmostLoop at hrun
      rw [L.btype_eq] at hrun
      simp only [Res.ok_bind, if_true, Res.pure_eq] at hrun
      cases hrun
      exact Lm_zero.2 ⟨L.btype_eq, ⟨n, hn, hpos⟩, hk⟩
  | succ h ih =>
    intro node leaf es fuel n hs hrun hn hpos hk
    obtain ⟨L, hne, hent⟩ := Shape_iff.1 hs
    rw [heightType_pos (Nat.succ_pos h)] at L
    obtain ⟨e0, he0⟩ := exists_getElem? es 0 (List.length_pos.2 hne)
    obtain ⟨-, -, h3⟩ := hent e0 (List.getElem?_mem he0)
    obtain ⟨-, child, ces, hcg, -, hcs⟩ := h3 (Nat.succ_pos h)
    rw [Nat.add_sub_cancel] at hcs
    cases fuel with
    | zero => unfold leftmostLoop at hrun; cases hrun
    | succ f =>
      unfold leftmostLoop at hrun
      rw [L.btype_eq] at hrun
      simp only [Res.ok_bind] at hrun
      rw [if_neg (show ¬ BNODE_NODE = BNODE_LEAF by decide), L.getPtr_eq he0] at hrun
      simp only [Res.ok_bind] at hrun
      rw [testGet_eq hcg] at hrun
      simp only [Res.ok_bind] at hrun
      exact Lm_succ.2 ⟨L.btype_eq, ⟨es.length, L.nkeys_eq, List.length_pos.2 hne⟩, e0.ptr,
        child, L.getPtr_eq he0, hcg, ih child leaf ces f n hcs hrun hn hpos hk⟩

theorem kidEntries_cons (f : Nat) (ptrs : List Nat) (g : List Entry)
    (groups : List (List Entry)) :
    kidEntries (f :: ptrs) (g :: groups) = ⟨f, firstKey g, []⟩ :: kidEntries ptrs groups := rfl

theorem firstKey_bounded {g : List Entry} (hb : ∀ e ∈ g, e.Bounded) :
    (firstKey g).length ≤ 1000 := by
  cases g with
  | nil => simp [firstKey]
  | cons e g =>
    have := (hb e (List.mem_cons_self _ _)).1
    simpa [firstKey, BTREE_MAX_KEY_SIZE] using this

theorem getKey_first {kid : BNode} {t : Nat} {g : List Entry} (L : Layout kid t g.length g)
    (hne : g ≠ []) : kid.getKey 0 = .ok (firstKey g) := by
  cases g with
  | nil => exact absurd rfl hne
  | cons e g => exact L.getKey_eq (show (e :: g)[0]? = some e by simp)

/-- The loop that registers the kids of a split and appends their entries to the new
parent, over the store of the test: every kid fits a page, gets an unused id and becomes
the root of a tree; trees whose roots are not among the kids' children are untouched. -/
theorem appendKids_spec (K : List Nat → Prop) (hc : Nat) {kids : List BNode}
    {groups : List (List Entry)}
    (hpg : List.Forall₂ (fun k g => PageOf k (heightType hc) g) kids groups) :
    ∀ (tree tree' : BTree MemStore) (new new' : BNode) (n idx i : Nat) (es : List Entry),
      StoreOK tree.store → Layout new BNODE_NODE n es → es.length = idx + i →
      idx + i + groups.length ≤ n →
      4 + 10 * n + kvSize es + 1004 * groups.length ≤ new.len → new.len < 65536 →
      (∀ g ∈ groups, ∀ e ∈ g, e.Bounded ∧ (hc = 0 → K e.key) ∧
        (0 < hc → e.val = [] ∧ Sub K tree.store.get (hc - 1) e.ptr ∧
          NoRef tree.store.get e.ptr)) →
      (0 < hc → (groups.flatten.map Entry.ptr).Nodup) →
      appendKids testPager kids idx i tree new = .ok (new', tree') →
      ∃ ptrs, ptrs.length = groups.length ∧
        Layout new' BNODE_NODE n (es ++ kidEntries ptrs groups) ∧
        new'.len = new.len ∧ new'.data.length = new.data.length ∧
        tree'.root = tree.root ∧ StoreOK tree'.store ∧ ptrs.Nodup ∧
        (∀ f ∈ ptrs, tree.store.get f = none ∧ Sub K tree'.store.get hc f ∧
          NoRef tree'.store.get f) ∧
        (∀ x h', Sub K tree.store.get h' x → NoRef tree.store.get x →
          (0 < hc → ∀ g ∈ groups, ∀ e ∈ g, e.ptr ≠ x) →
          Sub K tree'.store.get h' x ∧ NoRef tree'.store.get x) ∧
        (∀ x c, tree.store.get x = some c → tree'.store.get x = some c) ∧
        (∀ (j p : Nat) (k : BNode), ptrs[j]? = some p → kids[j]? = some k →
          tree'.store.get p = some k) := by
  induction hpg with
  | nil =>
    intro tree tree' new new' n idx i es hS L _ _ _ _ _ _ hrun
    unfold appendKids at hrun
    cases hrun
    exact ⟨[], rfl, by simpa [kidEntries] using L, rfl, rfl, rfl, hS, List.nodup_nil,
      fun f hf => by simp at hf, fun x h' hs hn _ => ⟨hs, hn⟩, fun x c hx => hx,
      fun j p k hp => by simp at hp⟩
  | @cons kid g kids groups hk _ ih =>
    intro tree tree' new new' n idx i es hS L hlen hcount hfits hsmall hgr hnd hrun
    obtain ⟨hkl, hgne, Wk, Lk⟩ := hk
    have hn := L.n_lt
    simp only [List.length_cons] at hcount hfits
    have hbg : ∀ e ∈ g, e.Bounded := fun e he => (hgr g (List.mem_cons_self _ _) e he).1
    have hfk := firstKey_bounded hbg
    -- the kid is registered
    unfold appendKids at hrun
    obtain ⟨⟨ptr, tree1⟩, hnew, hrun⟩ := bind_ok_inv hrun
    obtain ⟨hroot1, hptr, hctr1, ⟨sz, hsz, hszle⟩, hfresh, hget1⟩ := testNew_ok hnew
    rw [Wk.nbytes_eq rfl] at hsz
    cases hsz
    have Lk := Lk hszle
    have hplt : ptr < 18446744073709551616 := by rw [hptr]; exact hS.2
    -- its entry is appended
    simp only [] at hrun
    rw [getKey_first Lk hgne] at hrun
    simp only [Res.ok_bind] at hrun
    rw [u16_of_lt (show i < 65536 by omega), u16_of_lt (show idx + i < 65536 by omega),
      ← hlen] at hrun
    obtain ⟨n1, e1, l1, c1, L1⟩ := nodeAppendKV_spec L ⟨ptr, firstKey g, []⟩ (by omega)
      (by simp only [Entry.size, List.length_nil]; omega)
      (by simp only [Entry.size, List.length_nil]; omega) hplt
    rw [e1] at hrun
    simp only [Res.ok_bind] at hrun
    -- the store with the kid
    have hrefs : ∀ i x, Refs (fun q => if q = ptr then some kid else none) ptr i x →
        0 < hc ∧ ∃ e, g[i]? = some e ∧ e.ptr = x := fun i x h => kid_refs Lk h
    have hF1 : Forest tree1.store.get := by
      refine hS.1.insert hget1 hfresh (fun i x h => ?_) (fun i j x h1 h2 => ?_)
      · obtain ⟨hp, e, he, hx⟩ := hrefs i x h
        obtain ⟨-, -, h3⟩ := hgr g (List.mem_cons_self _ _) e (List.getElem?_mem he)
        obtain ⟨-, ⟨node, es', hnode, -, -⟩, hnr⟩ := h3 hp
        rw [← hx]
        exact ⟨⟨node, hnode⟩, hnr⟩
      · obtain ⟨hp, a, ha, hax⟩ := hrefs i x h1
        obtain ⟨-, b, hb, hbx⟩ := hrefs j x h2
        have hnd' := hnd hp
        simp only [List.flatten, List.map_append] at hnd'
        exact nodup_ptr_index (List.Nodup.of_append_left hnd') ha hb (by rw [hax, hbx])
    have hS1 : StoreOK tree1.store := ⟨hF1, hctr1⟩
    have hgr1 : ∀ g' ∈ groups, ∀ e ∈ g', e.Bounded ∧ (hc = 0 → K e.key) ∧
        (0 < hc → e.val = [] ∧ Sub K tree1.store.get (hc - 1) e.ptr ∧
          NoRef tree1.store.get e.ptr) := by
      intro g' hg' e he
      obtain ⟨hb, hk0, h3⟩ := hgr g' (List.mem_cons_of_mem _ hg') e he
      refine ⟨hb, hk0, fun hp => ?_⟩
      obtain ⟨hv, hsub, hnr⟩ := h3 hp
      refine ⟨hv, hsub.insert_sub hget1 hfresh, hnr.insert_noRef hget1 (fun i hr => ?_)⟩
      obtain ⟨-, a, ha, hax⟩ := hrefs i _ hr
      have hnd' := hnd hp
      simp only [List.flatten, List.map_append] at hnd'
      have hdis := List.disjoint_of_nodup_append hnd'
      exact hdis (List.mem_map_of_mem _ (List.getElem?_mem ha))
        (by rw [hax]; exact List.mem_map_of_mem _ (List.mem_flatten_of_mem hg' he))
    have hnd1 : 0 < hc → (groups.flatten.map Entry.ptr).Nodup := by
      intro hp
      have hnd' := hnd hp
      simp only [List.flatten, List.map_append] at hnd'
      exact List.Nodup.of_append_right hnd'
    obtain ⟨ptrs, hpl, Lr, lr, cr, hrootr, hSr, hndr, hallr, hframer, hE1, hE2⟩ :=
      ih tree1 tree' n1 new' n idx (i + 1) (es ++ [⟨ptr, firstKey g, []⟩]) hS1 L1
        (by simp; omega) (by omega)
        (by rw [kvSize_append]; simp only [kvSize_cons, kvSize_nil, Entry.size,
          List.length_nil]; omega)
        (by omega) hgr1 hnd1 hrun
    -- the kid is a root in the store with the kid
    have hsubk : Sub K tree1.store.get hc ptr := by
      refine ⟨kid, g, by rw [hget1, if_pos rfl], hkl, Shape_iff.2 ⟨Lk, hgne, fun e he => ?_⟩⟩
      obtain ⟨hb, hk0, h3⟩ := hgr g (List.mem_cons_self _ _) e he
      exact ⟨hb, hk0, fun hp => ⟨(h3 hp).1, (h3 hp).2.1.insert_sub hget1 hfresh⟩⟩
    have hnrk : NoRef tree1.store.get ptr := by
      intro p i hr
      rcases Refs.of_insert hget1 hr with ⟨_, r⟩ | ⟨_, r⟩
      · obtain ⟨hp, e, he, hx⟩ := hrefs i ptr r
        obtain ⟨-, ⟨node, es', hnode, -, -⟩, -⟩ :=
          (hgr g (List.mem_cons_self _ _) e (List.getElem?_mem he)).2.2 hp
        rw [hx, hfresh] at hnode
        cases hnode
      · exact hS.1.noRef_of_none hfresh p i r
    have hlive : 0 < hc → ∀ g' ∈ g :: groups, ∀ e ∈ g', e.ptr ≠ ptr := by
      intro hp g' hg' e he hx
      obtain ⟨-, ⟨node, es', hnode, -, -⟩, -⟩ := (hgr g' hg' e he).2.2 hp
      rw [hx, hfresh] at hnode
      cases hnode
    have hk' := hframer ptr hc hsubk hnrk
      (fun hp g' hg' e he => hlive hp g' (List.mem_cons_of_mem _ hg') e he)
    have hgrow : ∀ x c, tree.store.get x = some c → tree1.store.get x = some c := by
      intro x c hx
      rw [hget1]
      by_cases hxp : x = ptr
      · rw [hxp, hfresh] at hx
        cases hx
      · rw [if_neg hxp]
        exact hx
    refine ⟨ptr :: ptrs, by simp [hpl], ?_, by omega, by omega, by rw [hrootr, hroot1], hSr,
      List.nodup_cons.2 ⟨fun hmem => ?_, hndr⟩, fun f hf => ?_, fun x h' hs hnr hx => ?_,
      fun x c hx => hE1 x c (hgrow x c hx), fun j p k hp hkk => ?_⟩
    · rw [kidEntries_cons]
      simpa using Lr
    · have := (hallr ptr hmem).1
      rw [hget1, if_pos rfl] at this
      cases this
    · rcases List.mem_cons.1 hf with hfp | hfp
      · rw [hfp]
        exact ⟨hfresh, hk'.1, hk'.2⟩
      · obtain ⟨h1, h2, h3⟩ := hallr f hfp
        refine ⟨?_, h2, h3⟩
        rw [hget1] at h1
        by_cases hfe : f = ptr
        · rw [if_pos hfe] at h1; cases h1
        · rwa [if_neg hfe] at h1
    · refine hframer x h' (hs.insert_sub hget1 hfresh) (hnr.insert_noRef hget1 (fun i hr => ?_))
        (fun hp g' hg' e he => hx hp g' (List.mem_cons_of_mem _ hg') e he)
      obtain ⟨hp, e, he, hex⟩ := hrefs i x hr
      exact hx hp g (List.mem_cons_self _ _) e (List.getElem?_mem he) hex
    · cases j with
      | zero =>
        simp only [List.getElem?_cons_zero, Option.some.injEq] at hp hkk
        subst hp hkk
        exact hE1 _ _ (by rw [hget1, if_pos rfl])
      | succ j =>
        simp only [List.getElem?_cons_succ] at hp hkk
        exact hE2 j p k hp hkk

theorem kidEntries_length (ptrs : List Nat) (groups : List (List Entry))
    (h : ptrs.length = groups.length) : (kidEntries ptrs groups).length = groups.length := by
  simp [kidEntries, h]

theorem kidEntries_mem {ptrs : List Nat} {groups : List (List Entry)} {e : Entry}
    (h : e ∈ kidEntries ptrs groups) :
    ∃ f g, f ∈ ptrs ∧ g ∈ groups ∧ e = ⟨f, firstKey g, []⟩ := by
  induction ptrs generalizing groups with
  | nil => simp [kidEntries] at h
  | cons f ptrs ih =>
    cases groups with
    | nil => simp [kidEntries] at h
    | cons g groups =>
      rw [kidEntries_cons] at h
      rcases List.mem_cons.1 h with h | h
      · exact ⟨f, g, List.mem_cons_self _ _, List.mem_cons_self _ _, h⟩
      · obtain ⟨f', g', hf, hg, he⟩ := ih h
        exact ⟨f', g', List.mem_cons_of_mem _ hf, List.mem_cons_of_mem _ hg, he⟩

theorem kvSize_kidEntries (ptrs : List Nat) (groups : List (List Entry))
    (hb : ∀ g ∈ groups, ∀ e ∈ g, e.Bounded) :
    kvSize (kidEntries ptrs groups) ≤ 1004 * groups.length := by
  induction ptrs generalizing groups with
  | nil => simp [kidEntries, kvSize]
  | cons f ptrs ih =>
    cases groups with
    | nil => simp [kidEntries, kvSize]
    | cons g groups =>
      rw [kidEntries_cons, kvSize_cons]
      have h1 := firstKey_bounded (hb g (List.mem_cons_self _ _))
      have h2 := ih groups (fun g' hg' => hb g' (List.mem_cons_of_mem _ hg'))
      simp only [Entry.size, List.length_nil, List.length_cons]
      omega

/-- `nodeReplaceKidN` over the store of the test: the entry `idx` of the old node is
replaced by the entries of the registered kids. -/
theorem nodeReplaceKidN_spec (K : List Nat → Prop) (hc : Nat) {kids : List BNode}
    {groups : List (List Entry)}
    (hpg : List.Forall₂ (fun k g => PageOf k (heightType hc) g) kids groups)
    (hm1 : 1 ≤ groups.length) (hm3 : groups.length ≤ 3)
    (tree tree' : BTree MemStore) (old new' : BNode) (n idx : Nat) (eo : List Entry)
    (Lo : Layout old BNODE_NODE n eo) (ho : eo.length = n) (hol : old.len = BTREE_PAGE_SIZE)
    (hidx : idx < n) (hS : StoreOK tree.store)
    (hgr : ∀ g ∈ groups, ∀ e ∈ g, e.Bounded ∧ (hc = 0 → K e.key) ∧
      (0 < hc → e.val = [] ∧ Sub K tree.store.get (hc - 1) e.ptr ∧
        NoRef tree.store.get e.ptr))
    (hnd : 0 < hc → (groups.flatten.map Entry.ptr).Nodup)
    (hrun : nodeReplaceKidN testPager tree (BNode.make (2 * BTREE_PAGE_SIZE)) old idx kids =
      .ok (new', tree')) :
    ∃ ptrs, ptrs.length = groups.length ∧
      Layout new' BNODE_NODE (n + groups.length - 1)
        (eo.take idx ++ kidEntries ptrs groups ++ eo.drop (idx + 1)) ∧
      new'.len = 2 * BTREE_PAGE_SIZE ∧ new'.data.length = 2 * BTREE_PAGE_SIZE ∧
      tree'.root = tree.root ∧ StoreOK tree'.store ∧ ptrs.Nodup ∧
      (∀ f ∈ ptrs, tree.store.get f = none ∧ Sub K tree'.store.get hc f ∧
        NoRef tree'.store.get f) ∧
      (∀ x h', Sub K tree.store.get h' x → NoRef tree.store.get x →
        (0 < hc → ∀ g ∈ groups, ∀ e ∈ g, e.ptr ≠ x) →
        Sub K tree'.store.get h' x ∧ NoRef tree'.store.get x) ∧
      (∀ x c, tree.store.get x = some c → tree'.store.get x = some c) ∧
      (∀ (j p : Nat) (k : BNode), ptrs[j]? = some p → kids[j]? = some k → tree'.store.get p = some k) := by
  have hkl : kids.length = groups.length := hpg.length_eq
  have hfo := Lo.fits
  have h4 := length_le_kvSize eo
  rw [hol] at hfo
  simp only [BTREE_PAGE_SIZE] at hfo
  have hsplit := kvSize_take_add_drop eo idx
  have hsplit' := kvSize_take_add_drop eo (idx + 1)
  have htl : (eo.take idx).length = idx := by simp; omega
  have hmono := kvSize_take_mono eo idx (idx + 1) (by omega)
  -- header and the entries before `idx`
  obtain ⟨n0, e0, l0, c0, L0⟩ := make_layout (2 * BTREE_PAGE_SIZE) BNODE_NODE
    (n + groups.length - 1) (by decide) (by simp only [BTREE_PAGE_SIZE]; omega) (by decide)
  simp only [BTREE_PAGE_SIZE] at l0 c0
  obtain ⟨n1, e1, l1, c1, -, L1⟩ := nodeAppendRange_spec L0 Lo ho 0 idx (by omega)
    (by simp; omega) (by simp [kvSize_nil]; omega)
  have L1 := L1 (by simp [kvSize_nil]; omega)
  simp only [List.nil_append, List.drop_zero, List.length_nil] at L1 e1
  unfold nodeReplaceKidN at hrun
  rw [Lo.nkeys_eq] at hrun
  simp only [Res.ok_bind] at hrun
  rw [hkl, u16_of_lt (show groups.length < 65536 by omega),
    u16_of_lt (show n + groups.length < 65536 by omega),
    u16sub_of_le (show 1 ≤ n + groups.length by omega) (by omega), e0] at hrun
  simp only [Res.ok_bind] at hrun
  rw [e1] at hrun
  simp only [Res.ok_bind] at hrun
  -- the kids
  obtain ⟨⟨n2, tree2⟩, hkids, hrun⟩ := bind_ok_inv hrun
  obtain ⟨ptrs, hpl, L2, l2, c2, hroot2, hS2, hnd2, hall2, hframe2, hE1, hE2⟩ :=
    appendKids_spec K hc hpg tree tree2 n1 n2 (n + groups.length - 1) idx 0 (eo.take idx)
      hS L1 (by rw [htl]; rfl) (by omega) (by omega) (by omega) hgr hnd hkids
  have hkl2 := kidEntries_length ptrs groups hpl
  have hks := kvSize_kidEntries ptrs groups (fun g hg e he => (hgr g hg e he).1)
  -- the entries behind `idx`
  have hdrop : (eo.drop (idx + 1)).take (n - (idx + 1)) = eo.drop (idx + 1) :=
    List.take_of_length_le (by simp; omega)
  have hl2 : (eo.take idx ++ kidEntries ptrs groups).length = idx + groups.length := by
    simp [hkl2]; omega
  obtain ⟨n3, e3, l3, c3, -, L3⟩ := nodeAppendRange_spec L2 Lo ho (idx + 1) (n - (idx + 1))
    (by omega) (by rw [hl2]; omega) (by rw [hdrop, kvSize_append]; omega)
  have L3 := L3 (by rw [hdrop, kvSize_append]; omega)
  rw [hdrop] at L3
  rw [hl2] at e3
  simp only [] at hrun
  rw [u16_of_lt (show idx + groups.length < 65536 by omega),
    u16_of_lt (show idx + 1 < 65536 by omega),
    u16sub_of_le (show idx + 1 ≤ n by omega) (by omega), e3] at hrun
  simp only [Res.ok_bind, Res.pure_eq, Res.ok.injEq, Prod.mk.injEq] at hrun
  obtain ⟨hn', ht'⟩ := hrun
  subst hn' ht'
  exact ⟨ptrs, hpl, L3, by simp only [BTREE_PAGE_SIZE]; omega,
    by simp only [BTREE_PAGE_SIZE]; omega, hroot2, hS2, hnd2, hall2, hframe2, hE1, hE2⟩

/-! ## `treeInsert` over the store of the test -/

theorem kidEntries_ptrs (ptrs : List Nat) (groups : List (List Entry))
    (h : ptrs.length = groups.length) : (kidEntries ptrs groups).map Entry.ptr = ptrs := by
  induction ptrs generalizing groups with
  | nil => simp [kidEntries]
  | cons f ptrs ih =>
    cases groups with
    | nil => simp at h
    | cons g groups =>
      rw [kidEntries_cons, List.map_cons, ih groups (by simpa using h)]

theorem decomp_at {es : List Entry} {idx : Nat} {ei : Entry} (h : es[idx]? = some ei) :
    es = es.take idx ++ ei :: es.drop (idx + 1) := by
  have hi := getElem?_lt h
  rw [List.getElem?_eq_getElem hi] at h
  cases h
  rw [← List.drop_eq_getElem_cons hi, List.take_append_drop]

theorem nodup_of_index_inj {es : List Entry}
    (h : ∀ (i j : Nat) (a b : Entry), es[i]? = some a → es[j]? = some b → a.ptr = b.ptr → i = j) :
    (es.map Entry.ptr).Nodup := by
  rw [List.nodup_iff_injective_getElem]
  intro ⟨i, hi⟩ ⟨j, hj⟩ hij
  simp only [List.getElem_map] at hij
  have hi' : i < es.length := by simpa using hi
  have hj' : j < es.length := by simpa using hj
  have := h i j es[i] es[j] (List.getElem?_eq_getElem hi') (List.getElem?_eq_getElem hj') hij
  exact Fin.ext this

/-- After its page was removed, a registered node is a fragment: its children are the
roots that nothing points to any more. -/
theorem frag_after_del {K : List Nat → Prop} {get get1 : Nat → Option BNode} {h kptr : Nat}
    {knode : BNode} {ces : List Entry} (F : Forest get) (hgk : get kptr = some knode)
    (hs : Shape K get h knode ces) (hnr : NoRef get kptr)
    (hg1 : ∀ q, get1 q = if q = kptr then none else get q) :
    Frag K get1 h knode ces := by
  have href : 0 < h → ∀ i c, ces[i]? = some c → Refs get kptr i c.ptr := by
    intro hp i c hc
    obtain ⟨L, -, -⟩ := Shape_iff.1 hs
    rw [heightType_pos hp] at L
    exact Refs.of_layout hgk L hc
  refine ⟨Shape.erase_shape hg1 hnr h hs (fun hp c hc hx => ?_), fun hp => ⟨fun c hc p i hr => ?_,
    nodup_of_index_inj (fun i j a b ha hb hab => ?_)⟩⟩
  · obtain ⟨i, hi, hie⟩ := List.getElem_of_mem hc
    have := href hp i c (by rw [List.getElem?_eq_getElem hi, hie])
    rw [hx] at this
    exact hnr _ _ this
  · obtain ⟨j, hj, hje⟩ := List.getElem_of_mem hc
    have h1 := href hp j c (by rw [List.getElem?_eq_getElem hj, hje])
    obtain ⟨hpk, h2⟩ := Refs.of_erase hg1 hr
    exact hpk (F.1 _ _ _ _ _ h2 h1).1
  · have h1 := href hp i a ha
    have h2 := href hp j b hb
    rw [hab] at h1
    exact (F.1 _ _ _ _ _ h1 h2).2

/-- `treeInsert` on a leaf: the entry goes right after the position found. -/
theorem treeInsert_leaf (K K' : List Nat → Prop) (hK : ∀ k, K k → K' k) (key val : List Nat)
    (hkey : K' key) (hk1 : key ≠ []) (hkb : key.length ≤ 1000) (hvb : val.length ≤ 3000)
    (fuel : Nat) (tree tree' : BTree MemStore) (node new : BNode) (es : List Entry)
    (hF : Frag K tree.store.get 0 node es) (hlen : node.len = BTREE_PAGE_SIZE)
    (hrun : treeInsert testPager fuel tree node key val = .ok (new, tree')) :
    ∃ es', Frag K' tree.store.get 0 new es' ∧ new.len = 2 * BTREE_PAGE_SIZE ∧
      new.data.length = 2 * BTREE_PAGE_SIZE ∧ tree' = tree ∧
      ∀ (V : Nat → Option BNode), Lm V 0 node → Lm V 0 new := by
  obtain ⟨L, hne, hent⟩ := Shape_iff.1 hF.1
  rw [heightType_zero] at L
  have hpos : 1 ≤ es.length := List.length_pos.2 hne
  have hfit := L.fits
  rw [hlen] at hfit
  simp only [BTREE_PAGE_SIZE] at hfit
  cases fuel with
  | zero => unfold treeInsert at hrun; cases hrun
  | succ fuel =>
    unfold treeInsert at hrun
    generalize hmk : BNode.make (2 * BTREE_PAGE_SIZE) = mk at hrun
    obtain ⟨idx, hidx, hlt⟩ := nodeLookupLE_lt L rfl hpos key
    simp only [] at hrun
    rw [hidx] at hrun
    simp only [Res.ok_bind] at hrun
    rw [L.btype_eq] at hrun
    simp only [Res.ok_bind] at hrun
    have h100 : es.length < 500 := by omega
    have hgk : mk.getKey idx = .ok [] := by
      rw [← hmk]
      exact make_getKey (2 * BTREE_PAGE_SIZE) idx (by simp only [BTREE_PAGE_SIZE]; omega)
        (by simp only [BTREE_PAGE_SIZE]; omega)
    rw [if_pos trivial, hgk] at hrun
    simp only [Res.ok_bind] at hrun
    have hbe : bytesEqual key [] = false := by
      cases key with
      | nil => exact absurd rfl hk1
      | cons a key => simp [bytesEqual]
    rw [hbe] at hrun
    obtain ⟨nl, hnl, l1, c1, L1⟩ := leafInsert_spec L rfl (2 * BTREE_PAGE_SIZE) (idx + 1) key val
      (by omega) (by simp only [BTREE_PAGE_SIZE]; omega) (by simp only [BTREE_PAGE_SIZE]; omega)
    rw [hmk] at hnl
    rw [u16_of_lt (show idx + 1 < 65536 by omega)] at hrun
    simp only [Bool.false_eq_true, if_false] at hrun
    rw [hnl] at hrun
    simp only [Res.ok_bind] at hrun
    cases hrun
    refine ⟨es.take (idx + 1) ++ [⟨0, key, val⟩] ++ es.drop (idx + 1), ⟨Shape_iff.2 ⟨?_, ?_, ?_⟩,
      fun hp => absurd hp (by decide)⟩, l1, c1, rfl, ?_⟩
    · rw [heightType_zero]
      have hl : (es.take (idx + 1) ++ [(⟨0, key, val⟩ : Entry)] ++ es.drop (idx + 1)).length
          = es.length + 1 := by
        simp only [List.length_append, List.length_take, List.length_drop, List.length_cons,
          List.length_nil]
        omega
      rw [hl]
      exact L1
    · simp
    · intro e he
      simp only [List.mem_append, List.mem_singleton] at he
      rcases he with (he | he) | he
      · obtain ⟨hb, hk0, -⟩ := hent e (List.mem_of_mem_take he)
        exact ⟨hb, fun _ => hK _ (hk0 rfl), fun hp => absurd hp (by decide)⟩
      · subst he
        exact ⟨⟨by simp only [BTREE_MAX_KEY_SIZE]; exact hkb,
          by simp only [BTREE_MAX_VAL_SIZE]; exact hvb⟩, fun _ => hkey,
          fun hp => absurd hp (by decide)⟩
      · obtain ⟨hb, hk0, -⟩ := hent e (List.mem_of_mem_drop he)
        exact ⟨hb, fun _ => hK _ (hk0 rfl), fun hp => absurd hp (by decide)⟩
    · intro V hl
      obtain ⟨-, -, hk0⟩ := Lm_zero.1 hl
      obtain ⟨e0, he0⟩ := exists_getElem? es 0 hpos
      have he1 : (es.take (idx + 1) ++ [(⟨0, key, val⟩ : Entry)] ++ es.drop (idx + 1))[0]?
          = some e0 := by
        rw [List.append_assoc, List.getElem?_append_left (by
          simp only [List.length_take]; omega), List.getElem?_take_of_lt (by omega)]
        exact he0
      refine Lm_zero.2 ⟨L1.btype_eq, ⟨_, L1.nkeys_eq, Nat.succ_pos _⟩, ?_⟩
      rw [L1.getKey_eq he1, ← L.getKey_eq he0]
      exact hk0

/-- The first page cut from a node has the first entry of the node: if the node leads to
the sentinel, so does the page. -/
theorem Lm.first_kid {K : List Nat → Prop} {V V2 : Nat → Option BNode} {h f0 : Nat}
    {big k0 : BNode} {esk g0 : List Entry} {gs : List (List Entry)}
    (Lk : Layout big (heightType h) esk.length esk) (hflat : (g0 :: gs).flatten = esk)
    (hP0 : PageOf k0 (heightType h) g0) (hsub : Sub K V h f0) (hgf : V f0 = some k0)
    (hl : Lm V2 h big) : Lm V2 h k0 := by
  obtain ⟨hl0, hg0ne, W0, hL0⟩ := hP0
  obtain ⟨cc, esc, hgc, -, hsc⟩ := hsub
  rw [hgf] at hgc
  cases hgc
  obtain ⟨Lc, -, -⟩ := Shape_iff.1 hsc
  have hnn : g0.length = esc.length := Res.ok.inj ((W0.nkeys_eq).symm.trans Lc.nkeys_eq)
  have hbb := Res.ok.inj ((W0.nbytes_eq rfl).symm.trans (Lc.nbytes_eq rfl))
  have hfc := Lc.fits
  rw [hl0] at hfc
  have Lg0 := hL0 (by omega)
  obtain ⟨x0, hx0⟩ := exists_getElem? g0 0 (List.length_pos.2 hg0ne)
  have hx0' : esk[0]? = some x0 := by
    rw [← hflat, List.flatten_cons, List.getElem?_append_left (List.length_pos.2 hg0ne)]
    exact hx0
  refine hl.congr_lm ?_ ⟨_, Lg0.nkeys_eq, List.length_pos.2 hg0ne⟩ (fun _ => ?_) (fun _ => ?_)
  · rw [Lg0.btype_eq, Lk.btype_eq]
  · rw [Lg0.getPtr_eq hx0, Lk.getPtr_eq hx0']
  · rw [Lg0.getKey_eq hx0, Lk.getKey_eq hx0']

/-- `treeInsert` keeps the forest: the result is a fragment one entry richer, and every
root of the store that the call did not touch is still a root. -/
theorem treeInsert_spec (K K' : List Nat → Prop) (hK : ∀ k, K k → K' k) (key val : List Nat)
    (hkey : K' key) (hk1 : key ≠ []) (hkb : key.length ≤ 1000) (hvb : val.length ≤ 3000)
    (h : Nat) :
    ∀ (fuel : Nat) (tree tree' : BTree MemStore) (node new : BNode) (es : List Entry),
      StoreOK tree.store → Frag K tree.store.get h node es → node.len = BTREE_PAGE_SIZE →
      treeInsert testPager fuel tree node key val = .ok (new, tree') →
      ∃ es', Frag K' tree'.store.get h new es' ∧ new.len = 2 * BTREE_PAGE_SIZE ∧
        new.data.length = 2 * BTREE_PAGE_SIZE ∧ tree'.root = tree.root ∧
        StoreOK tree'.store ∧
        (∀ x h', Sub K tree.store.get h' x → NoRef tree.store.get x →
          (0 < h → ∀ e ∈ es, e.ptr ≠ x) →
          Sub K' tree'.store.get h' x ∧ NoRef tree'.store.get x ∧
            (0 < h → ∀ e ∈ es', e.ptr ≠ x)) ∧
        (Lm tree.store.get h node → Lm tree'.store.get h new) ∧
        ∀ x, NoRef tree.store.get x → (0 < h → ∀ e ∈ es, e.ptr ≠ x) →
          ∀ (c : BNode) (h' : Nat), tree.store.get x = some c → Lm tree.store.get h' c →
            tree'.store.get x = some c ∧ Lm tree'.store.get h' c := by
  induction h with
  | zero =>
    intro fuel tree tree' node new es hS hF hlen hrun
    obtain ⟨es', hF', l', c', ht, hlm⟩ :=
      treeInsert_leaf K K' hK key val hkey hk1 hkb hvb fuel tree tree' node new es hF hlen hrun
    subst ht
    exact ⟨es', hF', l', c', rfl, hS, fun x h' hs hn _ =>
      ⟨hs.mono_sub hK, hn, fun hp => absurd hp (by decide)⟩, hlm _,
      fun x _ _ c h' hc hl => ⟨hc, hl⟩⟩
  | succ h ih =>
    intro fuel tree tree' node new es hS hF hlen hrun
    obtain ⟨hSh, hch⟩ := hF
    obtain ⟨hnr, hnd⟩ := hch (Nat.succ_pos h)
    obtain ⟨L, hne, hent⟩ := Shape_iff.1 hSh
    rw [heightType_pos (Nat.succ_pos h)] at L
    have hpos : 1 ≤ es.length := List.length_pos.2 hne
    cases fuel with
    | zero => unfold treeInsert at hrun; cases hrun
    | succ fuel =>
      unfold treeInsert at hrun
      generalize hmk : BNode.make (2 * BTREE_PAGE_SIZE) = mk at hrun
      obtain ⟨idx, hidx, hlt⟩ := nodeLookupLE_lt L rfl hpos key
      simp only [] at hrun
      rw [hidx] at hrun
      simp only [Res.ok_bind] at hrun
      rw [L.btype_eq] at hrun
      simp only [Res.ok_bind] at hrun
      rw [if_neg (show ¬ BNODE_NODE = BNODE_LEAF by decide), if_pos trivial] at hrun
      unfold nodeInsert at hrun
      obtain ⟨ei, hei⟩ := exists_getElem? es idx hlt
      have hmem : ei ∈ es := List.getElem?_mem hei
      rw [L.getPtr_eq hei] at hrun
      simp only [Res.ok_bind] at hrun
      obtain ⟨knode, hget, hrun⟩ := bind_ok_inv hrun
      have hgk := testGet_ok hget
      obtain ⟨tree1, hdel, hrun⟩ := bind_ok_inv hrun
      obtain ⟨hroot1, hctr1, -, hget1⟩ := testDel_ok hdel
      obtain ⟨⟨knode', tree2⟩, hrec, hrun⟩ := bind_ok_inv hrun
      -- the child
      obtain ⟨hbi, -, hci⟩ := hent ei hmem
      obtain ⟨hvi, child, ces, hcg, hcl, hcs⟩ := hci (Nat.succ_pos h)
      rw [hgk] at hcg
      cases hcg
      rw [Nat.add_sub_cancel] at hcs
      have hnri := hnr ei hmem
      have hF1 : Frag K tree1.store.get h knode ces :=
        frag_after_del hS.1 hgk hcs hnri hget1
      have hS1 : StoreOK tree1.store := ⟨hS.1.erase hget1 hnri, by rw [hctr1]; exact hS.2⟩
      obtain ⟨esk, hFk, lk, ck, hroot2, hS2, hframe2, hlmk, hlf2⟩ :=
        ih fuel tree1 tree2 knode knode' ces hS1 hF1 hcl hrec
      -- the split of the grown child
      obtain ⟨hShk, hchk⟩ := hFk
      obtain ⟨Lk, hnek, hentk⟩ := Shape_iff.1 hShk
      obtain ⟨cnt, kids, groups, hsp, hflat, hm1, hm3, hcnt, hpg⟩ :=
        nodeSplit3_spec Lk rfl (List.length_pos.2 hnek) ck lk (fun e he => (hentk e he).1)
      simp only [] at hrun
      rw [hsp] at hrun
      simp only [Res.ok_bind] at hrun
      have hflatmem : ∀ g ∈ groups, ∀ e ∈ g, e ∈ esk := fun g hg e he => by
        rw [← hflat]; exact List.mem_flatten_of_mem hg he
      rw [← hmk] at hrun
      obtain ⟨ptrs, hpl, L3, l3, c3, hroot3, hS3, hnd3, hall3, hframe3, hE1, hE2⟩ :=
        nodeReplaceKidN_spec K' h hpg hm1 hm3 tree2 tree' node new es.length idx es L rfl hlen
          hlt hS2
          (fun g hg e he => by
            obtain ⟨hb, hk0, h3⟩ := hentk e (hflatmem g hg e he)
            exact ⟨hb, hk0, fun hp => ⟨(h3 hp).1, (h3 hp).2, (hchk hp).1 e (hflatmem g hg e he)⟩⟩)
          (fun hp => by rw [hflat]; exact (hchk hp).2) hrun
      -- the siblings of the child
      have hdec := decomp_at hei
      have hnd' : ((es.take idx).map Entry.ptr ++
          ei.ptr :: (es.drop (idx + 1)).map Entry.ptr).Nodup := by
        have := hnd
        rw [hdec] at this
        simpa using this
      obtain ⟨hndA, hndC', hdisj⟩ := List.nodup_append.1 hnd'
      obtain ⟨hniC, hndC⟩ := List.nodup_cons.1 hndC'
      have hsibne : ∀ s, s ∈ es.take idx ∨ s ∈ es.drop (idx + 1) → s.ptr ≠ ei.ptr := by
        intro s hs heq
        rcases hs with hs | hs
        · exact hdisj (List.mem_map_of_mem _ hs) (by rw [heq]; exact List.mem_cons_self _ _)
        · exact hniC (by rw [← heq]; exact List.mem_map_of_mem _ hs)
      have transport : ∀ x h', Sub K tree.store.get h' x → NoRef tree.store.get x →
          x ≠ ei.ptr →
          Sub K' tree'.store.get h' x ∧ NoRef tree'.store.get x ∧ ∀ f ∈ ptrs, f ≠ x := by
        intro x h' hs hn hx
        have hs1 : Sub K tree1.store.get h' x := hs.erase_sub hget1 hnri hx
        have hn1 : NoRef tree1.store.get x := hn.erase_noRef hget1
        have hxc : 0 < h → ∀ c ∈ ces, c.ptr ≠ x := by
          intro hp c hc heq
          obtain ⟨Lc, -, -⟩ := Shape_iff.1 hcs
          rw [heightType_pos hp] at Lc
          obtain ⟨i, hi, hie⟩ := List.getElem_of_mem hc
          have := Refs.of_layout hgk Lc
            (show ces[i]? = some c by rw [List.getElem?_eq_getElem hi, hie])
          rw [heq] at this
          exact hn _ _ this
        obtain ⟨hs2, hn2, hx2⟩ := hframe2 x h' hs1 hn1 hxc
        obtain ⟨hs3, hn3⟩ :=
          hframe3 x h' hs2 hn2 (fun hp g hg e he => hx2 hp e (hflatmem g hg e he))
        refine ⟨hs3, hn3, fun f hf hfx => ?_⟩
        obtain ⟨node2, es2, hg2, -, -⟩ := hs2
        have := (hall3 f hf).1
        rw [hfx, hg2] at this
        cases this
      have transportLm : ∀ (x : Nat) (c : BNode) (h' : Nat), NoRef tree.store.get x →
          x ≠ ei.ptr → tree.store.get x = some c → Lm tree.store.get h' c →
          tree'.store.get x = some c ∧ Lm tree'.store.get h' c := by
        intro x c h' hn hx hc hl
        have hg1 : tree1.store.get x = some c := by
          rw [hget1, if_neg hx]
          exact hc
        have hl1 : Lm tree1.store.get h' c := Lm.erase_page hget1 hnri hc hl
        have hn1 : NoRef tree1.store.get x := hn.erase_noRef hget1
        have hxc : 0 < h → ∀ c ∈ ces, c.ptr ≠ x := by
          intro hp c hc heq
          obtain ⟨Lc, -, -⟩ := Shape_iff.1 hcs
          rw [heightType_pos hp] at Lc
          obtain ⟨i, hi, hie⟩ := List.getElem_of_mem hc
          have := Refs.of_layout hgk Lc
            (show ces[i]? = some c by rw [List.getElem?_eq_getElem hi, hie])
          rw [heq] at this
          exact hn _ _ this
        obtain ⟨hg2, hl2⟩ := hlf2 x hn1 hxc c h' hg1 hl1
        exact ⟨hE1 x c hg2, Lm.mono_lm hE1 h' hl2⟩
      have hsib : ∀ s, s ∈ es.take idx ∨ s ∈ es.drop (idx + 1) →
          s ∈ es ∧ Sub K' tree'.store.get h s.ptr ∧ NoRef tree'.store.get s.ptr ∧
            ∀ f ∈ ptrs, f ≠ s.ptr := by
        intro s hs
        have hse : s ∈ es := hs.elim List.mem_of_mem_take List.mem_of_mem_drop
        obtain ⟨-, -, h3⟩ := hent s hse
        have hsub := (h3 (Nat.succ_pos h)).2
        rw [Nat.add_sub_cancel] at hsub
        exact ⟨hse, transport s.ptr h hsub (hnr s hse) (hsibne s hs)⟩
      have hl' : (es.take idx ++ kidEntries ptrs groups ++ es.drop (idx + 1)).length
          = es.length + groups.length - 1 := by
        simp only [List.length_append, List.length_take, List.length_drop,
          kidEntries_length ptrs groups hpl]
        omega
      have hcases : ∀ e ∈ es.take idx ++ kidEntries ptrs groups ++ es.drop (idx + 1),
          (e ∈ es.take idx ∨ e ∈ es.drop (idx + 1)) ∨
            ∃ f g, f ∈ ptrs ∧ g ∈ groups ∧ e = ⟨f, firstKey g, []⟩ := by
        intro e he
        simp only [List.mem_append] at he
        rcases he with (he | he) | he
        · exact Or.inl (Or.inl he)
        · exact Or.inr (kidEntries_mem he)
        · exact Or.inl (Or.inr he)
      refine ⟨es.take idx ++ kidEntries ptrs groups ++ es.drop (idx + 1),
        ⟨Shape_iff.2 ⟨?_, ?_, ?_⟩, fun _ => ⟨?_, ?_⟩⟩, l3, c3, by rw [hroot3, hroot2, hroot1],
        hS3, fun x h' hs hn hx => ?_, fun hl => ?_, fun x hn hx c h' hc hl =>
          transportLm x c h' hn (fun heq => hx (Nat.succ_pos h) ei hmem heq.symm) hc hl⟩
      · rw [heightType_pos (Nat.succ_pos h), hl']
        exact L3
      · intro h0
        rw [h0] at hl'
        simp only [List.length_nil] at hl'
        omega
      · intro e he
        rcases hcases e he with hs | ⟨f, g, hf, hg, rfl⟩
        · obtain ⟨hse, hsub, -, -⟩ := hsib e hs
          exact ⟨(hent e hse).1, fun h0 => absurd h0 (Nat.succ_ne_zero h), fun _ =>
            ⟨((hent e hse).2.2 (Nat.succ_pos h)).1, by rw [Nat.add_sub_cancel]; exact hsub⟩⟩
        · refine ⟨⟨?_, by simp [BTREE_MAX_VAL_SIZE]⟩, fun h0 => absurd h0 (Nat.succ_ne_zero h),
            fun _ => ⟨rfl, by rw [Nat.add_sub_cancel]; exact (hall3 f hf).2.1⟩⟩
          simp only [BTREE_MAX_KEY_SIZE]
          exact firstKey_bounded (fun e he => (hentk e (hflatmem g hg e he)).1)
      · intro e he
        rcases hcases e he with hs | ⟨f, g, hf, hg, rfl⟩
        · exact (hsib e hs).2.2.1
        · exact (hall3 f hf).2.2
      · rw [List.map_append, List.map_append, kidEntries_ptrs ptrs groups hpl]
        refine List.nodup_append.2 ⟨List.nodup_append.2 ⟨hndA, hnd3, fun a ha hb => ?_⟩, hndC,
          fun a ha hc => ?_⟩
        · obtain ⟨s, hs, rfl⟩ := List.mem_map.1 ha
          exact (hsib s (Or.inl hs)).2.2.2 _ hb rfl
        · rcases List.mem_append.1 ha with ha | ha
          · exact hdisj ha (List.mem_cons_of_mem _ hc)
          · obtain ⟨s, hs, rfl⟩ := List.mem_map.1 hc
            exact (hsib s (Or.inr hs)).2.2.2 _ ha rfl
      · have hxi : x ≠ ei.ptr := fun heq => hx (Nat.succ_pos h) ei hmem heq.symm
        obtain ⟨hs3, hn3, hfx⟩ := transport x h' hs hn hxi
        refine ⟨hs3, hn3, fun _ e he => ?_⟩
        rcases hcases e he with hs | ⟨f, g, hf, hg, rfl⟩
        · exact hx (Nat.succ_pos h) e (hsib e hs).1
        · exact hfx f hf
      · obtain ⟨-, -, p0, c0, hp0, hc0, hl0⟩ := Lm_succ.1 hl
        obtain ⟨e0, he0⟩ := exists_getElem? es 0 hpos
        rw [L.getPtr_eq he0] at hp0
        have hp0 := Res.ok.inj hp0
        subst hp0
        have hnk : 0 < es.length + groups.length - 1 := by omega
        by_cases hi0 : idx = 0
        · subst hi0
          rw [he0] at hei
          cases hei
          rw [hgk] at hc0
          cases hc0
          have hl2 : Lm tree2.store.get h knode' :=
            hlmk (Lm.erase_page hget1 hnri hgk hl0)
          obtain ⟨g0, gs, rfl⟩ : ∃ g0 gs, groups = g0 :: gs := by
            cases groups with
            | nil => simp at hm1
            | cons g0 gs => exact ⟨g0, gs, rfl⟩
          obtain ⟨f0, fs, rfl⟩ : ∃ f0 fs, ptrs = f0 :: fs := by
            cases ptrs with
            | nil => simp at hpl
            | cons f0 fs => exact ⟨f0, fs, rfl⟩
          obtain ⟨k0, ks, hP0, -, hks⟩ := List.forall₂_cons_right_iff.1 hpg
          have hgf : tree'.store.get f0 = some k0 := hE2 0 f0 k0 (by simp) (by rw [hks]; simp)
          have hl3 : Lm tree'.store.get h k0 := Lm.mono_lm hE1 h
            (Lm.first_kid Lk hflat hP0 (hall3 f0 (List.mem_cons_self _ _)).2.1 hgf hl2)
          refine Lm_succ.2 ⟨L3.btype_eq, ⟨_, L3.nkeys_eq, hnk⟩, f0, k0, ?_, hgf, hl3⟩
          rw [L3.getPtr_eq (show (es.take 0 ++ kidEntries (f0 :: fs) (g0 :: gs) ++
            es.drop (0 + 1))[0]? = some ⟨f0, firstKey g0, []⟩ by
              rw [kidEntries_cons]; simp)]
        · have hm0 : e0 ∈ es.take idx := by
            have : (es.take idx)[0]? = some e0 := by
              rw [List.getElem?_take_of_lt (by omega)]
              exact he0
            exact List.getElem?_mem this
          obtain ⟨hg', hl'⟩ := transportLm e0.ptr c0 h (hnr e0 (List.mem_of_mem_take hm0))
            (hsibne e0 (Or.inl hm0)) hc0 hl0
          refine Lm_succ.2 ⟨L3.btype_eq, ⟨_, L3.nkeys_eq, hnk⟩, e0.ptr, c0, ?_, hg', hl'⟩
          rw [L3.getPtr_eq (show (es.take idx ++ kidEntries ptrs groups ++
            es.drop (idx + 1))[0]? = some e0 by
              rw [List.append_assoc, List.getElem?_append_left (by
                simp only [List.length_take]; omega), List.getElem?_take_of_lt (by omega)]
              exact he0)]

/-- Registering a page whose children are roots of the store makes it a root. -/
theorem register_kid (K : List Nat → Prop) (hc : Nat) {kid : BNode} {g : List Entry}
    (hk : PageOf kid (heightType hc) g) (tree tree' : BTree MemStore) (p : Nat)
    (hS : StoreOK tree.store)
    (hgr : ∀ e ∈ g, e.Bounded ∧ (hc = 0 → K e.key) ∧
      (0 < hc → e.val = [] ∧ Sub K tree.store.get (hc - 1) e.ptr ∧
        NoRef tree.store.get e.ptr))
    (hnd : 0 < hc → (g.map Entry.ptr).Nodup)
    (hnew : tree.New testPager kid = .ok (p, tree')) :
    tree'.root = tree.root ∧ StoreOK tree'.store ∧ Sub K tree'.store.get hc p ∧
      NoRef tree'.store.get p ∧ tree'.store.get p = some kid ∧
      ∀ x c, tree.store.get x = some c → tree'.store.get x = some c := by
  obtain ⟨hkl, hgne, Wk, Lk⟩ := hk
  obtain ⟨hroot1, hptr, hctr1, ⟨sz, hsz, hszle⟩, hfresh, hget1⟩ := testNew_ok hnew
  rw [Wk.nbytes_eq rfl] at hsz
  cases hsz
  have Lk := Lk hszle
  have hrefs : ∀ i x, Refs (fun q => if q = p then some kid else none) p i x →
      0 < hc ∧ ∃ e, g[i]? = some e ∧ e.ptr = x := fun i x h => kid_refs Lk h
  have hF1 : Forest tree'.store.get := by
    refine hS.1.insert hget1 hfresh (fun i x h => ?_) (fun i j x h1 h2 => ?_)
    · obtain ⟨hp, e, he, hx⟩ := hrefs i x h
      obtain ⟨-, -, h3⟩ := hgr e (List.getElem?_mem he)
      obtain ⟨-, ⟨node, es', hnode, -, -⟩, hnr⟩ := h3 hp
      rw [← hx]
      exact ⟨⟨node, hnode⟩, hnr⟩
    · obtain ⟨hp, a, ha, hax⟩ := hrefs i x h1
      obtain ⟨-, b, hb, hbx⟩ := hrefs j x h2
      exact nodup_ptr_index (hnd hp) ha hb (by rw [hax, hbx])
  refine ⟨hroot1, ⟨hF1, hctr1⟩, ?_, ?_, by rw [hget1, if_pos rfl], fun x c hx => ?_⟩
  · refine ⟨kid, g, by rw [hget1, if_pos rfl], hkl, Shape_iff.2 ⟨Lk, hgne, fun e he => ?_⟩⟩
    obtain ⟨hb, hk0, h3⟩ := hgr e he
    exact ⟨hb, hk0, fun hp => ⟨(h3 hp).1, (h3 hp).2.1.insert_sub hget1 hfresh⟩⟩
  · intro q i hr
    rcases Refs.of_insert hget1 hr with ⟨_, r⟩ | ⟨_, r⟩
    · obtain ⟨hp, e, he, hx⟩ := hrefs i p r
      obtain ⟨-, ⟨node, es', hnode, -, -⟩, -⟩ := (hgr e (List.getElem?_mem he)).2.2 hp
      rw [hx, hfresh] at hnode
      cases hnode
    · exact hS.1.noRef_of_none hfresh q i r
  · rw [hget1]
    by_cases hxp : x = p
    · rw [hxp, hfresh] at hx
      cases hx
    · rw [if_neg hxp]
      exact hx

/-- The first `Insert` registers a leaf that is a root of the store. -/
theorem Insert_first (K' : List Nat → Prop) (key val : List Nat) (hkey : K' key)
    (hnil : K' []) (hkb : key.length ≤ 1000) (hvb : val.length ≤ 3000) (fuel : Nat)
    (tree tree' : BTree MemStore) (hS : StoreOK tree.store) (hroot : tree.root = 0)
    (hrun : tree.Insert testPager fuel key val = .ok tree') :
    StoreOK tree'.store ∧
      ∃ h, Sub K' tree'.store.get h tree'.root ∧ NoRef tree'.store.get tree'.root ∧
        ∃ node, tree'.store.get tree'.root = some node ∧ Lm tree'.store.get h node := by
  obtain ⟨n0, n1, leaf, e0, e1, e2, l, L⟩ := firstLeaf_layout key val hkb hvb
  unfold BTree.Insert at hrun
  rw [if_pos hroot] at hrun
  simp only [e0, e1, e2, Res.ok_bind] at hrun
  obtain ⟨⟨p, tree1⟩, hnew, hrun⟩ := bind_ok_inv hrun
  cases hrun
  have hpage : PageOf leaf (heightType 0) [⟨0, [], []⟩, ⟨0, key, val⟩] :=
    ⟨l, by simp, L.toWeakLayout, fun _ => L⟩
  obtain ⟨-, hS1, hsub, hnr, hgp, -⟩ := register_kid K' 0 hpage tree tree1 p hS
    (fun e he => by
      simp only [List.mem_cons, List.mem_singleton, List.not_mem_nil, or_false] at he
      rcases he with rfl | rfl
      · exact ⟨⟨by simp, by simp⟩, fun _ => hnil, fun hp => absurd hp (by decide)⟩
      · exact ⟨⟨by simp only [BTREE_MAX_KEY_SIZE]; exact hkb,
          by simp only [BTREE_MAX_VAL_SIZE]; exact hvb⟩, fun _ => hkey,
          fun hp => absurd hp (by decide)⟩)
    (fun hp => absurd hp (by decide)) hnew
  exact ⟨hS1, 0, hsub, hnr, leaf, hgp, Lm_zero.2 ⟨L.btype_eq, ⟨2, L.nkeys_eq, by decide⟩,
    L.getKey_eq (show [(⟨0, [], []⟩ : Entry), ⟨0, key, val⟩][0]? = some ⟨0, [], []⟩ from rfl)⟩⟩

/-- An `Insert` into a tree with a root keeps the forest and leaves a root. -/
theorem Insert_grow (K K' : List Nat → Prop) (hK : ∀ k, K k → K' k) (key val : List Nat)
    (hkey : K' key) (hk1 : key ≠ []) (hkb : key.length ≤ 1000) (hvb : val.length ≤ 3000)
    (fuel : Nat) (tree tree' : BTree MemStore) (hS : StoreOK tree.store) (h : Nat)
    (hsub : Sub K tree.store.get h tree.root) (hnr : NoRef tree.store.get tree.root)
    (hroot : tree.root ≠ 0)
    (hlm : ∃ node, tree.store.get tree.root = some node ∧ Lm tree.store.get h node)
    (hrun : tree.Insert testPager fuel key val = .ok tree') :
    StoreOK tree'.store ∧
      ∃ h', Sub K' tree'.store.get h' tree'.root ∧ NoRef tree'.store.get tree'.root ∧
        ∃ node, tree'.store.get tree'.root = some node ∧ Lm tree'.store.get h' node := by
  unfold BTree.Insert at hrun
  rw [if_neg hroot] at hrun
  obtain ⟨node, hget, hrun⟩ := bind_ok_inv hrun
  have hgk := testGet_ok hget
  obtain ⟨tree1, hdel, hrun⟩ := bind_ok_inv hrun
  obtain ⟨hroot1, hctr1, -, hget1⟩ := testDel_ok hdel
  obtain ⟨⟨new, tree2⟩, hins, hrun⟩ := bind_ok_inv hrun
  obtain ⟨node0, es, hg0, hl0, hs0⟩ := hsub
  rw [hgk] at hg0
  cases hg0
  rw [← hroot1] at hget1
  have hF1 : Frag K tree1.store.get h node es := by
    rw [← hroot1] at hgk hnr
    exact frag_after_del hS.1 hgk hs0 hnr hget1
  have hS1 : StoreOK tree1.store := by
    rw [← hroot1] at hnr
    exact ⟨hS.1.erase hget1 hnr, by rw [hctr1]; exact hS.2⟩
  obtain ⟨esk, hFk, lk, ck, hroot2, hS2, -, hlmk, -⟩ :=
    treeInsert_spec K K' hK key val hkey hk1 hkb hvb h fuel tree1 tree2 node new es hS1 hF1
      hl0 hins
  have hl2 : Lm tree2.store.get h new := by
    obtain ⟨nd, hnd0, hl⟩ := hlm
    rw [hgk] at hnd0
    cases hnd0
    rw [← hroot1] at hgk hnr
    exact hlmk (Lm.erase_page hget1 hnr hgk hl)
  obtain ⟨hShk, hchk⟩ := hFk
  obtain ⟨Lk, hnek, hentk⟩ := Shape_iff.1 hShk
  obtain ⟨cnt, kids, groups, hsp, hflat, hm1, hm3, hcnt, hpg⟩ :=
    nodeSplit3_spec Lk rfl (List.length_pos.2 hnek) ck lk (fun e he => (hentk e he).1)
  simp only [] at hrun
  rw [hsp] at hrun
  simp only [Res.ok_bind] at hrun
  have hflatmem : ∀ g ∈ groups, ∀ e ∈ g, e ∈ esk := fun g hg e he => by
    rw [← hflat]; exact List.mem_flatten_of_mem hg he
  have hgr : ∀ g ∈ groups, ∀ e ∈ g, e.Bounded ∧ (h = 0 → K' e.key) ∧
      (0 < h → e.val = [] ∧ Sub K' tree2.store.get (h - 1) e.ptr ∧
        NoRef tree2.store.get e.ptr) := fun g hg e he => by
    obtain ⟨hb, hk0, h3⟩ := hentk e (hflatmem g hg e he)
    exact ⟨hb, hk0, fun hp => ⟨(h3 hp).1, (h3 hp).2, (hchk hp).1 e (hflatmem g hg e he)⟩⟩
  have hnd : 0 < h → (groups.flatten.map Entry.ptr).Nodup :=
    fun hp => by rw [hflat]; exact (hchk hp).2
  by_cases hc1 : cnt > 1
  · rw [if_pos hc1] at hrun
    obtain ⟨r0, e0, l0, c0, L0⟩ := setHeader_layout (BNode.make BTREE_PAGE_SIZE) BNODE_NODE cnt
      (by rw [make_len, make_length]) (by decide)
      (by rw [make_len]; simp only [BTREE_PAGE_SIZE]; omega) (by omega)
    rw [make_len] at l0
    rw [e0] at hrun
    simp only [Res.ok_bind] at hrun
    obtain ⟨⟨r1, tree3⟩, hak, hrun⟩ := bind_ok_inv hrun
    obtain ⟨ptrs, hpl, L1, l1, c1, hroot3, hS3, hnd3, hall3, -, hE1, hE2⟩ :=
      appendKids_spec K' h hpg tree2 tree3 r0 r1 cnt 0 0 [] hS2 L0 rfl (by omega)
        (by rw [l0]; simp only [kvSize_nil, BTREE_PAGE_SIZE]; omega)
        (by rw [l0]; simp only [BTREE_PAGE_SIZE]; omega) hgr hnd hak
    obtain ⟨⟨p, tree4⟩, hnew, hrun⟩ := bind_ok_inv hrun
    cases hrun
    rw [List.nil_append] at L1
    have hlen : (kidEntries ptrs groups).length = cnt := by
      rw [kidEntries_length ptrs groups hpl, hcnt]
    have hpage : PageOf r1 (heightType (h + 1)) (kidEntries ptrs groups) := by
      rw [heightType_pos (Nat.succ_pos h)]
      refine ⟨by rw [l1, l0], ne_nil_of_length_pos (by omega), ?_, fun _ => ?_⟩
      · rw [hlen]; exact L1.toWeakLayout
      · rw [hlen]; exact L1
    obtain ⟨-, hS4, hsub4, hnr4, hgp4, hgrow4⟩ :=
      register_kid K' (h + 1) hpage tree3 tree4 p hS3
      (fun e he => by
        obtain ⟨f, g, hf, hg, rfl⟩ := kidEntries_mem he
        refine ⟨⟨?_, by simp [BTREE_MAX_VAL_SIZE]⟩, fun h0 => absurd h0 (Nat.succ_ne_zero h),
          fun _ => ⟨rfl, by rw [Nat.add_sub_cancel]; exact (hall3 f hf).2.1, (hall3 f hf).2.2⟩⟩
        simp only [BTREE_MAX_KEY_SIZE]
        exact firstKey_bounded (fun e he => (hentk e (hflatmem g hg e he)).1))
      (fun _ => by rw [kidEntries_ptrs ptrs groups hpl]; exact hnd3) hnew
    refine ⟨hS4, h + 1, hsub4, hnr4, r1, hgp4, ?_⟩
    obtain ⟨g0, gs, rfl⟩ : ∃ g0 gs, groups = g0 :: gs := by
      cases groups with
      | nil => simp at hm1
      | cons g0 gs => exact ⟨g0, gs, rfl⟩
    obtain ⟨f0, fs, rfl⟩ : ∃ f0 fs, ptrs = f0 :: fs := by
      cases ptrs with
      | nil => simp at hpl
      | cons f0 fs => exact ⟨f0, fs, rfl⟩
    obtain ⟨k0, ks, hP0, -, hks⟩ := List.forall₂_cons_right_iff.1 hpg
    have hgf : tree3.store.get f0 = some k0 := hE2 0 f0 k0 (by simp) (by rw [hks]; simp)
    have hl3 : Lm tree3.store.get h k0 := Lm.mono_lm hE1 h
      (Lm.first_kid Lk hflat hP0 (hall3 f0 (List.mem_cons_self _ _)).2.1 hgf hl2)
    refine Lm_succ.2 ⟨L1.btype_eq, ⟨_, L1.nkeys_eq, by omega⟩, f0, k0, ?_, hgrow4 _ _ hgf,
      Lm.mono_lm hgrow4 h hl3⟩
    rw [L1.getPtr_eq (show (kidEntries (f0 :: fs) (g0 :: gs))[0]? =
      some ⟨f0, firstKey g0, []⟩ by rw [kidEntries_cons]; simp)]
  · rw [if_neg hc1] at hrun
    obtain ⟨⟨p, tree3⟩, hnew, hrun⟩ := bind_ok_inv hrun
    cases hrun
    have hg1 : groups.length = 1 := by omega
    obtain ⟨g, rfl⟩ := List.length_eq_one.1 hg1
    have hc : cnt = 1 := by omega
    subst hc
    cases kids with
    | nil => simp at hpg
    | cons kid rest =>
      have hpk : PageOf kid (heightType h) g := by
        simpa using hpg
      obtain ⟨-, hS3, hsub3, hnr3, hgp3, hgrow3⟩ := register_kid K' h hpk tree2 tree3 p hS2
        (fun e he => hgr g (List.mem_singleton_self g) e he)
        (fun hp => by simpa using hnd hp) hnew
      exact ⟨hS3, h, hsub3, hnr3, kid, hgp3,
        Lm.first_kid Lk hflat hpk hsub3 hgp3 (Lm.mono_lm hgrow3 h hl2)⟩

/-! ## `GetVal` of a key that no leaf holds -/

/-- The descent of `GetVal` through a well-shaped subtree none of whose leaves holds
`key` ends with not-found. -/
theorem getLoop_absent (K : List Nat → Prop) (key : List Nat) (hk : ¬ K key)
    (tree : BTree MemStore) (h : Nat) :
    ∀ (node : BNode) (es : List Entry) (fuel : Nat), Shape K tree.store.get h node es →
      h + 1 ≤ fuel → BTree.getLoop testPager fuel tree node key = .ok ([], false) := by
  induction h with
  | zero =>
    intro node es fuel hs hf
    obtain ⟨L, hne, hent⟩ := Shape_iff.1 hs
    rw [heightType_zero] at L
    obtain ⟨idx, hidx, hlt⟩ := nodeLookupLE_lt L rfl (List.length_pos.2 hne) key
    obtain ⟨ei, hei⟩ := exists_getElem? es idx hlt
    obtain ⟨f, rfl⟩ : ∃ f, fuel = f + 1 := ⟨fuel - 1, by omega⟩
    unfold BTree.getLoop
    rw [hidx, L.btype_eq]
    simp only [Res.ok_bind, if_true, L.nkeys_eq]
    rw [if_pos hlt, L.getKey_eq hei]
    have hne' : key ≠ ei.key := fun heq => hk (heq ▸ (hent ei (List.getElem?_mem hei)).2.1 rfl)
    simp only [Res.ok_bind, bytesEqual, hne', decide_False, Bool.false_eq_true, if_false,
      Res.pure_eq]
  | succ h ih =>
    intro node es fuel hs hf
    obtain ⟨L, hne, hent⟩ := Shape_iff.1 hs
    rw [heightType_pos (Nat.succ_pos h)] at L
    obtain ⟨idx, hidx, hlt⟩ := nodeLookupLE_lt L rfl (List.length_pos.2 hne) key
    obtain ⟨ei, hei⟩ := exists_getElem? es idx hlt
    obtain ⟨f, rfl⟩ : ∃ f, fuel = f + 1 := ⟨fuel - 1, by omega⟩
    obtain ⟨-, -, h3⟩ := hent ei (List.getElem?_mem hei)
    obtain ⟨-, child, ces, hcg, -, hcs⟩ := h3 (Nat.succ_pos h)
    rw [Nat.add_sub_cancel] at hcs
    unfold BTree.getLoop
    rw [hidx, L.btype_eq]
    simp only [Res.ok_bind]
    rw [if_neg (show ¬ BNODE_NODE = BNODE_LEAF by decide), L.getPtr_eq hei]
    simp only [Res.ok_bind]
    rw [testGet_eq hcg]
    simp only [Res.ok_bind]
    exact ih child ces f hcs (by omega)

theorem emptyTree_ok : StoreOK emptyTree.store := by
  refine ⟨⟨fun p q i j x h => ?_, fun p i x h => ?_⟩, by decide⟩
  · obtain ⟨node, n, hg, -⟩ := h
    cases hg
  · obtain ⟨node, n, hg, -⟩ := h
    cases hg

/-- A run of `Insert` calls keeps the forest, the keys of its leaves are the empty
key of the first leaf and the keys inserted, and the leftmost leaf starts with the empty
key. -/
theorem runInserts_spec (fuel : Nat) (ops : List (List Nat × List Nat)) :
    ∀ (K : List Nat → Prop) (tree tree' : BTree MemStore), K [] → StoreOK tree.store →
      (tree.root = 0 ∨
        ∃ h, Sub K tree.store.get h tree.root ∧ NoRef tree.store.get tree.root ∧
          ∃ node, tree.store.get tree.root = some node ∧ Lm tree.store.get h node) →
      (∀ kv ∈ ops, kv.1 ≠ [] ∧ kv.1.length ≤ 1000 ∧ kv.2.length ≤ 3000) →
      runOps testPager fuel tree (ops.map fun (kv : List Nat × List Nat) => Op.insert kv.1 kv.2) = .ok tree' →
      StoreOK tree'.store ∧ (tree'.root = 0 ∨
        ∃ h, Sub (fun k => K k ∨ ∃ kv ∈ ops, kv.1 = k) tree'.store.get h tree'.root ∧
          NoRef tree'.store.get tree'.root ∧
          ∃ node, tree'.store.get tree'.root = some node ∧ Lm tree'.store.get h node) := by
  induction ops with
  | nil =>
    intro K tree tree' _ hS hroot _ hrun
    simp only [List.map_nil, runOps] at hrun
    cases hrun
    refine ⟨hS, hroot.imp id (fun ⟨h, hs, hn⟩ => ⟨h, hs.mono_sub (fun k hk => Or.inl hk), hn⟩)⟩
  | cons kv ops ih =>
    intro K tree tree' hnil hS hroot hb hrun
    simp only [List.map_cons, runOps] at hrun
    obtain ⟨tree1, hins, hrun⟩ := bind_ok_inv hrun
    obtain ⟨hk1, hkb, hvb⟩ := hb kv (List.mem_cons_self _ _)
    have h1 : StoreOK tree1.store ∧ ∃ h, Sub (fun k => K k ∨ k = kv.1) tree1.store.get h
        tree1.root ∧ NoRef tree1.store.get tree1.root ∧
        ∃ node, tree1.store.get tree1.root = some node ∧ Lm tree1.store.get h node := by
      by_cases hr : tree.root = 0
      · exact Insert_first (fun k => K k ∨ k = kv.1) kv.1 kv.2 (Or.inr rfl) (Or.inl hnil) hkb hvb fuel tree tree1 hS hr
          hins
      · obtain ⟨h, hs, hn, hlm⟩ := hroot.resolve_left hr
        exact Insert_grow K (fun k => K k ∨ k = kv.1) (fun k hk => Or.inl hk) kv.1 kv.2 (Or.inr rfl) hk1 hkb hvb fuel
          tree tree1 hS h hs hn hr hlm hins
    obtain ⟨hS', hroot'⟩ := ih (fun k => K k ∨ k = kv.1) tree1 tree' (Or.inl hnil) h1.1
      (Or.inr h1.2) (fun kv' hkv' => hb kv' (List.mem_cons_of_mem _ hkv')) hrun
    refine ⟨hS', hroot'.imp id (fun ⟨h, hs, hn⟩ => ⟨h, hs.mono_sub (fun k hk => ?_), hn⟩)⟩
    rcases hk with (hk | hk) | ⟨kv', hkv', hk⟩
    · exact Or.inl hk
    · exact Or.inr ⟨kv, List.mem_cons_self _ _, hk.symm⟩
    · exact Or.inr ⟨kv', List.mem_cons_of_mem _ hkv', hk⟩

theorem isOk_inv {α : Type} {x : Res α} (h : x.isOk = true) : ∃ a, x = .ok a := by
  cases x with
  | ok a => exact ⟨a, rfl⟩
  | panic => cases h
  | timeout => cases h

/-- **C5** (amended) For every sequence of `Insert` calls that runs from the empty tree
without fault over the store of the test (which checks that every node handed to `New`
has `nbytes() <= BTREE_PAGE_SIZE`), with inserted keys of 1 to `BTREE_MAX_KEY_SIZE`
bytes and values of at most `BTREE_MAX_VAL_SIZE` bytes, and for every non-empty key
that is not among the inserted keys, `GetVal` on the tree built returns found = false
(with no value) as soon as the fuel covers the height of the tree. -/
theorem getval_absent_after_inserts (ops : List (List Nat × List Nat)) (fuel : Nat)
    (key : List Nat)
    (hb : ∀ kv ∈ ops, kv.1 ≠ [] ∧ kv.1.length ≤ BTREE_MAX_KEY_SIZE ∧
      kv.2.length ≤ BTREE_MAX_VAL_SIZE)
    (hrun : (runOps testPager fuel emptyTree
      (ops.map fun (kv : List Nat × List Nat) => Op.insert kv.1 kv.2)).isOk = true)
    (hk : key ≠ []) (habs : ∀ kv ∈ ops, kv.1 ≠ key) :
    ∃ fuel0, ∀ fuel', fuel0 ≤ fuel' →
      (do
        let tree ← runOps testPager fuel emptyTree (ops.map fun (kv : List Nat × List Nat) => Op.insert kv.1 kv.2)
        tree.GetVal testPager fuel' key) = .ok ([], false) := by
  obtain ⟨tree, hrun⟩ := isOk_inv hrun
  obtain ⟨-, hroot⟩ := runInserts_spec fuel ops (fun k => k = []) emptyTree tree rfl
    emptyTree_ok (Or.inl rfl) hb hrun
  rw [hrun]
  simp only [Res.ok_bind]
  rcases hroot with h0 | ⟨h, ⟨node, es, hg, -, hs⟩, -⟩
  · refine ⟨0, fun fuel' _ => ?_⟩
    unfold BTree.GetVal
    rw [if_pos h0]
    rfl
  · refine ⟨h + 1, fun fuel' hf => ?_⟩
    unfold BTree.GetVal
    by_cases h0 : tree.root = 0
    · rw [if_pos h0]
      rfl
    · rw [if_neg h0, testGet_eq hg]
      simp only [Res.ok_bind]
      refine getLoop_absent _ key (fun hK => ?_) tree h node es fuel' hs hf
      rcases hK with hK | ⟨kv, hkv, hK⟩
      · exact hk hK
      · exact habs kv hkv hK

/-! ## The master page (`masterLoad`, `masterStore`) -/

theorem readU64_ok {data : List Nat} {pos : Nat} (h : pos + 8 ≤ data.length) :
    readU64 data pos = .ok (leNat (slice data pos 8)) := by
  unfold readU64
  rw [if_pos h]

theorem slice_append_le (a b : List Nat) (k w : Nat) (h : k + w ≤ a.length) :
    slice (a ++ b) k w = slice a k w := by
  apply List.ext_getElem?
  intro i
  rw [getElem?_slice, getElem?_slice]
  by_cases hi : i < w
  · rw [if_pos hi, if_pos hi, List.getElem?_append_left (by omega)]
  · rw [if_neg hi, if_neg hi]

theorem slice_append_ge (a b : List Nat) (k w : Nat) :
    slice (a ++ b) (a.length + k) w = slice b k w := by
  apply List.ext_getElem?
  intro i
  rw [getElem?_slice, getElem?_slice]
  by_cases hi : i < w
  · rw [if_pos hi, if_pos hi, List.getElem?_append_right (by omega)]
    congr 1
    omega
  · rw [if_neg hi, if_neg hi]

theorem take_eq_slice (d : List Nat) (n : Nat) : d.take n = slice d 0 n := by
  simp [slice]

/-- The 32 bytes of the master page: signature, root and page count. -/
theorem masterBytes_fields (root used : Nat) :
    (DB_SIG ++ leBytes 8 root ++ leBytes 8 used).length = 32 ∧
    slice (DB_SIG ++ leBytes 8 root ++ leBytes 8 used) 0 16 = DB_SIG ∧
    slice (DB_SIG ++ leBytes 8 root ++ leBytes 8 used) 16 8 = leBytes 8 root ∧
    slice (DB_SIG ++ leBytes 8 root ++ leBytes 8 used) 24 8 = leBytes 8 used := by
  have hs : DB_SIG.length = 16 := rfl
  have hr : (leBytes 8 root).length = 8 := length_leBytes 8 root
  have hu : (leBytes 8 used).length = 8 := length_leBytes 8 used
  refine ⟨by simp only [List.length_append, hs, hr, hu], ?_, ?_, ?_⟩
  · rw [List.append_assoc, slice_append_le _ _ 0 16 (by rw [hs])]
    have := slice_full DB_SIG
    rwa [hs] at this
  · rw [slice_append_le _ _ 16 8 (by simp [hs, hr])]
    have := slice_append_ge DB_SIG (leBytes 8 root) 0 8
    rw [hs] at this
    rw [this]
    have := slice_full (leBytes 8 root)
    rwa [hr] at this
  · have := slice_append_ge (DB_SIG ++ leBytes 8 root) (leBytes 8 used) 0 8
    simp only [List.length_append, hs, hr] at this
    rw [this]
    have := slice_full (leBytes 8 used)
    rwa [hu] at this

/-- The checks of `masterLoad` on a non-empty file, in the order of the code. -/
theorem masterLoad_eq (db : BTree KVStore) (data : List Nat) (rest : List (List Nat))
    (root used : Nat) (hfile : db.store.file ≠ 0) (hch : db.store.chunks = data :: rest)
    (hlen : 32 ≤ data.length) (hroot : root = leNat (slice data 16 8))
    (hused : used = leNat (slice data 24 8)) :
    masterLoad db =
      if !bytesEqual DB_SIG (data.take 16) then .ok (some LoadError.badSignature, db)
      else if (!(decide (1 ≤ used) && decide (used ≤ db.store.file / BTREE_PAGE_SIZE)) ||
          !(decide (root < used))) = true then .ok (some LoadError.badMaster, db)
      else .ok (none, { db with root := root, store := { db.store with flushed := used } }) := by
  unfold masterLoad
  rw [if_neg hfile, hch]
  simp only [readU64_ok (show 16 + 8 ≤ data.length by omega),
    readU64_ok (show 24 + 8 ≤ data.length by omega), Res.ok_bind, ← hroot, ← hused]
  rfl

/-- A master page that passes the checks is loaded. -/
theorem masterLoad_good (db : BTree KVStore) (data : List Nat) (rest : List (List Nat))
    (root used : Nat) (hfile : db.store.file ≠ 0) (hch : db.store.chunks = data :: rest)
    (hlen : 32 ≤ data.length) (hroot : root = leNat (slice data 16 8))
    (hused : used = leNat (slice data 24 8))
    (h : data.take 16 = DB_SIG ∧ 1 ≤ used ∧ used ≤ db.store.file / BTREE_PAGE_SIZE ∧
      root < used) :
    masterLoad db = .ok (none, { db with root := root, store := { db.store with flushed := used } }) := by
  obtain ⟨h1, h2, h3, h4⟩ := h
  rw [masterLoad_eq db data rest root used hfile hch hlen hroot hused]
  simp [bytesEqual, h1, h2, h3, h4]

/-- A master page that fails a check is refused and nothing changes. -/
theorem masterLoad_bad (db : BTree KVStore) (data : List Nat) (rest : List (List Nat))
    (root used : Nat) (hfile : db.store.file ≠ 0) (hch : db.store.chunks = data :: rest)
    (hlen : 32 ≤ data.length) (hroot : root = leNat (slice data 16 8))
    (hused : used = leNat (slice data 24 8))
    (hn : ¬ (data.take 16 = DB_SIG ∧ 1 ≤ used ∧ used ≤ db.store.file / BTREE_PAGE_SIZE ∧
      root < used)) :
    ∃ err, masterLoad db = .ok (some err, db) := by
  rw [masterLoad_eq db data rest root used hfile hch hlen hroot hused]
  by_cases h1 : data.take 16 = DB_SIG
  · refine ⟨LoadError.badMaster, ?_⟩
    have h2 : ¬ (1 ≤ used ∧ used ≤ db.store.file / BTREE_PAGE_SIZE ∧ root < used) :=
      fun h => hn ⟨h1, h⟩
    have hsig : bytesEqual DB_SIG (data.take 16) = true := by simp [bytesEqual, h1]
    rw [hsig]
    simp only [Bool.not_true, Bool.false_eq_true, if_false]
    rw [if_pos]
    by_contra hc
    apply h2
    simp only [Bool.or_eq_true, Bool.not_eq_true', Bool.and_eq_false_iff,
      decide_eq_false_iff_not, not_or, not_not, Bool.not_eq_false, decide_eq_true_eq] at hc
    exact ⟨hc.1.1, hc.1.2, hc.2⟩
  · refine ⟨LoadError.badSignature, ?_⟩
    have hsig : bytesEqual DB_SIG (data.take 16) = false := by
      simp only [bytesEqual, decide_eq_false_iff_not]
      exact fun h => h1 h.symm
    rw [hsig]
    rfl

/-- **C11** Master page validation.  On a non-empty file whose first chunk `data` holds
at least the 32 bytes of the master page, with `root` and `used` the little-endian
values at 16 and 24: `masterLoad` returns without error exactly when the first 16 bytes
are the signature, `1 <= used <= file_size / BTREE_PAGE_SIZE` and `root < used`; it
then sets `tree.root = root` and `page.flushed = used`; otherwise it returns an error
and leaves the store as it was. -/
theorem masterLoad_validates (db : BTree KVStore) (data : List Nat) (rest : List (List Nat))
    (root used : Nat) (hfile : db.store.file ≠ 0) (hch : db.store.chunks = data :: rest)
    (hlen : 32 ≤ data.length) (hroot : root = leNat (slice data 16 8))
    (hused : used = leNat (slice data 24 8)) :
    ((∃ db', masterLoad db = .ok (none, db')) ↔
      (data.take 16 = DB_SIG ∧ 1 ≤ used ∧ used ≤ db.store.file / BTREE_PAGE_SIZE ∧
        root < used)) ∧
    ((data.take 16 = DB_SIG ∧ 1 ≤ used ∧ used ≤ db.store.file / BTREE_PAGE_SIZE ∧
        root < used) →
      masterLoad db = .ok (none, { db with root := root, store := { db.store with flushed := used } })) ∧
    (¬ (data.take 16 = DB_SIG ∧ 1 ≤ used ∧ used ≤ db.store.file / BTREE_PAGE_SIZE ∧
        root < used) →
      ∃ err, masterLoad db = .ok (some err, db)) := by
  have hgood := masterLoad_good db data rest root used hfile hch hlen hroot hused
  have hbad := masterLoad_bad db data rest root used hfile hch hlen hroot hused
  refine ⟨⟨fun ⟨db', h⟩ => ?_, fun h => ⟨_, hgood h⟩⟩, hgood, hbad⟩
  by_contra hn
  obtain ⟨err, he⟩ := hbad hn
  rw [h] at he
  cases he

/-- Witness of **C11**: a file of two pages whose master page names root 1 and two used
pages. -/
theorem masterLoad_validates_witness :
    masterLoad ⟨0, ⟨8192, 64, [DB_SIG ++ leBytes 8 1 ++ leBytes 8 2 ++ List.replicate 32 0],
        0, []⟩, []⟩ =
      .ok (none, ⟨1, ⟨8192, 64,
        [DB_SIG ++ leBytes 8 1 ++ leBytes 8 2 ++ List.replicate 32 0], 2, []⟩, []⟩) :=
  (masterLoad_validates ⟨0, ⟨8192, 64,
      [DB_SIG ++ leBytes 8 1 ++ leBytes 8 2 ++ List.replicate 32 0], 0, []⟩, []⟩
    (DB_SIG ++ leBytes 8 1 ++ leBytes 8 2 ++ List.replicate 32 0) [] 1 2 (by decide) rfl
    (by decide) (by decide) (by decide)).2.1 (by decide)

/-- With a successful positional write `masterStore` puts the 32 bytes at the start of
the first chunk and changes nothing else. -/
theorem masterStore_ok (sys : Sys) (db : BTree KVStore) (c0 : List Nat)
    (rest : List (List Nat)) (hw : sys.pwrite = true) (hch : db.store.chunks = c0 :: rest) :
    masterStore sys db = (none, { db with store := { db.store with
      chunks := splice c0 0 (DB_SIG ++ leBytes 8 db.root ++ leBytes 8 db.store.flushed)
        :: rest } }) := by
  unfold masterStore
  simp only [hw, if_true, hch, List.set_cons_zero, List.getD_cons_zero]

/-- **C13** Master page round trip.  For every root and page count `used` (both `uint64`)
with `used >= 1` and `root < used`: `masterStore` with a successful write puts the
signature, the root (little-endian, at 16) and `used` (little-endian, at 24) into the
first 32 bytes, and `masterLoad` on a store that maps these bytes, with a file of at
least `used` pages, accepts them and sets `tree.root = root`, `page.flushed = used`. -/
theorem master_round_trip (sys : Sys) (db db2 : BTree KVStore) (c0 : List Nat)
    (rest : List (List Nat)) (hw : sys.pwrite = true) (hch : db.store.chunks = c0 :: rest)
    (hlen : 32 ≤ c0.length) (hr : db.root < 18446744073709551616)
    (hf : db.store.flushed < 18446744073709551616) (h1 : 1 ≤ db.store.flushed)
    (hlt : db.root < db.store.flushed)
    (hre : db2.store.chunks = (masterStore sys db).2.store.chunks)
    (hsz : db.store.flushed ≤ db2.store.file / BTREE_PAGE_SIZE) :
    (masterStore sys db).1 = none ∧
    (∃ page more, (masterStore sys db).2.store.chunks = page :: more ∧
      slice page 0 32 = DB_SIG ++ leBytes 8 db.root ++ leBytes 8 db.store.flushed) ∧
    masterLoad db2 = .ok (none, { db2 with root := db.root,
                                           store := { db2.store with
                                             flushed := db.store.flushed } }) := by
  obtain ⟨hl, hsig, hroot, hused⟩ := masterBytes_fields db.root db.store.flushed
  rw [masterStore_ok sys db c0 rest hw hch] at hre ⊢
  have hpage : slice (splice c0 0 (DB_SIG ++ leBytes 8 db.root ++ leBytes 8 db.store.flushed))
      0 32 = DB_SIG ++ leBytes 8 db.root ++ leBytes 8 db.store.flushed := by
    have := slice_splice_same c0 0 (DB_SIG ++ leBytes 8 db.root ++ leBytes 8 db.store.flushed)
      (Nat.zero_le _)
    rwa [hl] at this
  have hin : ∀ k w, k + w ≤ 32 →
      slice (splice c0 0 (DB_SIG ++ leBytes 8 db.root ++ leBytes 8 db.store.flushed)) k w =
        slice (DB_SIG ++ leBytes 8 db.root ++ leBytes 8 db.store.flushed) k w := by
    intro k w hkw
    have := slice_splice_inside c0 0
      (DB_SIG ++ leBytes 8 db.root ++ leBytes 8 db.store.flushed) k w (Nat.zero_le _)
      (by rw [hl]; exact hkw)
    rwa [Nat.zero_add] at this
  refine ⟨rfl, ⟨_, _, rfl, hpage⟩, ?_⟩
  have hfile : db2.store.file ≠ 0 := by
    intro h0
    rw [h0] at hsz
    simp only [BTREE_PAGE_SIZE, Nat.zero_div] at hsz
    omega
  refine masterLoad_good db2 _ rest db.root db.store.flushed hfile hre
    (by rw [length_splice _ _ _ (by rw [hl]; omega)]; exact hlen)
    (by rw [hin 16 8 (by omega), hroot, leNat_leBytes8 hr])
    (by rw [hin 24 8 (by omega), hused, leNat_leBytes8 hf])
    ⟨by rw [take_eq_slice, hin 0 16 (by omega), hsig], h1, hsz, hlt⟩

/-- Witness of **C13**: root 1 and two used pages, written and read back on a file of
two pages. -/
theorem master_round_trip_witness :
    masterLoad ⟨0, ⟨8192, 64, (masterStore sysOk
        ⟨1, ⟨8192, 64, [List.replicate 64 0], 2, []⟩, []⟩).2.store.chunks, 0, []⟩, []⟩ =
      .ok (none, ⟨1, ⟨8192, 64, (masterStore sysOk
        ⟨1, ⟨8192, 64, [List.replicate 64 0], 2, []⟩, []⟩).2.store.chunks, 2, []⟩, []⟩) :=
  (master_round_trip sysOk ⟨1, ⟨8192, 64, [List.replicate 64 0], 2, []⟩, []⟩
    ⟨0, ⟨8192, 64, (masterStore sysOk
      ⟨1, ⟨8192, 64, [List.replicate 64 0], 2, []⟩, []⟩).2.store.chunks, 0, []⟩, []⟩
    (List.replicate 64 0) [] rfl rfl (by decide) (by decide) (by decide) (by decide)
    (by decide) rfl (by decide)).2.2

/-! ## Page ids of the page manager (`pageNew`, `syncPages`) -/

/-- `pageNew` of a node of at most a page returns `flushed + len(temp)` and stages the
node. -/
theorem pageNew_ok (db : BTree KVStore) (node : BNode) (hn : node.len ≤ BTREE_PAGE_SIZE)
    (hb : db.store.flushed + db.store.temp.length < 18446744073709551616) :
    db.New kvPager node = .ok (db.store.flushed + db.store.temp.length,
      { db with store := { db.store with temp := db.store.temp ++ [node] },
                calls := db.calls ++
                  [Call.new node (db.store.flushed + db.store.temp.length)] }) := by
  simp only [BTree.New, kvPager, KVStore.pageNew, assertCondition, Res.require, hn,
    decide_True, if_true, Res.ok_bind, Res.pure_eq, u64, Nat.mod_eq_of_lt hb]

/-- `syncPages` keeps `flushed + len(temp)`, whatever the system calls return. -/
theorem syncPages_sum (sys : Sys) (db : BTree KVStore)
    (hb : db.store.flushed + db.store.temp.length < 18446744073709551616) :
    (syncPages sys db).2.store.flushed + (syncPages sys db).2.store.temp.length =
      db.store.flushed + db.store.temp.length := by
  unfold syncPages masterStore
  by_cases h1 : sys.fsyncData = true
  · by_cases h2 : sys.pwrite = true
    · by_cases h3 : sys.fsyncMaster = true <;>
        simp [h1, h2, h3, u64, Nat.mod_eq_of_lt hb]
    · simp [h1, h2, u64, Nat.mod_eq_of_lt hb]
  · simp [h1]

/-- The ids of a run of the page manager count up from `flushed + len(temp)`. -/
theorem runPages_spec (steps : List PageStep) :
    ∀ (db : BTree KVStore),
      (∀ node, PageStep.new node ∈ steps → node.len ≤ BTREE_PAGE_SIZE) →
      db.store.flushed + db.store.temp.length + steps.length < 18446744073709551616 →
      ∃ ids db', runPages db steps = .ok (ids, db') ∧
        ids.length = (steps.filterMap fun s =>
          match s with
          | PageStep.new node => some node
          | PageStep.sync _ => none).length ∧
        ids = List.range' (db.store.flushed + db.store.temp.length) ids.length ∧
        db'.store.flushed + db'.store.temp.length =
          db.store.flushed + db.store.temp.length + ids.length := by
  induction steps with
  | nil =>
    intro db _ _
    exact ⟨[], db, rfl, rfl, rfl, rfl⟩
  | cons s steps ih =>
    intro db hnodes hb
    simp only [List.length_cons] at hb
    cases s with
    | new node =>
      have hnew := pageNew_ok db node (hnodes node (List.mem_cons_self _ _)) (by omega)
      obtain ⟨ids, db', hrun, hcount, hids, hsum⟩ := ih _
        (fun n hn => hnodes n (List.mem_cons_of_mem _ hn))
        (show ({ db with store := { db.store with temp := db.store.temp ++ [node] },
                         calls := db.calls ++
                           [Call.new node (db.store.flushed + db.store.temp.length)] } :
          BTree KVStore).store.flushed + _ + steps.length < 18446744073709551616 by
          simp only [List.length_append, List.length_singleton]; omega)
      simp only [List.length_append, List.length_singleton] at hids hsum
      refine ⟨(db.store.flushed + db.store.temp.length) :: ids, db', ?_, ?_, ?_, ?_⟩
      · simp only [runPages, hnew, Res.ok_bind, hrun, Res.pure_eq]
      · simp only [List.filterMap_cons, List.length_cons, hcount]
      · rw [List.length_cons, List.range'_succ]
        congr 1
      · rw [hsum, List.length_cons]
        omega
    | sync sys =>
      have hs := syncPages_sum sys db (by omega)
      obtain ⟨ids, db', hrun, hcount, hids, hsum⟩ := ih (syncPages sys db).2
        (fun n hn => hnodes n (List.mem_cons_of_mem _ hn)) (by rw [hs]; omega)
      rw [hs] at hids hsum
      exact ⟨ids, db', by simp only [runPages, hrun], by
        simp only [List.filterMap_cons, hcount], hids, hsum⟩

/-- **C12** Monotone page ids.  In every run made of `pageNew` calls (of nodes of at most
a page, as `pageNew` asserts) and `syncPages` calls, whatever the outcome of their
system calls, as long as the page count stays below 2^64: every `pageNew` returns an
id, and the ids returned are `s, s+1, s+2, ...` with `s = page.flushed + len(page.temp)`
at the start, each exactly one more than the one before, also across a flush; the run
ends with `page.flushed + len(page.temp)` one more than the last id. -/
theorem page_ids_contiguous (steps : List PageStep) (db : BTree KVStore)
    (hnodes : ∀ node, PageStep.new node ∈ steps → node.len ≤ BTREE_PAGE_SIZE)
    (hbound : db.store.flushed + db.store.temp.length + steps.length <
      18446744073709551616) :
    ∃ ids db', runPages db steps = .ok (ids, db') ∧
      ids.length = (steps.filterMap fun s =>
        match s with
        | PageStep.new node => some node
        | PageStep.sync _ => none).length ∧
      ids = List.range' (db.store.flushed + db.store.temp.length) ids.length ∧
      db'.store.flushed + db'.store.temp.length =
        db.store.flushed + db.store.temp.length + ids.length :=
  runPages_spec steps db hnodes hbound

/-- Witness of **C12**: two pages, a flush, a third page, on the store of a new file:
the ids are 1, 2, 3. -/
theorem page_ids_contiguous_witness :
    ∃ ids db', runPages freshKV [PageStep.new (BNode.make 16), PageStep.new (BNode.make 16),
        PageStep.sync sysOk, PageStep.new (BNode.make 16)] = .ok (ids, db') ∧
      ids.length = 3 ∧ ids = List.range' 1 ids.length ∧
      db'.store.flushed + db'.store.temp.length = 1 + ids.length :=
  page_ids_contiguous [PageStep.new (BNode.make 16), PageStep.new (BNode.make 16),
      PageStep.sync sysOk, PageStep.new (BNode.make 16)] freshKV
    (fun node hn => by
      simp only [List.mem_cons, PageStep.new.injEq, List.mem_singleton, List.not_mem_nil,
        or_false, false_or, or_self] at hn
      rcases hn with h | h | h | h
      · rw [h]; decide
      · rw [h]; decide
      · cases h
      · rw [h]; decide)
    (by decide)

/-! ## The merge decision (`shouldMerge`) -/

/-- The size test of `shouldMerge` in `uint16` arithmetic is the one of the integers
when the sum of the two sizes is a `uint16` and at least the header. -/
theorem mergedSize_eq {s u : Nat} (h4 : 4 ≤ s + u) (h : s + u < 65536) :
    u16sub (u16 (s + u)) HEADER_SIZE = s + u - 4 := by
  rw [u16_of_lt h]
  exact u16sub_of_le (by simp only [HEADER_SIZE]; omega) h

/-- **C16** Merge decision.  For every node with `n` keys (`n` a `uint16`), child index
`idx < n` and updated child of `u = nbytes(updated)` bytes (at least the header), where
the left sibling (when `idx > 0`) and the right sibling (when `idx + 1 < n`) are pages
of the store of `sl` and `sr` bytes with `sl + u` and `sr + u` in the range of
`uint16`: `shouldMerge` returns 0 (with the nil node) when `u > BTREE_PAGE_SIZE / 4`;
otherwise -1 with the left sibling when `idx > 0` and
`sl + u - HEADER_SIZE <= BTREE_PAGE_SIZE`; otherwise +1 with the right sibling when
`idx + 1 < n` and `sr + u - HEADER_SIZE <= BTREE_PAGE_SIZE`; otherwise 0. -/
theorem shouldMerge_decision {σ : Type} (P : Pager σ) (tree : BTree σ)
    (node updated left right : BNode) (idx n u sl sr : Nat)
    (hn : node.nkeys = .ok n) (hn16 : n < 65536) (hidx : idx < n)
    (hu : updated.nbytes = .ok u) (hu4 : 4 ≤ u)
    (hl : 0 < idx → ∃ p, node.getPtr (idx - 1) = .ok p ∧ tree.Get P p = .ok left ∧
      left.nbytes = .ok sl ∧ sl + u < 65536)
    (hr : idx + 1 < n → ∃ p, node.getPtr (idx + 1) = .ok p ∧ tree.Get P p = .ok right ∧
      right.nbytes = .ok sr ∧ sr + u < 65536) :
    shouldMerge P tree node idx updated = .ok (
      if u > BTREE_PAGE_SIZE / 4 then (0, BNode.empty)
      else if 0 < idx ∧ sl + u - HEADER_SIZE ≤ BTREE_PAGE_SIZE then (-1, left)
      else if idx + 1 < n ∧ sr + u - HEADER_SIZE ≤ BTREE_PAGE_SIZE then (1, right)
      else (0, BNode.empty)) := by
  unfold shouldMerge
  rw [hu, Res.ok_bind]
  by_cases hbig : u > BTREE_PAGE_SIZE / 4
  · rw [if_pos hbig, if_pos hbig]
    rfl
  rw [if_neg hbig, if_neg hbig]
  have hright : (do
      let n ← node.nkeys
      if u16 (idx + 1) < n then do
        let p ← node.getPtr (u16 (idx + 1))
        let sibling ← tree.Get P p
        let ssz ← sibling.nbytes
        let usz ← (Res.ok u : Res Nat)
        let merged := u16sub (u16 (ssz + usz)) HEADER_SIZE
        if merged ≤ BTREE_PAGE_SIZE then pure (1, sibling) else pure (0, BNode.empty)
      else pure (0, BNode.empty) : Res (Int × BNode)) =
      .ok (if idx + 1 < n ∧ sr + u - HEADER_SIZE ≤ BTREE_PAGE_SIZE then (1, right)
        else (0, BNode.empty)) := by
    rw [hn, Res.ok_bind, u16_of_lt (show idx + 1 < 65536 by omega)]
    by_cases h1 : idx + 1 < n
    · obtain ⟨p, hp, hg, hs, hb⟩ := hr h1
      rw [if_pos h1, hp, Res.ok_bind, hg, Res.ok_bind, hs, Res.ok_bind, Res.ok_bind,
        mergedSize_eq (by omega) hb]
      by_cases h2 : sr + u - 4 ≤ BTREE_PAGE_SIZE
      · rw [if_pos h2, if_pos ⟨h1, by simpa only [HEADER_SIZE] using h2⟩]
        rfl
      · rw [if_neg h2, if_neg (fun h => h2 (by simpa only [HEADER_SIZE] using h.2))]
        rfl
    · rw [if_neg h1, if_neg (fun h => h1 h.1)]
      rfl
  by_cases h0 : 0 < idx
  · obtain ⟨p, hp, hg, hs, hb⟩ := hl h0
    rw [if_pos (show idx > 0 from h0), u16sub_of_le (show 1 ≤ idx by omega) (by omega), hp,
      Res.ok_bind, hg, Res.ok_bind, hs, Res.ok_bind, Res.ok_bind,
      mergedSize_eq (by omega) hb]
    by_cases h2 : sl + u - 4 ≤ BTREE_PAGE_SIZE
    · rw [if_pos h2, if_pos ⟨h0, by simpa only [HEADER_SIZE] using h2⟩]
      rfl
    · rw [if_neg h2, if_neg (fun h => h2 (by simpa only [HEADER_SIZE] using h.2))]
      exact hright
  · rw [if_neg (show ¬ idx > 0 from h0), if_neg (fun h => h0 h.1)]
    exact hright

/-! ## Merging two nodes (`nodeMerge`) -/

/-- `nodeMerge` in a zero-filled buffer that holds the entries of both nodes builds the
node of the entries of `left` followed by those of `right`, with the type of `left`. -/
theorem nodeMerge_spec {left right : BNode} {t t2 nl nr : Nat} {el er : List Entry}
    (Ll : Layout left t nl el) (hl : el.length = nl) (Lr : Layout right t2 nr er)
    (hr : er.length = nr) (size : Nat) (hs : size < 65536)
    (hfit : 4 + 10 * (nl + nr) + kvSize el + kvSize er ≤ size) :
    ∃ new, nodeMerge (BNode.make size) left right = .ok new ∧ new.len = size ∧
      new.data.length = size ∧ Layout new t (nl + nr) (el ++ er) := by
  have hnl := Ll.n_lt
  have hnr := Lr.n_lt
  obtain ⟨n0, e0, l0, c0, L0⟩ := make_layout size t (nl + nr) Ll.type_lt (by omega) hs
  have htl : (el.drop 0).take nl = el := by
    rw [List.drop_zero, List.take_of_length_le (by omega)]
  have htr : (er.drop 0).take nr = er := by
    rw [List.drop_zero, List.take_of_length_le (by omega)]
  obtain ⟨n1, e1, l1, c1, -, L1⟩ := nodeAppendRange_spec L0 Ll hl 0 nl (by omega)
    (by simp only [List.length_nil]; omega)
    (by rw [htl]; simp only [kvSize_nil]; omega)
  rw [htl, List.nil_append] at L1
  have L1 := L1 (by rw [l0]; simp only [kvSize_nil]; omega)
  rw [List.length_nil] at e1
  obtain ⟨n2, e2, l2, c2, -, L2⟩ := nodeAppendRange_spec L1 Lr hr 0 nr (by omega)
    (by omega) (by rw [htr]; omega)
  rw [htr] at L2
  have L2 := L2 (by rw [l1, l0]; omega)
  rw [hl] at e2
  refine ⟨n2, ?_, by rw [l2, l1, l0], by rw [c2, c1, c0], L2⟩
  unfold nodeMerge
  rw [Ll.btype_eq, Ll.nkeys_eq, Lr.nkeys_eq]
  simp only [Res.ok_bind]
  rw [u16_of_lt (show nl + nr < 65536 by omega), e0]
  simp only [Res.ok_bind]
  rw [e1]
  simp only [Res.ok_bind]
  exact e2

/-- **C17** Merged size.  For every two well-formed nodes `left` and `right` of the same
type whose sizes `sl = nbytes(left)` and `sr = nbytes(right)` pass the test of
`shouldMerge`, `sl + sr - HEADER_SIZE <= BTREE_PAGE_SIZE`: `nodeMerge` in a zero-filled
page buffer builds a node of that type with `nbytes = sl + sr - HEADER_SIZE`, which is
at most `BTREE_PAGE_SIZE`. -/
theorem nodeMerge_size {left right : BNode} {t nl nr : Nat} {el er : List Entry}
    (Ll : Layout left t nl el) (hl : el.length = nl) (Lr : Layout right t nr er)
    (hr : er.length = nr) (sl sr : Nat) (hsl : left.nbytes = .ok sl)
    (hsr : right.nbytes = .ok sr) (hfit : sl + sr - HEADER_SIZE ≤ BTREE_PAGE_SIZE) :
    ∃ new, nodeMerge (BNode.make BTREE_PAGE_SIZE) left right = .ok new ∧
      new.btype = .ok t ∧ new.nkeys = .ok (nl + nr) ∧
      new.nbytes = .ok (sl + sr - HEADER_SIZE) ∧ sl + sr - HEADER_SIZE ≤ BTREE_PAGE_SIZE := by
  rw [Ll.nbytes_eq hl] at hsl
  rw [Lr.nbytes_eq hr] at hsr
  cases hsl
  cases hsr
  simp only [HEADER_SIZE, BTREE_PAGE_SIZE] at hfit
  obtain ⟨new, e, -, -, L⟩ := nodeMerge_spec Ll hl Lr hr BTREE_PAGE_SIZE (by decide)
    (by simp only [BTREE_PAGE_SIZE]; omega)
  refine ⟨new, e, L.btype_eq, L.nkeys_eq, ?_, by simp only [HEADER_SIZE, BTREE_PAGE_SIZE]; omega⟩
  rw [L.nbytes_eq (by simp only [List.length_append]; omega), kvSize_append]
  congr 1
  simp only [HEADER_SIZE]
  omega

/-- Two nodes that hold the same entry at the indices `i` and `j` return the same
pointer, key and value there. -/
theorem Layout.same_entry {a b : BNode} {t t2 n n2 : Nat} {es es2 : List Entry}
    (La : Layout a t n es) (Lb : Layout b t2 n2 es2) {i j : Nat} {e : Entry}
    (hi : es[i]? = some e) (hj : es2[j]? = some e) :
    a.getPtr i = b.getPtr j ∧ a.getKey i = b.getKey j ∧ a.getVal i = b.getVal j := by
  rw [La.getPtr_eq hi, Lb.getPtr_eq hj, La.getKey_eq hi, Lb.getKey_eq hj, La.getVal_eq hi,
    Lb.getVal_eq hj]
  exact ⟨rfl, rfl, rfl⟩

/-- **C18** Split then merge.  For every well-formed node `old` with `n` keys and
zero-filled buffers for `left`, `right` and `new` that hold the first `n/2` entries,
the other `n - n/2` entries and all `n` entries: `nodeSplit2` gives `left` the type of
`old` and its first `n/2` entries and `right` the type of `old` and the remaining
`n - n/2` entries, and `nodeMerge(new, left, right)` has the type and key count of `old`
and the same pointer, key and value at every index. -/
theorem split_then_merge {old : BNode} {t n : Nat} {eo : List Entry}
    (Lo : Layout old t n eo) (ho : eo.length = n) (sl sr sn : Nat)
    (hsl : sl < 65536) (hsr : sr < 65536) (hsn : sn < 65536)
    (hl : 4 + 10 * (n / 2) + kvSize (eo.take (n / 2)) ≤ sl)
    (hr : 4 + 10 * (n - n / 2) + kvSize (eo.drop (n / 2)) ≤ sr)
    (hn : 4 + 10 * n + kvSize eo ≤ sn) :
    ∃ left right new, nodeSplit2 (BNode.make sl) (BNode.make sr) old = .ok (left, right) ∧
      left.btype = old.btype ∧ left.nkeys = .ok (n / 2) ∧
      (∀ i, i < n / 2 → left.getPtr i = old.getPtr i ∧ left.getKey i = old.getKey i ∧
        left.getVal i = old.getVal i) ∧
      right.btype = old.btype ∧ right.nkeys = .ok (n - n / 2) ∧
      (∀ i, i < n - n / 2 → right.getPtr i = old.getPtr (n / 2 + i) ∧
        right.getKey i = old.getKey (n / 2 + i) ∧ right.getVal i = old.getVal (n / 2 + i)) ∧
      nodeMerge (BNode.make sn) left right = .ok new ∧
      new.btype = old.btype ∧ new.nkeys = old.nkeys ∧
      (∀ i, i < n → new.getPtr i = old.getPtr i ∧ new.getKey i = old.getKey i ∧
        new.getVal i = old.getVal i) := by
  have hnlt := Lo.n_lt
  obtain ⟨left, right, hsplit, -, -, -, -, -, Ll, -, Lr⟩ :=
    nodeSplit2_spec Lo ho sl sr (by omega) (by omega) hsl hsr
  have Ll := Ll hl
  have Lr := Lr hr
  have hll : (eo.take (n / 2)).length = n / 2 := by
    rw [List.length_take]; omega
  have hlr : (eo.drop (n / 2)).length = n - n / 2 := by
    rw [List.length_drop]; omega
  have hsum : n / 2 + (n - n / 2) = n := by omega
  obtain ⟨new, hmerge, -, -, Ln⟩ := nodeMerge_spec Ll hll Lr hlr sn hsn
    (by rw [hsum, Nat.add_assoc, kvSize_take_add_drop]; exact hn)
  rw [hsum, List.take_append_drop] at Ln
  refine ⟨left, right, new, hsplit, by rw [Ll.btype_eq, Lo.btype_eq], Ll.nkeys_eq,
    fun i hi => ?_, by rw [Lr.btype_eq, Lo.btype_eq], Lr.nkeys_eq, fun i hi => ?_, hmerge,
    by rw [Ln.btype_eq, Lo.btype_eq], by rw [Ln.nkeys_eq, Lo.nkeys_eq], fun i hi => ?_⟩
  · obtain ⟨e, he⟩ := exists_getElem? eo i (by omega)
    exact Ll.same_entry Lo (by rw [List.getElem?_take, if_pos hi]; exact he) he
  · obtain ⟨e, he⟩ := exists_getElem? eo (n / 2 + i) (by omega)
    exact Lr.same_entry Lo (by rw [List.getElem?_drop]; exact he) he
  · obtain ⟨e, he⟩ := exists_getElem? eo i (by omega)
    exact Ln.same_entry Lo he he

/-! ## Replacing a kid by the nodes of its split (`nodeReplaceKidN`) -/

/-- The size of the entries of the kids in the parent: two lengths and the first key. -/
theorem kvSize_kidEntries_eq (ptrs : List Nat) (groups : List (List Entry))
    (h : ptrs.length = groups.length) :
    kvSize (kidEntries ptrs groups) = (groups.map fun g => 4 + (firstKey g).length).sum := by
  induction ptrs generalizing groups with
  | nil =>
    cases groups with
    | nil => rfl
    | cons g groups => simp at h
  | cons f ptrs ih =>
    cases groups with
    | nil => simp at h
    | cons g groups =>
      rw [kidEntries_cons, kvSize_cons, ih groups (by simpa using h)]
      simp only [Entry.size, List.length_nil, List.map_cons, List.sum_cons]
      omega

/-- `New` of the in-memory store of `main.go` returns the counter. -/
theorem memNew_eq (tree : BTree MemStore) (node : BNode) :
    tree.New memPager node = .ok (tree.store.counter,
      { tree with store := { (tree.store.insert tree.store.counter node) with
                    counter := u64 (tree.store.counter + 1) },
                  calls := tree.calls ++ [Call.new node tree.store.counter] }) := rfl

/-- The loop over the kids, over the in-memory store of `main.go`: every kid is
registered and its entry (id, first key, no value) is appended. -/
theorem appendKids_mem {kids : List BNode} {groups : List (List Entry)}
    (hpg : List.Forall₂ (fun k g => g ≠ [] ∧ ∃ t, Layout k t g.length g) kids groups) :
    ∀ (tree : BTree MemStore) (new : BNode) (n idx i : Nat) (es : List Entry),
      tree.store.counter < 18446744073709551616 → Layout new BNODE_NODE n es →
      es.length = idx + i → idx + i + groups.length ≤ n →
      4 + 10 * n + kvSize es + (groups.map fun g => 4 + (firstKey g).length).sum ≤ new.len →
      new.len < 65536 →
      ∃ new' tree' ptrs, appendKids memPager kids idx i tree new = .ok (new', tree') ∧
        ptrs.length = groups.length ∧
        Layout new' BNODE_NODE n (es ++ kidEntries ptrs groups) ∧
        new'.len = new.len ∧ new'.data.length = new.data.length ∧
        tree'.calls = tree.calls ++ List.zipWith Call.new kids ptrs ∧
        tree'.store.counter < 18446744073709551616 ∧ tree'.root = tree.root := by
  induction hpg with
  | nil =>
    intro tree new n idx i es hc L _ _ _ _
    exact ⟨new, tree, [], rfl, rfl, by simpa [kidEntries] using L, rfl, rfl, by simp, hc, rfl⟩
  | @cons kid g kids groups hk _ ih =>
    intro tree new n idx i es hc L hlen hcount hfits hsmall
    obtain ⟨hgne, t, Lk⟩ := hk
    have hn := L.n_lt
    simp only [List.length_cons, List.map_cons, List.sum_cons] at hcount hfits
    obtain ⟨n1, e1, l1, c1, L1⟩ := nodeAppendKV_spec L ⟨tree.store.counter, firstKey g, []⟩
      (by omega) (by simp only [Entry.size, List.length_nil]; omega)
      (by simp only [Entry.size, List.length_nil]; omega) hc
    simp only [] at e1
    obtain ⟨new', tree', ptrs, hrun, hpl, Lr, lr, cr, hcalls, hcr, hroot⟩ :=
      ih { tree with store := { (tree.store.insert tree.store.counter kid) with
                       counter := u64 (tree.store.counter + 1) },
                     calls := tree.calls ++ [Call.new kid tree.store.counter] }
        n1 n idx (i + 1) (es ++ [⟨tree.store.counter, firstKey g, []⟩])
        (Nat.mod_lt _ (by decide)) L1 (by simp; omega) (by omega)
        (by rw [kvSize_append, l1]; simp only [kvSize_cons, kvSize_nil, Entry.size,
          List.length_nil]; omega)
        (by omega)
    refine ⟨new', tree', tree.store.counter :: ptrs, ?_, by simp [hpl], ?_, by omega, by omega,
      ?_, hcr, hroot⟩
    · unfold appendKids
      rw [memNew_eq, Res.ok_bind]
      simp only []
      rw [getKey_first Lk hgne, Res.ok_bind, u16_of_lt (show i < 65536 by omega),
        u16_of_lt (show idx + i < 65536 by omega), ← hlen, e1, Res.ok_bind]
      exact hrun
    · rw [kidEntries_cons]
      simpa using Lr
    · rw [hcalls]
      simp

theorem getElem?_append3 (a b z : List Entry) (i : Nat) :
    (a ++ b ++ z)[i]? =
      if i < a.length then a[i]?
      else if i < a.length + b.length then b[i - a.length]?
      else z[i - a.length - b.length]? := by
  by_cases h1 : i < a.length
  · rw [if_pos h1, List.getElem?_append_left (by simp; omega), List.getElem?_append_left h1]
  · rw [if_neg h1]
    by_cases h2 : i < a.length + b.length
    · rw [if_pos h2, List.getElem?_append_left (by simp; omega),
        List.getElem?_append_right (by omega)]
    · rw [if_neg h2, List.getElem?_append_right (by simp; omega)]
      simp only [List.length_append]
      congr 1
      omega

/-- `nodeReplaceKidN` over the in-memory store of `main.go`, in a zero-filled buffer that
holds the result: the new node holds the entries of `old` before `idx`, one entry per
kid, and the entries of `old` behind `idx`. -/
theorem nodeReplaceKidN_mem {old : BNode} {n : Nat} {eo : List Entry}
    (Lo : Layout old BNODE_NODE n eo) (ho : eo.length = n) (idx : Nat) (hidx : idx < n)
    {kids : List BNode} {groups : List (List Entry)}
    (hpg : List.Forall₂ (fun k g => g ≠ [] ∧ ∃ t, Layout k t g.length g) kids groups)
    (hm : 1 ≤ kids.length) (tree : BTree MemStore)
    (hc : tree.store.counter < 18446744073709551616) (size : Nat) (hs : size < 65536)
    (hfit : 4 + 10 * (n + kids.length - 1) + kvSize (eo.take idx) +
      (groups.map fun g => 4 + (firstKey g).length).sum + kvSize (eo.drop (idx + 1)) ≤ size) :
    ∃ new tree' ptrs,
      nodeReplaceKidN memPager tree (BNode.make size) old idx kids = .ok (new, tree') ∧
      ptrs.length = kids.length ∧
      tree'.calls = tree.calls ++ List.zipWith Call.new kids ptrs ∧
      Layout new BNODE_NODE (n + kids.length - 1)
        (eo.take idx ++ kidEntries ptrs groups ++ eo.drop (idx + 1)) := by
  have hkl : kids.length = groups.length := hpg.length_eq
  have hnlt := Lo.n_lt
  have htl : (eo.take idx).length = idx := by simp; omega
  obtain ⟨n0, e0, l0, c0, L0⟩ := make_layout size BNODE_NODE (n + kids.length - 1)
    (by decide) (by omega) hs
  obtain ⟨n1, e1, l1, c1, -, L1⟩ := nodeAppendRange_spec L0 Lo ho 0 idx (by omega)
    (by simp; omega) (by simp [kvSize_nil]; omega)
  have L1 := L1 (by simp [kvSize_nil]; omega)
  simp only [List.nil_append, List.drop_zero, List.length_nil] at L1 e1
  obtain ⟨n2, tree2, ptrs, e2, hpl, L2, l2, c2, hcalls, -, -⟩ :=
    appendKids_mem hpg tree n1 (n + kids.length - 1) idx 0 (eo.take idx) hc L1
      (by rw [htl]; rfl) (by omega) (by omega) (by omega)
  have hks := kvSize_kidEntries_eq ptrs groups hpl
  have hkl2 := kidEntries_length ptrs groups hpl
  have hdrop : (eo.drop (idx + 1)).take (n - (idx + 1)) = eo.drop (idx + 1) :=
    List.take_of_length_le (by simp; omega)
  have hl2 : (eo.take idx ++ kidEntries ptrs groups).length = idx + kids.length := by
    simp [hkl2]; omega
  obtain ⟨n3, e3, l3, c3, -, L3⟩ := nodeAppendRange_spec L2 Lo ho (idx + 1) (n - (idx + 1))
    (by omega) (by rw [hl2]; omega) (by rw [hdrop, kvSize_append]; omega)
  have L3 := L3 (by rw [hdrop, kvSize_append]; omega)
  rw [hdrop] at L3
  rw [hl2] at e3
  refine ⟨n3, tree2, ptrs, ?_, by omega, hcalls, L3⟩
  unfold nodeReplaceKidN
  rw [Lo.nkeys_eq]
  simp only [Res.ok_bind]
  rw [u16_of_lt (show kids.length < 65536 by omega),
    u16_of_lt (show n + kids.length < 65536 by omega),
    u16sub_of_le (show 1 ≤ n + kids.length by omega) (by omega), e0]
  simp only [Res.ok_bind]
  rw [e1]
  simp only [Res.ok_bind]
  rw [e2]
  simp only [Res.ok_bind]
  rw [u16_of_lt (show idx + kids.length < 65536 by omega),
    u16_of_lt (show idx + 1 < 65536 by omega),
    u16sub_of_le (show idx + 1 ≤ n by omega) (by omega), e3]
  simp only [Res.ok_bind, Res.pure_eq]

theorem forall₂_getElem? {kids : List BNode} {groups : List (List Entry)}
    {R : BNode → List Entry → Prop} (h : List.Forall₂ R kids groups) :
    ∀ (j : Nat) (k : BNode), kids[j]? = some k → ∃ g, groups[j]? = some g ∧ R k g := by
  induction h with
  | nil => intro j k hk; simp at hk
  | @cons k0 g0 kids groups h0 _ ih =>
    intro j k hk
    cases j with
    | zero =>
      simp only [List.getElem?_cons_zero, Option.some.injEq] at hk
      subst hk
      exact ⟨g0, by simp, h0⟩
    | succ j =>
      simp only [List.getElem?_cons_succ] at hk ⊢
      exact ih j k hk

theorem kidEntries_getElem? (ptrs : List Nat) (groups : List (List Entry)) (j : Nat) (p : Nat)
    (g : List Entry) (hp : ptrs[j]? = some p) (hg : groups[j]? = some g) :
    (kidEntries ptrs groups)[j]? = some ⟨p, firstKey g, []⟩ := by
  unfold kidEntries
  rw [List.getElem?_zipWith, hp, hg]

/-- **C19** Replacing a child by its split pieces.  For every internal node `old` with `n`
keys, index `idx < n` and kids `k_1 .. k_m` (`m >= 1`, each a well-formed node with at
least one key), over the in-memory store of `main.go` and in a zero-filled buffer that
holds the result: `nodeReplaceKidN` passes the kids to `New` in their order and builds
an internal node with `n + m - 1` keys in which the entries `0 .. idx-1` are those of
`old`, the entry `idx + j` (for `j < m`) has the pointer that `New` returned for the
kid `j` and the first key of that kid, and the entries `idx+m .. n+m-2` are the entries
`idx+1 .. n-1` of `old`. -/
theorem nodeReplaceKidN_entries {old : BNode} {n : Nat} {eo : List Entry}
    (Lo : Layout old BNODE_NODE n eo) (ho : eo.length = n) (idx : Nat) (hidx : idx < n)
    {kids : List BNode} {groups : List (List Entry)}
    (hpg : List.Forall₂ (fun k g => g ≠ [] ∧ ∃ t, Layout k t g.length g) kids groups)
    (hm : 1 ≤ kids.length) (tree : BTree MemStore)
    (hc : tree.store.counter < 18446744073709551616) (size : Nat) (hs : size < 65536)
    (hfit : 4 + 10 * (n + kids.length - 1) + kvSize (eo.take idx) +
      (groups.map fun g => 4 + (firstKey g).length).sum + kvSize (eo.drop (idx + 1)) ≤ size) :
    ∃ new tree' ptrs,
      nodeReplaceKidN memPager tree (BNode.make size) old idx kids = .ok (new, tree') ∧
      ptrs.length = kids.length ∧
      tree'.calls = tree.calls ++ List.zipWith Call.new kids ptrs ∧
      new.btype = .ok BNODE_NODE ∧ new.nkeys = .ok (n + kids.length - 1) ∧
      (∀ i, i < idx → new.getPtr i = old.getPtr i ∧ new.getKey i = old.getKey i ∧
        new.getVal i = old.getVal i) ∧
      (∀ j k, kids[j]? = some k → ∃ p, ptrs[j]? = some p ∧
        new.getPtr (idx + j) = .ok p ∧ new.getKey (idx + j) = k.getKey 0 ∧
        new.getVal (idx + j) = .ok []) ∧
      (∀ i, idx + 1 ≤ i → i < n →
        new.getPtr (i + kids.length - 1) = old.getPtr i ∧
        new.getKey (i + kids.length - 1) = old.getKey i ∧
        new.getVal (i + kids.length - 1) = old.getVal i) := by
  obtain ⟨new, tree', ptrs, hrun, hpl, hcalls, L⟩ :=
    nodeReplaceKidN_mem Lo ho idx hidx hpg hm tree hc size hs hfit
  have hkl : kids.length = groups.length := hpg.length_eq
  have htl : (eo.take idx).length = idx := by simp; omega
  have hkl2 := kidEntries_length ptrs groups (by omega)
  refine ⟨new, tree', ptrs, hrun, hpl, hcalls, L.btype_eq, L.nkeys_eq, fun i hi => ?_,
    fun j k hk => ?_, fun i h1 h2 => ?_⟩
  · obtain ⟨e, he⟩ := exists_getElem? eo i (by omega)
    refine L.same_entry Lo ?_ he
    rw [getElem?_append3, htl, if_pos hi, List.getElem?_take, if_pos hi]
    exact he
  · have hj : j < kids.length := by
      rcases Nat.lt_or_ge j kids.length with h | h
      · exact h
      · rw [List.getElem?_eq_none h] at hk
        cases hk
    obtain ⟨g, hg, hgne, t, Lk⟩ := forall₂_getElem? hpg j k hk
    obtain ⟨p, hp⟩ : ∃ p, ptrs[j]? = some p :=
      ⟨ptrs[j], List.getElem?_eq_getElem (by omega)⟩
    have he : (eo.take idx ++ kidEntries ptrs groups ++ eo.drop (idx + 1))[idx + j]? =
        some ⟨p, firstKey g, []⟩ := by
      rw [getElem?_append3, htl, if_neg (by omega), hkl2, if_pos (by omega),
        Nat.add_sub_cancel_left]
      exact kidEntries_getElem? ptrs groups j p g hp hg
    exact ⟨p, hp, L.getPtr_eq he, by rw [L.getKey_eq he, getKey_first Lk hgne],
      L.getVal_eq he⟩
  · obtain ⟨e, he⟩ := exists_getElem? eo i (by omega)
    refine L.same_entry Lo ?_ he
    rw [getElem?_append3, htl, if_neg (by omega), hkl2, if_neg (by omega),
      List.getElem?_drop]
    rw [← he]
    congr 1
    omega

/-! ## `Delete` and the root -/

theorem New_root {σ : Type} (P : Pager σ) {tree tree' : BTree σ} {node : BNode} {p : Nat}
    (h : tree.New P node = .ok (p, tree')) :
    tree'.root = tree.root ∧ tree'.calls = tree.calls ++ [Call.new node p] := by
  unfold BTree.New at h
  obtain ⟨⟨p', s⟩, -, h2⟩ := bind_ok_inv h
  cases h2
  exact ⟨rfl, rfl⟩

theorem Del_root {σ : Type} (P : Pager σ) {tree tree' : BTree σ} {p : Nat}
    (h : tree.Del P p = .ok tree') :
    tree'.root = tree.root ∧ tree'.calls = tree.calls ++ [Call.del p] := by
  unfold BTree.Del at h
  obtain ⟨s, -, h2⟩ := bind_ok_inv h
  cases h2
  exact ⟨rfl, rfl⟩

theorem appendKids_root {σ : Type} (P : Pager σ) (kids : List BNode) :
    ∀ (idx i : Nat) (tree tree' : BTree σ) (new new' : BNode),
      appendKids P kids idx i tree new = .ok (new', tree') → tree'.root = tree.root := by
  induction kids with
  | nil =>
    intro idx i tree tree' new new' h
    unfold appendKids at h
    cases h
    rfl
  | cons kid kids ih =>
    intro idx i tree tree' new new' h
    unfold appendKids at h
    obtain ⟨⟨p, tree1⟩, h1, h⟩ := bind_ok_inv h
    obtain ⟨k, -, h⟩ := bind_ok_inv h
    obtain ⟨n1, -, h⟩ := bind_ok_inv h
    rw [ih _ _ _ _ _ _ h, (New_root P h1).1]

theorem nodeReplaceKidN_root {σ : Type} (P : Pager σ) {tree tree' : BTree σ}
    {new old new' : BNode} {idx : Nat} {kids : List BNode}
    (h : nodeReplaceKidN P tree new old idx kids = .ok (new', tree')) :
    tree'.root = tree.root := by
  unfold nodeReplaceKidN at h
  obtain ⟨n, -, h⟩ := bind_ok_inv h
  obtain ⟨n0, -, h⟩ := bind_ok_inv h
  obtain ⟨n1, -, h⟩ := bind_ok_inv h
  obtain ⟨⟨n2, tree2⟩, h2, h⟩ := bind_ok_inv h
  obtain ⟨n', -, h⟩ := bind_ok_inv h
  obtain ⟨n3, -, h⟩ := bind_ok_inv h
  cases h
  exact appendKids_root P kids _ _ _ _ _ _ h2

theorem nodeDelete_root {σ : Type} (P : Pager σ)
    (rec : BTree σ → BNode → List Nat → Res (BNode × BTree σ))
    (hrec : ∀ tree node key u tree', rec tree node key = .ok (u, tree') →
      tree'.root = tree.root)
    {tree tree' : BTree σ} {node new' : BNode} {idx : Nat} {key : List Nat}
    (h : nodeDelete P rec tree node idx key = .ok (new', tree')) :
    tree'.root = tree.root := by
  unfold nodeDelete at h
  obtain ⟨kptr, -, h⟩ := bind_ok_inv h
  obtain ⟨knode, -, h⟩ := bind_ok_inv h
  obtain ⟨⟨updated, tree1⟩, h1, h⟩ := bind_ok_inv h
  have r1 := hrec _ _ _ _ _ h1
  simp only [] at h
  by_cases h0 : updated.len = 0
  · rw [if_pos h0] at h
    cases h
    exact r1
  · rw [if_neg h0] at h
    obtain ⟨tree2, h2, h⟩ := bind_ok_inv h
    have r2 := (Del_root P h2).1
    obtain ⟨⟨mergeDir, sibling⟩, -, h⟩ := bind_ok_inv h
    simp only [] at h
    by_cases hm : mergeDir < 0
    · rw [if_pos hm] at h
      obtain ⟨merged, -, h⟩ := bind_ok_inv h
      obtain ⟨p, -, h⟩ := bind_ok_inv h
      obtain ⟨tree3, h3, h⟩ := bind_ok_inv h
      obtain ⟨⟨ptr, tree4⟩, h4, h⟩ := bind_ok_inv h
      obtain ⟨k, -, h⟩ := bind_ok_inv h
      obtain ⟨new2, -, h⟩ := bind_ok_inv h
      cases h
      rw [(New_root P h4).1, (Del_root P h3).1, r2, r1]
    · rw [if_neg hm] at h
      by_cases hp : mergeDir > 0
      · rw [if_pos hp] at h
        obtain ⟨merged, -, h⟩ := bind_ok_inv h
        obtain ⟨p, -, h⟩ := bind_ok_inv h
        obtain ⟨tree3, h3, h⟩ := bind_ok_inv h
        obtain ⟨⟨ptr, tree4⟩, h4, h⟩ := bind_ok_inv h
        obtain ⟨k, -, h⟩ := bind_ok_inv h
        obtain ⟨new2, -, h⟩ := bind_ok_inv h
        cases h
        rw [(New_root P h4).1, (Del_root P h3).1, r2, r1]
      · rw [if_neg hp] at h
        rw [nodeReplaceKidN_root P h, r2, r1]

/-- `treeDelete` does not assign the root: the field keeps its value. -/
theorem treeDelete_root {σ : Type} (P : Pager σ) (fuel : Nat) :
    ∀ (tree : BTree σ) (node : BNode) (key : List Nat) (u : BNode) (tree' : BTree σ),
      treeDelete P fuel tree node key = .ok (u, tree') → tree'.root = tree.root := by
  induction fuel with
  | zero =>
    intro tree node key u tree' h
    unfold treeDelete at h
    cases h
  | succ fuel ih =>
    intro tree node key u tree' h
    unfold treeDelete at h
    obtain ⟨idx, -, h⟩ := bind_ok_inv h
    obtain ⟨t, -, h⟩ := bind_ok_inv h
    by_cases hl : t = BNODE_LEAF
    · rw [if_pos hl] at h
      obtain ⟨k, -, h⟩ := bind_ok_inv h
      by_cases hk : (!bytesEqual key k) = true
      · rw [if_pos hk] at h
        cases h
        rfl
      · rw [if_neg hk] at h
        obtain ⟨new, -, h⟩ := bind_ok_inv h
        cases h
        rfl
    · rw [if_neg hl] at h
      by_cases hn : t = BNODE_NODE
      · rw [if_pos hn] at h
        exact nodeDelete_root P (treeDelete P fuel) ih h
      · rw [if_neg hn] at h
        cases h

/-- **C20** Root collapse on delete.  When `BTree.Delete` finds the key (`treeDelete` on
the root returns a rebuilt root `updated`, not the nil node), it calls `Del` on the old
root.  If `updated` is an internal node with exactly one key, `Delete` returns true with
`tree.root` set to the child pointer 0 of `updated`, and nothing is passed to `New`
after that `Del`; otherwise `updated` is passed to `New` and `Delete` returns true
with `tree.root` set to the id that `New` returned. -/
theorem delete_root_collapse {σ : Type} (P : Pager σ) (fuel : Nat)
    (tree tree1 tree2 : BTree σ) (node updated : BNode) (key : List Nat)
    (hroot : tree.root ≠ 0) (hget : tree.Get P tree.root = .ok node)
    (hdel : treeDelete P fuel tree node key = .ok (updated, tree1))
    (hfound : updated.len ≠ 0) (hDel : tree1.Del P tree.root = .ok tree2) :
    tree2.calls = tree1.calls ++ [Call.del tree.root] ∧
    (updated.btype = .ok BNODE_NODE → updated.nkeys = .ok 1 →
      ∀ p, updated.getPtr 0 = .ok p →
        tree.Delete P fuel key = .ok (true, { tree2 with root := p })) ∧
    (∀ t, updated.btype = .ok t →
      (t = BNODE_NODE → ∃ n, updated.nkeys = .ok n ∧ n ≠ 1) →
      ∀ p tree3, tree2.New P updated = .ok (p, tree3) →
        tree3.calls = tree2.calls ++ [Call.new updated p] ∧
        tree.Delete P fuel key = .ok (true, { tree3 with root := p })) := by
  have hr1 := treeDelete_root P fuel tree node key updated tree1 hdel
  have hrun : tree.Delete P fuel key = (do
      let t ← updated.btype
      let collapse ← if t = BNODE_NODE then do
          let n ← updated.nkeys
          pure (decide (n = 1))
        else pure false
      if collapse then do
        let p ← updated.getPtr 0
        pure (true, { tree2 with root := p })
      else do
        let (p, tree) ← tree2.New P updated
        pure (true, { tree with root := p })) := by
    unfold BTree.Delete
    rw [if_neg hroot, hget, Res.ok_bind, hdel, Res.ok_bind]
    simp only []
    rw [if_neg hfound, hr1, hDel, Res.ok_bind]
  refine ⟨(Del_root P hDel).2, fun ht hn p hp => ?_, fun t ht hnot p tree3 hnew => ?_⟩
  · rw [hrun, ht, Res.ok_bind, if_pos rfl, hn, Res.ok_bind]
    simp only [Res.pure_eq, Res.ok_bind, decide_True, if_true, hp]
  · refine ⟨(New_root P hnew).2, ?_⟩
    rw [hrun, ht, Res.ok_bind]
    by_cases hN : t = BNODE_NODE
    · obtain ⟨n, hn, hn1⟩ := hnot hN
      rw [if_pos hN, hn, Res.ok_bind]
      simp only [Res.pure_eq, Res.ok_bind, hn1, decide_False, Bool.false_eq_true, if_false,
        hnew]
    · rw [if_neg hN]
      simp only [Res.pure_eq, Res.ok_bind, Bool.false_eq_true, if_false, hnew]

/-! ## The sample nodes are well-formed -/

theorem sampleLeafA_layout : Layout sampleLeafA BNODE_LEAF 1 [⟨0, [], []⟩] := by
  obtain ⟨node, h, -, -, L⟩ := buildNode_layout 18 BNODE_LEAF [⟨0, [], []⟩] (by decide)
    (by decide) (by decide) (by decide)
  have e : buildNode (BNode.make 18) BNODE_LEAF [⟨0, [], []⟩] = .ok sampleLeafA := by decide
  rw [e] at h
  cases h
  exact L

theorem sampleLeafB_layout : Layout sampleLeafB BNODE_LEAF 1 [⟨0, [98], [49]⟩] := by
  obtain ⟨node, h, -, -, L⟩ := buildNode_layout 20 BNODE_LEAF [⟨0, [98], [49]⟩] (by decide)
    (by decide) (by decide) (by decide)
  have e : buildNode (BNode.make 20) BNODE_LEAF [⟨0, [98], [49]⟩] = .ok sampleLeafB := by
    decide
  rw [e] at h
  cases h
  exact L

theorem sampleLeafAB_layout :
    Layout sampleLeafAB BNODE_LEAF 2 [⟨0, [], []⟩, ⟨0, [98], [49]⟩] := by
  obtain ⟨node, h, -, -, L⟩ := buildNode_layout 34 BNODE_LEAF
    [⟨0, [], []⟩, ⟨0, [98], [49]⟩] (by decide) (by decide) (by decide) (by decide)
  have e : buildNode (BNode.make 34) BNODE_LEAF [⟨0, [], []⟩, ⟨0, [98], [49]⟩] =
      .ok sampleLeafAB := by decide
  rw [e] at h
  cases h
  exact L

theorem sampleNode_layout :
    Layout sampleNode BNODE_NODE 2 [⟨1, [], []⟩, ⟨2, [98], []⟩] := by
  obtain ⟨node, h, -, -, L⟩ := buildNode_layout 33 BNODE_NODE
    [⟨1, [], []⟩, ⟨2, [98], []⟩] (by decide) (by decide) (by decide) (by decide)
  have e : buildNode (BNode.make 33) BNODE_NODE [⟨1, [], []⟩, ⟨2, [98], []⟩] =
      .ok sampleNode := by decide
  rw [e] at h
  cases h
  exact L

/-! ## Instances -/

/-- Witness of **C16**: the updated kid 1 of `sampleNode` is a leaf without entries
(4 bytes); its left sibling `sampleLeafA` has 18 bytes and is chosen. -/
theorem shouldMerge_decision_witness :
    shouldMerge memPager sampleTree sampleNode 1 ⟨[2, 0, 0, 0], 4⟩ =
      .ok (-1, sampleLeafA) :=
  shouldMerge_decision memPager sampleTree sampleNode ⟨[2, 0, 0, 0], 4⟩ sampleLeafA
    BNode.empty 1 2 4 18 0 (by decide) (by decide) (by decide) (by decide) (by decide)
    (fun _ => ⟨1, by decide, by decide, by decide, by decide⟩)
    (fun h => absurd h (by decide))

/-- Witness of **C17**: merging the leaves of 18 and 20 bytes gives 34 bytes. -/
theorem nodeMerge_size_witness :
    ∃ new, nodeMerge (BNode.make BTREE_PAGE_SIZE) sampleLeafA sampleLeafB = .ok new ∧
      new.btype = .ok BNODE_LEAF ∧ new.nkeys = .ok (1 + 1) ∧
      new.nbytes = .ok (18 + 20 - HEADER_SIZE) ∧ 18 + 20 - HEADER_SIZE ≤ BTREE_PAGE_SIZE :=
  nodeMerge_size sampleLeafA_layout rfl sampleLeafB_layout rfl 18 20 (by decide) (by decide)
    (by decide)

/-- Witness of **C18**: the leaf of two entries, split and merged in buffers of 64 bytes. -/
theorem split_then_merge_witness :
    ∃ left right new,
      nodeSplit2 (BNode.make 64) (BNode.make 64) sampleLeafAB = .ok (left, right) ∧
      left.nkeys = .ok 1 ∧ right.nkeys = .ok 1 ∧
      nodeMerge (BNode.make 64) left right = .ok new ∧ new.btype = sampleLeafAB.btype ∧
      new.nkeys = sampleLeafAB.nkeys ∧
      (∀ i, i < 2 → new.getPtr i = sampleLeafAB.getPtr i ∧
        new.getKey i = sampleLeafAB.getKey i ∧ new.getVal i = sampleLeafAB.getVal i) :=
  let ⟨left, right, new, h1, _, h3, _, _, h6, _, h8, h9, h10, h11⟩ :=
    split_then_merge sampleLeafAB_layout rfl 64 64 64 (by decide) (by decide) (by decide)
      (by decide) (by decide) (by decide)
  ⟨left, right, new, h1, h3, h6, h8, h9, h10, h11⟩

/-- Witness of **C19**: the kid 0 of `sampleNode` is replaced by the two leaves
`sampleLeafA` and `sampleLeafB`; the new node has three keys. -/
theorem nodeReplaceKidN_entries_witness :
    ∃ new tree' ptrs,
      nodeReplaceKidN memPager sampleTree (BNode.make 64) sampleNode 0
        [sampleLeafA, sampleLeafB] = .ok (new, tree') ∧
      ptrs.length = 2 ∧
      tree'.calls = List.zipWith Call.new [sampleLeafA, sampleLeafB] ptrs ∧
      new.nkeys = .ok 3 ∧
      (∀ j k, [sampleLeafA, sampleLeafB][j]? = some k → ∃ p, ptrs[j]? = some p ∧
        new.getPtr (0 + j) = .ok p ∧ new.getKey (0 + j) = k.getKey 0 ∧
        new.getVal (0 + j) = .ok []) ∧
      (∀ i, 0 + 1 ≤ i → i < 2 → new.getPtr (i + 2 - 1) = sampleNode.getPtr i ∧
        new.getKey (i + 2 - 1) = sampleNode.getKey i ∧
        new.getVal (i + 2 - 1) = sampleNode.getVal i) :=
  let ⟨new, tree', ptrs, h1, h2, h3, _, h5, _, h7, h8⟩ :=
    nodeReplaceKidN_entries sampleNode_layout rfl 0 (by decide)
      (show List.Forall₂ (fun k g => g ≠ [] ∧ ∃ t, Layout k t g.length g)
          [sampleLeafA, sampleLeafB] [[⟨0, [], []⟩], [⟨0, [98], [49]⟩]] from
        List.Forall₂.cons ⟨by decide, BNODE_LEAF, sampleLeafA_layout⟩
          (List.Forall₂.cons ⟨by decide, BNODE_LEAF, sampleLeafB_layout⟩ List.Forall₂.nil))
      (by decide) sampleTree (by decide) 64 (by decide) (by decide)
  ⟨new, tree', ptrs, h1, h2, h3, h5, h7, h8⟩

/-! ## Deleting from a leaf (`leafDelete`) -/

/-- `leafDelete` in a zero-filled buffer that holds the remaining entries builds the leaf
of the entries of `old` without the entry `idx`. -/
theorem leafDelete_spec {old : BNode} {t' n : Nat} {eo : List Entry}
    (Lo : Layout old t' n eo) (ho : eo.length = n) (size idx : Nat) (hidx : idx < n)
    (hs : size < 65536)
    (hfits : 4 + 10 * (n - 1) + kvSize (eo.take idx) + kvSize (eo.drop (idx + 1)) ≤ size) :
    ∃ new, leafDelete (BNode.make size) old idx = .ok new ∧ new.len = size ∧
      new.data.length = size ∧
      Layout new BNODE_LEAF (n - 1) (eo.take idx ++ eo.drop (idx + 1)) := by
  have hn := Lo.n_lt
  obtain ⟨n0, e0, l0, c0, L0⟩ := make_layout size BNODE_LEAF (n - 1) (by decide) (by omega) hs
  obtain ⟨n1, e1, l1, c1, -, L1⟩ := nodeAppendRange_spec L0 Lo ho 0 idx (by omega)
    (by simp; omega) (by simp [kvSize_nil]; omega)
  have L1 := L1 (by simp [kvSize_nil]; omega)
  simp only [List.nil_append, List.drop_zero, List.length_nil] at L1 e1
  have hl1 : (eo.take idx).length = idx := by simp; omega
  have hdrop : (eo.drop (idx + 1)).take (n - (idx + 1)) = eo.drop (idx + 1) :=
    List.take_of_length_le (by simp; omega)
  obtain ⟨n2, e2, l2, c2, -, L2⟩ := nodeAppendRange_spec L1 Lo ho (idx + 1) (n - (idx + 1))
    (by omega) (by rw [hl1]; omega) (by rw [hdrop]; omega)
  have L2 := L2 (by rw [hdrop]; omega)
  rw [hdrop] at L2
  rw [hl1] at e2
  refine ⟨n2, ?_, by omega, by omega, L2⟩
  unfold leafDelete
  rw [Lo.nkeys_eq]
  simp only [Res.ok_bind]
  rw [u16sub_of_le (show 1 ≤ n by omega) (by omega), e0]
  simp only [Res.ok_bind]
  rw [e1]
  simp only [Res.ok_bind]
  rw [u16_of_lt (show idx + 1 < 65536 by omega),
    u16sub_of_le (show idx + 1 ≤ n by omega) (by omega)]
  exact e2

/-- **C23** Leaf delete undoes leaf insert.  For every well-formed leaf `old` with `n` keys,
every index `idx <= n` and every key and value such that the enlarged leaf fits the
zero-filled buffer `mid`, and a zero-filled buffer `new` that holds the entries of `old`:
`leafInsert(mid, old, idx, key, val)` followed by `leafDelete(new, mid, idx)` yields a
leaf with `n` keys whose pointer, key and value at every index are those of `old`. -/
theorem leafDelete_undoes_leafInsert {old : BNode} {n : Nat} {eo : List Entry}
    (Lo : Layout old BNODE_LEAF n eo) (ho : eo.length = n) (sm sn idx : Nat)
    (key val : List Nat) (hidx : idx ≤ n) (hsm : sm < 65536) (hsn : sn < 65536)
    (hm : 4 + 10 * (n + 1) + kvSize eo + (4 + key.length + val.length) ≤ sm)
    (hn : 4 + 10 * n + kvSize eo ≤ sn) :
    ∃ mid new, leafInsert (BNode.make sm) old idx key val = .ok mid ∧
      mid.nkeys = .ok (n + 1) ∧ mid.getKey idx = .ok key ∧ mid.getVal idx = .ok val ∧
      leafDelete (BNode.make sn) mid idx = .ok new ∧
      new.btype = .ok BNODE_LEAF ∧ new.nkeys = .ok n ∧
      (∀ i, i < n → new.getPtr i = old.getPtr i ∧ new.getKey i = old.getKey i ∧
        new.getVal i = old.getVal i) := by
  have hl1 : (eo.take idx).length = idx := by simp; omega
  obtain ⟨mid, hins, -, -, Lm⟩ := leafInsert_spec Lo ho sm idx key val hidx hsm hm
  have hml : (eo.take idx ++ [(⟨0, key, val⟩ : Entry)] ++ eo.drop idx).length = n + 1 := by
    simp; omega
  have htake : (eo.take idx ++ [(⟨0, key, val⟩ : Entry)] ++ eo.drop idx).take idx =
      eo.take idx := by
    rw [List.append_assoc, List.take_append_of_le_length (by omega),
      List.take_of_length_le (by omega)]
  have hdrop : (eo.take idx ++ [(⟨0, key, val⟩ : Entry)] ++ eo.drop idx).drop (idx + 1) =
      eo.drop idx := by
    have : (eo.take idx ++ [(⟨0, key, val⟩ : Entry)]).length = idx + 1 := by simp; omega
    rw [← this, List.drop_left]
  have hsplit := kvSize_take_add_drop eo idx
  obtain ⟨new, hdel, -, -, Ln⟩ := leafDelete_spec Lm hml sn idx (by omega) hsn
    (by rw [htake, hdrop, Nat.add_sub_cancel]; omega)
  rw [htake, hdrop, Nat.add_sub_cancel, List.take_append_drop] at Ln
  have hmid : (eo.take idx ++ [(⟨0, key, val⟩ : Entry)] ++ eo.drop idx)[idx]? =
      some ⟨0, key, val⟩ := by
    rw [List.append_assoc, List.getElem?_append_right (by omega), hl1, Nat.sub_self]
    simp
  refine ⟨mid, new, hins, Lm.nkeys_eq, Lm.getKey_eq hmid, Lm.getVal_eq hmid, hdel,
    Ln.btype_eq, Ln.nkeys_eq, fun i hi => ?_⟩
  obtain ⟨e, he⟩ := exists_getElem? eo i (by omega)
  exact Ln.same_entry Lo he he

/-- Witness of **C23**: `("a", "2")` inserted at index 1 of the leaf of `("", "")` and
`("b", "1")`, and deleted again. -/
theorem leafDelete_undoes_leafInsert_witness :
    ∃ mid new, leafInsert (BNode.make 64) sampleLeafAB 1 [97] [50] = .ok mid ∧
      mid.nkeys = .ok (2 + 1) ∧ mid.getKey 1 = .ok [97] ∧ mid.getVal 1 = .ok [50] ∧
      leafDelete (BNode.make 64) mid 1 = .ok new ∧
      new.btype = .ok BNODE_LEAF ∧ new.nkeys = .ok 2 ∧
      (∀ i, i < 2 → new.getPtr i = sampleLeafAB.getPtr i ∧
        new.getKey i = sampleLeafAB.getKey i ∧ new.getVal i = sampleLeafAB.getVal i) :=
  leafDelete_undoes_leafInsert sampleLeafAB_layout rfl 64 64 1 [97] [50] (by decide)
    (by decide) (by decide) (by decide) (by decide)

/-! ## The length of a buffer is kept by every write -/

theorem putU16_len {node node' : BNode} {pos v : Nat} (h : node.putU16 pos v = .ok node') :
    node'.len = node.len := by
  unfold BNode.putU16 at h
  split at h
  · cases h; rfl
  · cases h

theorem putU64_len {node node' : BNode} {pos v : Nat} (h : node.putU64 pos v = .ok node') :
    node'.len = node.len := by
  unfold BNode.putU64 at h
  split at h
  · cases h; rfl
  · cases h

theorem copyAt_len {node node' : BNode} {pos : Nat} {src : List Nat}
    (h : node.copyAt pos src = .ok node') : node'.len = node.len := by
  unfold BNode.copyAt at h
  split at h
  · cases h; rfl
  · cases h

theorem setHeader_len {node node' : BNode} {t n : Nat} (h : node.setHeader t n = .ok node') :
    node'.len = node.len := by
  unfold BNode.setHeader at h
  split at h
  · cases h; rfl
  · cases h

theorem setPtr_len {node node' : BNode} {idx v : Nat} (h : node.setPtr idx v = .ok node') :
    node'.len = node.len :=
  putU64_len h

theorem setOffset_len {node node' : BNode} {idx v : Nat}
    (h : node.setOffset idx v = .ok node') : node'.len = node.len := by
  unfold BNode.setOffset at h
  obtain ⟨p, -, h⟩ := bind_ok_inv h
  exact putU16_len h

theorem copyPtrs_len (old : BNode) (ns os : Nat) (rem : Nat) :
    ∀ (i : Nat) (new new' : BNode), copyPtrs old ns os rem i new = .ok new' →
      new'.len = new.len := by
  induction rem with
  | zero =>
    intro i new new' h
    unfold copyPtrs at h
    cases h
    rfl
  | succ rem ih =>
    intro i new new' h
    unfold copyPtrs at h
    obtain ⟨p, -, h⟩ := bind_ok_inv h
    obtain ⟨n1, h1, h⟩ := bind_ok_inv h
    rw [ih _ _ _ h, setPtr_len h1]

theorem copyOffset_len {old new new' : BNode} {ns os nb ob i : Nat}
    (h : copyOffset old ns os nb ob i new = .ok new') : new'.len = new.len := by
  unfold copyOffset at h
  obtain ⟨o, -, h⟩ := bind_ok_inv h
  exact setOffset_len h

theorem copyOffsets_len (old : BNode) (ns os nb ob : Nat) (rem : Nat) :
    ∀ (i : Nat) (new new' : BNode), copyOffsets old ns os nb ob rem i new = .ok new' →
      new'.len = new.len := by
  induction rem with
  | zero =>
    intro i new new' h
    unfold copyOffsets at h
    cases h
    rfl
  | succ rem ih =>
    intro i new new' h
    unfold copyOffsets at h
    obtain ⟨n1, h1, h⟩ := bind_ok_inv h
    rw [ih _ _ _ h, copyOffset_len h1]

theorem nodeAppendRange_len {new old new' : BNode} {ns os cnt : Nat}
    (h : nodeAppendRange new old ns os cnt = .ok new') : new'.len = new.len := by
  unfold nodeAppendRange at h
  split at h
  · cases h; rfl
  · obtain ⟨n1, h1, h⟩ := bind_ok_inv h
    obtain ⟨nb, -, h⟩ := bind_ok_inv h
    obtain ⟨ob, -, h⟩ := bind_ok_inv h
    obtain ⟨n2, h2, h⟩ := bind_ok_inv h
    split at h
    · obtain ⟨n3, -, h⟩ := bind_ok_inv h
      cases h
    · obtain ⟨b, -, h⟩ := bind_ok_inv h
      obtain ⟨e, -, h⟩ := bind_ok_inv h
      obtain ⟨dst, -, h⟩ := bind_ok_inv h
      obtain ⟨src, -, h⟩ := bind_ok_inv h
      rw [copyAt_len h, copyOffsets_len _ _ _ _ _ _ _ _ _ h2, copyPtrs_len _ _ _ _ _ _ _ h1]

theorem nodeAppendKV_len {new new' : BNode} {idx ptr : Nat} {key val : List Nat}
    (h : nodeAppendKV new idx ptr key val = .ok new') : new'.len = new.len := by
  unfold nodeAppendKV at h
  obtain ⟨n1, h1, h⟩ := bind_ok_inv h
  obtain ⟨pos, -, h⟩ := bind_ok_inv h
  obtain ⟨off, -, h⟩ := bind_ok_inv h
  obtain ⟨n2, h2, h⟩ := bind_ok_inv h
  obtain ⟨n3, h3, h⟩ := bind_ok_inv h
  obtain ⟨n4, h4, h⟩ := bind_ok_inv h
  obtain ⟨n5, h5, h⟩ := bind_ok_inv h
  rw [copyAt_len h, copyAt_len h5, putU16_len h4, putU16_len h3, setOffset_len h2,
    setPtr_len h1]

theorem leafDelete_len {new old new' : BNode} {idx : Nat}
    (h : leafDelete new old idx = .ok new') : new'.len = new.len := by
  unfold leafDelete at h
  obtain ⟨n, -, h⟩ := bind_ok_inv h
  obtain ⟨n1, h1, h⟩ := bind_ok_inv h
  obtain ⟨n2, h2, h⟩ := bind_ok_inv h
  obtain ⟨n', -, h⟩ := bind_ok_inv h
  rw [nodeAppendRange_len h, nodeAppendRange_len h2, setHeader_len h1]

theorem nodeMerge_len {new left right new' : BNode}
    (h : nodeMerge new left right = .ok new') : new'.len = new.len := by
  unfold nodeMerge at h
  obtain ⟨t, -, h⟩ := bind_ok_inv h
  obtain ⟨ln, -, h⟩ := bind_ok_inv h
  obtain ⟨rn, -, h⟩ := bind_ok_inv h
  obtain ⟨n1, h1, h⟩ := bind_ok_inv h
  obtain ⟨ln', -, h⟩ := bind_ok_inv h
  obtain ⟨n2, h2, h⟩ := bind_ok_inv h
  obtain ⟨ln'', -, h⟩ := bind_ok_inv h
  obtain ⟨rn', -, h⟩ := bind_ok_inv h
  rw [nodeAppendRange_len h, nodeAppendRange_len h2, setHeader_len h1]

theorem nodeReplace2Kid_len {new old new' : BNode} {idx ptr : Nat} {key : List Nat}
    (h : nodeReplace2Kid new old idx ptr key = .ok new') : new'.len = new.len := by
  unfold nodeReplace2Kid at h
  obtain ⟨n, -, h⟩ := bind_ok_inv h
  obtain ⟨n1, h1, h⟩ := bind_ok_inv h
  obtain ⟨n2, h2, h⟩ := bind_ok_inv h
  obtain ⟨n3, h3, h⟩ := bind_ok_inv h
  obtain ⟨n', -, h⟩ := bind_ok_inv h
  rw [nodeAppendRange_len h, nodeAppendKV_len h3, nodeAppendRange_len h2, setHeader_len h1]

theorem nodeSplit2_len {left right old left' right' : BNode}
    (h : nodeSplit2 left right old = .ok (left', right')) :
    left'.len = left.len ∧ right'.len = right.len := by
  unfold nodeSplit2 at h
  obtain ⟨n, -, h⟩ := bind_ok_inv h
  obtain ⟨t, -, h⟩ := bind_ok_inv h
  obtain ⟨l1, hl1, h⟩ := bind_ok_inv h
  obtain ⟨l2, hl2, h⟩ := bind_ok_inv h
  obtain ⟨t', -, h⟩ := bind_ok_inv h
  obtain ⟨r1, hr1, h⟩ := bind_ok_inv h
  obtain ⟨r2, hr2, h⟩ := bind_ok_inv h
  cases h
  exact ⟨by rw [nodeAppendRange_len hl2, setHeader_len hl1],
    by rw [nodeAppendRange_len hr2, setHeader_len hr1]⟩

/-- The nodes that `nodeSplit3` returns in use all have the length of a page. -/
theorem nodeSplit3_len {old : BNode} {cnt : Nat} {kids : List BNode}
    (h : nodeSplit3 old = .ok (cnt, kids)) :
    1 ≤ cnt ∧ ∀ k ∈ kids.take cnt, k.len = BTREE_PAGE_SIZE := by
  unfold nodeSplit3 at h
  obtain ⟨sz, -, h⟩ := bind_ok_inv h
  split at h
  · obtain ⟨o, ho, h⟩ := bind_ok_inv h
    cases h
    unfold BNode.trim at ho
    split at ho
    · cases ho
      refine ⟨Nat.le_refl 1, fun k hk => ?_⟩
      simp only [List.take_succ_cons, List.take_zero, List.mem_singleton] at hk
      rw [hk]
    · cases ho
  · obtain ⟨⟨l, r⟩, h1, h⟩ := bind_ok_inv h
    have hlr := nodeSplit2_len h1
    simp only [] at h
    obtain ⟨lsz, -, h⟩ := bind_ok_inv h
    split at h
    · obtain ⟨l', hl', h⟩ := bind_ok_inv h
      cases h
      unfold BNode.trim at hl'
      split at hl'
      · cases hl'
        refine ⟨by omega, fun k hk => ?_⟩
        simp only [List.take_succ_cons, List.take_zero, List.mem_cons, List.mem_singleton,
          List.not_mem_nil, or_false] at hk
        rcases hk with hk | hk
        · rw [hk]
        · rw [hk, hlr.2]; rfl
      · cases hl'
    · obtain ⟨⟨ll, m⟩, h2, h⟩ := bind_ok_inv h
      have hlm := nodeSplit2_len h2
      cases h
      refine ⟨by omega, fun k hk => ?_⟩
      simp only [List.take_succ_cons, List.take_zero, List.mem_cons, List.mem_singleton,
        List.not_mem_nil, or_false] at hk
      rcases hk with hk | hk | hk
      · rw [hk, hlm.1]; rfl
      · rw [hk, hlm.2]; rfl
      · rw [hk, hlr.2]; rfl

/-! ## The nodes passed to `New` -/

theorem calls_trans {σ : Type} {t0 t1 t2 : BTree σ}
    (h1 : ∃ cs, t1.calls = t0.calls ++ cs ∧
      ∀ node p, Call.new node p ∈ cs → node.len = BTREE_PAGE_SIZE)
    (h2 : ∃ cs, t2.calls = t1.calls ++ cs ∧
      ∀ node p, Call.new node p ∈ cs → node.len = BTREE_PAGE_SIZE) :
    ∃ cs, t2.calls = t0.calls ++ cs ∧
      ∀ node p, Call.new node p ∈ cs → node.len = BTREE_PAGE_SIZE := by
  obtain ⟨c1, e1, p1⟩ := h1
  obtain ⟨c2, e2, p2⟩ := h2
  refine ⟨c1 ++ c2, by rw [e2, e1, List.append_assoc], fun node p hm => ?_⟩
  rcases List.mem_append.1 hm with hm | hm
  · exact p1 node p hm
  · exact p2 node p hm

theorem calls_refl {σ : Type} (t : BTree σ) :
    ∃ cs, t.calls = t.calls ++ cs ∧
      ∀ node p, Call.new node p ∈ cs → node.len = BTREE_PAGE_SIZE :=
  ⟨[], (List.append_nil _).symm, fun _ _ hm => absurd hm (List.not_mem_nil _)⟩

theorem New_calls {σ : Type} (P : Pager σ) {tree tree' : BTree σ} {node : BNode} {p : Nat}
    (hl : node.len = BTREE_PAGE_SIZE) (h : tree.New P node = .ok (p, tree')) :
    ∃ cs, tree'.calls = tree.calls ++ cs ∧
      ∀ node p, Call.new node p ∈ cs → node.len = BTREE_PAGE_SIZE := by
  refine ⟨[Call.new node p], (New_root P h).2, fun n q hm => ?_⟩
  rw [List.mem_singleton] at hm
  cases hm
  exact hl

theorem Del_calls {σ : Type} (P : Pager σ) {tree tree' : BTree σ} {p : Nat}
    (h : tree.Del P p = .ok tree') :
    ∃ cs, tree'.calls = tree.calls ++ cs ∧
      ∀ node p, Call.new node p ∈ cs → node.len = BTREE_PAGE_SIZE := by
  refine ⟨[Call.del p], (Del_root P h).2, fun n q hm => ?_⟩
  rw [List.mem_singleton] at hm
  cases hm

theorem appendKids_calls {σ : Type} (P : Pager σ) (kids : List BNode) :
    ∀ (idx i : Nat) (tree tree' : BTree σ) (new new' : BNode),
      (∀ k ∈ kids, k.len = BTREE_PAGE_SIZE) →
      appendKids P kids idx i tree new = .ok (new', tree') →
      new'.len = new.len ∧ ∃ cs, tree'.calls = tree.calls ++ cs ∧
        ∀ node p, Call.new node p ∈ cs → node.len = BTREE_PAGE_SIZE := by
  induction kids with
  | nil =>
    intro idx i tree tree' new new' _ h
    unfold appendKids at h
    cases h
    exact ⟨rfl, calls_refl _⟩
  | cons kid kids ih =>
    intro idx i tree tree' new new' hk h
    unfold appendKids at h
    obtain ⟨⟨p, tree1⟩, h1, h⟩ := bind_ok_inv h
    obtain ⟨k, -, h⟩ := bind_ok_inv h
    obtain ⟨n1, h2, h⟩ := bind_ok_inv h
    obtain ⟨hl, hc⟩ := ih _ _ _ _ _ _ (fun k hk' => hk k (List.mem_cons_of_mem _ hk')) h
    exact ⟨by rw [hl, nodeAppendKV_len h2],
      calls_trans (New_calls P (hk kid (List.mem_cons_self _ _)) h1) hc⟩

theorem nodeReplaceKidN_calls {σ : Type} (P : Pager σ) {tree tree' : BTree σ}
    {new old new' : BNode} {idx : Nat} {kids : List BNode}
    (hk : ∀ k ∈ kids, k.len = BTREE_PAGE_SIZE)
    (h : nodeReplaceKidN P tree new old idx kids = .ok (new', tree')) :
    new'.len = new.len ∧ ∃ cs, tree'.calls = tree.calls ++ cs ∧
      ∀ node p, Call.new node p ∈ cs → node.len = BTREE_PAGE_SIZE := by
  unfold nodeReplaceKidN at h
  obtain ⟨n, -, h⟩ := bind_ok_inv h
  obtain ⟨n0, h0, h⟩ := bind_ok_inv h
  obtain ⟨n1, h1, h⟩ := bind_ok_inv h
  obtain ⟨⟨n2, tree2⟩, h2, h⟩ := bind_ok_inv h
  obtain ⟨n', -, h⟩ := bind_ok_inv h
  obtain ⟨n3, h3, h⟩ := bind_ok_inv h
  cases h
  obtain ⟨hl, hc⟩ := appendKids_calls P kids _ _ _ _ _ _ hk h2
  exact ⟨by rw [nodeAppendRange_len h3, hl, nodeAppendRange_len h1, setHeader_len h0], hc⟩

/-- Every node that `treeInsert` passes to `New` has the length of a page. -/
theorem treeInsert_calls {σ : Type} (P : Pager σ) (fuel : Nat) :
    ∀ (tree tree' : BTree σ) (node new : BNode) (key val : List Nat),
      treeInsert P fuel tree node key val = .ok (new, tree') →
      ∃ cs, tree'.calls = tree.calls ++ cs ∧
        ∀ node p, Call.new node p ∈ cs → node.len = BTREE_PAGE_SIZE := by
  induction fuel with
  | zero =>
    intro tree tree' node new key val h
    unfold treeInsert at h
    cases h
  | succ fuel ih =>
    intro tree tree' node new key val h
    unfold treeInsert at h
    generalize BNode.make (2 * BTREE_PAGE_SIZE) = mk at h
    simp only [] at h
    obtain ⟨idx, -, h⟩ := bind_ok_inv h
    obtain ⟨t, -, h⟩ := bind_ok_inv h
    split at h
    · obtain ⟨k, -, h⟩ := bind_ok_inv h
      split at h
      · obtain ⟨n1, -, h⟩ := bind_ok_inv h
        cases h
        exact calls_refl _
      · obtain ⟨n1, -, h⟩ := bind_ok_inv h
        cases h
        exact calls_refl _
    · split at h
      · unfold nodeInsert at h
        obtain ⟨kptr, -, h⟩ := bind_ok_inv h
        obtain ⟨knode, -, h⟩ := bind_ok_inv h
        obtain ⟨tree1, h1, h⟩ := bind_ok_inv h
        obtain ⟨⟨knode', tree2⟩, h2, h⟩ := bind_ok_inv h
        obtain ⟨⟨cnt, kids⟩, h3, h⟩ := bind_ok_inv h
        exact calls_trans (calls_trans (Del_calls P h1) (ih _ _ _ _ _ _ h2))
          (nodeReplaceKidN_calls P (nodeSplit3_len h3).2 h).2
      · cases h

/-- Every node that `treeDelete` passes to `New` has the length of a page, and so has
the node it returns, unless that is the nil node. -/
theorem treeDelete_calls {σ : Type} (P : Pager σ) (fuel : Nat) :
    ∀ (tree tree' : BTree σ) (node updated : BNode) (key : List Nat),
      treeDelete P fuel tree node key = .ok (updated, tree') →
      (updated.len = 0 ∨ updated.len = BTREE_PAGE_SIZE) ∧
      ∃ cs, tree'.calls = tree.calls ++ cs ∧
        ∀ node p, Call.new node p ∈ cs → node.len = BTREE_PAGE_SIZE := by
  induction fuel with
  | zero =>
    intro tree tree' node updated key h
    unfold treeDelete at h
    cases h
  | succ fuel ih =>
    intro tree tree' node updated key h
    unfold treeDelete at h
    obtain ⟨idx, -, h⟩ := bind_ok_inv h
    obtain ⟨t, -, h⟩ := bind_ok_inv h
    split at h
    · obtain ⟨k, -, h⟩ := bind_ok_inv h
      split at h
      · cases h
        exact ⟨Or.inl rfl, calls_refl _⟩
      · obtain ⟨n1, h1, h⟩ := bind_ok_inv h
        cases h
        exact ⟨Or.inr (by rw [leafDelete_len h1]; rfl), calls_refl _⟩
    · split at h
      · unfold nodeDelete at h
        obtain ⟨kptr, -, h⟩ := bind_ok_inv h
        obtain ⟨knode, -, h⟩ := bind_ok_inv h
        obtain ⟨⟨u, tree1⟩, h1, h⟩ := bind_ok_inv h
        obtain ⟨hu, hc1⟩ := ih _ _ _ _ _ h1
        simp only [] at h
        split at h
        · cases h
          exact ⟨Or.inl rfl, hc1⟩
        · rename_i hne
          have hup : u.len = BTREE_PAGE_SIZE := hu.resolve_left hne
          obtain ⟨tree2, h2, h⟩ := bind_ok_inv h
          have hc2 := calls_trans hc1 (Del_calls P h2)
          obtain ⟨⟨dir, sib⟩, -, h⟩ := bind_ok_inv h
          simp only [] at h
          split at h
          · obtain ⟨merged, hm, h⟩ := bind_ok_inv h
            obtain ⟨p, -, h⟩ := bind_ok_inv h
            obtain ⟨tree3, h3, h⟩ := bind_ok_inv h
            obtain ⟨⟨ptr, tree4⟩, h4, h⟩ := bind_ok_inv h
            obtain ⟨k, -, h⟩ := bind_ok_inv h
            obtain ⟨n1, h5, h⟩ := bind_ok_inv h
            cases h
            exact ⟨Or.inr (by rw [nodeReplace2Kid_len h5]; rfl),
              calls_trans (calls_trans hc2 (Del_calls P h3))
                (New_calls P (by rw [nodeMerge_len hm]; rfl) h4)⟩
          · split at h
            · obtain ⟨merged, hm, h⟩ := bind_ok_inv h
              obtain ⟨p, -, h⟩ := bind_ok_inv h
              obtain ⟨tree3, h3, h⟩ := bind_ok_inv h
              obtain ⟨⟨ptr, tree4⟩, h4, h⟩ := bind_ok_inv h
              obtain ⟨k, -, h⟩ := bind_ok_inv h
              obtain ⟨n1, h5, h⟩ := bind_ok_inv h
              cases h
              exact ⟨Or.inr (by rw [nodeReplace2Kid_len h5]; rfl),
                calls_trans (calls_trans hc2 (Del_calls P h3))
                  (New_calls P (by rw [nodeMerge_len hm]; rfl) h4)⟩
            · have hk : ∀ k ∈ [u], k.len = BTREE_PAGE_SIZE := fun k hk => by
                rw [List.mem_singleton] at hk
                rw [hk, hup]
              obtain ⟨hl, hc⟩ := nodeReplaceKidN_calls P hk h
              exact ⟨Or.inr (by rw [hl]; rfl), calls_trans hc2 hc⟩
      · cases h

/-! ## Page callbacks that agree on page-sized nodes -/

theorem bind_congr_ok {α β : Type} {x : Res α} {f g : α → Res β}
    (h : ∀ a, x = .ok a → f a = g a) : (x >>= f) = (x >>= g) := by
  cases x with
  | ok a => exact h a rfl
  | panic => rfl
  | timeout => rfl

section Agree

variable {σ : Type} (g : σ → Nat → Res BNode) (d : σ → Nat → Res σ)
  (n1 n2 : σ → BNode → Res (Nat × σ))

theorem New_agree
    (hnew : ∀ s node, node.len = BTREE_PAGE_SIZE → n1 s node = n2 s node)
    (tree : BTree σ) (node : BNode) (hl : node.len = BTREE_PAGE_SIZE) :
    tree.New ⟨g, n1, d⟩ node = tree.New ⟨g, n2, d⟩ node := by
  unfold BTree.New
  simp only [hnew _ _ hl]

theorem appendKids_agree
    (hnew : ∀ s node, node.len = BTREE_PAGE_SIZE → n1 s node = n2 s node)
    (kids : List BNode) :
    ∀ (idx i : Nat) (tree : BTree σ) (new : BNode),
      (∀ k ∈ kids, k.len = BTREE_PAGE_SIZE) →
      appendKids ⟨g, n1, d⟩ kids idx i tree new = appendKids ⟨g, n2, d⟩ kids idx i tree new := by
  induction kids with
  | nil =>
    intro idx i tree new _
    rfl
  | cons kid kids ih =>
    intro idx i tree new hk
    unfold appendKids
    rw [New_agree g d n1 n2 hnew tree kid (hk kid (List.mem_cons_self _ _))]
    refine bind_congr_ok (fun a _ => ?_)
    obtain ⟨p, t1⟩ := a
    refine bind_congr_ok (fun k _ => ?_)
    refine bind_congr_ok (fun m _ => ?_)
    exact ih _ _ _ _ (fun k hk' => hk k (List.mem_cons_of_mem _ hk'))

theorem nodeReplaceKidN_agree
    (hnew : ∀ s node, node.len = BTREE_PAGE_SIZE → n1 s node = n2 s node)
    (tree : BTree σ) (new old : BNode) (idx : Nat)
    (kids : List BNode) (hk : ∀ k ∈ kids, k.len = BTREE_PAGE_SIZE) :
    nodeReplaceKidN ⟨g, n1, d⟩ tree new old idx kids =
      nodeReplaceKidN ⟨g, n2, d⟩ tree new old idx kids := by
  unfold nodeReplaceKidN
  refine bind_congr_ok (fun n _ => ?_)
  refine bind_congr_ok (fun m0 _ => ?_)
  refine bind_congr_ok (fun m1 _ => ?_)
  rw [appendKids_agree g d n1 n2 hnew kids _ _ _ _ hk]

theorem treeInsert_agree
    (hnew : ∀ s node, node.len = BTREE_PAGE_SIZE → n1 s node = n2 s node)
    (fuel : Nat) :
    ∀ (tree : BTree σ) (node : BNode) (key val : List Nat),
      treeInsert ⟨g, n1, d⟩ fuel tree node key val =
        treeInsert ⟨g, n2, d⟩ fuel tree node key val := by
  induction fuel with
  | zero =>
    intro tree node key val
    rfl
  | succ fuel ih =>
    intro tree node key val
    have hfun : treeInsert ⟨g, n1, d⟩ fuel = treeInsert ⟨g, n2, d⟩ fuel := by
      funext a b c e
      exact ih a b c e
    unfold treeInsert
    rw [hfun]
    generalize BNode.make (2 * BTREE_PAGE_SIZE) = mk
    refine bind_congr_ok (fun idx _ => ?_)
    refine bind_congr_ok (fun t _ => ?_)
    by_cases h1 : t = BNODE_LEAF
    · rw [if_pos h1, if_pos h1]
    · rw [if_neg h1, if_neg h1]
      by_cases h2 : t = BNODE_NODE
      · rw [if_pos h2, if_pos h2]
        unfold nodeInsert
        refine bind_congr_ok (fun kptr _ => ?_)
        refine bind_congr_ok (fun knode _ => ?_)
        refine bind_congr_ok (fun tree1 _ => ?_)
        refine bind_congr_ok (fun a _ => ?_)
        obtain ⟨knode1, tree2⟩ := a
        refine bind_congr_ok (fun b hb => ?_)
        obtain ⟨cnt, kids⟩ := b
        exact nodeReplaceKidN_agree g d n1 n2 hnew _ _ _ _ _ (nodeSplit3_len hb).2
      · rw [if_neg h2, if_neg h2]

theorem treeDelete_agree
    (hnew : ∀ s node, node.len = BTREE_PAGE_SIZE → n1 s node = n2 s node)
    (fuel : Nat) :
    ∀ (tree : BTree σ) (node : BNode) (key : List Nat),
      treeDelete ⟨g, n1, d⟩ fuel tree node key = treeDelete ⟨g, n2, d⟩ fuel tree node key := by
  induction fuel with
  | zero =>
    intro tree node key
    rfl
  | succ fuel ih =>
    intro tree node key
    have hfun : treeDelete ⟨g, n1, d⟩ fuel = treeDelete ⟨g, n2, d⟩ fuel := by
      funext a b c
      exact ih a b c
    unfold treeDelete
    rw [hfun]
    refine bind_congr_ok (fun idx _ => ?_)
    refine bind_congr_ok (fun t _ => ?_)
    by_cases h1 : t = BNODE_LEAF
    · rw [if_pos h1, if_pos h1]
    · rw [if_neg h1, if_neg h1]
      by_cases h2 : t = BNODE_NODE
      · rw [if_pos h2, if_pos h2]
        unfold nodeDelete
        refine bind_congr_ok (fun kptr _ => ?_)
        refine bind_congr_ok (fun knode _ => ?_)
        refine bind_congr_ok (fun a ha => ?_)
        obtain ⟨u, tree1⟩ := a
        have hu := (treeDelete_calls _ fuel _ _ _ _ _ ha).1
        simp only []
        by_cases h3 : u.len = 0
        · rw [if_pos h3, if_pos h3]
        · rw [if_neg h3, if_neg h3]
          have hup : u.len = BTREE_PAGE_SIZE := hu.resolve_left h3
          refine bind_congr_ok (fun tree2 _ => ?_)
          refine bind_congr_ok (fun b _ => ?_)
          obtain ⟨dir, sib⟩ := b
          simp only []
          by_cases h4 : dir < 0
          · rw [if_pos h4, if_pos h4]
            refine bind_congr_ok (fun merged hm => ?_)
            refine bind_congr_ok (fun p _ => ?_)
            refine bind_congr_ok (fun tree3 _ => ?_)
            rw [New_agree g d n1 n2 hnew tree3 merged (by rw [nodeMerge_len hm]; rfl)]
          · rw [if_neg h4, if_neg h4]
            by_cases h5 : dir > 0
            · rw [if_pos h5, if_pos h5]
              refine bind_congr_ok (fun merged hm => ?_)
              refine bind_congr_ok (fun p _ => ?_)
              refine bind_congr_ok (fun tree3 _ => ?_)
              rw [New_agree g d n1 n2 hnew tree3 merged (by rw [nodeMerge_len hm]; rfl)]
            · rw [if_neg h5, if_neg h5]
              refine nodeReplaceKidN_agree g d n1 n2 hnew _ _ _ _ _ (fun k hk => ?_)
              rw [List.mem_singleton] at hk
              rw [hk, hup]
      · rw [if_neg h2, if_neg h2]

end Agree

/-! ## `Insert` and `Delete` hand only page-sized nodes to `New` -/

theorem nodeSplit3_first {old : BNode} {cnt : Nat} {kids : List BNode}
    (h : nodeSplit3 old = .ok (cnt, kids)) :
    (kids.getD 0 BNode.empty).len = BTREE_PAGE_SIZE := by
  have h2 := (nodeSplit3_len h).2
  have h1 := (nodeSplit3_len h).1
  cases kids with
  | nil =>
    unfold nodeSplit3 at h
    obtain ⟨sz, -, h⟩ := bind_ok_inv h
    split at h
    · obtain ⟨o, -, h⟩ := bind_ok_inv h
      cases h
    · obtain ⟨⟨l, r⟩, -, h⟩ := bind_ok_inv h
      simp only [] at h
      obtain ⟨lsz, -, h⟩ := bind_ok_inv h
      split at h
      · obtain ⟨l', -, h⟩ := bind_ok_inv h
        cases h
      · obtain ⟨⟨ll, m⟩, -, h⟩ := bind_ok_inv h
        cases h
  | cons k kids =>
    obtain ⟨c, rfl⟩ : ∃ c, cnt = c + 1 := ⟨cnt - 1, by omega⟩
    exact h2 k (by simp)

theorem Insert_calls {σ : Type} (P : Pager σ) (fuel : Nat) (tree tree' : BTree σ)
    (key val : List Nat) (h : tree.Insert P fuel key val = .ok tree') :
    ∃ cs, tree'.calls = tree.calls ++ cs ∧
      ∀ node p, Call.new node p ∈ cs → node.len = BTREE_PAGE_SIZE := by
  unfold BTree.Insert at h
  split at h
  · obtain ⟨r1, h1, h⟩ := bind_ok_inv h
    obtain ⟨r2, h2, h⟩ := bind_ok_inv h
    obtain ⟨r3, h3, h⟩ := bind_ok_inv h
    obtain ⟨⟨p, tree1⟩, h4, h⟩ := bind_ok_inv h
    have hc := New_calls P
      (by rw [nodeAppendKV_len h3, nodeAppendKV_len h2, setHeader_len h1]; rfl) h4
    cases h
    exact hc
  · obtain ⟨node, -, h⟩ := bind_ok_inv h
    obtain ⟨tree1, h1, h⟩ := bind_ok_inv h
    obtain ⟨⟨node1, tree2⟩, h2, h⟩ := bind_ok_inv h
    obtain ⟨⟨cnt, kids⟩, h3, h⟩ := bind_ok_inv h
    have hc2 := calls_trans (Del_calls P h1) (treeInsert_calls P fuel _ _ _ _ _ _ h2)
    simp only [] at h
    split at h
    · obtain ⟨r1, hr1, h⟩ := bind_ok_inv h
      obtain ⟨⟨r2, tree3⟩, hr2, h⟩ := bind_ok_inv h
      obtain ⟨⟨p, tree4⟩, h4, h⟩ := bind_ok_inv h
      obtain ⟨hl, hc3⟩ := appendKids_calls P _ _ _ _ _ _ _ (nodeSplit3_len h3).2 hr2
      have hc := calls_trans (calls_trans hc2 hc3)
        (New_calls P (by rw [hl, setHeader_len hr1]; rfl) h4)
      cases h
      exact hc
    · obtain ⟨⟨p, tree3⟩, h4, h⟩ := bind_ok_inv h
      have hc := calls_trans hc2 (New_calls P (nodeSplit3_first h3) h4)
      cases h
      exact hc

theorem Delete_calls {σ : Type} (P : Pager σ) (fuel : Nat) (tree tree' : BTree σ)
    (key : List Nat) (found : Bool) (h : tree.Delete P fuel key = .ok (found, tree')) :
    ∃ cs, tree'.calls = tree.calls ++ cs ∧
      ∀ node p, Call.new node p ∈ cs → node.len = BTREE_PAGE_SIZE := by
  unfold BTree.Delete at h
  split at h
  · cases h
    exact calls_refl _
  · obtain ⟨node, -, h⟩ := bind_ok_inv h
    obtain ⟨⟨u, tree1⟩, h1, h⟩ := bind_ok_inv h
    obtain ⟨hu, hc1⟩ := treeDelete_calls P fuel _ _ _ _ _ h1
    simp only [] at h
    split at h
    · cases h
      exact hc1
    · rename_i hne
      obtain ⟨tree2, h2, h⟩ := bind_ok_inv h
      obtain ⟨t, -, h⟩ := bind_ok_inv h
      have hc2 := calls_trans hc1 (Del_calls P h2)
      have hrest : ∀ c : Bool, (if c = true then do
            let p ← u.getPtr 0
            pure (true, { tree2 with root := p })
          else do
            let (p, tree) ← tree2.New P u
            pure (true, { tree with root := p })) = Res.ok (found, tree') →
          ∃ cs, tree'.calls = tree.calls ++ cs ∧
            ∀ node p, Call.new node p ∈ cs → node.len = BTREE_PAGE_SIZE := by
        intro c h
        split at h
        · obtain ⟨p, -, h⟩ := bind_ok_inv h
          cases h
          exact hc2
        · obtain ⟨⟨p, tree3⟩, h3, h⟩ := bind_ok_inv h
          have hc := calls_trans hc2 (New_calls P (hu.resolve_left hne) h3)
          cases h
          exact hc
      split at h
      · obtain ⟨n, -, h⟩ := bind_ok_inv h
        exact hrest _ h
      · exact hrest false h

theorem Insert_agree {σ : Type} (g : σ → Nat → Res BNode) (d : σ → Nat → Res σ)
    (n1 n2 : σ → BNode → Res (Nat × σ))
    (hnew : ∀ s node, node.len = BTREE_PAGE_SIZE → n1 s node = n2 s node)
    (fuel : Nat) (tree : BTree σ) (key val : List Nat) :
    tree.Insert ⟨g, n1, d⟩ fuel key val = tree.Insert ⟨g, n2, d⟩ fuel key val := by
  unfold BTree.Insert
  by_cases h0 : tree.root = 0
  · rw [if_pos h0, if_pos h0]
    refine bind_congr_ok (fun r1 h1 => ?_)
    refine bind_congr_ok (fun r2 h2 => ?_)
    refine bind_congr_ok (fun r3 h3 => ?_)
    rw [New_agree g d n1 n2 hnew tree r3
      (by rw [nodeAppendKV_len h3, nodeAppendKV_len h2, setHeader_len h1]; rfl)]
  · rw [if_neg h0, if_neg h0]
    refine bind_congr_ok (fun node _ => ?_)
    refine bind_congr_ok (fun tree1 _ => ?_)
    rw [treeInsert_agree g d n1 n2 hnew]
    refine bind_congr_ok (fun a _ => ?_)
    obtain ⟨node1, tree2⟩ := a
    refine bind_congr_ok (fun b h3 => ?_)
    obtain ⟨cnt, kids⟩ := b
    simp only []
    by_cases h1 : cnt > 1
    · rw [if_pos h1, if_pos h1]
      refine bind_congr_ok (fun r1 hr1 => ?_)
      rw [appendKids_agree g d n1 n2 hnew _ _ _ _ _ (nodeSplit3_len h3).2]
      refine bind_congr_ok (fun c hr2 => ?_)
      obtain ⟨r2, tree3⟩ := c
      simp only []
      rw [New_agree g d n1 n2 hnew tree3 r2
        (by rw [(appendKids_calls _ _ _ _ _ _ _ _ (nodeSplit3_len h3).2 hr2).1,
          setHeader_len hr1]; rfl)]
    · rw [if_neg h1, if_neg h1]
      rw [New_agree g d n1 n2 hnew tree2 _ (nodeSplit3_first h3)]

theorem Delete_agree {σ : Type} (g : σ → Nat → Res BNode) (d : σ → Nat → Res σ)
    (n1 n2 : σ → BNode → Res (Nat × σ))
    (hnew : ∀ s node, node.len = BTREE_PAGE_SIZE → n1 s node = n2 s node)
    (fuel : Nat) (tree : BTree σ) (key : List Nat) :
    tree.Delete ⟨g, n1, d⟩ fuel key = tree.Delete ⟨g, n2, d⟩ fuel key := by
  unfold BTree.Delete
  by_cases h0 : tree.root = 0
  · rw [if_pos h0, if_pos h0]
  · rw [if_neg h0, if_neg h0]
    refine bind_congr_ok (fun node _ => ?_)
    rw [treeDelete_agree g d n1 n2 hnew]
    refine bind_congr_ok (fun a ha => ?_)
    obtain ⟨u, tree1⟩ := a
    have hu := (treeDelete_calls _ fuel _ _ _ _ _ ha).1
    simp only []
    by_cases h1 : u.len = 0
    · rw [if_pos h1, if_pos h1]
    · rw [if_neg h1, if_neg h1]
      refine bind_congr_ok (fun tree2 _ => ?_)
      refine bind_congr_ok (fun t _ => ?_)
      rw [New_agree g d n1 n2 hnew tree2 u (hu.resolve_left h1)]

/-- **C22** The size assertion of the page manager never fires.  Every node that
`BTree.Insert` or `BTree.Delete` passes to the `New` callback has a data buffer of
length exactly `BTREE_PAGE_SIZE` (for every page store and every run that returns, the
record of the calls is the old record followed by calls whose `New` nodes all have that
length), and putting the assertion `len(node.data) <= BTREE_PAGE_SIZE` of `KV.pageNew`
in front of the `New` callback of any page store changes no outcome of `Insert` or
`Delete`, faults included. -/
theorem new_nodes_page_sized {σ : Type} (P : Pager σ) (tree : BTree σ) (fuel : Nat)
    (key val : List Nat) :
    (∀ tree', tree.Insert P fuel key val = .ok tree' →
      ∃ cs, tree'.calls = tree.calls ++ cs ∧
        ∀ node p, Call.new node p ∈ cs → node.len = BTREE_PAGE_SIZE) ∧
    (∀ found tree', tree.Delete P fuel key = .ok (found, tree') →
      ∃ cs, tree'.calls = tree.calls ++ cs ∧
        ∀ node p, Call.new node p ∈ cs → node.len = BTREE_PAGE_SIZE) ∧
    tree.Insert ⟨P.get, fun s node =>
        assertCondition (decide (node.len ≤ BTREE_PAGE_SIZE)) >>= fun _ => P.new s node,
        P.del⟩ fuel key val = tree.Insert P fuel key val ∧
    tree.Delete ⟨P.get, fun s node =>
        assertCondition (decide (node.len ≤ BTREE_PAGE_SIZE)) >>= fun _ => P.new s node,
        P.del⟩ fuel key = tree.Delete P fuel key := by
  have hnew : ∀ (s : σ) (node : BNode), node.len = BTREE_PAGE_SIZE →
      (assertCondition (decide (node.len ≤ BTREE_PAGE_SIZE)) >>= fun _ => P.new s node) =
        P.new s node := by
    intro s node hl
    rw [hl]
    rfl
  exact ⟨fun tree' h => Insert_calls P fuel tree tree' key val h,
    fun found tree' h => Delete_calls P fuel tree tree' key found h,
    Insert_agree P.get P.del _ P.new hnew fuel tree key val,
    Delete_agree P.get P.del _ P.new hnew fuel tree key⟩

/-! ## Appending to a node that may be too small for the entries -/

theorem putU16_inv {node node' : BNode} {pos v : Nat} (h : node.putU16 pos v = .ok node')
    (hl : node.len ≤ node.data.length) :
    node'.len = node.len ∧ Upd node.data node'.data pos 2 := by
  have hpos : pos + 2 ≤ node.len := by
    unfold BNode.putU16 at h
    by_contra hc
    rw [if_neg hc] at h
    cases h
  obtain ⟨n1, e1, l1, U1, -⟩ := putU16_spec node pos v hpos hl
  rw [e1] at h
  cases h
  exact ⟨l1, U1⟩

theorem copyAt_inv {node node' : BNode} {pos : Nat} {src : List Nat}
    (h : node.copyAt pos src = .ok node') (hl : node.len ≤ node.data.length) :
    node'.len = node.len ∧ ∃ w, Upd node.data node'.data pos w := by
  unfold BNode.copyAt at h
  split at h
  · rename_i hpos
    cases h
    refine ⟨rfl, (src.take (node.len - pos)).length, Upd.of_splice _ _ _ ?_⟩
    have := List.length_take_le (node.len - pos) src
    omega
  · cases h

/-- `nodeAppendKV` that returns has put the pointer and the next offset in place, even
when the key and the value do not fit. -/
theorem nodeAppendKV_weak {node node' : BNode} {t n : Nat} {es : List Entry}
    (W : WeakLayout node t n es) (e : Entry) (hcount : es.length < n)
    (hsmall : 4 + 10 * n + kvSize es + e.size < 65536)
    (hp : e.ptr < 18446744073709551616)
    (hrun : nodeAppendKV node es.length e.ptr e.key e.val = .ok node') :
    node'.len = node.len ∧ node'.data.length = node.data.length ∧
      WeakLayout node' t n (es ++ [e]) := by
  have hn := W.n_lt
  have hsz : e.size = 4 + e.key.length + e.val.length := rfl
  obtain ⟨n1, e1, l1, U1, w1⟩ := setPtr_spec node es.length e.ptr (by omega)
    (by have := W.idx_fits; omega) W.len_le
  have W1 : WeakLayout n1 t n es := W.frame_weak l1 U1 (by omega)
  have hkv : n1.kvPos es.length = .ok (4 + 10 * n + kvSize es) := by
    rw [W1.kvPos_eq (Nat.le_refl _), List.take_length]
  have hoff : n1.getOffset es.length = .ok (kvSize es) := by
    rw [W1.getOffset_eq (Nat.le_refl _), List.take_length]
  obtain ⟨n2, e2, l2, U2, w2⟩ := W1.setOffset_weak (es.length + 1)
    (kvSize es + e.size) (by omega) (by omega)
  have W2 : WeakLayout n2 t n es := W1.frame_weak l2 U2 (by omega)
  unfold nodeAppendKV at hrun
  rw [e1] at hrun
  simp only [Res.ok_bind, hkv, hoff] at hrun
  rw [u16_of_lt (show es.length + 1 < 65536 by omega),
    u16_of_lt (show e.key.length < 65536 by omega),
    u16_of_lt (show e.val.length < 65536 by omega),
    u16_of_lt (show kvSize es + 4 + e.key.length + e.val.length < 65536 by omega),
    show kvSize es + 4 + e.key.length + e.val.length = kvSize es + e.size by omega, e2]
    at hrun
  simp only [Res.ok_bind] at hrun
  rw [u16_of_lt (show 4 + 10 * n + kvSize es + 2 < 65536 by omega),
    u16_of_lt (show 4 + 10 * n + kvSize es + 4 < 65536 by omega),
    u16_of_lt (show 4 + 10 * n + kvSize es + 4 + e.key.length < 65536 by omega)] at hrun
  obtain ⟨n3, e3, hrun⟩ := bind_ok_inv hrun
  obtain ⟨l3, U3⟩ := putU16_inv e3 W2.len_le
  have W3 : WeakLayout n3 t n es := W2.frame_weak l3 U3 (by omega)
  obtain ⟨n4, e4, hrun⟩ := bind_ok_inv hrun
  obtain ⟨l4, U4⟩ := putU16_inv e4 W3.len_le
  have W4 : WeakLayout n4 t n es := W3.frame_weak l4 U4 (by omega)
  obtain ⟨n5, e5, hrun⟩ := bind_ok_inv hrun
  obtain ⟨l5, w5, U5⟩ := copyAt_inv e5 W4.len_le
  have W5 : WeakLayout n5 t n es := W4.frame_weak l5 U5 (by omega)
  obtain ⟨l6, w6, U6⟩ := copyAt_inv hrun W5.len_le
  have W6 : WeakLayout node' t n es := W5.frame_weak l6 U6 (by omega)
  have one : ∀ {j : Nat} {x : Entry}, [e][j]? = some x → j = 0 ∧ x = e := by
    intro j x h
    cases j with
    | zero => simp at h; exact ⟨rfl, h.symm⟩
    | succ j => simp at h
  refine ⟨by omega, by rw [U6.1, U5.1, U4.1, U3.1, U2.1, U1.1], ?_⟩
  refine W6.append_weak [e] (by simpa using hcount) (by simpa [kvSize] using hsmall) ?_ ?_ ?_
  · intro x hx; simp at hx; rw [hx]; exact hp
  · intro j x h
    obtain ⟨rfl, rfl⟩ := one h
    rw [U6.2 _ _ (by omega), U5.2 _ _ (by omega), U4.2 _ _ (by omega),
      U3.2 _ _ (by omega), U2.2 _ _ (by omega)]
    exact w1
  · intro j h
    have hj : j = 0 := by simp at h; exact h
    subst hj
    rw [U6.2 _ _ (by omega), U5.2 _ _ (by omega), U4.2 _ _ (by omega),
      U3.2 _ _ (by omega)]
    simpa [kvSize] using w2

/-- `nodeAppendRange` that returns has put the pointers and the offsets of the copied
entries in place, even when the keys and the values do not fit. -/
theorem nodeAppendRange_weak {new old new' : BNode} {t n t' n' : Nat} {es eo : List Entry}
    (Wn : WeakLayout new t n es) (Lo : Layout old t' n' eo) (ho : eo.length = n')
    (os cnt : Nat) (hos : os + cnt ≤ n') (hcount : es.length + cnt ≤ n)
    (hsmall : 4 + 10 * n + kvSize es + kvSize ((eo.drop os).take cnt) < 65536)
    (hrun : nodeAppendRange new old es.length os cnt = .ok new') :
    new'.len = new.len ∧ new'.data.length = new.data.length ∧
      WeakLayout new' t n (es ++ (eo.drop os).take cnt) := by
  by_cases hc0 : cnt = 0
  · subst hc0
    unfold nodeAppendRange at hrun
    rw [if_pos rfl] at hrun
    cases hrun
    exact ⟨rfl, rfl, by simpa using Wn⟩
  have hn := Wn.n_lt
  have hn' := Lo.n_lt
  have hxl : ((eo.drop os).take cnt).length = cnt := length_range eo os cnt (by omega)
  obtain ⟨n1, e1, l1, U1, p1⟩ := copyPtrs_spec Lo.toWeakLayout es.length os cnt (by omega)
    (by omega) cnt 0 new (by omega) Wn.len_le (by have := Wn.idx_fits; omega)
  have W1 : WeakLayout n1 t n es := Wn.frame_weak l1 U1 (by omega)
  obtain ⟨n2, e2, l2, U2, o2⟩ := copyOffsets_spec Lo.toWeakLayout os cnt (by omega) hcount
    hsmall cnt 1 n1 (Nat.le_refl 1) (by omega) W1
  have W2 : WeakLayout n2 t n es := W1.frame_weak l2 U2 (by omega)
  unfold nodeAppendRange at hrun
  rw [if_neg hc0, e1] at hrun
  simp only [Res.ok_bind] at hrun
  rw [W1.getOffset_eq (Nat.le_refl _), List.take_length, Lo.getOffset_eq (by omega)] at hrun
  simp only [Res.ok_bind] at hrun
  rw [e2] at hrun
  simp only [Res.ok_bind] at hrun
  rw [if_neg (by omega)] at hrun
  obtain ⟨b, -, hrun⟩ := bind_ok_inv hrun
  obtain ⟨e, -, hrun⟩ := bind_ok_inv hrun
  obtain ⟨dst, hd, hrun⟩ := bind_ok_inv hrun
  obtain ⟨src, -, hrun⟩ := bind_ok_inv hrun
  rw [W2.kvPos_eq (Nat.le_refl _), List.take_length] at hd
  cases hd
  obtain ⟨l3, w3, U3⟩ := copyAt_inv hrun W2.len_le
  have W3 : WeakLayout new' t n es := W2.frame_weak l3 U3 (by omega)
  refine ⟨by omega, by rw [U3.1, U2.1, U1.1], ?_⟩
  refine W3.append_weak _ (by omega) hsmall
    (fun x hx => Lo.ptr_lt x (List.mem_of_mem_drop (List.mem_of_mem_take hx))) ?_ ?_
  · intro j x hx
    rw [getElem?_range] at hx
    have hj : j < cnt := by
      by_contra hj
      rw [if_neg hj] at hx
      contradiction
    rw [if_pos hj] at hx
    rw [U3.2 _ _ (by omega), U2.2 _ _ (by omega)]
    exact p1 j x (Nat.zero_le _) hx hj
  · intro j hj
    rw [hxl] at hj
    rw [U3.2 _ _ (by omega), take_range eo os cnt (j + 1) (by omega)]
    have := o2 (j + 1) (by omega) (by omega)
    rwa [show es.length + (j + 1) - 1 = es.length + j by omega] at this

/-- `nodeAppendKV` on a node whose entries are complete if they fit. -/
theorem nodeAppendKV_page {node node' : BNode} {t n : Nat} {es : List Entry}
    (W : WeakLayout node t n es)
    (hL : 4 + 10 * n + kvSize es ≤ node.len → Layout node t n es)
    (e : Entry) (hcount : es.length < n)
    (hsmall : 4 + 10 * n + kvSize es + e.size < 65536)
    (hp : e.ptr < 18446744073709551616)
    (hrun : nodeAppendKV node es.length e.ptr e.key e.val = .ok node') :
    node'.len = node.len ∧ node'.data.length = node.data.length ∧
      WeakLayout node' t n (es ++ [e]) ∧
      (4 + 10 * n + kvSize (es ++ [e]) ≤ node'.len → Layout node' t n (es ++ [e])) := by
  obtain ⟨hl, hc, W'⟩ := nodeAppendKV_weak W e hcount hsmall hp hrun
  refine ⟨hl, hc, W', fun hfit => ?_⟩
  rw [kvSize_append, hl] at hfit
  have h1 : kvSize [e] = e.size := by simp [kvSize]
  obtain ⟨n2, e2, -, -, L2⟩ := nodeAppendKV_spec (hL (by omega)) e hcount (by omega) hsmall hp
  rw [e2] at hrun
  cases hrun
  exact L2

/-- `nodeAppendRange` on a node whose entries are complete if they fit. -/
theorem nodeAppendRange_page {new old new' : BNode} {t n t' n' : Nat} {es eo : List Entry}
    (Wn : WeakLayout new t n es)
    (hL : 4 + 10 * n + kvSize es ≤ new.len → Layout new t n es)
    (Lo : Layout old t' n' eo) (ho : eo.length = n')
    (os cnt : Nat) (hos : os + cnt ≤ n') (hcount : es.length + cnt ≤ n)
    (hsmall : 4 + 10 * n + kvSize es + kvSize ((eo.drop os).take cnt) < 65536)
    (hrun : nodeAppendRange new old es.length os cnt = .ok new') :
    new'.len = new.len ∧ new'.data.length = new.data.length ∧
      WeakLayout new' t n (es ++ (eo.drop os).take cnt) ∧
      (4 + 10 * n + kvSize (es ++ (eo.drop os).take cnt) ≤ new'.len →
        Layout new' t n (es ++ (eo.drop os).take cnt)) := by
  obtain ⟨hl, hc, W'⟩ := nodeAppendRange_weak Wn Lo ho os cnt hos hcount hsmall hrun
  refine ⟨hl, hc, W', fun hfit => ?_⟩
  rw [kvSize_append, hl] at hfit
  obtain ⟨n2, e2, -, -, -, L2⟩ := nodeAppendRange_spec (hL (by omega)) Lo ho os cnt hos hcount
    hsmall
  rw [e2] at hrun
  cases hrun
  exact L2 (by omega)

/-! ## Rebuilding an internal node in a page -/

theorem kvSize_single (e : Entry) : kvSize [e] = e.size := by
  simp [kvSize]

/-- `nodeReplace2Kid` that returns has replaced the entries `idx` and `idx + 1` of the
old node by the entry `(ptr, key)`; the keys are complete if they fit the buffer. -/
theorem nodeReplace2Kid_page {old new' : BNode} {t' n : Nat} {eo : List Entry}
    (Lo : Layout old t' n eo) (ho : eo.length = n) (size idx ptr : Nat) (key : List Nat)
    (hidx : idx + 1 < n) (hs : size < 65536) (hfit : 4 + 10 * n + kvSize eo ≤ size)
    (hsm : 4 + 10 * n + kvSize eo + 4 + key.length < 65536)
    (hp : ptr < 18446744073709551616)
    (hrun : nodeReplace2Kid (BNode.make size) old idx ptr key = .ok new') :
    new'.len = size ∧ new'.data.length = size ∧
      WeakLayout new' BNODE_NODE (n - 1)
        (eo.take idx ++ [⟨ptr, key, []⟩] ++ eo.drop (idx + 2)) ∧
      (4 + 10 * (n - 1) + kvSize (eo.take idx ++ [⟨ptr, key, []⟩] ++ eo.drop (idx + 2)) ≤ size →
        Layout new' BNODE_NODE (n - 1)
          (eo.take idx ++ [⟨ptr, key, []⟩] ++ eo.drop (idx + 2))) := by
  have hn := Lo.n_lt
  have h1 := kvSize_take_le eo idx
  have h2 := kvSize_take_add_drop eo (idx + 2)
  have h3 := kvSize_take_mono eo idx (idx + 2) (by omega)
  obtain ⟨n0, e0, l0, c0, L0⟩ := make_layout size BNODE_NODE (n - 1) (by decide) (by omega) hs
  obtain ⟨n1, e1, l1, c1, -, L1⟩ := nodeAppendRange_spec L0 Lo ho 0 idx (by omega)
    (by simp; omega) (by simp [kvSize_nil]; omega)
  have L1 := L1 (by simp [kvSize_nil]; omega)
  simp only [List.nil_append, List.drop_zero, List.length_nil] at L1 e1
  have hl1 : (eo.take idx).length = idx := by simp; omega
  unfold nodeReplace2Kid at hrun
  rw [Lo.nkeys_eq] at hrun
  simp only [Res.ok_bind] at hrun
  rw [u16sub_of_le (show 1 ≤ n by omega) (by omega), e0] at hrun
  simp only [Res.ok_bind] at hrun
  rw [e1] at hrun
  simp only [Res.ok_bind] at hrun
  obtain ⟨n2, e2, hrun⟩ := bind_ok_inv hrun
  have e2' : nodeAppendKV n1 (eo.take idx).length (⟨ptr, key, []⟩ : Entry).ptr
      (⟨ptr, key, []⟩ : Entry).key (⟨ptr, key, []⟩ : Entry).val = .ok n2 := by
    rw [hl1]; exact e2
  have hes : (⟨ptr, key, []⟩ : Entry).size = 4 + key.length := by simp [Entry.size]
  obtain ⟨l2, c2, W2, L2⟩ := nodeAppendKV_page L1.toWeakLayout (fun _ => L1) ⟨ptr, key, []⟩
    (by rw [hl1]; omega) (by rw [hes]; omega) hp e2'
  have hl2 : (eo.take idx ++ [(⟨ptr, key, []⟩ : Entry)]).length = idx + 1 := by
    simp; omega
  have hdrop : (eo.drop (idx + 2)).take (n - (idx + 2)) = eo.drop (idx + 2) :=
    List.take_of_length_le (by simp; omega)
  rw [u16_of_lt (show idx + 1 < 65536 by omega), u16_of_lt (show idx + 2 < 65536 by omega),
    u16sub_of_le (show idx + 2 ≤ n by omega) (by omega)] at hrun
  have hrun' : nodeAppendRange n2 old (eo.take idx ++ [(⟨ptr, key, []⟩ : Entry)]).length
      (idx + 2) (n - (idx + 2)) = .ok new' := by
    rw [hl2]; exact hrun
  obtain ⟨l3, c3, W3, L3⟩ := nodeAppendRange_page W2 L2 Lo ho (idx + 2) (n - (idx + 2))
    (by omega) (by rw [hl2]; omega)
    (by rw [hdrop, kvSize_append, kvSize_single, hes]; omega) hrun'
  rw [hdrop] at W3 L3
  refine ⟨by omega, by omega, W3, fun hf => L3 (by omega)⟩

/-- `nodeReplaceKidN` with a single kid, if it returns, has registered the kid and replaced
the entry `idx` of the old node by the pointer and the first key of the kid. -/
theorem nodeReplaceKid1_page {σ : Type} (P : Pager σ) {tree tree' : BTree σ}
    {old kid new' : BNode} {t' n : Nat} {eo : List Entry}
    (Lo : Layout old t' n eo) (ho : eo.length = n) (size idx : Nat)
    (hidx : idx < n) (hs : size < 65536) (hfit : 4 + 10 * n + kvSize eo ≤ size)
    (hrun : nodeReplaceKidN P tree (BNode.make size) old idx [kid] = .ok (new', tree')) :
    ∃ ptr k, tree.New P kid = .ok (ptr, tree') ∧ kid.getKey 0 = .ok k ∧
      (ptr < 18446744073709551616 → 4 + 10 * n + kvSize eo + 4 + k.length < 65536 →
        new'.len = size ∧ new'.data.length = size ∧
        WeakLayout new' BNODE_NODE n (eo.take idx ++ [⟨ptr, k, []⟩] ++ eo.drop (idx + 1)) ∧
        (4 + 10 * n + kvSize (eo.take idx ++ [⟨ptr, k, []⟩] ++ eo.drop (idx + 1)) ≤ size →
          Layout new' BNODE_NODE n
            (eo.take idx ++ [⟨ptr, k, []⟩] ++ eo.drop (idx + 1)))) := by
  have hn := Lo.n_lt
  have h1 := kvSize_take_le eo idx
  have h2 := kvSize_take_add_drop eo (idx + 1)
  have h3 := kvSize_take_mono eo idx (idx + 1) (by omega)
  obtain ⟨n0, e0, l0, c0, L0⟩ := make_layout size BNODE_NODE n (by decide) (by omega) hs
  obtain ⟨n1, e1, l1, c1, -, L1⟩ := nodeAppendRange_spec L0 Lo ho 0 idx (by omega)
    (by simp; omega) (by simp [kvSize_nil]; omega)
  have L1 := L1 (by simp [kvSize_nil]; omega)
  simp only [List.nil_append, List.drop_zero, List.length_nil] at L1 e1
  have hl1 : (eo.take idx).length = idx := by simp; omega
  unfold nodeReplaceKidN at hrun
  rw [Lo.nkeys_eq] at hrun
  simp only [Res.ok_bind, List.length_singleton] at hrun
  rw [show u16 1 = 1 from rfl, u16_of_lt (show n + 1 < 65536 by omega),
    u16sub_of_le (show 1 ≤ n + 1 by omega) (by omega), Nat.add_sub_cancel, e0] at hrun
  simp only [Res.ok_bind] at hrun
  rw [e1] at hrun
  simp only [Res.ok_bind] at hrun
  obtain ⟨⟨n3, tree3⟩, hk, hrun⟩ := bind_ok_inv hrun
  simp only [] at hrun
  rw [u16_of_lt (show idx + 1 < 65536 by omega),
    u16sub_of_le (show idx + 1 ≤ n by omega) (by omega)] at hrun
  obtain ⟨n4, e4, hrun⟩ := bind_ok_inv hrun
  cases hrun
  unfold appendKids at hk
  obtain ⟨⟨ptr, tree1⟩, hnew, hk⟩ := bind_ok_inv hk
  obtain ⟨k, hkey, hk⟩ := bind_ok_inv hk
  obtain ⟨n2, e2, hk⟩ := bind_ok_inv hk
  unfold appendKids at hk
  cases hk
  rw [show u16 0 = 0 from rfl, Nat.add_zero, u16_of_lt (show idx < 65536 by omega)] at e2
  refine ⟨ptr, k, hnew, hkey, fun hp hsm => ?_⟩
  have e2' : nodeAppendKV n1 (eo.take idx).length (⟨ptr, k, []⟩ : Entry).ptr
      (⟨ptr, k, []⟩ : Entry).key (⟨ptr, k, []⟩ : Entry).val = .ok n3 := by
    rw [hl1]; exact e2
  have hes : (⟨ptr, k, []⟩ : Entry).size = 4 + k.length := by simp [Entry.size]
  obtain ⟨l2, c2, W2, L2⟩ := nodeAppendKV_page L1.toWeakLayout (fun _ => L1) ⟨ptr, k, []⟩
    (by rw [hl1]; omega) (by rw [hes]; omega) hp e2'
  have hl2 : (eo.take idx ++ [(⟨ptr, k, []⟩ : Entry)]).length = idx + 1 := by
    simp; omega
  have hdrop : (eo.drop (idx + 1)).take (n - (idx + 1)) = eo.drop (idx + 1) :=
    List.take_of_length_le (by simp; omega)
  have hrun' : nodeAppendRange n3 old (eo.take idx ++ [(⟨ptr, k, []⟩ : Entry)]).length
      (idx + 1) (n - (idx + 1)) = .ok new' := by
    rw [hl2]; exact e4
  obtain ⟨l3, c3, W3, L3⟩ := nodeAppendRange_page W2 L2 Lo ho (idx + 1) (n - (idx + 1))
    (by omega) (by rw [hl2]; omega)
    (by rw [hdrop, kvSize_append, kvSize_single, hes]; omega) hrun'
  rw [hdrop] at W3 L3
  exact ⟨by omega, by omega, W3, fun hf => L3 (by omega)⟩

/-! ## Pages that a change of the store keeps -/

theorem Keeps.refl_keeps {V : Nat → Option BNode} {x : Nat} (hx : NoRef V x) : Keeps V V x :=
  ⟨rfl, hx, fun _ _ _ hl => hl⟩

theorem Keeps.trans_keeps {V V' V'' : Nat → Option BNode} {x : Nat} (h1 : Keeps V V' x)
    (h2 : Keeps V' V'' x) : Keeps V V'' x :=
  ⟨h2.1.trans h1.1, h2.2.1, fun c h hc hl => h2.2.2 c h (h1.1.trans hc) (h1.2.2 c h hc hl)⟩

theorem Keeps.erase_keeps {V V' : Nat → Option BNode} {d x : Nat}
    (hg : ∀ q, V' q = if q = d then none else V q) (hd : NoRef V d) (hx : NoRef V x)
    (hne : x ≠ d) : Keeps V V' x :=
  ⟨by rw [hg, if_neg hne], NoRef.erase_noRef hg hx, fun _ _ hc hl => Lm.erase_page hg hd hc hl⟩

theorem Keeps.insert_keeps {V V' : Nat → Option BNode} {f x : Nat} {v : BNode}
    (hg : ∀ q, V' q = if q = f then some v else V q) (hf : V f = none) (hx : NoRef V x)
    (hlive : ∃ c, V x = some c)
    (hv : ∀ i, ¬ Refs (fun q => if q = f then some v else none) f i x) : Keeps V V' x := by
  refine ⟨?_, NoRef.insert_noRef hg hx hv, fun _ h _ hl => Lm.insert_lm hg hf h hl⟩
  obtain ⟨c, hc⟩ := hlive
  have hne : x ≠ f := fun heq => by rw [heq, hf] at hc; cases hc
  rw [hg, if_neg hne]

/-! ## `treeDelete` at a leaf -/

/-- Deleting the only entry of a leaf leaves the header in a zero-filled page. -/
theorem leafDelete_last {old : BNode} {t' : Nat} {eo : List Entry}
    (Lo : Layout old t' 1 eo) (size : Nat) (h8 : 8 ≤ size) (hs : size < 65536) :
    ∃ new, leafDelete (BNode.make size) old 0 = .ok new ∧ new.getKey 0 = .ok [] := by
  obtain ⟨n0, e0, l0, c0, L0⟩ := make_layout size BNODE_LEAF 0 (by decide) (by omega) hs
  obtain ⟨n0', e0', -, U0, -, -⟩ := setHeader_spec (BNode.make size) BNODE_LEAF 0
    (by rw [make_length]; omega)
  rw [e0] at e0'
  cases e0'
  refine ⟨n0, ?_, ?_⟩
  · unfold leafDelete
    rw [Lo.nkeys_eq]
    simp only [Res.ok_bind]
    rw [show u16sub 1 1 = 0 from rfl, e0]
    simp only [Res.ok_bind]
    rw [show nodeAppendRange n0 old 0 0 0 = .ok n0 by unfold nodeAppendRange; rw [if_pos rfl]]
    simp only [Res.ok_bind]
    rw [show u16sub 1 (u16 (0 + 1)) = 0 from rfl]
    unfold nodeAppendRange
    rw [if_pos rfl]
  · have hz : slice n0.data 4 2 = List.replicate 2 0 := by
      rw [U0.2 4 2 (Or.inr (by omega))]
      simp only [BNode.make]
      exact slice_replicate _ _ _ (by omega)
    have hkp : n0.kvPos 0 = .ok 4 := by
      have := L0.kvPos_eq (Nat.le_refl 0)
      simpa [kvSize_nil] using this
    unfold BNode.getKey
    rw [hkp]
    simp only [Res.ok_bind]
    unfold BNode.u16At
    rw [if_pos (by omega), hz, leNat_replicate_zero]
    simp only [Res.ok_bind]
    unfold BNode.subFrom BNode.cap
    rw [show u16 (4 + 4) = 8 from rfl, if_pos ⟨by omega, by omega⟩, slice_zero_length]

theorem mem_take_drop {es : List Entry} {i j : Nat} {e : Entry}
    (h : e ∈ es.take i ++ es.drop j) : e ∈ es := by
  rcases List.mem_append.1 h with h | h
  · exact List.mem_of_mem_take h
  · exact List.mem_of_mem_drop h

/-- `treeDelete` at a leaf: the store is not touched; the result is the nil node or the
leaf without the entry of the key, and the empty key in front of the leaf stays. -/
theorem treeDelete_leaf (K : List Nat → Prop) (key : List Nat) (hk : key ≠ []) (fuel : Nat)
    (tree tree' : BTree MemStore) (node updated : BNode) (es : List Entry)
    (V : Nat → Option BNode) (hS : Shape K V 0 node es) (hlen : node.len = BTREE_PAGE_SIZE)
    (hrun : treeDelete testPager fuel tree node key = .ok (updated, tree')) :
    tree' = tree ∧ (updated.len = 0 ∨
      ∃ es', Rebuilt 0 updated es' ∧ (Lm V 0 node → Lm V 0 updated)) := by
  obtain ⟨L, hne, hent⟩ := Shape_iff.1 hS
  rw [heightType_zero] at L
  have hpos : 1 ≤ es.length := List.length_pos.2 hne
  have hfit := L.fits
  rw [hlen] at hfit
  cases fuel with
  | zero => unfold treeDelete at hrun; cases hrun
  | succ fuel =>
    obtain ⟨idx, hidx, hlt⟩ := nodeLookupLE_lt L rfl hpos key
    obtain ⟨ei, hei⟩ := exists_getElem? es idx hlt
    unfold treeDelete at hrun
    rw [hidx, L.btype_eq] at hrun
    simp only [Res.ok_bind, if_true] at hrun
    rw [L.getKey_eq hei] at hrun
    simp only [Res.ok_bind, bytesEqual] at hrun
    by_cases hkk : key = ei.key
    · simp only [hkk, decide_True, Bool.not_true, Bool.false_eq_true, if_false] at hrun
      have h1 := kvSize_take_le es idx
      have h2 := kvSize_take_add_drop es (idx + 1)
      have h3 := kvSize_take_mono es idx (idx + 1) (by omega)
      obtain ⟨new, enew, lnew, cnew, Lnew⟩ := leafDelete_spec L rfl BTREE_PAGE_SIZE idx hlt
        (by decide) (by simp only [BTREE_PAGE_SIZE] at hfit ⊢; omega)
      rw [enew] at hrun
      simp only [Res.ok_bind, Res.pure_eq] at hrun
      cases hrun
      refine ⟨rfl, Or.inr ⟨es.take idx ++ es.drop (idx + 1), ?_, ?_⟩⟩
      · have hl' : (es.take idx ++ es.drop (idx + 1)).length = es.length - 1 := by
          simp; omega
        refine ⟨lnew, cnew, ?_, fun _ => ?_, fun e he => (hent e (mem_take_drop he)).1, ?_,
          fun hnil => ⟨rfl, ?_⟩⟩
        · rw [heightType_zero, hl']; exact Lnew.toWeakLayout
        · rw [heightType_zero, hl']; exact Lnew
        · rw [hl', kvSize_append]
          simp only [BTREE_PAGE_SIZE] at hfit ⊢
          omega
        · have hl1 : es.length = 1 := by
            rw [hnil] at hl'
            simp at hl'
            omega
          have hi0 : idx = 0 := by omega
          subst hi0
          rw [hl1] at L
          obtain ⟨new2, e2, k2⟩ := leafDelete_last L BTREE_PAGE_SIZE (by decide) (by decide)
          rw [enew] at e2
          cases e2
          exact k2
      · intro hl
        obtain ⟨-, -, hk0⟩ := Lm_zero.1 hl
        obtain ⟨e0, he0⟩ := exists_getElem? es 0 hpos
        rw [L.getKey_eq he0] at hk0
        have hk0' : e0.key = [] := Res.ok.inj hk0
        have hi0 : idx ≠ 0 := by
          intro h0
          subst h0
          rw [he0] at hei
          cases hei
          exact hk (hkk.trans hk0')
        have he0' : (es.take idx ++ es.drop (idx + 1))[0]? = some e0 := by
          rw [List.getElem?_append_left (by simp; omega), List.getElem?_take_of_lt (by omega)]
          exact he0
        refine Lm_zero.2 ⟨Lnew.btype_eq, ⟨es.length - 1, Lnew.nkeys_eq, by omega⟩, ?_⟩
        rw [Lnew.getKey_eq he0']
        exact hk0
    · simp only [hkk, decide_False, Bool.not_false, if_true, Res.pure_eq] at hrun
      cases hrun
      exact ⟨rfl, Or.inl rfl⟩

/-! ## Parts of `treeDelete` at an internal node -/

/-- The outcomes of `shouldMerge` over the store of the test. -/
theorem shouldMerge_cases {tree : BTree MemStore} {node u sib : BNode} (left right : BNode)
    {n idx usz : Nat} (sl sr : Nat) {dir : Int}
    (hn : node.nkeys = .ok n) (hn16 : n < 65536) (hidx : idx < n)
    (hu : u.nbytes = .ok usz) (hu4 : 4 ≤ usz) (hub : usz ≤ 6000)
    (hl : 0 < idx → ∃ p, node.getPtr (idx - 1) = .ok p ∧ tree.store.get p = some left ∧
      left.nbytes = .ok sl ∧ sl ≤ BTREE_PAGE_SIZE)
    (hr : idx + 1 < n → ∃ p, node.getPtr (idx + 1) = .ok p ∧ tree.store.get p = some right ∧
      right.nbytes = .ok sr ∧ sr ≤ BTREE_PAGE_SIZE)
    (hrun : shouldMerge testPager tree node idx u = .ok (dir, sib)) :
    (¬ dir < 0 ∧ ¬ dir > 0) ∨
    (dir < 0 ∧ sib = left ∧ 0 < idx ∧ usz ≤ 1024 ∧ sl + usz - 4 ≤ BTREE_PAGE_SIZE) ∨
    (¬ dir < 0 ∧ dir > 0 ∧ sib = right ∧ idx + 1 < n ∧ usz ≤ 1024 ∧
      sr + usz - 4 ≤ BTREE_PAGE_SIZE) := by
  rw [shouldMerge_decision testPager tree node u left right idx n usz sl sr hn hn16 hidx hu hu4
    (fun h => by
      obtain ⟨p, h1, h2, h3, h4⟩ := hl h
      exact ⟨p, h1, testGet_eq h2, h3, by simp only [BTREE_PAGE_SIZE] at h4; omega⟩)
    (fun h => by
      obtain ⟨p, h1, h2, h3, h4⟩ := hr h
      exact ⟨p, h1, testGet_eq h2, h3, by simp only [BTREE_PAGE_SIZE] at h4; omega⟩)] at hrun
  simp only [BTREE_PAGE_SIZE, HEADER_SIZE] at hrun ⊢
  split at hrun
  · cases hrun
    exact Or.inl ⟨by decide, by decide⟩
  · split at hrun
    · rename_i h1 h2
      cases hrun
      exact Or.inr (Or.inl ⟨by decide, rfl, h2.1, by omega, h2.2⟩)
    · split at hrun
      · rename_i h1 h2 h3
        cases hrun
        exact Or.inr (Or.inr ⟨by decide, by decide, rfl, h3.1, by omega, h3.2⟩)
      · cases hrun
        exact Or.inl ⟨by decide, by decide⟩

/-- A reference out of a rebuilt page is the pointer of one of its entries, and the page
is an internal node. -/
theorem Rebuilt.refs_inv {h f i x : Nat} {v : BNode} {es : List Entry}
    (R : Rebuilt h v es) (hfit : 4 + 10 * es.length + kvSize es ≤ BTREE_PAGE_SIZE)
    (hr : Refs (fun q => if q = f then some v else none) f i x) :
    0 < h ∧ ∃ e ∈ es, e.ptr = x := by
  obtain ⟨hpos, e, he, hx⟩ := kid_refs (R.2.2.2.1 hfit) hr
  exact ⟨hpos, e, List.getElem?_mem he, hx⟩

theorem Rebuilt.nbytes_rebuilt {h : Nat} {v : BNode} {es : List Entry} (R : Rebuilt h v es) :
    v.nbytes = .ok (4 + 10 * es.length + kvSize es) :=
  R.2.2.1.nbytes_eq rfl

/-- The entries of a rebuilt internal node. -/
theorem Rebuilt.of_node (h : Nat) {new : BNode} {es' : List Entry} {m : Nat}
    (hm : es'.length = m) (hlen : new.len = BTREE_PAGE_SIZE)
    (hcap : new.data.length = BTREE_PAGE_SIZE) (W : WeakLayout new BNODE_NODE m es')
    (hL : 4 + 10 * m + kvSize es' ≤ BTREE_PAGE_SIZE → Layout new BNODE_NODE m es')
    (hb : ∀ e ∈ es', e.Bounded) (hsz : 4 + 10 * m + kvSize es' ≤ BTREE_PAGE_SIZE + 1004)
    (hne : es' ≠ []) : Rebuilt (h + 1) new es' := by
  subst hm
  rw [Rebuilt, heightType_pos (Nat.succ_pos h)]
  exact ⟨hlen, hcap, W, hL, hb, hsz, fun hnil => absurd hnil hne⟩

theorem mem_replaced {es : List Entry} {i j : Nat} {e x : Entry}
    (h : x ∈ es.take i ++ [e] ++ es.drop j) : x = e ∨ x ∈ es := by
  rcases List.mem_append.1 h with h | h
  · rcases List.mem_append.1 h with h | h
    · exact Or.inr (List.mem_of_mem_take h)
    · exact Or.inl (List.mem_singleton.1 h)
  · exact Or.inr (List.mem_of_mem_drop h)

theorem kvSize_replaced (es : List Entry) (i r : Nat) (e : Entry) :
    kvSize (es.take i ++ [e] ++ es.drop (i + r)) + kvSize ((es.drop i).take r) =
      kvSize es + e.size := by
  have h1 := kvSize_take_add es i r
  have h2 := kvSize_take_add_drop es (i + r)
  rw [kvSize_append, kvSize_append, kvSize_single]
  omega

theorem length_replaced (es : List Entry) (i r : Nat) (e : Entry) (hi : i + r ≤ es.length) :
    (es.take i ++ [e] ++ es.drop (i + r)).length = es.length + 1 - r := by
  simp
  omega

theorem head_replaced_zero (es : List Entry) (j : Nat) (e : Entry) :
    (es.take 0 ++ [e] ++ es.drop j)[0]? = some e := by
  simp

theorem head_replaced_pos (es : List Entry) (i j : Nat) (e e0 : Entry) (hi : 0 < i)
    (h0 : es[0]? = some e0) : (es.take i ++ [e] ++ es.drop j)[0]? = some e0 := by
  have hl := getElem?_lt h0
  rw [List.append_assoc, List.getElem?_append_left (by simp; omega),
    List.getElem?_take_of_lt hi]
  exact h0

/-- The first key of a rebuilt page is read without fault and is within the limit. -/
theorem Rebuilt.first_key {h : Nat} {v : BNode} {es : List Entry} (R : Rebuilt h v es)
    (hfit : 4 + 10 * es.length + kvSize es ≤ BTREE_PAGE_SIZE) {k : List Nat}
    (hk : v.getKey 0 = .ok k) : k.length ≤ 1000 := by
  obtain ⟨-, -, -, hL, hb, -, hnil⟩ := R
  by_cases hne : es = []
  · rw [(hnil hne).2] at hk
    cases hk
    exact Nat.zero_le _
  · rw [getKey_first (hL hfit) hne] at hk
    cases hk
    exact firstKey_bounded hb

/-- The branch of `nodeDelete` without a merge: the rebuilt kid is registered and takes
the place of the old kid in a new page for the node. -/
theorem nodeDelete_keep (h idx : Nat) (V V1 : Nat → Option BNode) (Hid : Nat → Prop)
    (tree2 tree' : BTree MemStore) (node u updated : BNode) (es eu : List Entry) (ei : Entry)
    (L : Layout node BNODE_NODE es.length es)
    (hfitN : 4 + 10 * es.length + kvSize es ≤ BTREE_PAGE_SIZE)
    (hbN : ∀ e ∈ es, e.Bounded) (hei : es[idx]? = some ei)
    (hnrN : ∀ e ∈ es, NoRef V e.ptr) (hliveN : ∀ e ∈ es, ∃ c, V e.ptr = some c)
    (hndN : (es.map Entry.ptr).Nodup)
    (hV : ∀ x c, V1 x = some c → tree2.store.get x = some c)
    (hid : ∀ x, Hid x → V1 x = none ∧ tree2.store.get x ≠ none)
    (hc : tree2.store.counter < 18446744073709551616) (RU : Rebuilt h u eu)
    (hout : ∀ x, NoRef V x → (∃ c, V x = some c) → x ≠ ei.ptr →
      Keeps V V1 x ∧ (0 < h → ∀ e ∈ eu, e.ptr ≠ x))
    (hlmU : Lm V (h + 1) node → idx = 0 → Lm V1 h u)
    (hrun : nodeReplaceKidN testPager tree2 (BNode.make BTREE_PAGE_SIZE) node idx [u] =
      .ok (updated, tree')) :
    ∃ V' es', (∀ x c, V' x = some c → tree'.store.get x = some c) ∧
      (∀ x, Hid x → V' x = none ∧ tree'.store.get x ≠ none) ∧
      tree'.store.counter < 18446744073709551616 ∧ Rebuilt (h + 1) updated es' ∧
      (Lm V (h + 1) node → Lm V' (h + 1) updated) ∧
      ∀ x, NoRef V x → (∃ c, V x = some c) → (∀ e ∈ es, e.ptr ≠ x) →
        Keeps V V' x ∧ ∀ e ∈ es', e.ptr ≠ x := by
  have hidx := getElem?_lt hei
  have hn := L.n_lt
  obtain ⟨ptr, k, hnew, hkey, hpage⟩ := nodeReplaceKid1_page testPager L rfl BTREE_PAGE_SIZE
    idx hidx (by decide) hfitN hrun
  obtain ⟨-, hptr, hctr, ⟨sz, hsz, hszle⟩, hfresh, hget'⟩ := testNew_ok hnew
  rw [RU.nbytes_rebuilt] at hsz
  cases hsz
  have hk1000 := RU.first_key hszle hkey
  obtain ⟨lnew, cnew, W, Lc⟩ := hpage (by rw [hptr]; exact hc)
    (by simp only [BTREE_PAGE_SIZE] at hfitN; omega)
  have hV1ptr : V1 ptr = none := by
    cases hq : V1 ptr with
    | none => rfl
    | some c => rw [hV ptr c hq] at hfresh; cases hfresh
  have hlen' := length_replaced es idx 1 ⟨ptr, k, []⟩ (by omega)
  have hsize' := kvSize_replaced es idx 1 ⟨ptr, k, []⟩
  have hes : (⟨ptr, k, []⟩ : Entry).size = 4 + k.length := by simp [Entry.size]
  have hub : ∀ x, Keeps V V1 x → (0 < h → ∀ e ∈ eu, e.ptr ≠ x) → (∃ c, V x = some c) →
      Keeps V (fun q => if q = ptr then some u else V1 q) x := fun x kx hx hlive =>
    kx.trans_keeps (Keeps.insert_keeps (fun _ => rfl) hV1ptr kx.2.1 (by rw [kx.1]; exact hlive)
      (fun i hr => by
        obtain ⟨hpos, e, he, hxe⟩ := RU.refs_inv hszle hr
        exact hx hpos e he hxe))
  refine ⟨fun q => if q = ptr then some u else V1 q,
    es.take idx ++ [⟨ptr, k, []⟩] ++ es.drop (idx + 1), ?_, ?_, hctr, ?_, ?_, ?_⟩
  · intro x c hx
    replace hx : (if x = ptr then some u else V1 x) = some c := hx
    rw [hget']
    by_cases hxp : x = ptr
    · rw [if_pos hxp] at hx ⊢
      exact hx
    · rw [if_neg hxp] at hx ⊢
      exact hV x c hx
  · intro x hx
    obtain ⟨h1, h2⟩ := hid x hx
    have hxp : x ≠ ptr := fun heq => h2 (heq ▸ hfresh)
    rw [hget']
    simp only [if_neg hxp]
    exact ⟨h1, h2⟩
  · refine Rebuilt.of_node h (by rw [hlen']; omega) lnew cnew W Lc (fun e he => ?_)
      (by rw [hes] at hsize'; omega) (fun hnil => ?_)
    · rcases mem_replaced he with rfl | he
      · exact ⟨by simp only [BTREE_MAX_KEY_SIZE]; exact hk1000, Nat.zero_le _⟩
      · exact hbN e he
    · rw [hnil] at hlen'
      simp at hlen'
      omega
  · intro hl
    obtain ⟨-, -, p, child, hp, hcp, hl'⟩ := Lm_succ.1 hl
    obtain ⟨e0, he0⟩ := exists_getElem? es 0 (by omega)
    rw [L.getPtr_eq he0] at hp
    cases hp
    by_cases h0 : idx = 0
    · subst h0
      exact Lm_succ.2 ⟨W.btype_eq, ⟨es.length, W.nkeys_eq, by omega⟩, ptr, u,
        W.getPtr_eq (head_replaced_zero es _ _), by simp,
        Lm.insert_lm (fun _ => rfl) hV1ptr h (hlmU hl rfl)⟩
    · have hne : e0.ptr ≠ ei.ptr := fun heq => h0 (nodup_ptr_index hndN he0 hei heq).symm
      have hm0 := List.getElem?_mem he0
      obtain ⟨k1, k2⟩ := hout e0.ptr (hnrN e0 hm0) (hliveN e0 hm0) hne
      have kk := hub e0.ptr k1 k2 (hliveN e0 hm0)
      refine Lm_succ.2 ⟨W.btype_eq, ⟨es.length, W.nkeys_eq, by omega⟩, e0.ptr, child,
        W.getPtr_eq (head_replaced_pos es _ _ _ e0 (by omega) he0), kk.1.trans hcp,
        kk.2.2 child h hcp hl'⟩
  · intro x hx hlive hxes
    obtain ⟨k1, k2⟩ := hout x hx hlive (hxes ei (List.getElem?_mem hei)).symm
    refine ⟨hub x k1 k2 hlive, fun e he => ?_⟩
    rcases mem_replaced he with rfl | he
    · intro heq
      obtain ⟨c, hcx⟩ := hlive
      have h1 : V1 ptr = some c := by
        have := k1.1.trans hcx
        rwa [← heq] at this
      rw [hV1ptr] at h1
      cases h1
    · exact hxes e he

theorem Lm.nkeys_pos {V : Nat → Option BNode} {h : Nat} {a : BNode} (hl : Lm V h a) :
    ∃ n, a.nkeys = .ok n ∧ 0 < n := by
  cases h with
  | zero => exact (Lm_zero.1 hl).2.1
  | succ h => exact (Lm_succ.1 hl).2.1

/-- The branches of `nodeDelete` with a merge: the rebuilt kid and its sibling (in the
order `a`, `b` of their entries) are merged into a new page, the page of the sibling is
removed, and the merged page takes the place of both in a new page for the node. -/
theorem nodeDelete_merge (h i0 js kp ps : Nat) (V V1 : Nat → Option BNode) (Hid : Nat → Prop)
    (tree2 tree' : BTree MemStore) (node a b sibnode updated : BNode)
    (es ea eb : List Entry) (e1 e2 esib : Entry)
    (L : Layout node BNODE_NODE es.length es)
    (hfitN : 4 + 10 * es.length + kvSize es ≤ BTREE_PAGE_SIZE)
    (hbN : ∀ e ∈ es, e.Bounded) (he1 : es[i0]? = some e1) (he2 : es[i0 + 1]? = some e2)
    (hjs : es[js]? = some esib) (hps : esib.ptr = ps)
    (hpair : (kp = e1.ptr ∧ ps = e2.ptr) ∨ (kp = e2.ptr ∧ ps = e1.ptr))
    (hnrN : ∀ e ∈ es, NoRef V e.ptr) (hliveN : ∀ e ∈ es, ∃ c, V e.ptr = some c)
    (hndN : (es.map Entry.ptr).Nodup)
    (hV : ∀ x c, V1 x = some c → tree2.store.get x = some c)
    (hid : ∀ x, Hid x → V1 x = none ∧ tree2.store.get x ≠ none)
    (hc : tree2.store.counter < 18446744073709551616)
    (La : Layout a (heightType h) ea.length ea) (Lb : Layout b (heightType h) eb.length eb)
    (hba : ∀ e ∈ ea, e.Bounded) (hbb : ∀ e ∈ eb, e.Bounded) (hne : ea ++ eb ≠ [])
    (hfit : 4 + 10 * (ea.length + eb.length) + kvSize ea + kvSize eb ≤ BTREE_PAGE_SIZE)
    (hsib : V1 ps = some sibnode) (hnrps : NoRef V1 ps)
    (hout : ∀ x, NoRef V x → (∃ c, V x = some c) → x ≠ kp →
      Keeps V V1 x ∧ (0 < h → ∀ e ∈ ea ++ eb, e.ptr ≠ x))
    (hlmA : Lm V (h + 1) node → i0 = 0 →
      Lm V1 h a ∧ (0 < h → ∀ q, a.getPtr 0 = .ok q → q ≠ ps))
    (hrun : (do
      let merged ← nodeMerge (BNode.make BTREE_PAGE_SIZE) a b
      let p ← node.getPtr js
      let tree ← tree2.Del testPager p
      let (ptr, tree) ← tree.New testPager merged
      let k ← merged.getKey 0
      let new ← nodeReplace2Kid (BNode.make BTREE_PAGE_SIZE) node i0 ptr k
      pure (new, tree)) = .ok (updated, tree')) :
    ∃ V' es', (∀ x c, V' x = some c → tree'.store.get x = some c) ∧
      (∀ x, Hid x → V' x = none ∧ tree'.store.get x ≠ none) ∧
      tree'.store.counter < 18446744073709551616 ∧ Rebuilt (h + 1) updated es' ∧
      (Lm V (h + 1) node → Lm V' (h + 1) updated) ∧
      ∀ x, NoRef V x → (∃ c, V x = some c) → (∀ e ∈ es, e.ptr ≠ x) →
        Keeps V V' x ∧ ∀ e ∈ es', e.ptr ≠ x := by
  have hi2 := getElem?_lt he2
  have hn := L.n_lt
  have hm1 := List.getElem?_mem he1
  have hm2 := List.getElem?_mem he2
  obtain ⟨merged, em, lm, cm, LM⟩ := nodeMerge_spec La rfl Lb rfl BTREE_PAGE_SIZE (by decide)
    hfit
  obtain ⟨merged2, hm, hrun⟩ := bind_ok_inv hrun
  rw [em] at hm
  cases hm
  obtain ⟨p, hp, hrun⟩ := bind_ok_inv hrun
  rw [L.getPtr_eq hjs, hps] at hp
  cases hp
  obtain ⟨tree3, hdel, hrun⟩ := bind_ok_inv hrun
  obtain ⟨-, hctr3, -, hget3⟩ := testDel_ok hdel
  obtain ⟨⟨ptr, tree4⟩, hnew, hrun⟩ := bind_ok_inv hrun
  obtain ⟨-, hptr, hctr4, -, hfresh, hget4⟩ := testNew_ok hnew
  simp only [] at hrun
  obtain ⟨k, hkey, hrun⟩ := bind_ok_inv hrun
  have hlen_m : (ea ++ eb).length = ea.length + eb.length := List.length_append _ _
  rw [← hlen_m] at LM
  rw [getKey_first LM hne] at hkey
  cases hkey
  have hk1000 : (firstKey (ea ++ eb)).length ≤ 1000 := firstKey_bounded (fun e he => by
    rcases List.mem_append.1 he with he | he
    · exact hba e he
    · exact hbb e he)
  obtain ⟨new, hrep, hrun⟩ := bind_ok_inv hrun
  cases hrun
  obtain ⟨lnew, cnew, W, Lc⟩ := nodeReplace2Kid_page L rfl BTREE_PAGE_SIZE i0 ptr
    (firstKey (ea ++ eb)) (by omega) (by decide) hfitN
    (by simp only [BTREE_PAGE_SIZE] at hfitN; omega)
    (by rw [hptr, hctr3]; exact hc) hrep
  obtain ⟨V2, hV2⟩ : ∃ V2 : Nat → Option BNode, ∀ q, V2 q = if q = ps then none else V1 q :=
    ⟨_, fun _ => rfl⟩
  obtain ⟨V3, hV3⟩ : ∃ V3 : Nat → Option BNode,
      ∀ q, V3 q = if q = ptr then some merged else V2 q := ⟨_, fun _ => rfl⟩
  have hV2ptr : V2 ptr = none := by
    rw [hV2]
    by_cases hpp : ptr = ps
    · rw [if_pos hpp]
    · rw [if_neg hpp]
      cases hq : V1 ptr with
      | none => rfl
      | some c =>
        rw [hget3, if_neg hpp, hV ptr c hq] at hfresh
        cases hfresh
  have hlen' := length_replaced es i0 2 ⟨ptr, firstKey (ea ++ eb), []⟩ (by omega)
  have hsize' := kvSize_replaced es i0 2 ⟨ptr, firstKey (ea ++ eb), []⟩
  have hes : (⟨ptr, firstKey (ea ++ eb), []⟩ : Entry).size =
      4 + (firstKey (ea ++ eb)).length := by
    simp [Entry.size]
  have hxks : ∀ x, x ≠ e1.ptr → x ≠ e2.ptr → x ≠ kp ∧ x ≠ ps := by
    intro x hx1 hx2
    rcases hpair with ⟨h1, h2⟩ | ⟨h1, h2⟩
    · exact ⟨h1 ▸ hx1, h2 ▸ hx2⟩
    · exact ⟨h1 ▸ hx2, h2 ▸ hx1⟩
  have hub : ∀ x, NoRef V x → (∃ c, V x = some c) → x ≠ e1.ptr → x ≠ e2.ptr →
      Keeps V V3 x ∧ x ≠ ptr := by
    intro x hx hlive hx1 hx2
    obtain ⟨hxk, hxs⟩ := hxks x hx1 hx2
    obtain ⟨k1, k2⟩ := hout x hx hlive hxk
    have k12 : Keeps V1 V2 x := Keeps.erase_keeps hV2 hnrps k1.2.1 hxs
    obtain ⟨c, hcx⟩ := hlive
    have hv2 : V2 x = some c := (k12.1.trans k1.1).trans hcx
    have k23 : Keeps V2 V3 x := Keeps.insert_keeps hV3 hV2ptr k12.2.1 ⟨c, hv2⟩
      (fun i hr => by
        obtain ⟨hpos, e, he, hxe⟩ := kid_refs LM hr
        exact k2 hpos e (List.getElem?_mem he) hxe)
    refine ⟨(k1.trans_keeps k12).trans_keeps k23, fun heq => ?_⟩
    rw [heq, hV2ptr] at hv2
    cases hv2
  refine ⟨V3, es.take i0 ++ [⟨ptr, firstKey (ea ++ eb), []⟩] ++ es.drop (i0 + 2), ?_, ?_,
    hctr4, ?_, ?_, ?_⟩
  · intro x c hx
    rw [hV3] at hx
    rw [hget4]
    by_cases hxp : x = ptr
    · rw [if_pos hxp] at hx ⊢
      exact hx
    · rw [if_neg hxp] at hx ⊢
      rw [hV2] at hx
      rw [hget3]
      by_cases hxs : x = ps
      · rw [if_pos hxs] at hx
        cases hx
      · rw [if_neg hxs] at hx ⊢
        exact hV x c hx
  · intro x hx
    obtain ⟨h1, h2⟩ := hid x hx
    have hxs : x ≠ ps := fun heq => by rw [heq, hsib] at h1; cases h1
    have h3 : tree3.store.get x ≠ none := by rw [hget3, if_neg hxs]; exact h2
    have hxp : x ≠ ptr := fun heq => h3 (heq ▸ hfresh)
    rw [hget4, hV3, if_neg hxp, if_neg hxp, hV2, if_neg hxs]
    exact ⟨h1, h3⟩
  · refine Rebuilt.of_node h (by rw [hlen']; omega) lnew cnew W Lc (fun e he => ?_)
      (by rw [hes] at hsize'; omega) (fun hnil => ?_)
    · rcases mem_replaced he with rfl | he
      · exact ⟨by simp only [BTREE_MAX_KEY_SIZE]; exact hk1000, Nat.zero_le _⟩
      · exact hbN e he
    · rw [hnil] at hlen'
      simp at hlen'
      omega
  · intro hl
    obtain ⟨-, -, p, child, hp, hcp, hl'⟩ := Lm_succ.1 hl
    obtain ⟨e0, he0⟩ := exists_getElem? es 0 (by omega)
    rw [L.getPtr_eq he0] at hp
    cases hp
    by_cases h0 : i0 = 0
    · subst h0
      obtain ⟨hla, hqa⟩ := hlmA hl rfl
      have hl2 : Lm V2 h a := Lm.erase_lm hV2 hnrps h hla hqa
      have hl3 : Lm V3 h a := Lm.insert_lm hV3 hV2ptr h hl2
      obtain ⟨na, hna, hnapos⟩ := hla.nkeys_pos
      rw [La.nkeys_eq] at hna
      cases hna
      obtain ⟨x0, hx0⟩ := exists_getElem? ea 0 hnapos
      have hx0' : (ea ++ eb)[0]? = some x0 := by
        rw [List.getElem?_append_left hnapos]
        exact hx0
      have hsame := Layout.same_entry LM La hx0' hx0
      refine Lm_succ.2 ⟨W.btype_eq, ⟨es.length - 1, W.nkeys_eq, by omega⟩, ptr, merged,
        W.getPtr_eq (head_replaced_zero es _ _), by rw [hV3, if_pos rfl], ?_⟩
      exact hl3.congr_lm (by rw [LM.btype_eq, La.btype_eq])
        ⟨(ea ++ eb).length, LM.nkeys_eq, by rw [hlen_m]; omega⟩ (fun _ => hsame.1)
        (fun _ => hsame.2.1)
    · have hm0 := List.getElem?_mem he0
      have hne1 : e0.ptr ≠ e1.ptr := fun heq => h0 (nodup_ptr_index hndN he0 he1 heq).symm
      have hne2 : e0.ptr ≠ e2.ptr := fun heq => by
        have := nodup_ptr_index hndN he0 he2 heq
        omega
      obtain ⟨kk, -⟩ := hub e0.ptr (hnrN e0 hm0) (hliveN e0 hm0) hne1 hne2
      exact Lm_succ.2 ⟨W.btype_eq, ⟨es.length - 1, W.nkeys_eq, by omega⟩, e0.ptr, child,
        W.getPtr_eq (head_replaced_pos es _ _ _ e0 (by omega) he0), kk.1.trans hcp,
        kk.2.2 child h hcp hl'⟩
  · intro x hx hlive hxes
    obtain ⟨kk, hxp⟩ := hub x hx hlive (hxes e1 hm1).symm (hxes e2 hm2).symm
    refine ⟨kk, fun e he => ?_⟩
    rcases mem_replaced he with rfl | he
    · exact fun heq => hxp heq.symm
    · exact hxes e he

theorem Layout.no_ref {V : Nat → Option BNode} {p x : Nat} {node : BNode} {es : List Entry}
    (hg : V p = some node) (L : Layout node BNODE_NODE es.length es) (hx : NoRef V x) :
    ∀ e ∈ es, e.ptr ≠ x := by
  intro e he heq
  obtain ⟨i, hi⟩ := List.getElem?_of_mem he
  exact hx p i (heq ▸ Refs.of_layout hg L hi)

/-- `treeDelete` of a non-empty key over the store of the test, seen through a view `V`
of the store that leaves out the pages of the nodes above: the call returns the nil node
and changes nothing, or it returns a rebuilt page; the pages that hang off the rest of
the tree are kept, and so is the empty key in front of the leftmost leaf. -/
theorem treeDelete_spec (K : List Nat → Prop) (key : List Nat) (hk : key ≠ []) (h : Nat) :
    ∀ (fuel : Nat) (tree tree' : BTree MemStore) (node updated : BNode) (es : List Entry)
      (V : Nat → Option BNode),
      (∀ x c, V x = some c → tree.store.get x = some c) → Forest V → Frag K V h node es →
      node.len = BTREE_PAGE_SIZE → tree.store.counter < 18446744073709551616 →
      treeDelete testPager fuel tree node key = .ok (updated, tree') →
      (updated.len = 0 ∧ tree' = tree) ∨
      ∃ V' es', (∀ x c, V' x = some c → tree'.store.get x = some c) ∧
        (∀ x, V x = none → tree.store.get x ≠ none →
          V' x = none ∧ tree'.store.get x ≠ none) ∧
        tree'.store.counter < 18446744073709551616 ∧ Rebuilt h updated es' ∧
        (Lm V h node → Lm V' h updated) ∧
        ∀ x, NoRef V x → (∃ c, V x = some c) → (0 < h → ∀ e ∈ es, e.ptr ≠ x) →
          Keeps V V' x ∧ (0 < h → ∀ e ∈ es', e.ptr ≠ x) := by
  induction h with
  | zero =>
    intro fuel tree tree' node updated es V hV hF hFr hlen hc hrun
    obtain ⟨ht, hcase⟩ := treeDelete_leaf K key hk fuel tree tree' node updated es V hFr.1 hlen
      hrun
    subst ht
    rcases hcase with h0 | ⟨es', R, hl⟩
    · exact Or.inl ⟨h0, rfl⟩
    · exact Or.inr ⟨V, es', hV, fun x h1 h2 => ⟨h1, h2⟩, hc, R, hl, fun x hx _ _ =>
        ⟨Keeps.refl_keeps hx, fun hp => absurd hp (by decide)⟩⟩
  | succ h ih =>
    intro fuel tree tree' node updated es V hV hF hFr hlen hc hrun
    obtain ⟨hSh, hch⟩ := hFr
    obtain ⟨hnr, hnd⟩ := hch (Nat.succ_pos h)
    obtain ⟨L, hne, hent⟩ := Shape_iff.1 hSh
    rw [heightType_pos (Nat.succ_pos h)] at L
    have hpos : 1 ≤ es.length := List.length_pos.2 hne
    have hn := L.n_lt
    have hfitN := L.fits
    rw [hlen] at hfitN
    have hbN : ∀ e ∈ es, e.Bounded := fun e he => (hent e he).1
    have hsubN : ∀ e ∈ es, Sub K V h e.ptr := fun e he => by
      have := ((hent e he).2.2 (Nat.succ_pos h)).2
      rwa [Nat.add_sub_cancel] at this
    have hliveN : ∀ e ∈ es, ∃ c, V e.ptr = some c := fun e he => by
      obtain ⟨c, _, hcv, _⟩ := hsubN e he
      exact ⟨c, hcv⟩
    cases fuel with
    | zero => unfold treeDelete at hrun; cases hrun
    | succ fuel =>
      obtain ⟨idx, hidx, hlt⟩ := nodeLookupLE_lt L rfl hpos key
      obtain ⟨ei, hei⟩ := exists_getElem? es idx hlt
      have hmi := List.getElem?_mem hei
      unfold treeDelete at hrun
      rw [hidx, L.btype_eq] at hrun
      simp only [Res.ok_bind] at hrun
      rw [if_neg (show ¬ BNODE_NODE = BNODE_LEAF by decide), if_pos trivial] at hrun
      unfold nodeDelete at hrun
      rw [L.getPtr_eq hei] at hrun
      simp only [Res.ok_bind] at hrun
      obtain ⟨knode, hget, hrun⟩ := bind_ok_inv hrun
      have hgk := testGet_ok hget
      obtain ⟨child, ces, hcg, hcl, hcs⟩ := hsubN ei hmi
      rw [hV _ _ hcg] at hgk
      cases hgk
      obtain ⟨⟨u, tree1⟩, hrec, hrun⟩ := bind_ok_inv hrun
      simp only [] at hrun
      -- the view without the page of the kid
      obtain ⟨V1, hV1⟩ : ∃ V1 : Nat → Option BNode,
          ∀ q, V1 q = if q = ei.ptr then none else V q := ⟨_, fun _ => rfl⟩
      have hnri := hnr ei hmi
      have hF1 : Forest V1 := hF.erase hV1 hnri
      have hFr1 : Frag K V1 h knode ces := frag_after_del hF hcg hcs hnri hV1
      have hV1sub : ∀ x c, V1 x = some c → tree.store.get x = some c := by
        intro x c hx
        rw [hV1] at hx
        by_cases hxe : x = ei.ptr
        · rw [if_pos hxe] at hx
          cases hx
        · rw [if_neg hxe] at hx
          exact hV x c hx
      rcases ih fuel tree tree1 knode u ces V1 hV1sub hF1 hFr1 hcl hc hrec with
        ⟨hu0, ht1⟩ | ⟨V1', eu, hV1', hid1, hc1, RU, LmU, fr1⟩
      · rw [if_pos hu0] at hrun
        cases hrun
        exact Or.inl ⟨rfl, ht1⟩
      · right
        have hune : ¬ u.len = 0 := by rw [RU.1]; decide
        rw [if_neg hune] at hrun
        obtain ⟨tree2, hdel, hrun⟩ := bind_ok_inv hrun
        obtain ⟨-, hctr2, -, hget2⟩ := testDel_ok hdel
        have hkhid : V1' ei.ptr = none :=
          (hid1 ei.ptr (by rw [hV1, if_pos rfl])
            (fun hn => by rw [hV _ _ hcg] at hn; cases hn)).1
        have hV2 : ∀ x c, V1' x = some c → tree2.store.get x = some c := by
          intro x c hx
          have hxe : x ≠ ei.ptr := fun heq => by rw [heq, hkhid] at hx; cases hx
          rw [hget2, if_neg hxe]
          exact hV1' x c hx
        have hid2 : ∀ x, (V x = none ∧ tree.store.get x ≠ none) →
            V1' x = none ∧ tree2.store.get x ≠ none := by
          intro x hx
          have hxe : x ≠ ei.ptr := fun heq => by rw [heq, hcg] at hx; cases hx.1
          obtain ⟨h1, h2⟩ := hid1 x (by rw [hV1, if_neg hxe]; exact hx.1) hx.2
          refine ⟨h1, ?_⟩
          rw [hget2, if_neg hxe]
          exact h2
        have hc2 : tree2.store.counter < 18446744073709551616 := by rw [hctr2]; exact hc1
        have hknodeL : 0 < h → Layout knode BNODE_NODE ces.length ces := fun hp => by
          have := (Shape_iff.1 hcs).1
          rwa [heightType_pos hp] at this
        have hout : ∀ x, NoRef V x → (∃ c, V x = some c) → x ≠ ei.ptr →
            Keeps V V1' x ∧ (0 < h → ∀ e ∈ eu, e.ptr ≠ x) := by
          intro x hx hlive hxk
          have k01 : Keeps V V1 x := Keeps.erase_keeps hV1 hnri hx hxk
          obtain ⟨c, hcx⟩ := hlive
          obtain ⟨k1, k2⟩ := fr1 x k01.2.1 ⟨c, k01.1.trans hcx⟩
            (fun hp => Layout.no_ref hcg (hknodeL hp) hx)
          exact ⟨k01.trans_keeps k1, k2⟩
        have hlmU : Lm V (h + 1) node → idx = 0 → Lm V1' h u := by
          intro hl h0
          obtain ⟨-, -, p, c, hp, hcp, hl'⟩ := Lm_succ.1 hl
          subst h0
          rw [L.getPtr_eq hei] at hp
          cases hp
          rw [hcg] at hcp
          cases hcp
          exact LmU (Lm.erase_page hV1 hnri hcg hl')
        -- the siblings
        have hsibs : ∀ j ej, es[j]? = some ej → j ≠ idx →
            ∃ sj esj, V ej.ptr = some sj ∧ V1' ej.ptr = some sj ∧ NoRef V1' ej.ptr ∧
              Layout sj (heightType h) esj.length esj ∧ esj ≠ [] ∧
              (∀ e ∈ esj, e.Bounded) ∧ 4 + 10 * esj.length + kvSize esj ≤ BTREE_PAGE_SIZE ∧
              (0 < h → ∀ e ∈ eu, e.ptr ≠ ej.ptr) ∧ (Lm V h sj → Lm V1' h sj) := by
          intro j ej hej hji
          have hmj := List.getElem?_mem hej
          obtain ⟨sj, esj, hsg, hsl, hss⟩ := hsubN ej hmj
          obtain ⟨Ls, hnes, hents⟩ := Shape_iff.1 hss
          have hnej : ej.ptr ≠ ei.ptr := fun heq => hji (nodup_ptr_index hnd hej hei heq)
          obtain ⟨k1, k2⟩ := hout ej.ptr (hnr ej hmj) ⟨sj, hsg⟩ hnej
          have hf := Ls.fits
          rw [hsl] at hf
          exact ⟨sj, esj, hsg, k1.1.trans hsg, k1.2.1, Ls, hnes, fun e he => (hents e he).1, hf,
            k2, k1.2.2 sj h hsg⟩
        obtain ⟨⟨dir, sib⟩, hsm, hrun⟩ := bind_ok_inv hrun
        simp only [] at hrun
        have hwrap : ∀ (R : ∃ V' es', (∀ x c, V' x = some c → tree'.store.get x = some c) ∧
            (∀ x, (V x = none ∧ tree.store.get x ≠ none) →
              V' x = none ∧ tree'.store.get x ≠ none) ∧
            tree'.store.counter < 18446744073709551616 ∧ Rebuilt (h + 1) updated es' ∧
            (Lm V (h + 1) node → Lm V' (h + 1) updated) ∧
            ∀ x, NoRef V x → (∃ c, V x = some c) → (∀ e ∈ es, e.ptr ≠ x) →
              Keeps V V' x ∧ ∀ e ∈ es', e.ptr ≠ x),
            ∃ V' es', (∀ x c, V' x = some c → tree'.store.get x = some c) ∧
              (∀ x, V x = none → tree.store.get x ≠ none →
                V' x = none ∧ tree'.store.get x ≠ none) ∧
              tree'.store.counter < 18446744073709551616 ∧ Rebuilt (h + 1) updated es' ∧
              (Lm V (h + 1) node → Lm V' (h + 1) updated) ∧
              ∀ x, NoRef V x → (∃ c, V x = some c) → (0 < h + 1 → ∀ e ∈ es, e.ptr ≠ x) →
                Keeps V V' x ∧ (0 < h + 1 → ∀ e ∈ es', e.ptr ≠ x) := by
          rintro ⟨V', es', a1, a2, a3, a4, a5, a6⟩
          exact ⟨V', es', a1, fun x h1 h2 => a2 x ⟨h1, h2⟩, a3, a4, a5, fun x hx hl hxe =>
            ⟨(a6 x hx hl (hxe (Nat.succ_pos h))).1, fun _ =>
              (a6 x hx hl (hxe (Nat.succ_pos h))).2⟩⟩
        apply hwrap
        -- the decision
        obtain ⟨left, el, hleft⟩ : ∃ left el, 0 < idx → ∃ ej, es[idx - 1]? = some ej ∧
            V ej.ptr = some left ∧ V1' ej.ptr = some left ∧ NoRef V1' ej.ptr ∧
            Layout left (heightType h) el.length el ∧ el ≠ [] ∧
            (∀ e ∈ el, e.Bounded) ∧ 4 + 10 * el.length + kvSize el ≤ BTREE_PAGE_SIZE ∧
            (0 < h → ∀ e ∈ eu, e.ptr ≠ ej.ptr) ∧ (Lm V h left → Lm V1' h left) := by
          by_cases h0 : 0 < idx
          · obtain ⟨ej, hej⟩ := exists_getElem? es (idx - 1) (by omega)
            obtain ⟨sj, esj, hs⟩ := hsibs _ ej hej (by omega)
            exact ⟨sj, esj, fun _ => ⟨ej, hej, hs⟩⟩
          · exact ⟨BNode.empty, [], fun hp => absurd hp h0⟩
        obtain ⟨right, er, hright⟩ : ∃ right er, idx + 1 < es.length →
            ∃ ej, es[idx + 1]? = some ej ∧
            V ej.ptr = some right ∧ V1' ej.ptr = some right ∧ NoRef V1' ej.ptr ∧
            Layout right (heightType h) er.length er ∧ er ≠ [] ∧
            (∀ e ∈ er, e.Bounded) ∧ 4 + 10 * er.length + kvSize er ≤ BTREE_PAGE_SIZE ∧
            (0 < h → ∀ e ∈ eu, e.ptr ≠ ej.ptr) ∧ (Lm V h right → Lm V1' h right) := by
          by_cases h0 : idx + 1 < es.length
          · obtain ⟨ej, hej⟩ := exists_getElem? es (idx + 1) h0
            obtain ⟨sj, esj, hs⟩ := hsibs _ ej hej (by omega)
            exact ⟨sj, esj, fun _ => ⟨ej, hej, hs⟩⟩
          · exact ⟨BNode.empty, [], fun hp => absurd hp h0⟩
        have husz := RU.2.2.2.2.2.1
        have hcases := shouldMerge_cases left right
          (4 + 10 * el.length + kvSize el) (4 + 10 * er.length + kvSize er)
          L.nkeys_eq (by omega) hlt RU.nbytes_rebuilt (by omega)
          (by simp only [BTREE_PAGE_SIZE] at husz; omega)
          (fun hp => by
            obtain ⟨ej, hej, -, hs1, -, Ls, -, -, hf, -⟩ := hleft hp
            exact ⟨ej.ptr, L.getPtr_eq hej, hV2 _ _ hs1, Ls.nbytes_eq rfl, hf⟩)
          (fun hp => by
            obtain ⟨ej, hej, -, hs1, -, Ls, -, -, hf, -⟩ := hright hp
            exact ⟨ej.ptr, L.getPtr_eq hej, hV2 _ _ hs1, Ls.nbytes_eq rfl, hf⟩) hsm
        rcases hcases with ⟨hd1, hd2⟩ | ⟨hd1, rfl, hp, hu1024, hfit⟩ |
          ⟨hd1, hd2, rfl, hp, hu1024, hfit⟩
        · rw [if_neg hd1, if_neg hd2] at hrun
          exact nodeDelete_keep h idx V V1' _ tree2 tree' node u updated es eu ei L hfitN hbN
            hei hnr hliveN hnd hV2 hid2 hc2 RU hout hlmU hrun
        · rw [if_pos hd1] at hrun
          obtain ⟨ej, hej, hsv, hs1, hsnr, Ls, hnes, hbs, hf, hk2, hlms⟩ := hleft hp
          have Lu := RU.2.2.2.1 (by simp only [BTREE_PAGE_SIZE]; omega)
          rw [u16sub_of_le (show 1 ≤ idx by omega) (by omega)] at hrun
          have hei' : es[idx - 1 + 1]? = some ei := by rwa [Nat.sub_add_cancel hp]
          refine nodeDelete_merge h (idx - 1) (idx - 1) ei.ptr ej.ptr V V1' _ tree2 tree' node
            sib u sib updated es el eu ej ei ej L hfitN hbN hej hei' hej rfl
            (Or.inr ⟨rfl, rfl⟩) hnr hliveN hnd hV2 hid2 hc2 Ls Lu hbs RU.2.2.2.2.1
            (fun hnil => hnes (List.append_eq_nil.1 hnil).1)
            (by simp only [BTREE_PAGE_SIZE] at hfit ⊢; omega) hs1 hsnr ?_ ?_ hrun
          · intro x hx hlive hxk
            obtain ⟨k1, k2⟩ := hout x hx hlive hxk
            refine ⟨k1, fun hpos e he => ?_⟩
            rcases List.mem_append.1 he with he | he
            · have Ls' := Ls
              rw [heightType_pos hpos] at Ls'
              exact Layout.no_ref hs1 Ls' k1.2.1 e he
            · exact k2 hpos e he
          · intro hl h0
            obtain ⟨-, -, p, c, hp', hcp, hl'⟩ := Lm_succ.1 hl
            rw [h0] at hej
            rw [L.getPtr_eq hej] at hp'
            cases hp'
            rw [hsv] at hcp
            cases hcp
            have hl1 := hlms hl'
            refine ⟨hl1, fun hpos q hq heq => ?_⟩
            obtain ⟨h', rfl⟩ : ∃ h', h = h' + 1 := ⟨h - 1, by omega⟩
            have hr := Lm.refs hs1 hl1 hq
            rw [heq] at hr
            exact hsnr ej.ptr 0 hr
        · rw [if_neg hd1, if_pos hd2] at hrun
          obtain ⟨ej, hej, hsv, hs1, hsnr, Ls, hnes, hbs, hf, hk2, hlms⟩ := hright hp
          have Lu := RU.2.2.2.1 (by simp only [BTREE_PAGE_SIZE]; omega)
          rw [u16_of_lt (show idx + 1 < 65536 by omega)] at hrun
          refine nodeDelete_merge h idx (idx + 1) ei.ptr ej.ptr V V1' _ tree2 tree' node
            u sib sib updated es eu er ei ej ej L hfitN hbN hei hej hej rfl
            (Or.inl ⟨rfl, rfl⟩) hnr hliveN hnd hV2 hid2 hc2 Lu Ls RU.2.2.2.2.1 hbs
            (fun hnil => hnes (List.append_eq_nil.1 hnil).2)
            (by simp only [BTREE_PAGE_SIZE] at hfit ⊢; omega) hs1 hsnr ?_ ?_ hrun
          · intro x hx hlive hxk
            obtain ⟨k1, k2⟩ := hout x hx hlive hxk
            refine ⟨k1, fun hpos e he => ?_⟩
            rcases List.mem_append.1 he with he | he
            · exact k2 hpos e he
            · have Ls' := Ls
              rw [heightType_pos hpos] at Ls'
              exact Layout.no_ref hs1 Ls' k1.2.1 e he
          · intro hl h0
            refine ⟨hlmU hl h0, fun hpos q hq => ?_⟩
            have hneu : eu ≠ [] := fun hnil => by
              have := (RU.2.2.2.2.2.2 hnil).1
              omega
            obtain ⟨x0, hx0⟩ := exists_getElem? eu 0 (List.length_pos.2 hneu)
            rw [RU.2.2.1.getPtr_eq hx0] at hq
            cases hq
            exact hk2 hpos x0 (List.getElem?_mem hx0)

/-! ## `Delete` keeps the empty key in front of the leftmost leaf -/

theorem heightType_node {h : Nat} (ht : heightType h = BNODE_NODE) : 0 < h := by
  cases h with
  | zero => exact absurd ht (by decide)
  | succ h => exact Nat.succ_pos h

/-- `Delete` of a non-empty key on a well-shaped tree over the store of the test: if the
descent from the root through the pointers 0 ends at a leaf with the empty key in front,
so does the descent from the root of the tree after the call. -/
theorem Delete_spec (K : List Nat → Prop) (key : List Nat) (hk : key ≠ []) (fuel h : Nat)
    (tree tree' : BTree MemStore) (found : Bool) (node : BNode)
    (hS : StoreOK tree.store) (hroot : tree.root ≠ 0)
    (hsub : Sub K tree.store.get h tree.root) (hnr : NoRef tree.store.get tree.root)
    (hg : tree.store.get tree.root = some node) (hlm : Lm tree.store.get h node)
    (hrun : tree.Delete testPager fuel key = .ok (found, tree')) :
    ∃ h' node', tree'.store.get tree'.root = some node' ∧ Lm tree'.store.get h' node' := by
  obtain ⟨node0, es, hg0, hlen, hshape⟩ := hsub
  rw [hg] at hg0
  cases hg0
  unfold BTree.Delete at hrun
  rw [if_neg hroot, testGet_eq hg] at hrun
  simp only [Res.ok_bind] at hrun
  obtain ⟨⟨u, tree1⟩, hrec, hrun⟩ := bind_ok_inv hrun
  simp only [] at hrun
  obtain ⟨V, hV⟩ : ∃ V : Nat → Option BNode,
      ∀ q, V q = if q = tree.root then none else tree.store.get q := ⟨_, fun _ => rfl⟩
  have hVsub : ∀ x c, V x = some c → tree.store.get x = some c := by
    intro x c hx
    rw [hV] at hx
    by_cases hxe : x = tree.root
    · rw [if_pos hxe] at hx
      cases hx
    · rw [if_neg hxe] at hx
      exact hx
  have hr1 := treeDelete_root testPager fuel tree node key u tree1 hrec
  rcases treeDelete_spec K key hk h fuel tree tree1 node u es V hVsub (hS.1.erase hV hnr)
      (frag_after_del hS.1 hg hshape hnr hV) hlen hS.2 hrec with
    ⟨hu0, ht1⟩ | ⟨V', eu, hV', hid, hc', RU, LmU, -⟩
  · rw [if_pos hu0] at hrun
    cases hrun
    subst ht1
    exact ⟨h, node, hg, hlm⟩
  · have hune : ¬ u.len = 0 := by rw [RU.1]; decide
    rw [if_neg hune] at hrun
    obtain ⟨tree2, hdel, hrun⟩ := bind_ok_inv hrun
    rw [hr1] at hdel
    obtain ⟨-, -, -, hget2⟩ := testDel_ok hdel
    have hrhid : V' tree.root = none :=
      (hid tree.root (by rw [hV, if_pos rfl]) (fun hn => by rw [hg] at hn; cases hn)).1
    have hV2 : ∀ x c, V' x = some c → tree2.store.get x = some c := by
      intro x c hx
      have hxe : x ≠ tree.root := fun heq => by rw [heq, hrhid] at hx; cases hx
      rw [hget2, if_neg hxe]
      exact hV' x c hx
    have hlu : Lm V' h u := LmU (Lm.erase_page hV hnr hg hlm)
    obtain ⟨t, ht, hrun⟩ := bind_ok_inv hrun
    rw [RU.2.2.1.btype_eq] at ht
    cases ht
    have hrest : ∀ c : Bool, (c = true → heightType h = BNODE_NODE) →
        (if c = true then do
            let p ← u.getPtr 0
            pure (true, { tree2 with root := p })
          else do
            let (p, tree) ← tree2.New testPager u
            pure (true, { tree with root := p })) = Res.ok (found, tree') →
        ∃ h' node', tree'.store.get tree'.root = some node' ∧
          Lm tree'.store.get h' node' := by
      intro c hc hrun'
      by_cases hct : c = true
      · rw [if_pos hct] at hrun'
        obtain ⟨h', rfl⟩ : ∃ h', h = h' + 1 :=
          ⟨h - 1, by have := heightType_node (hc hct); omega⟩
        obtain ⟨-, -, q, child, hq, hcq, hlc⟩ := Lm_succ.1 hlu
        obtain ⟨p, hp, hrun'⟩ := bind_ok_inv hrun'
        rw [hq] at hp
        cases hp
        cases hrun'
        exact ⟨h', child, hV2 _ _ hcq, Lm.mono_lm hV2 h' hlc⟩
      · rw [if_neg hct] at hrun'
        obtain ⟨⟨p, tree3⟩, hnew, hrun'⟩ := bind_ok_inv hrun'
        obtain ⟨-, -, -, -, hfresh, hget3⟩ := testNew_ok hnew
        cases hrun'
        refine ⟨h, u, ?_, Lm.insert_lm hget3 hfresh h (Lm.mono_lm hV2 h hlu)⟩
        show tree3.store.get p = some u
        rw [hget3, if_pos rfl]
    split at hrun
    · rename_i htn
      obtain ⟨n, -, hrun⟩ := bind_ok_inv hrun
      exact hrest _ (fun _ => htn) hrun
    · exact hrest false (fun hf => absurd hf (by decide)) hrun

theorem leftmostLoop_fuel (tree : BTree MemStore) (f : Nat) :
    ∀ (node leaf : BNode) (f' : Nat), leftmostLoop testPager f tree node = .ok leaf →
      f ≤ f' → leftmostLoop testPager f' tree node = .ok leaf := by
  induction f with
  | zero =>
    intro node leaf f' hrun
    unfold leftmostLoop at hrun
    cases hrun
  | succ f ih =>
    intro node leaf f' hrun hf
    obtain ⟨g, rfl⟩ : ∃ g, f' = g + 1 := ⟨f' - 1, by omega⟩
    unfold leftmostLoop at hrun ⊢
    obtain ⟨t, ht, hrun⟩ := bind_ok_inv hrun
    rw [ht]
    simp only [Res.ok_bind]
    by_cases hl : t = BNODE_LEAF
    · rw [if_pos hl] at hrun ⊢
      exact hrun
    · rw [if_neg hl] at hrun ⊢
      obtain ⟨p, hp, hrun⟩ := bind_ok_inv hrun
      obtain ⟨c, hc, hrun⟩ := bind_ok_inv hrun
      rw [hp]
      simp only [Res.ok_bind]
      rw [hc]
      simp only [Res.ok_bind]
      exact ih c leaf g hrun (by omega)

theorem runOps_append {σ : Type} (P : Pager σ) (fuel : Nat) (a b : List Op) :
    ∀ tree : BTree σ, runOps P fuel tree (a ++ b) =
      (runOps P fuel tree a >>= fun t => runOps P fuel t b) := by
  induction a with
  | nil =>
    intro tree
    rfl
  | cons op a ih =>
    intro tree
    cases op with
    | insert key val =>
      simp only [List.cons_append, runOps]
      cases tree.Insert P fuel key val with
      | ok t => exact ih t
      | panic => rfl
      | timeout => rfl
    | delete key =>
      simp only [List.cons_append, runOps]
      cases tree.Delete P fuel key with
      | ok t => exact ih t.2
      | panic => rfl
      | timeout => rfl

theorem firstEntry_of_Lm (tree : BTree MemStore) (h fuel : Nat) (node : BNode)
    (hg : tree.store.get tree.root = some node) (hl : Lm tree.store.get h node)
    (hf : h < fuel) : ∃ n, 0 < n ∧ tree.firstEntry testPager fuel = .ok (n, []) := by
  obtain ⟨leaf, n, hrun, hn, hpos, hk⟩ := leftmost_of_Lm tree h node fuel hl hf
  refine ⟨n, hpos, ?_⟩
  unfold BTree.firstEntry
  rw [testGet_eq hg]
  simp only [Res.ok_bind]
  rw [hrun]
  simp only [Res.ok_bind]
  rw [hn]
  simp only [Res.ok_bind]
  rw [hk]
  rfl

theorem firstEntry_inv (tree : BTree MemStore) (fuel n : Nat) (k : List Nat)
    (h : tree.firstEntry testPager fuel = .ok (n, k)) :
    ∃ node leaf, tree.store.get tree.root = some node ∧
      leftmostLoop testPager fuel tree node = .ok leaf ∧ leaf.nkeys = .ok n ∧
      leaf.getKey 0 = .ok k := by
  unfold BTree.firstEntry at h
  obtain ⟨node, h1, h⟩ := bind_ok_inv h
  obtain ⟨leaf, h2, h⟩ := bind_ok_inv h
  obtain ⟨n', h3, h⟩ := bind_ok_inv h
  obtain ⟨k', h4, h⟩ := bind_ok_inv h
  cases h
  exact ⟨node, leaf, testGet_ok h1, h2, h3, h4⟩

/-- The sentinel survives the delete of a non-empty key.  For every sequence of `Insert`
calls with keys of 1 to `BTREE_MAX_KEY_SIZE` bytes and values of at most
`BTREE_MAX_VAL_SIZE` bytes that builds a non-empty tree (its root is not 0), followed
by `Delete(key)` for a non-empty key, that runs from the empty tree without fault over
the store of the test: after the `Delete` the leftmost leaf has an entry at index 0 and
its key is the empty key, as soon as the fuel of the descent covers the height of the
tree. -/
theorem sentinel_survives_delete (ops : List (List Nat × List Nat)) (fuel : Nat)
    (key : List Nat)
    (hb : ∀ kv ∈ ops, kv.1 ≠ [] ∧ kv.1.length ≤ BTREE_MAX_KEY_SIZE ∧
      kv.2.length ≤ BTREE_MAX_VAL_SIZE)
    (hk : key ≠ [])
    (hrun : (runOps testPager fuel emptyTree
      (ops.map (fun (kv : List Nat × List Nat) => Op.insert kv.1 kv.2) ++
        [Op.delete key])).isOk = true)
    (hne : (do
      let tree ← runOps testPager fuel emptyTree
        (ops.map fun (kv : List Nat × List Nat) => Op.insert kv.1 kv.2)
      pure (decide (tree.root ≠ 0))) = .ok true) :
    ∃ fuel0, ∀ fuel', fuel0 ≤ fuel' → ∃ n', 0 < n' ∧
      (do
        let tree ← runOps testPager fuel emptyTree
          (ops.map (fun (kv : List Nat × List Nat) => Op.insert kv.1 kv.2) ++
            [Op.delete key])
        tree.firstEntry testPager fuel') = .ok (n', []) := by
  obtain ⟨tree', hrun'⟩ := isOk_inv hrun
  rw [runOps_append] at hrun'
  obtain ⟨tree, hins, hdel⟩ := bind_ok_inv hrun'
  simp only [runOps] at hdel
  obtain ⟨⟨found, t2⟩, hD, h2⟩ := bind_ok_inv hdel
  cases h2
  rw [hins] at hne
  simp only [Res.ok_bind, Res.pure_eq] at hne
  have hr0 : tree.root ≠ 0 := of_decide_eq_true (Res.ok.inj hne)
  obtain ⟨hS, hroot⟩ := runInserts_spec fuel ops (fun k => k = []) emptyTree tree rfl
    emptyTree_ok (Or.inl rfl) hb hins
  obtain ⟨h, hsub, hnr, node, hg, hlm⟩ := hroot.resolve_left hr0
  obtain ⟨h', node', hg', hl'⟩ := Delete_spec _ key hk fuel h tree t2 found node hS hr0
    hsub hnr hg hlm hD
  refine ⟨h' + 1, fun fuel' hf => ?_⟩
  have hgoal : (do
        let tree ← runOps testPager fuel emptyTree
          (ops.map (fun (kv : List Nat × List Nat) => Op.insert kv.1 kv.2) ++
            [Op.delete key])
        tree.firstEntry testPager fuel') = t2.firstEntry testPager fuel' := by
    rw [runOps_append, hins]
    simp only [Res.ok_bind, runOps, hD]
  rw [hgoal]
  exact firstEntry_of_Lm t2 h' fuel' node' hg' hl' (by omega)

set_option maxRecDepth 100000

/-! ## The code at concrete inputs -/

/-- **C1** Failing input: two inserts of distinct keys of 1000 bytes with values of 3000
bytes into the empty tree.  The second insert splits the leaf of three entries by
count: the right node takes the two large entries, 8032 bytes, in a buffer of 4096.
`GetVal` of the second key then faults on the truncated node instead of returning
the value; under the store of the test the second `Insert` itself fails the assertion
of `New`. -/
theorem round_trip_fails_on_large_entries :
    (do
      let tree ← runOps memPager 8 emptyTree
        [Op.insert (List.replicate 1000 97) (List.replicate 3000 1),
         Op.insert (List.replicate 1000 98) (List.replicate 3000 2)]
      tree.GetVal memPager 8 (List.replicate 1000 98)) = Res.panic ∧
    runOps testPager 8 emptyTree
      [Op.insert (List.replicate 1000 97) (List.replicate 3000 1),
       Op.insert (List.replicate 1000 98) (List.replicate 3000 2)] = Res.panic := by
  decide!

/-- **C2** Failing input: `Insert("k", "v1")`, `Insert("k", "v2")` on the empty tree.
`treeInsert` compares the key with `new.getKey(idx)`, the key read from the zero-filled
new buffer, so the second insert adds a second entry for `"k"` behind the first, and
`GetVal("k")` returns the first value `("v1", true)`. -/
theorem second_insert_does_not_update :
    (do
      let tree ← runOps memPager 8 emptyTree
        [Op.insert [107] [118, 49], Op.insert [107] [118, 50]]
      tree.GetVal memPager 8 [107]) = Res.ok ([118, 49], true) := by
  decide!

/-- **C3** Failing input: `Insert("k", "v1")`, `Insert("k", "v2")`, `Delete("k")` on the
empty tree.  `Delete` returns `true` and removes the first of the two entries of `"k"`;
`GetVal("k")` then still finds the key, with the value `"v2"`. -/
theorem delete_leaves_duplicate :
    (do
      let tree ← runOps memPager 8 emptyTree
        [Op.insert [107] [118, 49], Op.insert [107] [118, 50]]
      let (deleted, tree) ← tree.Delete memPager 8 [107]
      let r ← tree.GetVal memPager 8 [107]
      pure (deleted, r)) = Res.ok (true, ([118, 50], true)) := by
  decide!

/-- **C4** Failing input: after `Insert("a", "1")`, `Delete("a")`, `Delete("")` the root is
a leaf without entries; no entry holds the empty key, and `Delete("")` faults:
`treeDelete` reads `node.getKey(0)` without the check `idx < nkeys` that `GetVal` makes,
takes the zero bytes behind the header for the empty key and calls `leafDelete` with
the count `0 - 1 = 65535`. -/
theorem delete_missing_faults_on_empty_leaf :
    (do
      let tree ← runOps memPager 8 emptyTree
        [Op.insert [97] [49], Op.delete [97], Op.delete []]
      let n ← tree.Get memPager tree.root
      let t ← n.btype
      let c ← n.nkeys
      pure (t, c)) = Res.ok (BNODE_LEAF, 0) ∧
    (do
      let tree ← runOps memPager 8 emptyTree
        [Op.insert [97] [49], Op.delete [97], Op.delete []]
      tree.Delete memPager 8 []) = Res.panic := by
  decide!

/-- **C7** Failing input: two inserts of distinct keys of 1000 bytes with values of 3000
bytes into the empty tree.  The nodes passed to `New` have the sizes 4032 (first
insert), then 18, 8032 and 1032: the right node of the split is larger than
`BTREE_PAGE_SIZE = 4096`. -/
theorem oversized_node_reaches_new :
    (do
      let tree ← runOps memPager 8 emptyTree
        [Op.insert (List.replicate 1000 97) (List.replicate 3000 1),
         Op.insert (List.replicate 1000 98) (List.replicate 3000 2)]
      pure (newSizes tree.calls)) =
    Res.ok [Res.ok 4032, Res.ok 18, Res.ok 8032, Res.ok 1032] := by
  decide!

/-- **C5** Counterexample: after `Insert("a", "1")` on the empty tree the empty key was
never inserted, yet `GetVal("")` finds it: it is the key of the first entry that
`Insert` puts into the first leaf, and `GetVal` returns its empty value with
found = true. -/
theorem getval_finds_sentinel :
    (do
      let tree ← runOps testPager 4 emptyTree [Op.insert [97] [49]]
      tree.GetVal testPager 4 []) = Res.ok ([], true) := by
  decide!

/-- Witness of **C5** (amended): `Insert("a", "1")`, `Insert("b", "2")` run without fault,
and `GetVal("c")` reports not-found. -/
theorem getval_absent_after_inserts_witness :
    (runOps testPager 4 emptyTree
        ([([97], [49]), ([98], [50])].map fun (kv : List Nat × List Nat) => Op.insert kv.1 kv.2)).isOk = true ∧
      ∃ fuel0, ∀ fuel', fuel0 ≤ fuel' →
        (do
          let tree ← runOps testPager 4 emptyTree
            ([([97], [49]), ([98], [50])].map fun (kv : List Nat × List Nat) => Op.insert kv.1 kv.2)
          tree.GetVal testPager fuel' [99]) = .ok ([], false) :=
  ⟨by decide!, getval_absent_after_inserts [([97], [49]), ([98], [50])] 4 [99]
    (by decide) (by decide!) (by decide) (by decide)⟩

/-- **C14** Failing input: the leaf with the entries `("", "")`, (1000 bytes `a`, 3000
bytes) and (1000 bytes `b`, 3000 bytes): three keys, every key and value within the
limits, `nbytes() = 8046 <= 2 * BTREE_PAGE_SIZE`.  `nodeSplit3` returns the count 2;
the first node has 18 bytes, the second holds both large entries and has
`nbytes() = 8032`, more than `BTREE_PAGE_SIZE`. -/
theorem split3_right_node_oversized :
    (do
      let node ← buildNode (BNode.make (2 * BTREE_PAGE_SIZE)) BNODE_LEAF
        [⟨0, [], []⟩, ⟨0, List.replicate 1000 97, List.replicate 3000 1⟩,
         ⟨0, List.replicate 1000 98, List.replicate 3000 2⟩]
      let sz ← node.nbytes
      let (n, kids) ← nodeSplit3 node
      let s0 ← (kids.getD 0 BNode.empty).nbytes
      let s1 ← (kids.getD 1 BNode.empty).nbytes
      pure (sz, n, s0, s1)) = Res.ok (8046, 2, 18, 8032) := by
  decide!

/-- **C15** Failing input: the leaf `old` with the entries `("", "")` and `("b", "1")` in a
page, `idx = 1`, key `"b"`, value `"2"`, `new` a zero-filled page.  `leafUpdate` writes
no header and its last `nodeAppendRange` copies `nkeys - idx = 1` entry from index
`idx + 1 = 2`, behind the last entry of `old`: the offsets read there give a range
`old.data[34:24]` and the call faults. -/
theorem leafUpdate_faults :
    (do
      let old ← buildNode (BNode.make BTREE_PAGE_SIZE) BNODE_LEAF
        [⟨0, [], []⟩, ⟨0, [98], [49]⟩]
      let n ← old.nkeys
      let b ← old.kvPos 2
      let e ← old.kvPos 3
      pure (n, b, e)) = Res.ok (2, 34, 24) ∧
    (do
      let old ← buildNode (BNode.make BTREE_PAGE_SIZE) BNODE_LEAF
        [⟨0, [], []⟩, ⟨0, [98], [49]⟩]
      leafUpdate (BNode.make BTREE_PAGE_SIZE) old 1 [98] [50]) = Res.panic := by
  decide!

/-- Witness of **C20**: `Delete("b")` on `sampleTree` merges the emptied leaf into its left
sibling, the rebuilt root has one key, and the root becomes the merged page 4. -/
theorem delete_root_collapse_witness :
    sampleTree.Delete memPager 2 [98] = .ok (true,
      ⟨4, ⟨[(4, sampleMerged)], 5⟩,
        [Call.del 2, Call.del 1, Call.new sampleMerged 4, Call.del 3]⟩) :=
  (delete_root_collapse memPager 2 sampleTree
    ⟨3, ⟨[(4, sampleMerged), (3, sampleNode)], 5⟩,
      [Call.del 2, Call.del 1, Call.new sampleMerged 4]⟩
    ⟨3, ⟨[(4, sampleMerged)], 5⟩,
      [Call.del 2, Call.del 1, Call.new sampleMerged 4, Call.del 3]⟩
    sampleNode sampleUpdated [98] (by decide) (by decide!) (by decide!) (by decide!)
    (by decide!)).2.1 (by decide!) (by decide!) 4 (by decide!)

/-- **C21** Failing input: `Insert("a", "1")` into the empty tree, then `Delete("")`.
Before the delete the leftmost leaf has two keys, the empty key at index 0.  `Delete`
looks up the empty key, finds the sentinel at index 0, removes it and returns true:
afterwards the leaf has one key, and the key at index 0 is `"a"`.  The same happens over
the store of `main.go`.  Without the sentinel the tree no longer covers the key space:
after `Insert("b", "1")`, `Delete("")`, `Insert("a", "2")` the leaf holds `"b"` in front
of `"a"`, and `GetVal("b")`, which found `("1", true)` before, reports not-found. -/
theorem delete_removes_sentinel :
    (do
      let tree ← runOps testPager 4 emptyTree [Op.insert [97] [49]]
      tree.firstEntry testPager 4) = Res.ok (2, []) ∧
    (do
      let tree ← runOps testPager 4 emptyTree [Op.insert [97] [49]]
      let (found, tree) ← tree.Delete testPager 4 []
      let e ← tree.firstEntry testPager 4
      pure (found, e)) = Res.ok (true, 1, [97]) ∧
    (do
      let tree ← runOps memPager 4 emptyTree [Op.insert [97] [49]]
      let (found, tree) ← tree.Delete memPager 4 []
      let e ← tree.firstEntry memPager 4
      pure (found, e)) = Res.ok (true, 1, [97]) ∧
    (do
      let tree ← runOps testPager 4 emptyTree [Op.insert [98] [49]]
      tree.GetVal testPager 4 [98]) = Res.ok ([49], true) ∧
    (do
      let tree ← runOps testPager 4 emptyTree
        [Op.insert [98] [49], Op.delete [], Op.insert [97] [50]]
      let e ← tree.firstEntry testPager 4
      let r ← tree.GetVal testPager 4 [98]
      pure (e, r)) = Res.ok ((2, [98]), ([], false)) ∧
    (do
      let tree ← runOps memPager 4 emptyTree
        [Op.insert [98] [49], Op.delete [], Op.insert [97] [50]]
      let e ← tree.firstEntry memPager 4
      let r ← tree.GetVal memPager 4 [98]
      pure (e, r)) = Res.ok ((2, [98]), ([], false)) := by
  decide!

/-- An instance of `sentinel_survives_delete`: `Insert("a", "1")`, `Insert("b", "2")`,
`Delete("b")` run without fault and the two inserts build a non-empty tree; after the
delete the leftmost leaf has the empty key at index 0. -/
theorem sentinel_survives_delete_witness :
    (runOps testPager 4 emptyTree
        ([([97], [49]), ([98], [50])].map (fun (kv : List Nat × List Nat) => Op.insert kv.1 kv.2) ++
          [Op.delete [98]])).isOk = true ∧
      (do
        let tree ← runOps testPager 4 emptyTree
          ([([97], [49]), ([98], [50])].map fun (kv : List Nat × List Nat) => Op.insert kv.1 kv.2)
        pure (decide (tree.root ≠ 0))) = .ok true ∧
      ∃ fuel0, ∀ fuel', fuel0 ≤ fuel' → ∃ n', 0 < n' ∧
        (do
          let tree ← runOps testPager 4 emptyTree
            ([([97], [49]), ([98], [50])].map (fun (kv : List Nat × List Nat) => Op.insert kv.1 kv.2) ++
              [Op.delete [98]])
          tree.firstEntry testPager fuel') = .ok (n', []) :=
  ⟨by decide!, by decide!, sentinel_survives_delete [([97], [49]), ([98], [50])] 4 [98]
    (by decide) (by decide) (by decide!) (by decide!)⟩

/-- **C6** Failing input: on the store that `Open` makes of a new file, `Set` with a key
of 1001 bytes, one more than `BTREE_MAX_KEY_SIZE`, returns no error and moves the root
from 0 to page 1, where a size-violation error and no change are due.  `Set` with a
key of 2000 bytes and a value of 5000 bytes returns no error either, moves the root and
writes a page: the leaf that `Insert` passes to `New` takes 7032 bytes in a page of
4096, the store of the test refuses it, and over the store of `main.go` `GetVal` of the
key faults on the leaf that was cut off. -/
theorem set_accepts_oversized_key :
    (List.replicate 1001 97).length > BTREE_MAX_KEY_SIZE ∧ freshKV.root = 0 ∧
    (∃ db', KV.Set sysOk 0 freshKV (List.replicate 1001 97) [118] = .ok (none, db') ∧
      db'.root = 1) ∧
    (∃ db', KV.Set sysOk 0 freshKV (List.replicate 2000 97) (List.replicate 5000 1) =
        .ok (none, db') ∧ db'.root = 1 ∧
      db'.store.flushed = freshKV.store.flushed + 1) ∧
    (do
      let tree ← runOps memPager 4 emptyTree
        [Op.insert (List.replicate 2000 97) (List.replicate 5000 1)]
      pure (newSizes tree.calls)) = Res.ok [Res.ok 7032] ∧
    emptyTree.Insert testPager 4 (List.replicate 2000 97) (List.replicate 5000 1) =
      Res.panic ∧
    (do
      let tree ← runOps memPager 4 emptyTree
        [Op.insert (List.replicate 2000 97) (List.replicate 5000 1)]
      tree.GetVal memPager 4 (List.replicate 2000 97)) = Res.panic :=
  ⟨by simp only [List.length_replicate, BTREE_MAX_KEY_SIZE]; decide, rfl, by
    obtain ⟨db', h1, h2, -, -⟩ := set_unchecked freshKV 0 (List.replicate 1001 97) [118]
      (List.replicate MMAP_INIT 0) rfl rfl rfl
      (by simp only [freshKV, List.length_replicate])
      (by simp only [freshKV, List.length_replicate, MMAP_INIT, BTREE_PAGE_SIZE]; decide)
      (by simp only [List.length_replicate, MMAP_INIT]; decide)
      (by simp only [List.length_replicate]; decide)
    exact ⟨db', h1, h2⟩, by
    obtain ⟨db', h1, h2, h3, -⟩ := set_unchecked freshKV 0 (List.replicate 2000 97)
      (List.replicate 5000 1) (List.replicate MMAP_INIT 0) rfl rfl rfl
      (by simp only [freshKV, List.length_replicate])
      (by simp only [freshKV, List.length_replicate, MMAP_INIT, BTREE_PAGE_SIZE]; decide)
      (by simp only [List.length_replicate, MMAP_INIT]; decide)
      (by simp only [List.length_replicate]; decide)
    exact ⟨db', h1, h2, h3⟩, by decide!, by decide!, by decide!⟩

/-- Witness of **C22**: on the tree of height 1 with the leaves `("", "")` and `("b", "1")`,
`Insert("b", "2")` and `Delete("b")` return, the nodes they pass to `New` have the length
of a page, and the assertion in front of `New` changes nothing. -/
theorem new_nodes_page_sized_witness :
    (sampleTree.Insert memPager 2 [98] [50]).isOk = true ∧
    (sampleTree.Delete memPager 2 [98]).isOk = true ∧
    ((∀ tree', sampleTree.Insert memPager 2 [98] [50] = .ok tree' →
      ∃ cs, tree'.calls = sampleTree.calls ++ cs ∧
        ∀ node p, Call.new node p ∈ cs → node.len = BTREE_PAGE_SIZE) ∧
    (∀ found tree', sampleTree.Delete memPager 2 [98] = .ok (found, tree') →
      ∃ cs, tree'.calls = sampleTree.calls ++ cs ∧
        ∀ node p, Call.new node p ∈ cs → node.len = BTREE_PAGE_SIZE) ∧
    sampleTree.Insert ⟨memPager.get, fun s node =>
        assertCondition (decide (node.len ≤ BTREE_PAGE_SIZE)) >>= fun _ => memPager.new s node,
        memPager.del⟩ 2 [98] [50] = sampleTree.Insert memPager 2 [98] [50] ∧
    sampleTree.Delete ⟨memPager.get, fun s node =>
        assertCondition (decide (node.len ≤ BTREE_PAGE_SIZE)) >>= fun _ => memPager.new s node,
        memPager.del⟩ 2 [98] = sampleTree.Delete memPager 2 [98]) :=
  ⟨by decide!, by decide!, new_nodes_page_sized memPager sampleTree 2 [98] [50]⟩

end KillerDB
